import Mathlib

/-!
# Distance simplification and expression evaluation (yasm-nextgen)

A shallow embedding of `lib/yasmx/Location_util.cpp`: `TransformDistBase`,
the three distance functors, `SimplifyCalcDist`, `SubstDist` and `Evaluate`,
over the flattened, depth-tagged expression representation.

An expression is the list of its terms in storage order (`ExprTerms`), the
root being the last term.  Pointers are modelled by identifiers: a symbol is
a natural number, a bytecode is a natural number, and the facts the code reads
through them (label of a symbol, container and offset of a bytecode) are
fields of an environment `Env`.
-/

set_option autoImplicit false

namespace Yasm

/-! ## Operators -/

/-- Modelled from the spec: the operator enumeration `Op::Op` (Op.h is not part
of the sources at hand).  An operator is its enumeration value, so that the
comparisons `op >= Op::NONNUM` and `op < Op::NEG` of the code are comparisons
of numbers.  The spec only fixes that `ADD` is an operator and that the
operators at or above `NONNUM` block evaluation. -/
abbrev Op := Nat

/-- Modelled from the spec: `Op::ADD`, arithmetic addition. -/
def Op.ADD : Op := 1
/-- Modelled from the spec: `Op::SUB`, arithmetic subtraction. -/
def Op.SUB : Op := 2
/-- Modelled from the spec: `Op::MUL`, arithmetic multiplication. -/
def Op.MUL : Op := 3
/-- Modelled from the spec: `Op::NEG`, arithmetic negation; the operators
below it are the ones `CalcFloat` handles. -/
def Op.NEG : Op := 8
/-- Modelled from the spec: `Op::NOT`, bitwise negation. -/
def Op.NOT : Op := 9
/-- Modelled from the spec: `Op::OR`, bitwise or, one of the binary operators
from `NEG` to below `NONNUM`. -/
def Op.OR : Op := 10
/-- Modelled from the spec: `Op::LNOT`, logical negation. -/
def Op.LNOT : Op := 19
/-- Modelled from the spec: `Op::NONNUM`, the start of the non-numeric
operators. -/
def Op.NONNUM : Op := 29

/-- Modelled from the spec: `isUnary(op)` of Op.h, used by an assertion of
`Evaluate` only. -/
def isUnary (op : Op) : Bool :=
  op == Op.NEG || op == Op.NOT || op == Op.LNOT

/-! ## Locations, terms -/

/-- A `Location`: bytecode pointer (`none` is the null pointer) and offset
within the bytecode. -/
structure Location where
  bc : Option Nat
  off : Nat
deriving DecidableEq, Repr

/-- Carrier of an `llvm::APFloat` value.  No floating-point arithmetic is
interpreted: the operations on it are fields of `Arith`. -/
structure APFloat where
  bits : Nat
deriving DecidableEq, Repr

/-- The type tag of a term together with its payload (`ExprTerm::m_type` and
`ExprTerm::m_data`). -/
inductive TermData where
  | NONE
  | REG (reg : Nat)
  | INT (intn : Int)
  | SUBST (subst : Nat)
  | FLOAT (flt : APFloat)
  | SYM (sym : Nat)
  | LOC (loc : Location)
  | OP (op : Op) (nchild : Nat)
deriving DecidableEq, Repr

/-- An `ExprTerm`: payload and nesting depth. -/
structure ExprTerm where
  data : TermData
  m_depth : Int
deriving DecidableEq, Repr

instance : Inhabited ExprTerm := ⟨⟨TermData.NONE, 0⟩⟩

/-- The terms of an expression in storage order. -/
abbrev ExprTerms := List ExprTerm

namespace ExprTerm

/-- Modelled from the spec: the bit values of `ExprTerm::Type` (Expr.h is not
part of the sources at hand); `isType` tests a mask of them. -/
def NONE : Nat := 0
/-- Register. -/
def REG : Nat := 1
/-- Integer. -/
def INT : Nat := 2
/-- Substitution placeholder. -/
def SUBST : Nat := 4
/-- Float. -/
def FLOAT : Nat := 8
/-- Symbol. -/
def SYM : Nat := 16
/-- Direct location reference. -/
def LOC : Nat := 32
/-- Operator. -/
def OP : Nat := 64

/-- Type tag of a term: `getType()`. -/
def getType (t : ExprTerm) : Nat :=
  match t.data with
  | TermData.NONE => NONE
  | TermData.REG _ => REG
  | TermData.INT _ => INT
  | TermData.SUBST _ => SUBST
  | TermData.FLOAT _ => FLOAT
  | TermData.SYM _ => SYM
  | TermData.LOC _ => LOC
  | TermData.OP _ _ => OP

/-- Mask test `isType(type)`: `(m_type & type) != 0`. -/
def isType (t : ExprTerm) (mask : Nat) : Bool :=
  (t.getType &&& mask) != 0

/-- Tombstone test `isEmpty()`: `m_type == NONE`. -/
def isEmpty (t : ExprTerm) : Bool :=
  t.getType == NONE

/-- Operator test `isOp()`. -/
def isOp (t : ExprTerm) : Bool :=
  t.getType == OP

/-- Specific operator test `isOp(op)`. -/
def isOpOf (t : ExprTerm) (op : Op) : Bool :=
  match t.data with
  | TermData.OP o _ => o == op
  | _ => false

/-- Child count `getNumChild()` of an operator term (0 for other terms). -/
def getNumChild (t : ExprTerm) : Nat :=
  match t.data with
  | TermData.OP _ n => n
  | _ => 0

/-- Symbol handle `getSymbol()`: the symbol of a `SYM` term, null otherwise. -/
def getSymbol (t : ExprTerm) : Option Nat :=
  match t.data with
  | TermData.SYM s => some s
  | _ => none

/-- Location pointer `getLocation()`: the location of a `LOC` term, null
otherwise. -/
def getLocation (t : ExprTerm) : Option Location :=
  match t.data with
  | TermData.LOC l => some l
  | _ => none

/-- Integer pointer `getIntNum()`: the value of an `INT` term, null otherwise. -/
def getIntNum (t : ExprTerm) : Option Int :=
  match t.data with
  | TermData.INT v => some v
  | _ => none

/-- Modelled from the spec: `ExprTerm::Clear()`, which turns the term into an
empty slot (tombstone); the depth field is left as it is. -/
def Clear (t : ExprTerm) : ExprTerm :=
  { t with data := TermData.NONE }

/-- Modelled from the spec: `ExprTerm::Zero()`, which turns the term into the
integer 0 at the same depth. -/
def Zero (t : ExprTerm) : ExprTerm :=
  { t with data := TermData.INT 0 }

end ExprTerm

/-! ## Environment and abnormal termination -/

/-- What the code reads through symbol and bytecode pointers. -/
structure Env where
  /-- The result of `Symbol::getLabel`: the label location of a symbol, `none`
  when the symbol is not a label (external, undefined, equ). -/
  getLabel : Nat → Option Location
  /-- The result of `Bytecode::getContainer`: the section (container) of a
  bytecode. -/
  getContainer : Nat → Nat
  /-- The offset of a bytecode within its section. -/
  bcOffset : Nat → Nat

/-- Ways in which a call does not return normally. -/
inductive Abort where
  /-- The exception `TooComplexError` with its message. -/
  | TooComplexError (msg : String)
  /-- An exception raised by `IntNum::Calc`. -/
  | ArithError
  /-- A failed `assert`. -/
  | assertion (msg : String)
  /-- Undefined behaviour: null pointer dereference or access out of bounds. -/
  | undefined (what : String)
  /-- The loop bound of the model is used up (never the case, see
  `scanTerms_fuel`). -/
  | fuel
deriving DecidableEq, Repr

deriving instance DecidableEq for Except

/-- Modelled from the spec: `Location::getOffset()`, the offset of the
location within its section: the offset of the bytecode plus the offset within
the bytecode (the code never calls it on a null bytecode). -/
def Location.getOffset (env : Env) (loc : Location) : Nat :=
  match loc.bc with
  | some b => env.bcOffset b + loc.off
  | none => loc.off

/-! ## Arithmetic used by `Evaluate` -/

/-- The arithmetic `Evaluate` calls and that is not part of the sources at
hand: `IntNum::Calc` with and without operand, `CalcFloat`,
`ExprTerm::PromoteToFloat` and `APFloat::changeSign`. -/
structure Arith where
  /-- Binary `IntNum::Calc(op, operand)`; `none` when it raises an error. -/
  Calc : Op → Int → Int → Option Int
  /-- Unary `IntNum::Calc(op)`; `none` when it raises an error. -/
  CalcUnary : Op → Int → Option Int
  /-- The float calculation `CalcFloat(lhs, op, rhs)`. -/
  CalcFloat : Op → APFloat → APFloat → APFloat
  /-- Promotion of an integer to float, with the semantics of the other
  operand. -/
  PromoteToFloat : APFloat → Int → APFloat
  /-- Sign flip `APFloat::changeSign`. -/
  changeSign : APFloat → APFloat

/-- Modelled from the spec: exact integer arithmetic for `IntNum::Calc`
(addition, subtraction, multiplication, negation are exact; the operators the
spec does not describe leave the value unchanged), floats uninterpreted. -/
def exactArith : Arith where
  Calc := fun op a b =>
    if op = Op.ADD then some (a + b)
    else if op = Op.SUB then some (a - b)
    else if op = Op.MUL then some (a * b)
    else some a
  CalcUnary := fun op a => if op = Op.NEG then some (-a) else some a
  CalcFloat := fun _ a _ => a
  PromoteToFloat := fun _ v => ⟨v.natAbs⟩
  changeSign := fun a => a

/-! ## Evaluate -/

/-- The loop `for (j = resultindex+1; j < stack.size(); ++j)` of `Evaluate`:
folds the children into the first child `result`.  `none` is `return false`. -/
def evalChildren (ar : Arith) (op : Op) :
    ExprTerm → List ExprTerm → Except Abort (Option ExprTerm)
  | result, [] => Except.ok (some result)
  | result, child :: rest =>
    match result.data, child.data with
    | TermData.INT a, TermData.INT b =>
      match ar.Calc op a b with
      | some v => evalChildren ar op { result with data := TermData.INT v } rest
      | none => Except.error Abort.ArithError
    | TermData.FLOAT a, TermData.INT b =>
      if op < Op.NEG then
        evalChildren ar op
          { result with data := TermData.FLOAT (ar.CalcFloat op a (ar.PromoteToFloat a b)) } rest
      else Except.ok none
    | TermData.INT a, TermData.FLOAT b =>
      if op < Op.NEG then
        evalChildren ar op
          { result with data := TermData.FLOAT (ar.CalcFloat op (ar.PromoteToFloat b a) b) } rest
      else Except.ok none
    | TermData.FLOAT a, TermData.FLOAT b =>
      if op < Op.NEG then
        evalChildren ar op { result with data := TermData.FLOAT (ar.CalcFloat op a b) } rest
      else Except.ok none
    | _, _ => Except.error (Abort.undefined "operand is neither integer nor float")

/-- The part `if (nchild == 1) ...` of `Evaluate`: the unary operator. -/
def evalUnary (ar : Arith) (op : Op) (result : ExprTerm) :
    Except Abort (Option ExprTerm) :=
  if isUnary op then
    match result.data with
    | TermData.INT a =>
      match ar.CalcUnary op a with
      | some v => Except.ok (some { result with data := TermData.INT v })
      | none => Except.error Abort.ArithError
    | TermData.FLOAT a =>
      if op = Op.NEG then
        Except.ok (some { result with data := TermData.FLOAT (ar.changeSign a) })
      else Except.ok none
    | _ => Except.error (Abort.undefined "operand is neither integer nor float")
  else Except.error (Abort.assertion "single-term subexpression is non-unary")

/-- One iteration of the main loop of `Evaluate` on the term `term`: the new
stack, or `none` for `return false`. -/
def evalTerm (env : Env) (ar : Arith) (subst : Option (List ExprTerm))
    (valueloc zeroreg : Bool) (stack : List ExprTerm) (term : ExprTerm) :
    Except Abort (Option (List ExprTerm)) :=
  match term.data with
  | TermData.OP op nchild =>
    if stack.length < nchild then
      Except.error (Abort.assertion "not enough terms to evaluate op")
    else if Op.NONNUM ≤ op then Except.ok none
    else
      let resultindex := stack.length - nchild
      match stack.drop resultindex with
      | [] => Except.error (Abort.undefined "stack[resultindex] out of bounds")
      | result :: children =>
        match evalChildren ar op result children with
        | Except.error a => Except.error a
        | Except.ok none => Except.ok none
        | Except.ok (some r) =>
          if nchild = 1 then
            match evalUnary ar op r with
            | Except.error a => Except.error a
            | Except.ok none => Except.ok none
            | Except.ok (some r1) =>
              Except.ok (some (stack.take resultindex ++ [{ r1 with m_depth := term.m_depth }]))
          else
            Except.ok (some (stack.take resultindex ++ [{ r with m_depth := term.m_depth }]))
  | TermData.NONE => Except.ok (some stack)
  | TermData.REG _ =>
    if zeroreg then Except.ok (some (stack ++ [⟨TermData.INT 0, term.m_depth⟩]))
    else Except.ok none
  | TermData.SUBST substindex =>
    match subst with
    | none => Except.ok none
    | some arr =>
      match arr[substindex]? with
      | none => Except.ok none
      | some s =>
        if s.getType = ExprTerm.INT ∨ s.getType = ExprTerm.FLOAT then
          Except.ok (some (stack ++ [s]))
        else Except.error (Abort.assertion "substitution must be integer or float")
  | TermData.INT _ => Except.ok (some (stack ++ [term]))
  | TermData.FLOAT _ => Except.ok (some (stack ++ [term]))
  | TermData.SYM sym =>
    if valueloc then
      match env.getLabel sym with
      | none => Except.ok none
      | some loc =>
        if loc.bc.isSome then
          Except.ok (some (stack ++ [⟨TermData.INT (loc.getOffset env), term.m_depth⟩]))
        else Except.ok none
    else Except.ok none
  | TermData.LOC loc =>
    if valueloc ∧ loc.bc.isSome then
      Except.ok (some (stack ++ [⟨TermData.INT (loc.getOffset env), term.m_depth⟩]))
    else Except.ok none

/-- The main loop of `Evaluate` over the terms from left to right. -/
def evalLoop (env : Env) (ar : Arith) (subst : Option (List ExprTerm))
    (valueloc zeroreg : Bool) :
    List ExprTerm → List ExprTerm → Except Abort (Option (List ExprTerm))
  | [], stack => Except.ok (some stack)
  | term :: rest, stack =>
    match evalTerm env ar subst valueloc zeroreg stack term with
    | Except.error a => Except.error a
    | Except.ok none => Except.ok none
    | Except.ok (some stack1) => evalLoop env ar subst valueloc zeroreg rest stack1

/-- The function `Evaluate(e, result, subst, nsubst, valueloc, zeroreg)`.  The
substitution array and its length are one list (`none` is the null pointer).
`Except.ok (some r)`: returns true with `*result = r`; `Except.ok none`:
returns false, `*result` untouched. -/
def Evaluate (env : Env) (ar : Arith) (e : ExprTerms) (subst : Option (List ExprTerm))
    (valueloc zeroreg : Bool) : Except Abort (Option ExprTerm) :=
  match e with
  | [] => Except.ok none
  | first :: others =>
    if others = [] ∧ first.isType (ExprTerm.INT ||| ExprTerm.FLOAT) then
      Except.ok (some first)
    else
      match evalLoop env ar subst valueloc zeroreg e [] with
      | Except.error a => Except.error a
      | Except.ok none => Except.ok none
      | Except.ok (some [r]) => Except.ok (some r)
      | Except.ok (some _) => Except.error (Abort.assertion "did not fully evaluate expression")

/-! ## Evaluate: the caller's result, and one round over a child -/

/-- `Evaluate` with the caller's term `*result` made explicit: the term
before the call goes in, the return value and the term after the call come
out.  The `result` of the operator branch is a reference into the stack that
shadows the parameter; the parameter is assigned by `*result = terms.front()`
on the shortcut and by `result->swap(stack.back())` after the loop. -/
def EvaluateInto (env : Env) (ar : Arith) (e : ExprTerms) (result : ExprTerm)
    (subst : Option (List ExprTerm)) (valueloc zeroreg : Bool) :
    Except Abort (Bool × ExprTerm) :=
  match e with
  | [] => Except.ok (false, result)
  | first :: others =>
    if others = [] ∧ first.isType (ExprTerm.INT ||| ExprTerm.FLOAT) then
      Except.ok (true, first)
    else
      match evalLoop env ar subst valueloc zeroreg e [] with
      | Except.error a => Except.error a
      | Except.ok none => Except.ok (false, result)
      | Except.ok (some [r]) => Except.ok (true, r)
      | Except.ok (some _) => Except.error (Abort.assertion "did not fully evaluate expression")

/-- Float pointer `getFloat()`: the value of a `FLOAT` term, null otherwise. -/
def ExprTerm.getFloat (t : ExprTerm) : Option APFloat :=
  match t.data with
  | TermData.FLOAT f => some f
  | _ => none

/-- Modelled from the spec: `ExprTerm::PromoteToFloat(semantics)`: an integer
term becomes the float of its value, in the semantics of the float it is
given; every other term is left as it is. -/
def ExprTerm.PromoteToFloat (ar : Arith) (sem : APFloat) (t : ExprTerm) : ExprTerm :=
  match t.data with
  | TermData.INT v => { t with data := TermData.FLOAT (ar.PromoteToFloat sem v) }
  | _ => t

/-- The lines `// Promote to float as needed` of `Evaluate` on the
accumulated `result` and the next `child`: when `result` is a float the child
is promoted, else when the child is a float `result` is promoted. -/
def promoteOperands (ar : Arith) (result child : ExprTerm) : ExprTerm × ExprTerm :=
  match result.getFloat with
  | some f => (result, child.PromoteToFloat ar f)
  | none =>
    match child.getFloat with
    | some g => (result.PromoteToFloat ar g, child)
    | none => (result, child)

/-- What the lines `// Perform calculation` of `Evaluate` do. -/
inductive Calculation where
  /-- The integer calculation `result.getIntNum()->Calc(op, *child.getIntNum())`. -/
  | intCalc (a b : Int)
  /-- The float calculation `CalcFloat(result.getFloat(), op, *child.getFloat())`. -/
  | floatCalc (a b : APFloat)
  /-- No calculation: `return false`. -/
  | giveUp
deriving DecidableEq, Repr

/-- The choice of the lines `// Perform calculation` of `Evaluate`: the
integer calculation when `result` is an integer, else the float calculation
when the operator is below `Op::NEG`, else `return false`. -/
def chooseCalc (op : Op) (result child : ExprTerm) : Except Abort Calculation :=
  if result.isType ExprTerm.INT then
    match result.getIntNum, child.getIntNum with
    | some a, some b => Except.ok (Calculation.intCalc a b)
    | _, _ => Except.error (Abort.undefined "null IntNum")
  else if op < Op.NEG then
    match result.getFloat, child.getFloat with
    | some a, some b => Except.ok (Calculation.floatCalc a b)
    | _, _ => Except.error (Abort.undefined "null APFloat")
  else Except.ok Calculation.giveUp

/-- The calculation itself, with its value left in `result`. -/
def runCalc (ar : Arith) (op : Op) (result : ExprTerm) :
    Calculation → Except Abort (Option ExprTerm)
  | Calculation.intCalc a b =>
    match ar.Calc op a b with
    | some v => Except.ok (some { result with data := TermData.INT v })
    | none => Except.error Abort.ArithError
  | Calculation.floatCalc a b =>
    Except.ok (some { result with data := TermData.FLOAT (ar.CalcFloat op a b) })
  | Calculation.giveUp => Except.ok none

/-- One round of the loop `for (j = resultindex+1; ...)` of `Evaluate`:
promotion, then the calculation. -/
def childStep (ar : Arith) (op : Op) (result child : ExprTerm) :
    Except Abort (Option ExprTerm) :=
  match chooseCalc op (promoteOperands ar result child).1 (promoteOperands ar result child).2 with
  | Except.error a => Except.error a
  | Except.ok c => runCalc ar op (promoteOperands ar result child).1 c

/-! ## TransformDistBase -/

/-- Replaces the term at index `i` by `f` of it (an assignment through the
reference `terms[i]`). -/
def updateAt (terms : ExprTerms) (i : Nat) (f : ExprTerm → ExprTerm) : ExprTerms :=
  match terms[i]? with
  | some t => terms.set i (f t)
  | none => terms

/-- Index of the nearest non-empty term strictly below index `k`. -/
def prevNonEmpty (e : ExprTerms) : Nat → Option Nat
  | 0 => none
  | k + 1 =>
    match e[k]? with
    | some t => if t.isEmpty then prevNonEmpty e k else some k
    | none => prevNonEmpty e k

/-- Modelled from the spec: `isNeg1Sym(e, &sym, &neg1, &pos, loc_ok)` of
Expr.cpp, which is not part of the sources at hand.  It recognises the negated
symbol `-1 * symbol`: the term at `pos` is a `MUL` with two children, and the
two nearest non-empty terms before it are its children (depth of the `MUL`
plus one), one the integer -1 and the other a symbol (or a location when
`loc_ok`).  On success it gives the index of the symbol, the index of the -1
and the new value of `pos` plus one (`pos` itself moves below the subtree); on
failure `pos` is unchanged. -/
def isNeg1Sym (e : ExprTerms) (pos : Nat) (loc_ok : Bool) : Option (Nat × Nat × Nat) :=
  match e[pos]? with
  | none => none
  | some se =>
    if se.isOpOf Op.MUL ∧ se.getNumChild = 2 then
      match prevNonEmpty e pos with
      | none => none
      | some a =>
        match prevNonEmpty e a with
        | none => none
        | some b =>
          match e[a]?, e[b]? with
          | some ta, some tb =>
            if ta.m_depth = se.m_depth + 1 ∧ tb.m_depth = se.m_depth + 1 then
              if ta.getIntNum = some (-1)
                  ∧ (tb.isType ExprTerm.SYM ∨ (loc_ok ∧ tb.isType ExprTerm.LOC)) then
                some (b, a, b)
              else if tb.getIntNum = some (-1)
                  ∧ (ta.isType ExprTerm.SYM ∨ (loc_ok ∧ ta.isType ExprTerm.LOC)) then
                some (a, b, b)
              else none
            else none
          | _, _ => none
    else none

/-- One entry of the arrays `subpos`, `subneg1`, `subroot` (positions relative
to `pos`; `subpos = 0xff` marks a matched entry). -/
structure SubEntry where
  subpos : Nat
  subneg1 : Nat
  subroot : Nat
deriving DecidableEq, Repr

/-- What the body of the scan loop of `TransformDistBase` finds at index `n`. -/
inductive ScanStep where
  /-- An empty slot, a term deeper than a direct child, or a direct child that
  is neither a symbol nor a negated symbol: `--n; continue;`. -/
  | skip
  /-- A term at or above the depth of the root: `break;`. -/
  | stop
  /-- A direct child that is a symbol or a location. -/
  | rel
  /-- A direct child that is a negated symbol, with the results of
  `isNeg1Sym`. -/
  | sub (sym neg1 n1 : Nat)
  /-- An access out of bounds. -/
  | oob
deriving DecidableEq, Repr

/-- The tests of the body of the scan loop of `TransformDistBase` on the child
`terms[n]`. -/
def scanChild (e : ExprTerms) (rootDepth : Int) (n : Nat) : ScanStep :=
  match e[n]? with
  | none => ScanStep.oob
  | some child =>
    if child.isEmpty then ScanStep.skip
    else if child.m_depth ≤ rootDepth then ScanStep.stop
    else if child.m_depth ≠ rootDepth + 1 then ScanStep.skip
    else if child.isType (ExprTerm.SYM ||| ExprTerm.LOC) then ScanStep.rel
    else
      match isNeg1Sym e n true with
      | some (sym, neg1, n1) => ScanStep.sub sym neg1 n1
      | none => ScanStep.skip

/-- The scan loop `while (n >= 0)` of `TransformDistBase`.  The loop variable
is `n1 = n + 1`; `rel` is `relpos[0..num_rel)` and `sub` the three `sub...`
arrays.  The arrays have 32 places: writing beyond is undefined behaviour.
The first argument bounds the number of iterations. -/
def scanTerms (e : ExprTerms) (pos : Nat) (rootDepth : Int) :
    Nat → Nat → List Nat → List SubEntry → Except Abort (List Nat × List SubEntry)
  | _, 0, rel, sub => Except.ok (rel, sub)
  | 0, _ + 1, _, _ => Except.error Abort.fuel
  | fuel + 1, n + 1, rel, sub =>
    match scanChild e rootDepth n with
    | ScanStep.oob => Except.error (Abort.undefined "terms[n] out of bounds")
    | ScanStep.skip => scanTerms e pos rootDepth fuel n rel sub
    | ScanStep.stop => Except.ok (rel, sub)
    | ScanStep.rel =>
      if pos - n ≥ 0xff then Except.error (Abort.TooComplexError "expression too large")
      else if rel.length ≥ 32 then Except.error (Abort.undefined "relpos[32] overrun")
      else scanTerms e pos rootDepth fuel n (rel ++ [pos - n]) sub
    | ScanStep.sub sym neg1 n1 =>
      if pos - sym ≥ 0xff ∨ pos - neg1 ≥ 0xff then
        Except.error (Abort.TooComplexError "expression too large")
      else if sub.length ≥ 32 then Except.error (Abort.undefined "subpos[32] overrun")
      else scanTerms e pos rootDepth fuel n1 rel (sub ++ [⟨pos - sym, pos - neg1, pos - n⟩])

/-- The distance functor handed to `TransformDistBase`:
`bool func(ExprTerm& term, Location loc1, Location loc2)`, with the state the
functor object carries.  It gives the return value, the new contents of `term`
and the new state. -/
abbrev DistFunc (σ : Type) := σ → ExprTerm → Location → Location → Bool × ExprTerm × σ

/-- Result of looking for the location of a relative term. -/
inductive LocLookup where
  /-- The location. -/
  | found (loc : Location)
  /-- The symbol has no label: `continue;   // external`. -/
  | external
  /-- Neither a symbol nor a location: `assert(false)`. -/
  | bad
deriving DecidableEq, Repr

/-- The blocks `Location rel_loc; if (rel) ... else if (loc = getLocation())
... else assert(false);` of `TransformDistBase`. -/
def lookupLoc (env : Env) (sym : Option Nat) (term : ExprTerm) : LocLookup :=
  match sym with
  | some s =>
    match env.getLabel s with
    | some l => LocLookup.found l
    | none => LocLookup.external
  | none =>
    match term.getLocation with
    | some l => LocLookup.found l
    | none => LocLookup.bad

/-- The three assignments that set a matched `-1 * symbol` subtree to zero:
symbol and -1 cleared, the `MUL` term zeroed. -/
def clearSub (terms : ExprTerms) (pos : Nat) (s : SubEntry) : ExprTerms :=
  updateAt (updateAt (updateAt terms (pos - s.subpos) ExprTerm.Clear)
    (pos - s.subneg1) ExprTerm.Clear) (pos - s.subroot) ExprTerm.Zero

/-- An abnormal end of a call that works on the expression in place: the
reason, and the terms and the functor state as they are at that moment. -/
abbrev Aborted (σ : Type) := Abort × ExprTerms × σ

/-- How the body of the inner loop of `TransformDistBase` ends for one pair. -/
inductive PairResult (σ : Type) where
  /-- The pair does not match, `continue;`, with the terms and the state as
  the functor left them. -/
  | next (terms : ExprTerms) (st : σ)
  /-- The pair matches: the subtractive subtree is set to zero, the entry is
  to be marked, `break;`. -/
  | matched (terms : ExprTerms) (st : σ)
  /-- Abnormal end. -/
  | abort (a : Aborted σ)

/-- The body of the inner loop of `TransformDistBase` for the relative term at
index `relIdx` (symbol handle `rel`) and the unmatched entry `s`. -/
def matchPair {σ : Type} (env : Env) (func : DistFunc σ) (pos relIdx : Nat)
    (rel : Option Nat) (s : SubEntry) (terms : ExprTerms) (st : σ) : PairResult σ :=
  match terms[relIdx]?, terms[pos - s.subpos]? with
  | some relterm, some subterm =>
    if rel.isSome ∧ rel = subterm.getSymbol then
      PairResult.matched (clearSub (terms.set relIdx relterm.Zero) pos s) st
    else
      match lookupLoc env rel relterm with
      | LocLookup.bad => PairResult.abort (Abort.assertion "false", terms, st)
      | LocLookup.external => PairResult.next terms st
      | LocLookup.found rel_loc =>
        match lookupLoc env subterm.getSymbol subterm with
        | LocLookup.bad => PairResult.abort (Abort.assertion "false", terms, st)
        | LocLookup.external => PairResult.next terms st
        | LocLookup.found sub_loc =>
          match rel_loc.bc, sub_loc.bc with
          | some rbc, some sbc =>
            if env.getContainer rbc ≠ env.getContainer sbc then PairResult.next terms st
            else
              match func st relterm sub_loc rel_loc with
              | (true, term1, st1) =>
                PairResult.matched (clearSub (terms.set relIdx term1) pos s) st1
              | (false, term1, st1) => PairResult.next (terms.set relIdx term1) st1
          | _, _ =>
            PairResult.abort (Abort.undefined "null bytecode dereferenced", terms, st)
  | _, _ => PairResult.abort (Abort.undefined "terms[] out of bounds", terms, st)

/-- The inner loop `for (j = 0; j < num_sub; ++j)` of `TransformDistBase` for
the relative term at index `relIdx` with symbol handle `rel`; `done` are the
entries already passed, `todo` the entries `j, j+1, ...`. -/
def matchSubs {σ : Type} (env : Env) (func : DistFunc σ) (pos relIdx : Nat)
    (rel : Option Nat) :
    List SubEntry → List SubEntry → ExprTerms → σ →
      Except (Aborted σ) (ExprTerms × List SubEntry × σ)
  | done, [], terms, st => Except.ok (terms, done, st)
  | done, s :: todo, terms, st =>
    if s.subpos = 0xff then
      matchSubs env func pos relIdx rel (done ++ [s]) todo terms st
    else
      match matchPair env func pos relIdx rel s terms st with
      | PairResult.next terms1 st1 =>
        matchSubs env func pos relIdx rel (done ++ [s]) todo terms1 st1
      | PairResult.matched terms1 st1 =>
        Except.ok (terms1, done ++ { s with subpos := 0xff } :: todo, st1)
      | PairResult.abort a => Except.error a

/-- The outer loop `for (i = 0; i < num_rel; ++i)` of `TransformDistBase` over
the recorded additive terms. -/
def matchRels {σ : Type} (env : Env) (func : DistFunc σ) (pos : Nat) :
    List Nat → ExprTerms → List SubEntry → σ →
      Except (Aborted σ) (ExprTerms × List SubEntry × σ)
  | [], terms, subs, st => Except.ok (terms, subs, st)
  | r :: rels, terms, subs, st =>
    match terms[pos - r]? with
    | none => Except.error (Abort.undefined "terms[] out of bounds", terms, st)
    | some relterm =>
      match matchSubs env func pos (pos - r) relterm.getSymbol [] subs terms st with
      | Except.error a => Except.error a
      | Except.ok (terms1, subs1, st1) => matchRels env func pos rels terms1 subs1 st1

/-- The function `TransformDistBase(e, pos, func)`; `st` is the state of the
functor object, returned with the transformed terms. -/
def TransformDistBase {σ : Type} (env : Env) (func : DistFunc σ) (e : ExprTerms)
    (pos : Int) (st : σ) : Except (Aborted σ) (ExprTerms × σ) :=
  let pos1 : Int := if pos < 0 then pos + e.length else pos
  if pos1 < 0 then Except.error (Abort.undefined "terms[pos] out of bounds", e, st)
  else
    let p := pos1.toNat
    match e[p]? with
    | none => Except.error (Abort.undefined "terms[pos] out of bounds", e, st)
    | some root =>
      if !root.isOpOf Op.ADD then Except.ok (e, st)
      else if root.getNumChild > 32 then
        Except.error
          (Abort.TooComplexError "too many add terms; internal limit of 32", e, st)
      else
        match scanTerms e p root.m_depth p p [] [] with
        | Except.error a => Except.error (a, e, st)
        | Except.ok (rels, subs) =>
          match matchRels env func p rels e subs st with
          | Except.error a => Except.error a
          | Except.ok (terms, _, st1) => Except.ok (terms, st1)

/-! ## The distance functors -/

/-- Modelled from the spec: `CalcDist(loc1, loc2, &dist)` of Location.cpp,
which is not part of the sources at hand: the distance between two locations
of the same section is the offset of the second minus the offset of the first;
there is none (`false`) for locations of different sections or without
bytecode. -/
def CalcDist (env : Env) (loc1 loc2 : Location) : Option Int :=
  match loc1.bc, loc2.bc with
  | some b1, some b2 =>
    if env.getContainer b1 = env.getContainer b2 then
      some ((loc2.getOffset env : Int) - (loc1.getOffset env : Int))
    else none
  | _, _ => none

/-- The functor `CalcDistFunctor::operator()`. -/
def CalcDistFunctor (env : Env) : DistFunc Unit :=
  fun st term loc loc2 =>
    match CalcDist env loc loc2 with
    | none => (false, term, st)
    | some dist => (true, ⟨TermData.INT dist, term.m_depth⟩, st)

/-- State of a `SubstDistFunctor`: the counter `m_subst` and the calls made
to the callback `m_func` so far, oldest first. -/
structure SubstState where
  m_subst : Nat
  calls : List (Nat × Location × Location)
deriving DecidableEq, Repr

/-- The functor `SubstDistFunctor::operator()`; the call of the callback is
recorded in the state. -/
def SubstDistFunctor : DistFunc SubstState :=
  fun st term loc loc2 =>
    (true, ⟨TermData.SUBST st.m_subst, term.m_depth⟩,
      ⟨st.m_subst + 1, st.calls ++ [(st.m_subst, loc, loc2)]⟩)

/-! ## Simplify and its instances -/

/-- The callback `Expr::Simplify` takes: `void func(Expr& e, int pos)`, with
the state of the functor bound into it. -/
abbrev Transformer (σ : Type) := ExprTerms → Int → σ → Except (Aborted σ) (ExprTerms × σ)

/-- Modelled from the spec: the walk of `Expr::Simplify` (Expr.cpp is not part
of the sources at hand) over the term array from right to left, handing every
position `n1 - 1, ..., 0` to the callback. -/
def simplifyWalk {σ : Type} (func : Transformer σ) :
    Nat → ExprTerms → σ → Except (Aborted σ) (ExprTerms × σ)
  | 0, e, st => Except.ok (e, st)
  | n + 1, e, st =>
    match func e n st with
    | Except.error a => Except.error a
    | Except.ok (e1, st1) => simplifyWalk func n e1 st1

/-- Modelled from the spec: the compaction at the end of `Expr::Simplify`,
which purges the empty slots (tombstones). -/
def Cleanup (e : ExprTerms) : ExprTerms :=
  e.filter (fun t => !t.isEmpty)

/-- The values of a list of integer terms, `none` when one of them is not an
integer at depth `depth`. -/
def intValues (depth : Int) : ExprTerms → Option (List Int)
  | [] => some []
  | t :: rest =>
    match t.data, intValues depth rest with
    | TermData.INT v, some vs => if t.m_depth = depth then some (v :: vs) else none
    | _, _ => none

/-- Modelled from the spec: the reduction of `Expr::Simplify` to a single
integer: an expression that is left as an `ADD` root over two or more integer
terms, and nothing else, becomes the integer that is their exact sum. -/
def reduceRoot (e : ExprTerms) : ExprTerms :=
  match e.getLast? with
  | none => e
  | some root =>
    if root.isOpOf Op.ADD ∧ 2 ≤ root.getNumChild ∧ root.getNumChild + 1 = e.length then
      match intValues (root.m_depth + 1) e.dropLast with
      | some vs => [⟨TermData.INT vs.sum, root.m_depth⟩]
      | none => e
    else e

/-- Modelled from the spec: `Expr::Simplify(func)` of Expr.cpp, which is not
part of the sources at hand: the right-to-left walk with the callback, then
the compaction of the empty slots and the reduction to a single integer. -/
def Simplify {σ : Type} (func : Transformer σ) (e : ExprTerms) (st : σ) :
    Except (Aborted σ) (ExprTerms × σ) :=
  match simplifyWalk func e.length e st with
  | Except.error a => Except.error a
  | Except.ok (e1, st1) => Except.ok (reduceRoot (Cleanup e1), st1)

/-- The function `SimplifyCalcDist(e)`: `e.Simplify` with `TransformDistBase`
bound to a `CalcDistFunctor`. -/
def SimplifyCalcDist (env : Env) (e : ExprTerms) : Except (Aborted Unit) (ExprTerms × Unit) :=
  Simplify (TransformDistBase env (CalcDistFunctor env)) e ()

/-- The callable `BIND::bind(&TransformDistBase, _1, _2, REF::ref(functor))`
that `SubstDist` hands to `Expr::Simplify`.  At each call the bound reference
is unwrapped to the functor itself, and the parameter
`const FUNCTION::function<...>& func` of `TransformDistBase` is a temporary
constructed from it, which holds a copy of the functor: the counter `m_subst`
of the copy starts at the counter of `functor` and is lost with the copy,
while the callback `m_func`, a reference, keeps the calls made to it. -/
def SubstDist.bound (env : Env) : Transformer SubstState :=
  fun e pos st =>
    match TransformDistBase env SubstDistFunctor e pos st with
    | Except.error (a, e1, st1) => Except.error (a, e1, ⟨st.m_subst, st1.calls⟩)
    | Except.ok (e1, st1) => Except.ok (e1, ⟨st.m_subst, st1.calls⟩)

/-- The function `SubstDist(e, func)`: `e.Simplify` with `TransformDistBase`
bound to a reference to a fresh `SubstDistFunctor functor`.  The state is
`functor.m_subst` and the calls made to `func`; the return value is
`functor.m_subst` of the final state. -/
def SubstDist (env : Env) (e : ExprTerms) : Except (Aborted SubstState) (ExprTerms × SubstState) :=
  Simplify (SubstDist.bound env) e ⟨0, []⟩

/-! ## Sample expressions -/

/-- The expression `A - B` as it is stored, `A + (-1 * B)`: the terms
`A, B, -1, MUL, ADD` with the root at depth `d`. -/
def exprSub (A B : Nat) (d : Int) : ExprTerms :=
  [⟨TermData.SYM A, d + 1⟩, ⟨TermData.SYM B, d + 2⟩, ⟨TermData.INT (-1), d + 2⟩,
    ⟨TermData.OP Op.MUL 2, d + 1⟩, ⟨TermData.OP Op.ADD 2, d⟩]

/-- The expression `A + (-1 * B) + (-1 * C)`: the terms
`A, B, -1, MUL, C, -1, MUL, ADD` with the root at depth 0. -/
def exprSub2 (A B C : Nat) : ExprTerms :=
  [⟨TermData.SYM A, 1⟩, ⟨TermData.SYM B, 2⟩, ⟨TermData.INT (-1), 2⟩, ⟨TermData.OP Op.MUL 2, 1⟩,
    ⟨TermData.SYM C, 2⟩, ⟨TermData.INT (-1), 2⟩, ⟨TermData.OP Op.MUL 2, 1⟩,
    ⟨TermData.OP Op.ADD 3, 0⟩]

/-- The expression `(A - B) * (C - D)` as it is stored,
`(A + (-1 * B)) * (C + (-1 * D))`: the terms
`A, B, -1, MUL, ADD, C, D, -1, MUL, ADD, MUL` with the root at depth 0. -/
def exprSubProduct (A B C D : Nat) : ExprTerms :=
  [⟨TermData.SYM A, 2⟩, ⟨TermData.SYM B, 3⟩, ⟨TermData.INT (-1), 3⟩, ⟨TermData.OP Op.MUL 2, 2⟩,
    ⟨TermData.OP Op.ADD 2, 1⟩,
    ⟨TermData.SYM C, 2⟩, ⟨TermData.SYM D, 3⟩, ⟨TermData.INT (-1), 3⟩, ⟨TermData.OP Op.MUL 2, 2⟩,
    ⟨TermData.OP Op.ADD 2, 1⟩,
    ⟨TermData.OP Op.MUL 2, 0⟩]

/-- A sample environment: symbol 1 labels offset 0 and symbol 2 offset 4 of
bytecode 10, symbol 3 labels offset 8 of bytecode 11, the other symbols have
no label; bytecode 11 is in section 1, the others in section 0; every
bytecode is at offset 100 of its section but bytecode 11, at offset 0. -/
def sampleEnv : Env where
  getLabel := fun s =>
    if s = 1 then some ⟨some 10, 0⟩
    else if s = 2 then some ⟨some 10, 4⟩
    else if s = 3 then some ⟨some 11, 8⟩
    else none
  getContainer := fun b => if b = 11 then 1 else 0
  bcOffset := fun b => if b = 11 then 0 else 100

/-- The message of the child-count guard of `TransformDistBase`. -/
def tooManyAddTerms : Abort :=
  Abort.TooComplexError "too many add terms; internal limit of 32"

/-- The expression `1 op x` for a term `x` without children: the terms
`1, x, op` with the root at depth 0. -/
def exprBinary (op : Op) (x : TermData) : ExprTerms :=
  [⟨TermData.INT 1, 1⟩, ⟨x, 1⟩, ⟨TermData.OP op 2, 0⟩]

/-- The expression `(+ 1) op x`, in which `ADD` has the single child 1, for a
term `x` without children: the terms `1, ADD, x, op` with the root at depth
0. -/
def exprAfterUnaryAdd (op : Op) (x : TermData) : ExprTerms :=
  [⟨TermData.INT 1, 2⟩, ⟨TermData.OP Op.ADD 1, 1⟩, ⟨x, 1⟩, ⟨TermData.OP op 2, 0⟩]

/-- The expression `subst0 op x` for a term `x` without children: the terms
`subst0, x, op` with the root at depth 0. -/
def exprSubstFirst (op : Op) (x : TermData) : ExprTerms :=
  [⟨TermData.SUBST 0, 1⟩, ⟨x, 1⟩, ⟨TermData.OP op 2, 0⟩]

/-- A substitution array of length 1 whose entry is a symbol, neither integer
nor float. -/
def symSubst : List ExprTerm := [⟨TermData.SYM 1, 0⟩]

/-! ## Bytecode output -/

/-- A `Bytes` container: a `std::vector<unsigned char>`, one number below 256
for each byte. -/
abbrev Bytes := List Nat

/-- Vector `resize(n)` of a `Bytes`: the first `n` bytes are kept, and new
bytes are value-initialised, that is, zero. -/
def Bytes.resize (bytes : Bytes) (n : Nat) : Bytes :=
  bytes.take n ++ List.replicate (n - bytes.length) 0

/-- Modelled from the spec: the warning classes of errwarn.h that the
bytecode outputs use. -/
inductive WarnClass where
  | WARN_GENERAL
  | WARN_UNINIT_CONTENTS
deriving DecidableEq, Repr

/-- What a bytecode output acts on: the chunks written to the stream `m_os`,
one for each `m_os << bytes`, in order; the warnings set with `setWarn`, in
order; the scratch `Bytes` of the output. -/
structure OutputState where
  os : List Bytes
  warns : List (WarnClass × String)
  scratch : Bytes
deriving DecidableEq, Repr

/-- Modelled from the spec: `setWarn(wclass, str)` of errwarn.h reports a
warning to the diagnostics sink. -/
def setWarn (wclass : WarnClass) (str : String) (st : OutputState) : OutputState :=
  { st with warns := st.warns ++ [(wclass, str)] }

/-- Modelled from the spec: `getScratch()` of BytecodeOutput.h gives the
scratch `Bytes` of the output, emptied. -/
def getScratch (st : OutputState) : OutputState :=
  { st with scratch := [] }

/-- The output operator `m_os << bytes`: the entire contents of the container
go to the stream. -/
def streamWrite (bytes : Bytes) (st : OutputState) : OutputState :=
  { st with os := st.os ++ [bytes] }

/-- All bytes written to the stream, in order. -/
def OutputState.written (st : OutputState) : Bytes := st.os.flatten

/-- `BytecodeNoOutput::DoOutputGap`: the body is empty (`// expected`). -/
def BytecodeNoOutput.DoOutputGap (_size : Nat) (st : OutputState) : OutputState := st

/-- `BytecodeNoOutput::DoOutputBytes`. -/
def BytecodeNoOutput.DoOutputBytes (_bytes : Bytes) (st : OutputState) : OutputState :=
  setWarn WarnClass.WARN_GENERAL "initialized space declared in nobits section: ignoring" st

/-- `BLOCK_SIZE` of `BytecodeStreamOutput::DoOutputGap`. -/
def BLOCK_SIZE : Nat := 4096

/-- The loop `while (size > BLOCK_SIZE)` of `BytecodeStreamOutput::DoOutputGap`
on the `unsigned int size`: each round writes the scratch bytes and takes
`BLOCK_SIZE` from `size`. The result is the `size` left and the state, `none`
when the rounds of the model are used up. -/
def BytecodeStreamOutput.gapLoop : Nat → Nat → OutputState → Option (Nat × OutputState)
  | 0, _, _ => none
  | fuel + 1, size, st =>
    if size > BLOCK_SIZE then
      gapLoop fuel ((size - BLOCK_SIZE) % 2 ^ 32) (streamWrite st.scratch st)
    else some (size, st)

/-- `BytecodeStreamOutput::DoOutputGap`: warn, resize the scratch bytes to
`BLOCK_SIZE`, write them while more than `BLOCK_SIZE` bytes are left, resize
them to what is left and write them. -/
def BytecodeStreamOutput.DoOutputGap (size : Nat) (st : OutputState) : Option OutputState :=
  let st := setWarn WarnClass.WARN_UNINIT_CONTENTS
    "uninitialized space declared in code/data section: zeroing" st
  let st := getScratch st
  let st := { st with scratch := st.scratch.resize BLOCK_SIZE }
  match BytecodeStreamOutput.gapLoop (size + 1) size st with
  | none => none
  | some (size, st) =>
    let st := { st with scratch := st.scratch.resize size }
    some (streamWrite st.scratch st)

/-- `BytecodeStreamOutput::DoOutputBytes`. -/
def BytecodeStreamOutput.DoOutputBytes (bytes : Bytes) (st : OutputState) : OutputState :=
  streamWrite bytes st

/-- An output state with nothing written, no warning and an empty scratch. -/
def freshOutput : OutputState := ⟨[], [], []⟩

/-! ## X86Common -/

/-- Modelled from the spec: the prefix types of x86prefix.h that
`X86Common::apply_prefixes_common` switches on. -/
inductive PrefixType where
  | LOCKREP
  | ADDRSIZE
  | OPERSIZE
  | SEGREG
  | REX
deriving DecidableEq, Repr

/-- An `X86Prefix`: what `get_type()` and `get_value()` give. -/
structure X86Prefix where
  type : PrefixType
  value : Nat
deriving DecidableEq, Repr

/-- The fields of `X86Common`, each an `unsigned char`. -/
structure X86Common where
  m_addrsize : Nat
  m_opersize : Nat
  m_lockrep_pre : Nat
  m_mode_bits : Nat
deriving DecidableEq, Repr

/-- `X86Common::calc_len`. -/
def X86Common.calc_len (c : X86Common) : Nat :=
  let len := 0
  let len := if c.m_addrsize ≠ 0 ∧ c.m_addrsize ≠ c.m_mode_bits then len + 1 else len
  let len :=
    if c.m_opersize ≠ 0 ∧
        ((c.m_mode_bits ≠ 64 ∧ c.m_opersize ≠ c.m_mode_bits) ∨
          (c.m_mode_bits = 64 ∧ c.m_opersize = 16)) then len + 1
    else len
  let len := if c.m_lockrep_pre ≠ 0 then len + 1 else len
  len

/-- Modelled from the spec: `Bytes::write_8(val)` of libyasm/bytes.h appends
the one byte `val`. -/
def Bytes.write_8 (bytes : Bytes) (val : Nat) : Bytes := bytes ++ [val % 256]

/-- `X86Common::to_bytes`; `segreg` is the prefix byte of the segment
register, `none` for the null pointer. -/
def X86Common.to_bytes (c : X86Common) (bytes : Bytes) (segreg : Option Nat) : Bytes :=
  let bytes := match segreg with
    | some p => bytes.write_8 p
    | none => bytes
  let bytes := if c.m_addrsize ≠ 0 ∧ c.m_addrsize ≠ c.m_mode_bits then bytes.write_8 0x67
    else bytes
  let bytes :=
    if c.m_opersize ≠ 0 ∧
        ((c.m_mode_bits ≠ 64 ∧ c.m_opersize ≠ c.m_mode_bits) ∨
          (c.m_mode_bits = 64 ∧ c.m_opersize = 16)) then bytes.write_8 0x66
    else bytes
  let bytes := if c.m_lockrep_pre ≠ 0 then bytes.write_8 c.m_lockrep_pre else bytes
  bytes

/-- What `apply_prefixes_common` acts on: the `X86Common`, the byte `*rex`
(`none` when `rex` is the null pointer), the local `first`, and the warnings
set with `warn_set`, in order. -/
structure PrefixState where
  common : X86Common
  rex : Option Nat
  first : Bool
  warns : List (WarnClass × String)
deriving DecidableEq, Repr

/-- Modelled from the spec: `warn_set(wclass, str)` of errwarn.h reports a
warning to the diagnostics sink. -/
def PrefixState.warn_set (s : PrefixState) (wclass : WarnClass) (str : String) : PrefixState :=
  { s with warns := s.warns ++ [(wclass, str)] }

/-- The dereference of the null pointer `rex`. -/
def nullRex : Abort := Abort.undefined "null rex dereferenced"

/-- One round of the loop of `X86Common::apply_prefixes_common`: the `switch`
on the type of the prefix. -/
def applyPrefix (def_opersize_64 : Nat) (s : PrefixState) (pfx : X86Prefix) :
    Except Abort PrefixState :=
  match pfx.type with
  | PrefixType.LOCKREP =>
    let s := if s.common.m_lockrep_pre ≠ 0 then
        s.warn_set WarnClass.WARN_GENERAL "multiple LOCK or REP prefixes, using leftmost"
      else s
    Except.ok { s with common := { s.common with m_lockrep_pre := pfx.value % 256 } }
  | PrefixType.ADDRSIZE =>
    Except.ok { s with common := { s.common with m_addrsize := pfx.value % 256 } }
  | PrefixType.OPERSIZE =>
    let s := { s with common := { s.common with m_opersize := pfx.value % 256 } }
    if s.common.m_mode_bits = 64 ∧ s.common.m_opersize = 64 ∧ def_opersize_64 ≠ 64 then
      match s.rex with
      | none => Except.error nullRex
      | some r =>
        if r = 0xff then
          Except.ok (s.warn_set WarnClass.WARN_GENERAL
            "REX prefix not allowed on this instruction, ignoring")
        else Except.ok { s with rex := some 0x48 }
    else Except.ok s
  | PrefixType.SEGREG =>
    Except.ok { s with common := { s.common with m_lockrep_pre := pfx.value % 256 } }
  | PrefixType.REX =>
    let s1 :=
      match s.rex with
      | none => s.warn_set WarnClass.WARN_GENERAL "ignoring REX prefix on jump"
      | some r =>
        if r = 0xff then
          s.warn_set WarnClass.WARN_GENERAL "REX prefix not allowed on this instruction, ignoring"
        else
          let s2 :=
            if r ≠ 0 then
              if s.first then
                s.warn_set WarnClass.WARN_GENERAL "overriding generated REX prefix"
              else s.warn_set WarnClass.WARN_GENERAL "multiple REX prefixes, using leftmost"
            else s
          { s2 with common := { s2.common with m_mode_bits := 64 },
                    rex := some (pfx.value % 256) }
    Except.ok { s1 with first := false }

/-- The loop of `X86Common::apply_prefixes_common` over the prefixes. -/
def applyPrefixes (def_opersize_64 : Nat) : PrefixState → List X86Prefix → Except Abort PrefixState
  | s, [] => Except.ok s
  | s, p :: rest =>
    match applyPrefix def_opersize_64 s p with
    | Except.error a => Except.error a
    | Except.ok s1 => applyPrefixes def_opersize_64 s1 rest

/-- `X86Common::apply_prefixes_common(rex, def_opersize_64, prefixes)` on the
`X86Common` `c`, with the warnings `warns` set before. -/
def X86Common.apply_prefixes_common (c : X86Common) (rex : Option Nat) (def_opersize_64 : Nat)
    (prefixes : List X86Prefix) (warns : List (WarnClass × String)) : Except Abort PrefixState :=
  applyPrefixes def_opersize_64 ⟨c, rex, true, warns⟩ prefixes

/-! ## The ygas front end -/

/-- The `getPosition(optnum)` of an option list of LLVM's command-line
library: the command-line position of the occurrence `optnum` of the option,
with the library's assertion that there is such an occurrence.  The list
holds the positions of the occurrences, which count from 1, in command-line
order. -/
def getPosition (positions : List Nat) (optnum : Nat) : Except Abort Nat :=
  match positions[optnum]? with
  | some p => Except.ok p
  | none => Except.error (Abort.assertion "Invalid option index")

/-- The loop `for (;;)` of `GetBitsSetting` on the option lists `bits_32` and
`bits_64`; the state is `bits`, `bits32_num` and `bits64_num`.  The position
of the `-64` option is read with `bits_64.getPosition(bits32_num)`, as the
source has it. -/
def GetBitsSetting.loop (bits_32 bits_64 : List Nat) :
    Nat → String → Nat → Nat → Except Abort String
  | 0, _, _, _ => Except.error Abort.fuel
  | fuel + 1, bits, bits32_num, bits64_num =>
    match (if bits32_num < bits_32.length then getPosition bits_32 bits32_num
        else Except.ok 0) with
    | Except.error a => Except.error a
    | Except.ok bits32_pos =>
      match (if bits64_num < bits_64.length then getPosition bits_64 bits32_num
          else Except.ok 0) with
      | Except.error a => Except.error a
      | Except.ok bits64_pos =>
        if bits32_pos ≠ 0 ∧ (bits64_pos = 0 ∨ bits32_pos < bits64_pos) then
          GetBitsSetting.loop bits_32 bits_64 fuel "32" (bits32_num + 1) bits64_num
        else if bits64_pos ≠ 0 ∧ (bits32_pos = 0 ∨ bits64_pos < bits32_pos) then
          GetBitsSetting.loop bits_32 bits_64 fuel "64" bits32_num (bits64_num + 1)
        else Except.ok bits

/-- `GetBitsSetting()`; `YGAS_OBJFMT_BITS` is the configured default.  Each
round but the last counts one option, so the rounds are at most the number of
options plus one. -/
def GetBitsSetting (YGAS_OBJFMT_BITS : String) (bits_32 bits_64 : List Nat) :
    Except Abort String :=
  GetBitsSetting.loop bits_32 bits_64 (bits_32.length + bits_64.length + 1)
    YGAS_OBJFMT_BITS 0 0

/-- Following the words of the specification: "32" when the option that
comes last on the command line is `-32`, "64" when it is `-64`, the default
when neither is given. -/
def specBitsSetting (default : String) (bits_32 bits_64 : List Nat) : String :=
  match bits_32.getLast?, bits_64.getLast? with
  | none, none => default
  | some _, none => "32"
  | none, some _ => "64"
  | some p32, some p64 => if p64 < p32 then "32" else "64"

/-- Modelled from the spec: the values of `yasm::diag::Mapping`
(Diagnostic.h is not part of the sources at hand) that
`ApplyWarningSettings` maps a diagnostic group to. -/
inductive Mapping where
  | MAP_IGNORE
  | MAP_WARNING
deriving DecidableEq, Repr

/-- Modelled from the spec: the settings of a `yasm::Diagnostic` that
`ApplyWarningSettings` changes: whether all warnings are ignored, whether
warnings are errors, and the mapping of the group "signed-overflow". -/
structure DiagSettings where
  ignoreAllWarnings : Bool
  warningsAsErrors : Bool
  signedOverflow : Mapping
deriving DecidableEq, Repr

/-- Modelled from the spec: `Diagnostic::setIgnoreAllWarnings(val)`. -/
def DiagSettings.setIgnoreAllWarnings (diags : DiagSettings) (val : Bool) : DiagSettings :=
  { diags with ignoreAllWarnings := val }

/-- Modelled from the spec: `Diagnostic::setWarningsAsErrors(val)`. -/
def DiagSettings.setWarningsAsErrors (diags : DiagSettings) (val : Bool) : DiagSettings :=
  { diags with warningsAsErrors := val }

/-- Modelled from the spec: `Diagnostic::setDiagnosticGroupMapping` for the
group "signed-overflow". -/
def DiagSettings.setSignedOverflowMapping (diags : DiagSettings) (map : Mapping) :
    DiagSettings :=
  { diags with signedOverflow := map }

/-- The position that `ApplyWarningSettings` takes for an option list at the
start of a round: `num < list.size() ? list.getPosition(num) : 0`. -/
def optionPos (positions : List Nat) (num : Nat) : Except Abort Nat :=
  if num < positions.length then getPosition positions num else Except.ok 0

/-- The variables of the loop of `ApplyWarningSettings` that live from round
to round: the diagnostic settings and the four counters. -/
structure WarnLoopState where
  diags : DiagSettings
  inhibit_num : Nat
  enable_num : Nat
  fatal_num : Nat
  signed_num : Nat
deriving DecidableEq, Repr

/-- The loop `for (;;)` of `ApplyWarningSettings` on the option lists
`inhibit_warnings` (-W, --no-warn), `enable_warnings` (--warn),
`fatal_warnings` (--fatal-warnings) and `no_signed_overflow` (-J), each the
positions of its occurrences.  The first argument bounds the number of
rounds. -/
def ApplyWarningSettings.loop
    (inhibit_warnings enable_warnings fatal_warnings no_signed_overflow : List Nat) :
    Nat → WarnLoopState → Except Abort WarnLoopState
  | 0, _ => Except.error Abort.fuel
  | fuel + 1, s =>
    match optionPos inhibit_warnings s.inhibit_num with
    | Except.error a => Except.error a
    | Except.ok inhibit_pos =>
    match optionPos enable_warnings s.enable_num with
    | Except.error a => Except.error a
    | Except.ok enable_pos =>
    match optionPos fatal_warnings s.fatal_num with
    | Except.error a => Except.error a
    | Except.ok fatal_pos =>
    match optionPos no_signed_overflow s.signed_num with
    | Except.error a => Except.error a
    | Except.ok signed_pos =>
      if inhibit_pos ≠ 0 ∧
          (enable_pos = 0 ∨ inhibit_pos < enable_pos) ∧
          (fatal_pos = 0 ∨ inhibit_pos < fatal_pos) ∧
          (signed_pos = 0 ∨ inhibit_pos < signed_pos) then
        ApplyWarningSettings.loop inhibit_warnings enable_warnings fatal_warnings
          no_signed_overflow fuel
          { s with inhibit_num := s.inhibit_num + 1,
                   diags := s.diags.setIgnoreAllWarnings true }
      else if enable_pos ≠ 0 ∧
          (inhibit_pos = 0 ∨ enable_pos < inhibit_pos) ∧
          (fatal_pos = 0 ∨ enable_pos < fatal_pos) ∧
          (signed_pos = 0 ∨ enable_pos < signed_pos) then
        ApplyWarningSettings.loop inhibit_warnings enable_warnings fatal_warnings
          no_signed_overflow fuel
          { s with enable_num := s.enable_num + 1,
                   diags := ((s.diags.setIgnoreAllWarnings false).setWarningsAsErrors
                     false).setSignedOverflowMapping Mapping.MAP_WARNING }
      else if fatal_pos ≠ 0 ∧
          (enable_pos = 0 ∨ fatal_pos < enable_pos) ∧
          (inhibit_pos = 0 ∨ fatal_pos < inhibit_pos) ∧
          (signed_pos = 0 ∨ fatal_pos < signed_pos) then
        ApplyWarningSettings.loop inhibit_warnings enable_warnings fatal_warnings
          no_signed_overflow fuel
          { s with fatal_num := s.fatal_num + 1,
                   diags := s.diags.setWarningsAsErrors true }
      else if signed_pos ≠ 0 ∧
          (enable_pos = 0 ∨ signed_pos < enable_pos) ∧
          (fatal_pos = 0 ∨ signed_pos < fatal_pos) ∧
          (inhibit_pos = 0 ∨ signed_pos < inhibit_pos) then
        ApplyWarningSettings.loop inhibit_warnings enable_warnings fatal_warnings
          no_signed_overflow fuel
          { s with signed_num := s.signed_num + 1,
                   diags := s.diags.setSignedOverflowMapping Mapping.MAP_IGNORE }
      else Except.ok s

/-- `ApplyWarningSettings(diags)`: the settings it leaves.  Each round but the
last counts one option, so the rounds are at most the number of options plus
one. -/
def ApplyWarningSettings
    (inhibit_warnings enable_warnings fatal_warnings no_signed_overflow : List Nat)
    (diags : DiagSettings) : Except Abort DiagSettings :=
  match ApplyWarningSettings.loop inhibit_warnings enable_warnings fatal_warnings
      no_signed_overflow
      (inhibit_warnings.length + enable_warnings.length + fatal_warnings.length
        + no_signed_overflow.length + 1) ⟨diags, 0, 0, 0, 0⟩ with
  | Except.error a => Except.error a
  | Except.ok s => Except.ok s.diags

/-- The four warning options of the command line, named after their option
lists: -W or --no-warn, --warn, --fatal-warnings, -J. -/
inductive WarnOption where
  | inhibit_warnings
  | enable_warnings
  | fatal_warnings
  | no_signed_overflow
deriving DecidableEq, Repr

/-- The positions that the command-line library records in the list of one
warning option, for a command line given as its occurrences of the warning
options, each with its position, in command-line order. -/
def positionsOf (o : WarnOption) (occs : List (Nat × WarnOption)) : List Nat :=
  (occs.filter (fun x => decide (x.2 = o))).map (fun x => x.1)

/-- Following the words of the specification, the effect of one occurrence:
-W ignores all warnings; --warn stops ignoring, makes warnings not errors and
maps signed-overflow to a warning; --fatal-warnings makes warnings errors; -J
has signed-overflow ignored. -/
def specWarnEffect (diags : DiagSettings) : WarnOption → DiagSettings
  | WarnOption.inhibit_warnings => { diags with ignoreAllWarnings := true }
  | WarnOption.enable_warnings =>
    { ignoreAllWarnings := false, warningsAsErrors := false,
      signedOverflow := Mapping.MAP_WARNING }
  | WarnOption.fatal_warnings => { diags with warningsAsErrors := true }
  | WarnOption.no_signed_overflow => { diags with signedOverflow := Mapping.MAP_IGNORE }

/-- Following the words of the specification: the effects of the occurrences
applied one at a time in the order of the command line. -/
def specWarningSettings (occs : List (Nat × WarnOption)) (diags : DiagSettings) :
    DiagSettings :=
  occs.foldl (fun d x => specWarnEffect d x.2) diags

/-- What the collaborators of `do_assemble` answer in one run. -/
structure AssembleRun where
  /-- `diags.hasFatalErrorOccurred()` after the assembler is created. -/
  fatalAfterCreate : Bool
  /-- `diags.hasFatalErrorOccurred()` after `setParser`. -/
  fatalAfterParser : Bool
  /-- `assembler.isOkDebugFormat("dwarf2pass")`. -/
  okDebugFormat : Bool
  /-- `diags.hasFatalErrorOccurred()` after `setDebugFormat`. -/
  fatalAfterDebugFormat : Bool
  /-- `in_filename == "-"`. -/
  inputIsStdin : Bool
  /-- `file_mgr.getFile(in_filename)` is not null. -/
  inputFound : Bool
  /-- `assembler.Assemble(...)`. -/
  assembleOk : Bool
  /-- `err.empty()` after the object file is opened. -/
  openOk : Bool
  /-- `assembler.Output(...)`. -/
  outputOk : Bool
deriving DecidableEq, Repr

/-- What `do_assemble` does with the assembler and the object file. -/
inductive RunEvent where
  /-- `assembler.Assemble(...)` and its result. -/
  | assemble (ok : Bool)
  /-- The object file is opened by the constructor of `out`; `ok` is
  `err.empty()`. -/
  | openObject (ok : Bool)
  /-- `assembler.Output(out, ...)` and its result. -/
  | output (ok : Bool)
  /-- `out.close()`. -/
  | closeObject
  /-- `remove(assembler.getObjectFilename()...)`. -/
  | removeObject
deriving DecidableEq, Repr

/-- `EXIT_SUCCESS` of cstdlib. -/
def EXIT_SUCCESS : Nat := 0

/-- `EXIT_FAILURE` of cstdlib. -/
def EXIT_FAILURE : Nat := 1

/-- The option lists of ygas.cpp that `do_assemble` reads through
`ApplyWarningSettings` and `GetBitsSetting`, each the positions of its
occurrences on the command line. -/
structure OptionLists where
  inhibit_warnings : List Nat
  enable_warnings : List Nat
  fatal_warnings : List Nat
  no_signed_overflow : List Nat
  bits_32 : List Nat
  bits_64 : List Nat
deriving DecidableEq, Repr

/-- The part of `do_assemble` from the creation of the assembler on, for the
answers `r` of the collaborators: the exit code and what was done with the
assembler and the object file, in order. -/
def do_assemble.run (r : AssembleRun) : Nat × List RunEvent :=
  if r.fatalAfterCreate then (EXIT_FAILURE, [])
  else if r.fatalAfterParser then (EXIT_FAILURE, [])
  else if r.okDebugFormat ∧ r.fatalAfterDebugFormat then (EXIT_FAILURE, [])
  else if ¬ r.inputIsStdin ∧ ¬ r.inputFound then (EXIT_FAILURE, [])
  else if ¬ r.assembleOk then (EXIT_FAILURE, [RunEvent.assemble false])
  else if ¬ r.openOk then
    (EXIT_FAILURE, [RunEvent.assemble true, RunEvent.openObject false])
  else if ¬ r.outputOk then
    (EXIT_FAILURE, [RunEvent.assemble true, RunEvent.openObject true, RunEvent.output false,
      RunEvent.closeObject, RunEvent.removeObject])
  else
    (EXIT_SUCCESS, [RunEvent.assemble true, RunEvent.openObject true, RunEvent.output true,
      RunEvent.closeObject])

/-- `do_assemble(source_mgr, diags)`: `ApplyWarningSettings(diags)`, then
`GetBitsSetting()`, then the run of the assembler, whose collaborators are
created with the diagnostic settings and the bits setting found and answer
`collab` of these.  The result is the exit code and what was done with the
assembler and the object file, in order; an abnormal end of one of the two
calls at the head is an abnormal end of `do_assemble`. -/
def do_assemble (YGAS_OBJFMT_BITS : String) (opts : OptionLists) (diags : DiagSettings)
    (collab : DiagSettings → String → AssembleRun) : Except Abort (Nat × List RunEvent) :=
  match ApplyWarningSettings opts.inhibit_warnings opts.enable_warnings opts.fatal_warnings
      opts.no_signed_overflow diags with
  | Except.error a => Except.error a
  | Except.ok diags1 =>
    match GetBitsSetting YGAS_OBJFMT_BITS opts.bits_32 opts.bits_64 with
    | Except.error a => Except.error a
    | Except.ok objfmt_bits => Except.ok (do_assemble.run (collab diags1 objfmt_bits))

/-- Whether the run has left an object file: it is there once it has been
opened, and gone once it has been removed. -/
def objectFileLeft : List RunEvent → Bool → Bool
  | [], there => there
  | RunEvent.openObject true :: rest, _ => objectFileLeft rest true
  | RunEvent.removeObject :: rest, _ => objectFileLeft rest false
  | _ :: rest, there => objectFileLeft rest there

/-! ## Flat-binary link: overlap check -/

/-- A section as the overlap check of the flat-binary link sees it: its load
address and its length, so that it takes the load addresses
`[start, start + length)`. -/
structure LmaSection where
  start : Nat
  length : Nat
deriving DecidableEq, Repr

/-- Modelled from the spec: `BinLink::check_lma_overlap(sect, other)`
(BinLink.cpp is not part of the sources at hand), the interval-overlap check
of two sections: the later of the two starts is before the earlier of the two
ends. -/
def check_lma_overlap_pair (sect other : LmaSection) : Bool :=
  decide (max sect.start other.start
    < min (sect.start + sect.length) (other.start + other.length))

/-- Modelled from the spec: `BinLink::check_lma_overlap()`, the pairwise
checks across all sections: the pairs of section indices `(i, j)`, `i < j`,
for which an overlap is reported. -/
def check_lma_overlap (sections : List LmaSection) : List (Nat × Nat) :=
  (List.range sections.length).flatMap (fun i =>
    ((List.range sections.length).filter (fun j =>
      i < j && check_lma_overlap_pair (sections.getD i ⟨0, 0⟩) (sections.getD j ⟨0, 0⟩))).map
        (fun j => (i, j)))

/-! ## Raw preprocessor -/

/-- Modelled from the spec: the raw preprocessor (the module is not part of
the sources at hand) after `init` on an input stream: the characters of the
stream not yet read. -/
structure RawPreproc where
  rest : List Char
deriving DecidableEq, Repr

/-- Modelled from the spec: `init(is, ...)` of the raw preprocessor on the
stream with the contents `is`. -/
def RawPreproc.init (is : String) : RawPreproc := ⟨is.toList⟩

/-- Modelled from the spec: `get_line(line)` of the raw preprocessor: false
at the end of the input; else the characters up to the next newline (or the
end of the input) are the line, the newline is taken from the input, and the
result is true. -/
def RawPreproc.get_line (p : RawPreproc) : Bool × List Char × RawPreproc :=
  match p.rest with
  | [] => (false, [], p)
  | _ :: _ =>
    (true, p.rest.takeWhile (fun c => c != '\n'),
      ⟨(p.rest.dropWhile (fun c => c != '\n')).drop 1⟩)

/-- The lines that successive `get_line` calls return, until the first call
that returns false; at most `fuel` calls return true. -/
def RawPreproc.readLines : Nat → RawPreproc → List (List Char)
  | 0, _ => []
  | fuel + 1, p =>
    match p.get_line with
    | (true, line, p1) => line :: RawPreproc.readLines fuel p1
    | (false, _, _) => []

/-- The state of the preprocessor after `n` calls of `get_line`. -/
def RawPreproc.afterCalls : Nat → RawPreproc → RawPreproc
  | 0, p => p
  | n + 1, p => RawPreproc.afterCalls n p.get_line.2.2

/-- The `main` of test_preproc.cpp on the preprocessor after `init` on
`instr`: `EXIT_SUCCESS` when the first `get_line` returns true with `instr`
and the second returns false. -/
def test_preproc_main (instr : String) : Nat :=
  let preproc := RawPreproc.init instr
  match preproc.get_line with
  | (false, _, _) => EXIT_FAILURE
  | (true, outstr, preproc1) =>
    if outstr ≠ instr.toList then EXIT_FAILURE
    else if preproc1.get_line.1 then EXIT_FAILURE
    else EXIT_SUCCESS

/-! ## Composer -/

/-- The members of a `String::Composer` that `getStr` reads (Compose.h is not
part of the sources at hand): the format `m_fmt`, the text `m_os.str()` of
the arguments given so far, their number `m_arg`, and the array `m_arg_pos`
of ten `int`, in which entry `k - 1` is where the text of the `k`-th argument
starts. -/
structure Composer where
  m_fmt : List Char
  args : List Char
  m_arg : Int
  m_arg_pos : List Int
deriving DecidableEq, Repr

/-- Modelled from the spec: the constructor `Composer(fmt)`: no argument
yet. -/
def Composer.new (fmt : String) : Composer :=
  ⟨fmt.toList, [], 0, List.replicate 10 0⟩

/-- Modelled from the spec: `Composer::arg(obj)` or `operator%`, for the
argument whose text is `text`: the text is written to `m_os` and the place
where it starts is kept in `m_arg_pos`. -/
def Composer.arg (c : Composer) (text : String) : Composer :=
  { c with args := c.args ++ text.toList,
           m_arg := c.m_arg + 1,
           m_arg_pos := c.m_arg_pos.set c.m_arg.toNat c.args.length }

/-- The read `m_arg_pos[i]` of the array of ten entries. -/
def Composer.argPos (c : Composer) (i : Int) : Except Abort Int :=
  if i < 0 ∨ 10 ≤ i then Except.error (Abort.undefined "m_arg_pos index out of bounds")
  else
    match c.m_arg_pos[i.toNat]? with
    | some p => Except.ok p
    | none => Except.error (Abort.undefined "m_arg_pos index out of bounds")

/-- The string operation `str.append(args, pos, n)`: the characters of `args`
from `pos`, at most `n` of them, with `pos` and `n` converted to `size_t`
(a negative `n` is a count beyond any length); `out_of_range` is raised when
`pos` is beyond the end of `args`. -/
def appendSub (str args : List Char) (pos n : Int) : Except Abort (List Char) :=
  if pos < 0 ∨ (args.length : Int) < pos then
    Except.error (Abort.undefined "std::out_of_range")
  else if n < 0 then Except.ok (str ++ args.drop pos.toNat)
  else Except.ok (str ++ (args.drop pos.toNat).take n.toNat)

/-- The character test `std::isdigit`. -/
def isdigit (ch : Char) : Bool := '0' ≤ ch && ch ≤ '9'

/-- The loop of `Composer::getStr`; the state is `str` and `start`.  The read
`m_fmt[stop + 1]` fails the assertion of the string reference when the `%`
found is the last character of the format. -/
def Composer.getStr.loop (c : Composer) : Nat → List Char → Nat → Except Abort (List Char)
  | 0, _, _ => Except.error Abort.fuel
  | fuel + 1, str, start =>
    match (c.m_fmt.drop start).indexOf? '%' with
    | none => Except.ok (str ++ c.m_fmt.drop start)
    | some off =>
      let stop := off + start
      let str := str ++ (c.m_fmt.drop start).take off
      match c.m_fmt[stop + 1]? with
      | none => Except.error (Abort.assertion "Invalid index!")
      | some next =>
        if next = '%' then
          Composer.getStr.loop c fuel (str ++ ['%']) (stop + 2)
        else if isdigit next then
          let spec_no : Int := (next.toNat : Int) - ('0'.toNat : Int)
          if 0 < spec_no ∧ spec_no < c.m_arg then
            match c.argPos (spec_no - 1), c.argPos spec_no with
            | Except.ok p0, Except.ok p1 =>
              match appendSub str c.args p0 (p1 - p0) with
              | Except.ok str1 => Composer.getStr.loop c fuel str1 (stop + 2)
              | Except.error a => Except.error a
            | Except.error a, _ => Except.error a
            | _, Except.error a => Except.error a
          else if spec_no = c.m_arg then
            match c.argPos (spec_no - 1) with
            | Except.ok p0 =>
              match appendSub str c.args p0 ((c.args.length : Int) - p0 + 1) with
              | Except.ok str1 => Composer.getStr.loop c fuel str1 (stop + 2)
              | Except.error a => Except.error a
            | Except.error a => Except.error a
          else
            Composer.getStr.loop c fuel (str ++ ['%', next]) (stop + 2)
        else
          Composer.getStr.loop c fuel (str ++ ['%']) (stop + 1)

/-- `Composer::getStr()`.  Every round moves `start` forward, so the rounds
are at most the length of the format plus one. -/
def Composer.getStr (c : Composer) : Except Abort (List Char) :=
  Composer.getStr.loop c (c.m_fmt.length + 1) [] 0

/-- Following the words of the specification, the reference expansion of a
format with the texts of the arguments: `%k` for `1 <= k <= n` is the text of
the `k`-th argument, `%%` is one `%`, `%k` for another digit `k` is copied as
two characters, any other `%` is copied and the character after it processed
normally, and all other text is copied unchanged. -/
def specExpand (args : List (List Char)) : List Char → List Char
  | [] => []
  | ['%'] => ['%']
  | '%' :: next :: rest =>
    if next = '%' then '%' :: specExpand args rest
    else if isdigit next then
      if 1 ≤ next.toNat - '0'.toNat ∧ next.toNat - '0'.toNat ≤ args.length then
        args.getD (next.toNat - '0'.toNat - 1) [] ++ specExpand args rest
      else '%' :: next :: specExpand args rest
    else '%' :: specExpand args (next :: rest)
  | ch :: rest => ch :: specExpand args rest

/-! ## Specification predicates -/

/-- What a successful `isNeg1Sym` says about the terms. -/
structure Neg1SymOK (e : ExprTerms) (n sym neg1 n1 : Nat) : Prop where
  sym_lt : sym < n
  neg1_lt : neg1 < n
  ne : sym ≠ neg1
  n1_le_sym : n1 ≤ sym
  n1_le_neg1 : n1 ≤ neg1
  root : ∃ se, e[n]? = some se ∧ se.isOpOf Op.MUL = true ∧ se.getNumChild = 2 ∧
    (∃ ts, e[sym]? = some ts ∧ ts.isType (ExprTerm.SYM ||| ExprTerm.LOC) = true
      ∧ ts.m_depth = se.m_depth + 1) ∧
    (∃ tn, e[neg1]? = some tn ∧ tn.data = TermData.INT (-1) ∧ tn.m_depth = se.m_depth + 1)
  others : ∀ m, n1 ≤ m → m < n → m ≠ sym → m ≠ neg1 → ∀ t, e[m]? = some t → t.isEmpty = true

/-- The larger of the two child positions of a subtractive entry. -/
def SubEntry.hi (s : SubEntry) : Nat := max s.subpos s.subneg1

/-- What the scan guarantees about a recorded additive position. -/
structure RelOK (e : ExprTerms) (pos : Nat) (d : Int) (r : Nat) : Prop where
  pos_r : 0 < r
  le_pos : r ≤ pos
  lt : r < 255
  term : ∃ t, e[pos - r]? = some t ∧ t.isType (ExprTerm.SYM ||| ExprTerm.LOC) = true
    ∧ t.m_depth = d + 1

/-- What the scan guarantees about a recorded subtractive entry. -/
structure SubOK (e : ExprTerms) (pos : Nat) (d : Int) (s : SubEntry) : Prop where
  root_pos : 0 < s.subroot
  root_lt_sym : s.subroot < s.subpos
  root_lt_neg1 : s.subroot < s.subneg1
  sym_le : s.subpos ≤ pos
  neg1_le : s.subneg1 ≤ pos
  sym_lt : s.subpos < 255
  neg1_lt : s.subneg1 < 255
  ne : s.subpos ≠ s.subneg1
  root : ∃ t, e[pos - s.subroot]? = some t ∧ t.isOpOf Op.MUL = true ∧ t.getNumChild = 2
    ∧ t.m_depth = d + 1
  sym : ∃ t, e[pos - s.subpos]? = some t ∧ t.isType (ExprTerm.SYM ||| ExprTerm.LOC) = true
    ∧ t.m_depth = d + 2
  neg1 : ∃ t, e[pos - s.subneg1]? = some t ∧ t.data = TermData.INT (-1) ∧ t.m_depth = d + 2
  others : ∀ r, s.subroot < r → r ≤ s.hi → r ≠ s.subpos → r ≠ s.subneg1 →
    ∀ t, e[pos - r]? = some t → t.isEmpty = true

/-- The invariant of the scan loop: the entries recorded so far are sound, lie
within `bound` of `pos`, and were recorded at increasing distance from `pos`. -/
structure ScanInv (e : ExprTerms) (pos : Nat) (d : Int) (bound : Nat)
    (rel : List Nat) (sub : List SubEntry) : Prop where
  rel_ok : ∀ r ∈ rel, RelOK e pos d r ∧ r ≤ bound
  sub_ok : ∀ s ∈ sub, SubOK e pos d s ∧ s.hi ≤ bound
  rel_sorted : rel.Pairwise (· < ·)
  sub_sorted : sub.Pairwise (fun s s' => s.hi < s'.subroot)
  cross : ∀ r ∈ rel, ∀ s ∈ sub, r < s.subroot ∨ s.hi < r

/-- A functor that, when it returns false, leaves the term and its own state
as they were. -/
def FailsClean {σ : Type} (func : DistFunc σ) : Prop :=
  ∀ st t l l2, (func st t l l2).1 = false → func st t l l2 = (false, t, st)

/-- How a pair comes to match: the same symbol on both sides (the additive
term is zeroed), or two locations of one section for which the functor
succeeds (the additive term is what the functor left). -/
def MatchedBy {σ : Type} (env : Env) (func : DistFunc σ) (rel : Option Nat)
    (relterm subterm : ExprTerm) (st : σ) (t : ExprTerm) (st1 : σ) : Prop :=
  (rel.isSome ∧ rel = subterm.getSymbol ∧ t = relterm.Zero ∧ st1 = st) ∨
  (¬ (rel.isSome ∧ rel = subterm.getSymbol) ∧
    ∃ rel_loc sub_loc rbc sbc, lookupLoc env rel relterm = LocLookup.found rel_loc ∧
      lookupLoc env subterm.getSymbol subterm = LocLookup.found sub_loc ∧
      rel_loc.bc = some rbc ∧ sub_loc.bc = some sbc ∧
      env.getContainer rbc = env.getContainer sbc ∧
      func st relterm sub_loc rel_loc = (true, t, st1))

/-- The positions the matching loops may still write to: those of the
additive terms still to come and of the unmatched subtractive entries. -/
def inFootprint (pos : Nat) (rels : List Nat) (subs : List SubEntry) (x : Nat) : Prop :=
  (∃ r ∈ rels, x = pos - r) ∨
  (∃ s ∈ subs, s.subpos ≠ 255 ∧ (x = pos - s.subpos ∨ x = pos - s.subneg1 ∨ x = pos - s.subroot))

/-- The invariant of the matching loops: the additive positions still to come
and the unmatched subtractive entries are sound for the current terms and
occupy disjoint positions. -/
structure MatchInv (terms : ExprTerms) (pos : Nat) (d : Int) (rels : List Nat)
    (subs : List SubEntry) : Prop where
  rel_ok : ∀ r ∈ rels, RelOK terms pos d r
  sub_ok : ∀ s ∈ subs, s.subpos ≠ 255 → SubOK terms pos d s
  rel_sorted : rels.Pairwise (· < ·)
  sub_sorted : subs.Pairwise
    (fun a b => a.subroot < b.subroot ∧ (a.subpos ≠ 255 → a.hi < b.subroot))
  cross : ∀ r ∈ rels, ∀ s ∈ subs, s.subpos ≠ 255 → r < s.subroot ∨ s.hi < r

/-- The number of entries marked as matched (`subpos[j] == 0xff`). -/
def numMatched (subs : List SubEntry) : Nat :=
  subs.countP (fun s => s.subpos = 255)

/-- The entries `subs1` are the entries `subs` with some unmatched ones
marked as matched; nothing else differs. -/
def Marking (subs subs1 : List SubEntry) : Prop :=
  List.Forall₂ (fun a b => b = a ∨ (a.subpos ≠ 255 ∧ b = { a with subpos := 255 })) subs subs1

/-- The pair recorded by a callback call `(k, loc, loc2)` of `SubstDist`: an
additive term with location `loc2`, replaced by the placeholder `SUBST k` at
its depth, and a subtractive symbol term with location `loc`, cleared. -/
def SubstPair (env : Env) (e e1 : ExprTerms) (pos : Nat) (d : Int)
    (call : Nat × Location × Location) : Prop :=
  ∃ i u, i < pos ∧ u < pos ∧
    (∃ t, e[i]? = some t ∧ t.isType (ExprTerm.SYM ||| ExprTerm.LOC) = true ∧ t.m_depth = d + 1 ∧
      lookupLoc env t.getSymbol t = LocLookup.found call.2.2 ∧
      e1[i]? = some ⟨TermData.SUBST call.1, t.m_depth⟩) ∧
    (∃ tu, e[u]? = some tu ∧ tu.isType (ExprTerm.SYM ||| ExprTerm.LOC) = true ∧
      tu.m_depth = d + 2 ∧ lookupLoc env tu.getSymbol tu = LocLookup.found call.2.1 ∧
      e1[u]? = some tu.Clear)

/-- Invariant of the outer loop run with the `SubstDistFunctor`. -/
structure SubstInv (env : Env) (e : ExprTerms) (pos : Nat) (d : Int) (st0 : SubstState)
    (rels : List Nat) (terms : ExprTerms) (subs : List SubEntry) (st : SubstState) : Prop where
  inv : MatchInv terms pos d rels subs
  orig : ∀ x, inFootprint pos rels subs x → terms[x]? = e[x]?
  calls : ∃ new : List (Nat × Location × Location),
    st.calls = st0.calls ++ new ∧ st.m_subst = st0.m_subst + new.length ∧
    ∀ k (hk : k < new.length), (new[k]).1 = st0.m_subst + k ∧
      ∃ i u, ¬ inFootprint pos rels subs i ∧ ¬ inFootprint pos rels subs u ∧ i < pos ∧ u < pos ∧
        (∃ t, e[i]? = some t ∧ t.isType (ExprTerm.SYM ||| ExprTerm.LOC) = true ∧
          t.m_depth = d + 1 ∧ lookupLoc env t.getSymbol t = LocLookup.found (new[k]).2.2 ∧
          terms[i]? = some ⟨TermData.SUBST (new[k]).1, t.m_depth⟩) ∧
        (∃ tu, e[u]? = some tu ∧ tu.isType (ExprTerm.SYM ||| ExprTerm.LOC) = true ∧
          tu.m_depth = d + 2 ∧ lookupLoc env tu.getSymbol tu = LocLookup.found (new[k]).2.1 ∧
          terms[u]? = some tu.Clear)

/-- The callback calls recorded in the state carry the indices
`0, ..., m_subst - 1` in this order. -/
def CallsInOrder (st : SubstState) : Prop :=
  st.calls.map (fun c => c.1) = List.range st.m_subst

/-- The scan loop of `TransformDistBase` without the jump over the children of
a negated symbol: every index below `n1` is visited in turn.  It gives what
`scanTerms` gives (`scanTerms_eq_scanFlat`), the children jumped over being
skipped here. -/
def scanFlat (e : ExprTerms) (pos : Nat) (rootDepth : Int) :
    Nat → List Nat → List SubEntry → Except Abort (List Nat × List SubEntry)
  | 0, rel, sub => Except.ok (rel, sub)
  | n + 1, rel, sub =>
    match scanChild e rootDepth n with
    | ScanStep.oob => Except.error (Abort.undefined "terms[n] out of bounds")
    | ScanStep.skip => scanFlat e pos rootDepth n rel sub
    | ScanStep.stop => Except.ok (rel, sub)
    | ScanStep.rel =>
      if pos - n ≥ 0xff then Except.error (Abort.TooComplexError "expression too large")
      else if rel.length ≥ 32 then Except.error (Abort.undefined "relpos[32] overrun")
      else scanFlat e pos rootDepth n (rel ++ [pos - n]) sub
    | ScanStep.sub sym neg1 _ =>
      if pos - sym ≥ 0xff ∨ pos - neg1 ≥ 0xff then
        Except.error (Abort.TooComplexError "expression too large")
      else if sub.length ≥ 32 then Except.error (Abort.undefined "subpos[32] overrun")
      else scanFlat e pos rootDepth n rel (sub ++ [⟨pos - sym, pos - neg1, pos - n⟩])

/-- A functor like the distance functors of `Location_util.cpp`: it succeeds
whenever it is handed two locations of one section, and on success it leaves
an integer or a substitution placeholder at the depth of the term. -/
structure Replacing {σ : Type} (env : Env) (func : DistFunc σ) : Prop where
  clean : FailsClean func
  hits : ∀ st t l l2 b1 b2, l.bc = some b1 → l2.bc = some b2 →
    env.getContainer b1 = env.getContainer b2 → (func st t l l2).1 = true
  depth : ∀ st t l l2, (func st t l l2).2.1.m_depth = t.m_depth
  output : ∀ st t l l2, (func st t l l2).1 = true →
    (∃ v, (func st t l l2).2.1.data = TermData.INT v) ∨
    (∃ k, (func st t l l2).2.1.data = TermData.SUBST k)

/-- The pair of an additive and a subtractive term that the matching loop
passes over: different symbols, and a missing label or different sections. -/
def Unmatchable (env : Env) (rel : Option Nat) (relterm subterm : ExprTerm) : Prop :=
  ¬ (rel.isSome ∧ rel = subterm.getSymbol) ∧
  (lookupLoc env rel relterm = LocLookup.external ∨
    ∃ rel_loc, lookupLoc env rel relterm = LocLookup.found rel_loc ∧
      (lookupLoc env subterm.getSymbol subterm = LocLookup.external ∨
        ∃ sub_loc rbc sbc, lookupLoc env subterm.getSymbol subterm = LocLookup.found sub_loc ∧
          rel_loc.bc = some rbc ∧ sub_loc.bc = some sbc ∧
          env.getContainer rbc ≠ env.getContainer sbc))

/-- The term at `x` is a direct operand of the `ADD` at `q`, as the scan loop
started at `q` sees it: non-empty, one level below `q`, with only empty slots
and deeper terms between the two. -/
def ProtectedBy (e : ExprTerms) (q x : Nat) : Prop :=
  x < q ∧ ∃ tq tx, e[q]? = some tq ∧ tq.isOpOf Op.ADD = true ∧ e[x]? = some tx ∧
    tx.isEmpty = false ∧ tx.m_depth = tq.m_depth + 1 ∧
    ∀ m t, x < m → m < q → e[m]? = some t → t.isEmpty = true ∨ tq.m_depth < t.m_depth

/-- A term that a match replaced in place: a direct operand of an `ADD` (not
an `ADD` itself) with an integer or a substitution placeholder of the same
depth in its place. -/
def Replaced (Q : Nat → Prop) (X Y : ExprTerms) (x : Nat) (t : ExprTerm) : Prop :=
  (∃ q, Q q ∧ ProtectedBy X q x) ∧
  (t.isEmpty = false ∧ t.isOpOf Op.ADD = false) ∧
  ∃ t1, Y[x]? = some t1 ∧ t1.m_depth = t.m_depth ∧
    ((∃ v, t1.data = TermData.INT v) ∨ ∃ k, t1.data = TermData.SUBST k)

/-- A term that a match cleared: a child of a `MUL` that was set to the
integer 0, with nothing but empty slots and its sibling between the two. -/
def Cleared (X Y : ExprTerms) (x : Nat) (t : ExprTerm) : Prop :=
  (t.isType (ExprTerm.SYM ||| ExprTerm.LOC) = true ∨ t.data = TermData.INT (-1)) ∧
  Y[x]? = some t.Clear ∧
  ∃ m tm tm1, x < m ∧ X[m]? = some tm ∧ tm.isOpOf Op.MUL = true ∧
    t.m_depth = tm.m_depth + 1 ∧ Y[m]? = some tm1 ∧ tm1.data = TermData.INT 0 ∧
    (∀ y ty, x < y → y < m → X[y]? = some ty → ty.isEmpty = true ∨ ty.isOp = false) ∧
    (∀ y ty, x < y → y < m → Y[y]? = some ty → ty.isEmpty = true)

/-- The terms `Y` are the terms `X` after matches under `ADD` roots that
satisfy `Q`: every term is as it was, replaced, or cleared. -/
structure Edited (Q : Nat → Prop) (X Y : ExprTerms) : Prop where
  len : Y.length = X.length
  point : ∀ x t, X[x]? = some t → Y[x]? = some t ∨ Replaced Q X Y x t ∨ Cleared X Y x t

/-- The scan loop started at `pos` with root depth `d` passes over all the
indices `n, ..., pos - 1`: each holds an empty slot or a term deeper than the
root. -/
def Visible (X : ExprTerms) (pos : Nat) (d : Int) (n : Nat) : Prop :=
  ∀ m t, n ≤ m → m < pos → X[m]? = some t → t.isEmpty = true ∨ d < t.m_depth

/-- The entry `s0` of the scan was matched: its symbol and its -1 are cleared,
its `MUL` is zeroed, and the matching loops no longer touch its span. -/
structure SubDone (X T : ExprTerms) (pos : Nat) (d : Int) (rels : List Nat)
    (S : List SubEntry) (s0 : SubEntry) : Prop where
  ok : SubOK X pos d s0
  out : ∀ q, s0.subroot ≤ q → q ≤ s0.hi → ¬ inFootprint pos rels S (pos - q)
  sym : T[pos - s0.subpos]? = (X[pos - s0.subpos]?).map ExprTerm.Clear
  neg1 : T[pos - s0.subneg1]? = (X[pos - s0.subneg1]?).map ExprTerm.Clear
  root : T[pos - s0.subroot]? = (X[pos - s0.subroot]?).map ExprTerm.Zero
  others : ∀ q, s0.subroot < q → q ≤ s0.hi → q ≠ s0.subpos → q ≠ s0.subneg1 →
    T[pos - q]? = X[pos - q]?

/-- The additive term recorded at `r0` was matched: an integer or a
placeholder stands in its place. -/
structure RelDone (X T : ExprTerms) (pos : Nat) (d : Int) (rels : List Nat)
    (S : List SubEntry) (r0 : Nat) : Prop where
  ok : RelOK X pos d r0
  out : ¬ inFootprint pos rels S (pos - r0)
  term : ∃ t1, T[pos - r0]? = some t1 ∧ t1.m_depth = d + 1 ∧
    ((∃ v, t1.data = TermData.INT v) ∨ ∃ k, t1.data = TermData.SUBST k)

/-- The additive term recorded at `r0` went through the inner loop without a
match: it is as it was, and it matches none of the entries still unmatched. -/
structure RelPassed (env : Env) (X T : ExprTerms) (pos : Nat) (rels : List Nat)
    (S : List SubEntry) (r0 : Nat) : Prop where
  out : ¬ inFootprint pos rels S (pos - r0)
  same : T[pos - r0]? = X[pos - r0]?
  unm : ∀ s ∈ S, s.subpos ≠ 255 → ∃ tr ts, X[pos - r0]? = some tr ∧
    X[pos - s.subpos]? = some ts ∧ Unmatchable env tr.getSymbol tr ts

/-- Invariant of the outer matching loop that relates the terms `T` to the
terms `X` the scan saw. -/
structure RunInv (env : Env) (X : ExprTerms) (pos : Nat) (d : Int) (rels0 : List Nat)
    (subs0 : List SubEntry) (rels : List Nat) (T : ExprTerms) (S : List SubEntry) : Prop where
  inv : MatchInv T pos d rels S
  orig : ∀ x, inFootprint pos rels S x → T[x]? = X[x]?
  span_orig : ∀ s ∈ S, s.subpos ≠ 255 → ∀ q, s.subroot ≤ q → q ≤ s.hi →
    T[pos - q]? = X[pos - q]?
  len : T.length = X.length
  rel_mem : ∀ r ∈ rels, r ∈ rels0
  sub_mem : ∀ s ∈ S, s.subpos ≠ 255 → s ∈ subs0
  changed : ∀ x, T[x]? = X[x]? ∨
    (∃ r0 ∈ rels0, x = pos - r0 ∧ RelDone X T pos d rels S r0) ∨
    (∃ s0 ∈ subs0, SubDone X T pos d rels S s0 ∧
      (x = pos - s0.subpos ∨ x = pos - s0.subneg1 ∨ x = pos - s0.subroot))
  subs : ∀ s0 ∈ subs0, (s0 ∈ S ∧ s0.subpos ≠ 255) ∨ SubDone X T pos d rels S s0
  rels : ∀ r0 ∈ rels0, r0 ∈ rels ∨ RelDone X T pos d rels S r0 ∨
    RelPassed env X T pos rels S r0

/-- Two terms with the same contents (type and value), whatever their depth
fields. -/
def DataEq (a b : ExprTerm) : Prop := a.data = b.data

/-- Two outcomes of a step of `Evaluate` that agree: the same abnormal end,
`return false` on both sides, or related values. -/
def ResEq {α : Type} (R : α → α → Prop) :
    Except Abort (Option α) → Except Abort (Option α) → Prop
  | Except.error a, Except.error b => a = b
  | Except.ok none, Except.ok none => True
  | Except.ok (some x), Except.ok (some y) => R x y
  | _, _ => False

/-- A term of the expression with placeholders against the term of the
expression with integers in their place: the same contents, or a placeholder
whose entry of the substitution array `arr` is the integer on the other side. -/
def TermRel (arr : List ExprTerm) (a b : ExprTerm) : Prop :=
  a.data = b.data ∨
    ∃ k v s, a.data = TermData.SUBST k ∧ b.data = TermData.INT v ∧ arr[k]? = some s ∧
      s.data = TermData.INT v

/-- The outcome of `Evaluate` without the depth field of the result term:
abnormal end, `return false`, or the contents (type and value) of `*result`. -/
def resultValue (r : Except Abort (Option ExprTerm)) : Except Abort (Option TermData) :=
  match r with
  | Except.error a => Except.error a
  | Except.ok none => Except.ok none
  | Except.ok (some t) => Except.ok (some t.data)

/-- The state of the `SubstDistFunctor` after one more call with the
locations `loc`, `loc2`. -/
def SubstState.next (s : SubstState) (loc loc2 : Location) : SubstState :=
  ⟨s.m_subst + 1, s.calls ++ [(s.m_subst, loc, loc2)]⟩

/-- A functor `G` that runs alongside the `SubstDistFunctor`: handed two
locations of one section where the latter leaves the placeholder `k`, it
leaves an integer `v` with `Good k v` at the same depth; `Link` relates the
states of the two functors, and what is `Good` stays so. -/
structure Coupled {τ : Type} (env : Env) (G : DistFunc τ) (Link : SubstState → τ → Prop)
    (Good : SubstState → Nat → Int → Prop) : Prop where
  step : ∀ (s : SubstState) (u : τ) (t : ExprTerm) (loc loc2 : Location) (b1 b2 : Nat),
    Link s u → loc.bc = some b1 → loc2.bc = some b2 →
    env.getContainer b1 = env.getContainer b2 →
    ∃ v u1, G u t loc loc2 = (true, ⟨TermData.INT v, t.m_depth⟩, u1) ∧
      Link (s.next loc loc2) u1 ∧ Good (s.next loc loc2) s.m_subst v
  mono : ∀ (s : SubstState) (loc loc2 : Location) (k : Nat) (v : Int),
    Good s k v → Good (s.next loc loc2) k v

/-- A placeholder and the integer that stands in its place on the other
side. -/
def Twin (good : Nat → Int → Prop) (a b : ExprTerm) : Prop :=
  ∃ k v, a.data = TermData.SUBST k ∧ b.data = TermData.INT v ∧ a.m_depth = b.m_depth ∧ good k v

/-- The terms `TG` are the terms `TF` with integers in the place of some
placeholders, at positions that satisfy `P`. -/
structure Sim (P : Nat → Prop) (good : Nat → Int → Prop) (TF TG : ExprTerms) : Prop where
  len : TG.length = TF.length
  point : ∀ x t, TF[x]? = some t →
    TG[x]? = some t ∨ (P x ∧ ∃ t1, TG[x]? = some t1 ∧ Twin good t t1)

/-- An entry of the substitution array for the integer `v`: `ExprTerm(v)`,
with the default depth 0. -/
def intTerm (v : Int) : ExprTerm := ⟨TermData.INT v, 0⟩

/-- The distances of the pairs the callback of `SubstDist` was called with:
for the call `(k, loc, loc2)` the offset of `loc2` minus the offset of `loc`. -/
def pairDistances (env : Env) (st : SubstState) : List Int :=
  st.calls.map (fun c => (c.2.2.getOffset env : Int) - (c.2.1.getOffset env : Int))

/-- Following the words of the specification, "the k-th matched pair is
replaced by the integer `d[k]`": a functor that, where the `SubstDistFunctor`
leaves the placeholder `k`, leaves the integer `d[k]` at the depth of the term
(0 beyond the end of `d`); its state is the number of pairs so far. -/
def specIntFunctor (d : List Int) : DistFunc Nat :=
  fun k term _ _ => (true, ⟨TermData.INT (d.getD k 0), term.m_depth⟩, k + 1)

/-- Following the words of the specification: the expression in which the
k-th matched pair is replaced by the integer `d[k]`, that is, what `Simplify`
with `TransformDistBase` makes of the expression when the integers of `d` are
put where `SubstDist` puts its placeholders. -/
def specReplacedExpr (env : Env) (d : List Int) (e : ExprTerms) :
    Except (Aborted Nat) (ExprTerms × Nat) :=
  Simplify (TransformDistBase env (specIntFunctor d)) e 0

/-- A term `Evaluate` calculates with: an integer or a float. -/
def Numeric (t : ExprTerm) : Prop :=
  t.getType = ExprTerm.INT ∨ t.getType = ExprTerm.FLOAT

instance (t : ExprTerm) : Decidable (Numeric t) := by
  unfold Numeric; infer_instance

/-- `Forest d n ts`: the terms `ts` are `n` complete subtrees whose roots are
at depth `d`, one after the other, each subtree stored as its children
followed by its root; an operator term with child count `k` is the root of a
subtree with exactly `k` direct children, all at the depth below; empty terms
may stand anywhere. -/
inductive Forest : Int → Nat → ExprTerms → Prop where
  | nil (d : Int) : Forest d 0 []
  | empty {d : Int} {n : Nat} {ts : ExprTerms} (t : ExprTerm) :
      Forest d n ts → t.isEmpty = true → Forest d n (ts ++ [t])
  | leaf {d : Int} {n : Nat} {ts : ExprTerms} (t : ExprTerm) :
      Forest d n ts → t.isEmpty = false → t.isOp = false → t.m_depth = d →
      Forest d (n + 1) (ts ++ [t])
  | node {d : Int} {n k : Nat} {ts cs : ExprTerms} (op : Op) :
      Forest d n ts → Forest (d + 1) k cs →
      Forest d (n + 1) (ts ++ cs ++ [⟨TermData.OP op k, d⟩])

/-- A well-formed expression: the depth tags describe one tree with a single
root, and every operator's child count is the number of its direct children
(so there is at least one non-empty term). -/
def WellFormed (e : ExprTerms) : Prop := ∃ d, Forest d 1 e

/-- The arithmetic never raises an error. -/
def TotalArith (ar : Arith) : Prop :=
  (∀ op a b, ar.Calc op a b ≠ none) ∧ (∀ op a, ar.CalcUnary op a ≠ none)

/-- Every entry of the substitution array is an integer or a float. -/
def SubstNumeric (subst : Option (List ExprTerm)) : Prop :=
  ∀ arr, subst = some arr → ∀ s ∈ arr, Numeric s

/-- Every numeric operator of the expression has a child, and one with a
single child is unary. -/
def OpsApplicable (e : ExprTerms) : Prop :=
  ∀ t ∈ e, ∀ op n, t.data = TermData.OP op n → op < Op.NONNUM →
    n ≠ 0 ∧ (n = 1 → isUnary op = true)

/-- The abnormal ends that `Evaluate` can come to on a well-formed expression:
the arithmetic raises an error; the assertion on a numeric operator with one
child that is not unary fails; the assertion on a substitution that is neither
integer nor float fails; a numeric operator has no child, so that the first
child is read beyond the stack. -/
def EarlyEnd (ar : Arith) (subst : Option (List ExprTerm)) (ts : ExprTerms) (a : Abort) : Prop :=
  (a = Abort.ArithError ∧ ¬ TotalArith ar) ∨
  (a = Abort.assertion "single-term subexpression is non-unary" ∧
    ∃ t ∈ ts, ∃ op, t.data = TermData.OP op 1 ∧ op < Op.NONNUM ∧ isUnary op = false) ∨
  (a = Abort.assertion "substitution must be integer or float" ∧ ¬ SubstNumeric subst) ∨
  (a = Abort.undefined "stack[resultindex] out of bounds" ∧
    ∃ t ∈ ts, ∃ op, t.data = TermData.OP op 0 ∧ op < Op.NONNUM)

/-- The message of the first assertion of `Evaluate`. -/
def notEnoughTerms : Abort := Abort.assertion "not enough terms to evaluate op"

/-- The message of the last assertion of `Evaluate`. -/
def notFullyEvaluated : Abort := Abort.assertion "did not fully evaluate expression"

/-- `Evaluate` cannot get past the term `t` that follows the terms `pre` in
`e`: it never returns true; it returns false, unless the evaluation of the
terms before `t` ends abnormally in one of the ways of `EarlyEnd`; whenever
the loop comes to `t`, or returns false before, `Evaluate` returns false; and
it returns false when the arithmetic never raises an error, the
substitutions are numeric and every numeric operator before `t` has a child
and is unary when that is its only one. -/
def FalseAt (env : Env) (ar : Arith) (subst : Option (List ExprTerm)) (vl zr : Bool)
    (e pre : ExprTerms) (t : ExprTerm) : Prop :=
  (∀ r, Evaluate env ar e subst vl zr ≠ Except.ok (some r)) ∧
  (Evaluate env ar e subst vl zr = Except.ok none ∨
    ∃ a, Evaluate env ar e subst vl zr = Except.error a ∧
      evalLoop env ar subst vl zr pre [] = Except.error a ∧ EarlyEnd ar subst pre a) ∧
  (∀ st, evalLoop env ar subst vl zr pre [] = Except.ok (some st) →
    evalTerm env ar subst vl zr st t = Except.ok none ∧
    Evaluate env ar e subst vl zr = Except.ok none) ∧
  (evalLoop env ar subst vl zr pre [] = Except.ok none →
    Evaluate env ar e subst vl zr = Except.ok none) ∧
  (TotalArith ar → SubstNumeric subst → OpsApplicable pre →
    Evaluate env ar e subst vl zr = Except.ok none)

/-- The warning of `apply_prefixes_common` on a second LOCK or REP prefix. -/
def multipleLockRep : WarnClass × String :=
  (WarnClass.WARN_GENERAL, "multiple LOCK or REP prefixes, using leftmost")

/-- The LOCK/REP prefixes of a prefix list, in the order of the list. -/
def lockReps (prefixes : List X86Prefix) : List X86Prefix :=
  prefixes.filter (fun p => p.type = PrefixType.LOCKREP)

/-- The lines `ls`, each followed by a newline. -/
def unlines (ls : List (List Char)) : List Char :=
  ls.flatMap (fun l => l ++ ['\n'])

/-- The left fold `((v1 op v2) op v3) ... op vn` with `IntNum::Calc`: `none`
when a calculation raises an error. -/
def foldCalc (ar : Arith) (op : Op) : Int → List Int → Option Int
  | v, [] => some v
  | v, w :: ws =>
    match ar.Calc op v w with
    | some r => foldCalc ar op r ws
    | none => none

/-- Every non-empty term of `xs` is followed, in `xs`, by a non-empty term at
depth `d` or above it (or is one itself): the scan loop of
`TransformDistBase` for a root at depth `d` does not pass beyond it. -/
def ClosedAt (d : Int) (xs : ExprTerms) : Prop :=
  ∀ pre t post, xs = pre ++ t :: post → t.isEmpty = false →
    ∃ u ∈ t :: post, u.isEmpty = false ∧ u.m_depth ≤ d

/-- An integer expression, with the substitutions it is evaluated with: no
term of the expression and no entry of the substitution array is a float. -/
def IntegerExpr (e : ExprTerms) (subst : Option (List ExprTerm)) : Prop :=
  (∀ t ∈ e, ∀ f, t.data ≠ TermData.FLOAT f) ∧
  ∀ arr, subst = some arr → ∀ s ∈ arr, ∀ f, s.data ≠ TermData.FLOAT f

/-- A stack of integer values. -/
def IntStack (st : List ExprTerm) : Prop := ∀ x ∈ st, ∃ a, x.data = TermData.INT a

/-- The terms `ts`, complete subtrees with roots at depth `d`, evaluate to
the integers `ws`, one for each subtree in order, whatever the stack the loop
of `Evaluate` (with the value of locations allowed) comes to them with. -/
def Yields (env : Env) (ar : Arith) (subst : Option (List ExprTerm)) (zr : Bool) (d : Int)
    (ts : ExprTerms) (ws : List Int) : Prop :=
  Forest d ws.length ts ∧
  ∃ vs : List ExprTerm, vs.map (fun x => x.data) = ws.map TermData.INT ∧
    ∀ s, evalLoop env ar subst true zr ts s = Except.ok (some (s ++ vs))

/-- The terms `T` around an operator `root`: the terms `before`, then the
complete subtrees of the children of `root`, which evaluate to the integers
`ws`, then `root` and the terms `after`. -/
def Block (env : Env) (ar : Arith) (subst : Option (List ExprTerm)) (zr : Bool)
    (before : ExprTerms) (root : ExprTerm) (after : ExprTerms) (T : ExprTerms)
    (ws : List Int) : Prop :=
  ∃ B, T = before ++ B ++ root :: after ∧ Yields env ar subst zr (root.m_depth + 1) B ws

/-- A non-empty term at depth `d`: among complete subtrees with roots at
depth `d`, one of the roots. -/
def isRootAt (d : Int) (t : ExprTerm) : Bool := !t.isEmpty && decide (t.m_depth = d)

/-! ## Basic facts about terms -/

theorem isEmpty_eq (t : ExprTerm) :
    t.isEmpty = (match t.data with | TermData.NONE => true | _ => false) := by
  cases t with | mk data d => cases data <;> rfl

theorem isType_SYM_LOC_eq (t : ExprTerm) :
    t.isType (ExprTerm.SYM ||| ExprTerm.LOC)
      = (match t.data with | TermData.SYM _ => true | TermData.LOC _ => true | _ => false) := by
  cases t with
  | mk data d =>
    cases data <;> simp [ExprTerm.isType, ExprTerm.getType, ExprTerm.NONE, ExprTerm.REG,
      ExprTerm.INT, ExprTerm.SUBST, ExprTerm.FLOAT, ExprTerm.SYM, ExprTerm.LOC, ExprTerm.OP] <;>
      decide

theorem isType_SYM_eq (t : ExprTerm) :
    t.isType ExprTerm.SYM = (match t.data with | TermData.SYM _ => true | _ => false) := by
  cases t with
  | mk data d =>
    cases data <;> simp [ExprTerm.isType, ExprTerm.getType, ExprTerm.NONE, ExprTerm.REG,
      ExprTerm.INT, ExprTerm.SUBST, ExprTerm.FLOAT, ExprTerm.SYM, ExprTerm.LOC, ExprTerm.OP] <;>
      decide

theorem isType_LOC_eq (t : ExprTerm) :
    t.isType ExprTerm.LOC = (match t.data with | TermData.LOC _ => true | _ => false) := by
  cases t with
  | mk data d =>
    cases data <;> simp [ExprTerm.isType, ExprTerm.getType, ExprTerm.NONE, ExprTerm.REG,
      ExprTerm.INT, ExprTerm.SUBST, ExprTerm.FLOAT, ExprTerm.SYM, ExprTerm.LOC, ExprTerm.OP] <;>
      decide

theorem isType_INT_FLOAT_of (t : ExprTerm)
    (h : t.getType = ExprTerm.INT ∨ t.getType = ExprTerm.FLOAT) :
    t.isType (ExprTerm.INT ||| ExprTerm.FLOAT) = true := by
  rcases h with h | h <;> simp [ExprTerm.isType, h] <;> decide

/-! ## TransformDistBase on `A - B` -/

theorem scanTerms_exprSub (A B : Nat) (d : Int) :
    scanTerms (exprSub A B d) 4 d 4 4 [] [] = Except.ok ([4], [⟨3, 2, 1⟩]) := by
  have e1 : d + 2 = d + 1 + 1 := by ring
  have h1 : ¬ (d + 1 ≤ d) := by omega
  have h2 : ¬ (d + 1 + 1 ≤ d) := by omega
  have h3 : ¬ (d + 1 + 1 = d + 1) := by omega
  simp [scanTerms, scanChild, exprSub, isNeg1Sym, prevNonEmpty, isEmpty_eq, isType_SYM_LOC_eq,
    isType_SYM_eq, isType_LOC_eq, ExprTerm.isOpOf, ExprTerm.getNumChild, ExprTerm.getIntNum,
    e1, h1, h2, h3]

theorem TransformDistBase_exprSub {σ : Type} (env : Env) (func : DistFunc σ) (st : σ)
    (A B : Nat) (d : Int) (locA locB : Location) (ba bb : Nat) (pos : Int)
    (hpos : pos = 4 ∨ pos = -1)
    (hAB : A ≠ B) (hA : env.getLabel A = some locA) (hB : env.getLabel B = some locB)
    (hba : locA.bc = some ba) (hbb : locB.bc = some bb)
    (hsec : env.getContainer ba = env.getContainer bb) :
    TransformDistBase env func (exprSub A B d) pos st =
      match func st ⟨TermData.SYM A, d + 1⟩ locB locA with
      | (true, t, st1) =>
        Except.ok ([t, ⟨TermData.NONE, d + 2⟩, ⟨TermData.NONE, d + 2⟩, ⟨TermData.INT 0, d + 1⟩,
          ⟨TermData.OP Op.ADD 2, d⟩], st1)
      | (false, t, st1) =>
        Except.ok ([t, ⟨TermData.SYM B, d + 2⟩, ⟨TermData.INT (-1), d + 2⟩,
          ⟨TermData.OP Op.MUL 2, d + 1⟩, ⟨TermData.OP Op.ADD 2, d⟩], st1) := by
  have hs := scanTerms_exprSub A B d
  have hp : (if pos < 0 then pos + ((exprSub A B d).length : Int) else pos) = 4 := by
    rcases hpos with h | h <;> subst h <;> simp [exprSub]
  unfold TransformDistBase
  simp only [hp]
  simp only [exprSub] at hs ⊢
  simp [hs, ExprTerm.isOpOf, ExprTerm.getNumChild, matchRels, matchSubs, matchPair,
    ExprTerm.getSymbol, hAB, lookupLoc, hA, hB, hba, hbb, hsec]
  rcases hf : func st ⟨TermData.SYM A, d + 1⟩ locB locA with ⟨ok, t, st1⟩
  cases ok <;> simp [matchSubs, clearSub, updateAt, ExprTerm.Clear, ExprTerm.Zero]

theorem TransformDistBase_nonADD {σ : Type} (env : Env) (func : DistFunc σ) (e : ExprTerms)
    (n : Nat) (st : σ) (root : ExprTerm) (h : e[n]? = some root)
    (hr : root.isOpOf Op.ADD = false) :
    TransformDistBase env func e (n : Int) st = Except.ok (e, st) := by
  unfold TransformDistBase
  have h0 : ¬ ((n : Int) < 0) := by omega
  simp [h0, h, hr]

/-! ## The child-count guard is the only source of its error -/

theorem scanTerms_error_ne (e : ExprTerms) (pos : Nat) (d : Int) (fuel n : Nat)
    (rel : List Nat) (sub : List SubEntry) (a : Abort)
    (h : scanTerms e pos d fuel n rel sub = Except.error a) : a ≠ tooManyAddTerms := by
  induction fuel generalizing n rel sub with
  | zero =>
    cases n with
    | zero => simp [scanTerms] at h
    | succ n => simp [scanTerms] at h; subst h; simp [tooManyAddTerms]
  | succ f ih =>
    cases n with
    | zero => simp [scanTerms] at h
    | succ n =>
      simp only [scanTerms] at h
      repeat' split at h
      all_goals first
        | exact ih _ _ _ h
        | (cases h; simp [tooManyAddTerms])
        | cases h

theorem matchPair_abort_ne {σ : Type} (env : Env) (func : DistFunc σ) (pos relIdx : Nat)
    (rel : Option Nat) (s : SubEntry) (terms : ExprTerms) (st : σ) (a : Aborted σ)
    (h : matchPair env func pos relIdx rel s terms st = PairResult.abort a) :
    a.1 ≠ tooManyAddTerms := by
  simp only [matchPair] at h
  repeat' split at h
  all_goals first
    | (cases h; simp [tooManyAddTerms])
    | cases h

theorem matchSubs_error_ne {σ : Type} (env : Env) (func : DistFunc σ) (pos relIdx : Nat)
    (rel : Option Nat) (done todo : List SubEntry) (terms : ExprTerms) (st : σ)
    (a : Aborted σ)
    (h : matchSubs env func pos relIdx rel done todo terms st = Except.error a) :
    a.1 ≠ tooManyAddTerms := by
  induction todo generalizing done terms st with
  | nil => simp [matchSubs] at h
  | cons s todo ih =>
    simp only [matchSubs] at h
    split at h
    · exact ih _ _ _ h
    · split at h
      · exact ih _ _ _ h
      · cases h
      · rename_i a1 hp
        cases h
        exact matchPair_abort_ne _ _ _ _ _ _ _ _ _ hp

theorem matchRels_error_ne {σ : Type} (env : Env) (func : DistFunc σ) (pos : Nat)
    (rels : List Nat) (terms : ExprTerms) (subs : List SubEntry) (st : σ) (a : Aborted σ)
    (h : matchRels env func pos rels terms subs st = Except.error a) :
    a.1 ≠ tooManyAddTerms := by
  induction rels generalizing terms subs st with
  | nil => simp [matchRels] at h
  | cons r rels ih =>
    simp only [matchRels] at h
    split at h
    · simp at h; subst h; simp [tooManyAddTerms]
    · split at h
      · rename_i a1 hm
        simp at h; subst h
        exact matchSubs_error_ne _ _ _ _ _ _ _ _ _ _ hm
      · exact ih _ _ _ h

theorem matchPair_unmatched {σ : Type} (env : Env) (func : DistFunc σ) (pos relIdx : Nat)
    (s : SubEntry) (terms : ExprTerms) (st : σ) (relterm subterm : ExprTerm) (A B : Nat)
    (hrel : terms[relIdx]? = some relterm) (hsub : terms[pos - s.subpos]? = some subterm)
    (hB : subterm.data = TermData.SYM B) (hAB : A ≠ B)
    (h : env.getLabel A = none ∨ env.getLabel B = none ∨
      ∃ la lb ba bb, env.getLabel A = some la ∧ env.getLabel B = some lb ∧ la.bc = some ba ∧
        lb.bc = some bb ∧ env.getContainer ba ≠ env.getContainer bb) :
    matchPair env func pos relIdx (some A) s terms st = PairResult.next terms st := by
  have hs : subterm.getSymbol = some B := by simp [ExprTerm.getSymbol, hB]
  simp only [matchPair, hrel, hsub, hs]
  rcases h with h | h | ⟨la, lb, ba, bb, h1, h2, h3, h4, h5⟩
  · simp [hAB, lookupLoc, h]
  · cases hA : env.getLabel A <;> simp [hAB, lookupLoc, h, hA]
  · simp [hAB, lookupLoc, h1, h2, h3, h4, h5]

theorem matchPair_same {σ : Type} (env : Env) (func : DistFunc σ) (pos relIdx : Nat)
    (s : SubEntry) (terms : ExprTerms) (st : σ) (relterm subterm : ExprTerm) (A : Nat)
    (hrel : terms[relIdx]? = some relterm) (hsub : terms[pos - s.subpos]? = some subterm)
    (hA : subterm.data = TermData.SYM A) :
    matchPair env func pos relIdx (some A) s terms st
      = PairResult.matched (clearSub (terms.set relIdx relterm.Zero) pos s) st := by
  have hs : subterm.getSymbol = some A := by simp [ExprTerm.getSymbol, hA]
  simp [matchPair, hrel, hsub, hs]

theorem TransformDistBase_exprSub_unmatched {σ : Type} (env : Env) (func : DistFunc σ) (st : σ)
    (A B : Nat) (d : Int) (pos : Int) (hpos : pos = 4 ∨ pos = -1) (hAB : A ≠ B)
    (h : env.getLabel A = none ∨ env.getLabel B = none ∨
      ∃ la lb ba bb, env.getLabel A = some la ∧ env.getLabel B = some lb ∧ la.bc = some ba ∧
        lb.bc = some bb ∧ env.getContainer ba ≠ env.getContainer bb) :
    TransformDistBase env func (exprSub A B d) pos st = Except.ok (exprSub A B d, st) := by
  have hs := scanTerms_exprSub A B d
  have hp : (if pos < 0 then pos + ((exprSub A B d).length : Int) else pos) = 4 := by
    rcases hpos with h | h <;> subst h <;> simp [exprSub]
  have hm := matchPair_unmatched env func 4 0 ⟨3, 2, 1⟩ (exprSub A B d) st
    ⟨TermData.SYM A, d + 1⟩ ⟨TermData.SYM B, d + 2⟩ A B rfl rfl rfl hAB h
  unfold TransformDistBase
  simp only [hp]
  simp only [exprSub] at hs hm ⊢
  simp [hs, ExprTerm.isOpOf, ExprTerm.getNumChild, matchRels, matchSubs, ExprTerm.getSymbol, hm]

theorem TransformDistBase_exprSub_same {σ : Type} (env : Env) (func : DistFunc σ) (st : σ)
    (A : Nat) (d : Int) (pos : Int) (hpos : pos = 4 ∨ pos = -1) :
    TransformDistBase env func (exprSub A A d) pos st
      = Except.ok ([⟨TermData.INT 0, d + 1⟩, ⟨TermData.NONE, d + 2⟩, ⟨TermData.NONE, d + 2⟩,
          ⟨TermData.INT 0, d + 1⟩, ⟨TermData.OP Op.ADD 2, d⟩], st) := by
  have hs := scanTerms_exprSub A A d
  have hp : (if pos < 0 then pos + ((exprSub A A d).length : Int) else pos) = 4 := by
    rcases hpos with h | h <;> subst h <;> simp [exprSub]
  have hm := matchPair_same env func 4 0 ⟨3, 2, 1⟩ (exprSub A A d) st
    ⟨TermData.SYM A, d + 1⟩ ⟨TermData.SYM A, d + 2⟩ A rfl rfl rfl
  unfold TransformDistBase
  simp only [hp]
  simp only [exprSub] at hs hm ⊢
  simp [hs, ExprTerm.isOpOf, ExprTerm.getNumChild, matchRels, matchSubs, ExprTerm.getSymbol, hm,
    clearSub, updateAt, ExprTerm.Clear, ExprTerm.Zero]

theorem prevNonEmpty_some {e : ExprTerms} {k a : Nat} (h : prevNonEmpty e k = some a) :
    a < k ∧ (∃ t, e[a]? = some t ∧ t.isEmpty = false) ∧
      ∀ m, a < m → m < k → ∀ t, e[m]? = some t → t.isEmpty = true := by
  induction k with
  | zero => simp [prevNonEmpty] at h
  | succ k ih =>
    simp only [prevNonEmpty] at h
    split at h
    · rename_i t ht
      split at h
      · rename_i hemp
        obtain ⟨h1, h2, h3⟩ := ih h
        refine ⟨by omega, h2, ?_⟩
        intro m hm1 hm2 t' ht'
        by_cases hmk : m = k
        · subst hmk; rw [ht] at ht'; cases ht'; exact hemp
        · exact h3 m hm1 (by omega) t' ht'
      · rename_i hemp
        cases h
        refine ⟨by omega, ⟨t, ht, by simpa using hemp⟩, ?_⟩
        intro m hm1 hm2; omega
    · rename_i ht
      obtain ⟨h1, h2, h3⟩ := ih h
      refine ⟨by omega, h2, ?_⟩
      intro m hm1 hm2 t' ht'
      by_cases hmk : m = k
      · subst hmk; rw [ht] at ht'; cases ht'
      · exact h3 m hm1 (by omega) t' ht'

theorem isType_SYM_LOC_of_or (t : ExprTerm)
    (h : t.isType ExprTerm.SYM = true ∨ t.isType ExprTerm.LOC = true) :
    t.isType (ExprTerm.SYM ||| ExprTerm.LOC) = true := by
  rw [isType_SYM_LOC_eq]
  rw [isType_SYM_eq, isType_LOC_eq] at h
  cases t with
  | mk data d => cases data <;> simp at h ⊢

theorem getIntNum_eq_some {t : ExprTerm} {v : Int} (h : t.getIntNum = some v) :
    t.data = TermData.INT v := by
  cases t with
  | mk data d => cases data <;> simp [ExprTerm.getIntNum] at h ⊢; exact h

theorem isNeg1Sym_some {e : ExprTerms} {n sym neg1 n1 : Nat}
    (h : isNeg1Sym e n true = some (sym, neg1, n1)) : Neg1SymOK e n sym neg1 n1 := by
  simp only [isNeg1Sym] at h
  split at h
  · cases h
  · rename_i se hse
    split at h
    · rename_i hmul
      split at h
      · cases h
      · rename_i a ha
        split at h
        · cases h
        · rename_i b hb
          obtain ⟨ha1, ⟨ta', hta', hane⟩, ha3⟩ := prevNonEmpty_some ha
          obtain ⟨hb1, ⟨tb', htb', hbne⟩, hb3⟩ := prevNonEmpty_some hb
          have hoth : ∀ m, b ≤ m → m < n → m ≠ a → m ≠ b → ∀ t, e[m]? = some t →
              t.isEmpty = true := by
            intro m h1 h2 h3 h4 t ht
            by_cases hma : a < m
            · exact ha3 m hma h2 t ht
            · exact hb3 m (by omega) (by omega) t ht
          split at h
          · rename_i ta tb hta htb
            split at h
            · rename_i hd
              split at h
              · rename_i hc
                cases h
                refine ⟨by omega, by omega, by omega, le_refl _, by omega, ⟨se, hse, hmul.1, hmul.2,
                  ⟨tb, htb, ?_, hd.2⟩, ⟨ta, hta, getIntNum_eq_some hc.1, hd.1⟩⟩, ?_⟩
                · apply isType_SYM_LOC_of_or
                  rcases hc.2 with h | h
                  · exact Or.inl h
                  · exact Or.inr h.2
                · intro m h1 h2 h3 h4; exact hoth m h1 h2 h4 h3
              · split at h
                · rename_i hc
                  cases h
                  refine ⟨by omega, by omega, by omega, by omega, le_refl _, ⟨se, hse, hmul.1,
                    hmul.2, ⟨ta, hta, ?_, hd.1⟩, ⟨tb, htb, getIntNum_eq_some hc.1, hd.2⟩⟩, ?_⟩
                  · apply isType_SYM_LOC_of_or
                    rcases hc.2 with h | h
                    · exact Or.inl h
                    · exact Or.inr h.2
                  · intro m h1 h2 h3 h4; exact hoth m h1 h2 h3 h4
                · cases h
            · cases h
          · cases h
    · cases h

theorem ScanInv.mono {e : ExprTerms} {pos : Nat} {d : Int} {b b' : Nat} {rel : List Nat}
    {sub : List SubEntry} (h : ScanInv e pos d b rel sub) (hb : b ≤ b') :
    ScanInv e pos d b' rel sub :=
  ⟨fun r hr => ⟨(h.rel_ok r hr).1, le_trans (h.rel_ok r hr).2 hb⟩,
    fun s hs => ⟨(h.sub_ok s hs).1, le_trans (h.sub_ok s hs).2 hb⟩,
    h.rel_sorted, h.sub_sorted, h.cross⟩

theorem scanChild_rel {e : ExprTerms} {d : Int} {n : Nat} (h : scanChild e d n = ScanStep.rel) :
    ∃ t, e[n]? = some t ∧ t.isType (ExprTerm.SYM ||| ExprTerm.LOC) = true ∧ t.m_depth = d + 1 := by
  simp only [scanChild] at h
  split at h
  · cases h
  · rename_i child hc
    repeat' split at h
    all_goals cases h
    rename_i h1 h2 h3 h4
    exact ⟨child, hc, h4, by simpa using h3⟩

theorem scanChild_sub {e : ExprTerms} {d : Int} {n sym neg1 n1 : Nat}
    (h : scanChild e d n = ScanStep.sub sym neg1 n1) :
    Neg1SymOK e n sym neg1 n1 ∧ ∃ t, e[n]? = some t ∧ t.m_depth = d + 1 := by
  simp only [scanChild] at h
  split at h
  · cases h
  · rename_i child hc
    repeat' split at h
    all_goals cases h
    rename_i h1 h2 h3 h4 x hx
    exact ⟨isNeg1Sym_some hx, child, hc, by simpa using h3⟩

theorem scanTerms_inv {e : ExprTerms} {pos : Nat} {d : Int} (fuel n1 : Nat) (rel : List Nat)
    (sub : List SubEntry) (rels : List Nat) (subs : List SubEntry)
    (hn : n1 ≤ pos) (hinv : ScanInv e pos d (pos - n1) rel sub)
    (h : scanTerms e pos d fuel n1 rel sub = Except.ok (rels, subs)) :
    ScanInv e pos d pos rels subs := by
  induction fuel generalizing n1 rel sub with
  | zero =>
    cases n1 with
    | zero => simp [scanTerms] at h; rw [← h.1, ← h.2]; exact hinv.mono (by omega)
    | succ n => simp [scanTerms] at h
  | succ f ih =>
    cases n1 with
    | zero => simp [scanTerms] at h; rw [← h.1, ← h.2]; exact hinv.mono (by omega)
    | succ n =>
      simp only [scanTerms] at h
      split at h
      · cases h
      · exact ih n rel sub (by omega) (hinv.mono (by omega)) h
      · simp at h; rw [← h.1, ← h.2]; exact hinv.mono (by omega)
      · rename_i hsc
        split at h
        · cases h
        · split at h
          · cases h
          · rename_i hlt hlen
            refine ih n _ sub (by omega) ?_ h
            obtain ⟨t, ht, hty, hdep⟩ := scanChild_rel hsc
            have hr : RelOK e pos d (pos - n) :=
              ⟨by omega, by omega, by omega, ⟨t, by rw [show pos - (pos - n) = n by omega]; exact ht,
                hty, hdep⟩⟩
            refine ⟨?_, ?_, ?_, hinv.sub_sorted, ?_⟩
            · intro r hr'
              rcases List.mem_append.1 hr' with h1 | h1
              · exact ⟨(hinv.rel_ok r h1).1, by have := (hinv.rel_ok r h1).2; omega⟩
              · simp at h1; subst h1; exact ⟨hr, le_refl _⟩
            · intro s hs
              exact ⟨(hinv.sub_ok s hs).1, by have := (hinv.sub_ok s hs).2; omega⟩
            · rw [List.pairwise_append]
              refine ⟨hinv.rel_sorted, by simp, ?_⟩
              intro a ha b hb
              simp at hb; subst hb
              have := (hinv.rel_ok a ha).2; omega
            · intro r hr' s hs
              rcases List.mem_append.1 hr' with h1 | h1
              · exact hinv.cross r h1 s hs
              · simp at h1; subst h1
                right; have := (hinv.sub_ok s hs).2; omega
      · rename_i sym neg1 n1' hsc
        split at h
        · cases h
        · split at h
          · cases h
          · rename_i hlt hlen
            obtain ⟨hok, t, ht, hdep⟩ := scanChild_sub hsc
            have hsl := hok.sym_lt
            have hnl := hok.neg1_lt
            have h1s := hok.n1_le_sym
            have h1n := hok.n1_le_neg1
            have hne := hok.ne
            refine ih n1' rel _ (by omega) ?_ h
            obtain ⟨se, hse, hmul, hnc, ⟨ts, hts, htsty, htsd⟩, ⟨tn, htn, htnd, htndep⟩⟩ := hok.root
            rw [ht] at hse; cases hse
            have hs : SubOK e pos d ⟨pos - sym, pos - neg1, pos - n⟩ := by
              refine ⟨by simp; omega, by simp; omega, by simp; omega, by simp,
                by simp, by simp; omega, by simp; omega, by simp; omega, ?_, ?_, ?_, ?_⟩
              · exact ⟨t, by simp; rw [show pos - (pos - n) = n by omega]; exact ht, hmul, hnc, hdep⟩
              · exact ⟨ts, by simp; rw [show pos - (pos - sym) = sym by omega]; exact hts, htsty,
                  by rw [htsd, hdep]; ring⟩
              · exact ⟨tn, by simp; rw [show pos - (pos - neg1) = neg1 by omega]; exact htn, htnd,
                  by rw [htndep, hdep]; ring⟩
              · intro r hr1 hr2 hr3 hr4 t' ht'
                simp [SubEntry.hi] at hr1 hr2 hr3 hr4
                refine hok.others (pos - r) (by omega) (by omega) (by omega) (by omega) t' ht'
            have hhi : (⟨pos - sym, pos - neg1, pos - n⟩ : SubEntry).hi ≤ pos - n1' := by
              simp [SubEntry.hi]; omega
            refine ⟨?_, ?_, hinv.rel_sorted, ?_, ?_⟩
            · intro r hr'
              exact ⟨(hinv.rel_ok r hr').1, by have := (hinv.rel_ok r hr').2; omega⟩
            · intro s hs'
              rcases List.mem_append.1 hs' with h1 | h1
              · exact ⟨(hinv.sub_ok s h1).1, by have := (hinv.sub_ok s h1).2; omega⟩
              · simp at h1; subst h1; exact ⟨hs, hhi⟩
            · rw [List.pairwise_append]
              refine ⟨hinv.sub_sorted, by simp, ?_⟩
              intro a ha b hb
              simp at hb; subst hb
              have := (hinv.sub_ok a ha).2; simp; omega
            · intro r hr' s hs'
              rcases List.mem_append.1 hs' with h1 | h1
              · exact hinv.cross r hr' s h1
              · simp at h1; subst h1
                left; have := (hinv.rel_ok r hr').2; simp; omega

theorem set_self {α : Type} (l : List α) (i : Nat) (a : α) (h : l[i]? = some a) :
    l.set i a = l := by
  apply List.ext_getElem?
  intro j
  by_cases hij : i = j
  · subst hij
    rw [h]
    have hl : i < l.length := by
      by_contra hc
      rw [List.getElem?_eq_none (by omega)] at h
      cases h
    simp [List.getElem?_set, hl]
  · simp [List.getElem?_set, hij]

theorem CalcDistFunctor_failsClean (env : Env) : FailsClean (CalcDistFunctor env) := by
  intro st t l l2 h
  simp only [CalcDistFunctor] at h ⊢
  split at h
  · rfl
  · simp at h

theorem SubstDistFunctor_failsClean : FailsClean SubstDistFunctor := by
  intro st t l l2 h
  simp [SubstDistFunctor] at h

theorem matchPair_next {σ : Type} {env : Env} {func : DistFunc σ} (hf : FailsClean func)
    {pos relIdx : Nat} {rel : Option Nat} {s : SubEntry} {terms terms1 : ExprTerms} {st st1 : σ}
    (h : matchPair env func pos relIdx rel s terms st = PairResult.next terms1 st1) :
    terms1 = terms ∧ st1 = st := by
  simp only [matchPair] at h
  split at h
  · rename_i relterm subterm hrel hsub
    split at h
    · cases h
    · split at h
      · cases h
      · cases h; exact ⟨rfl, rfl⟩
      · split at h
        · cases h
        · cases h; exact ⟨rfl, rfl⟩
        · split at h
          · split at h
            · cases h; exact ⟨rfl, rfl⟩
            · split at h
              · cases h
              · rename_i t1 s1 hfun
                cases h
                have := hf _ _ _ _ (by rw [hfun])
                rw [hfun] at this
                simp at this
                obtain ⟨h1, h2⟩ := this
                subst h1; subst h2
                exact ⟨set_self _ _ _ hrel, rfl⟩
          · cases h
  · cases h

theorem matchPair_matched {σ : Type} {env : Env} {func : DistFunc σ}
    {pos relIdx : Nat} {rel : Option Nat} {s : SubEntry} {terms terms1 : ExprTerms} {st st1 : σ}
    (h : matchPair env func pos relIdx rel s terms st = PairResult.matched terms1 st1) :
    ∃ relterm subterm t, terms[relIdx]? = some relterm ∧ terms[pos - s.subpos]? = some subterm ∧
      terms1 = clearSub (terms.set relIdx t) pos s ∧
      MatchedBy env func rel relterm subterm st t st1 := by
  simp only [matchPair] at h
  split at h
  · rename_i relterm subterm hrel hsub
    split at h
    · rename_i hsame
      cases h
      exact ⟨relterm, subterm, _, hrel, hsub, rfl, Or.inl ⟨hsame.1, hsame.2, rfl, rfl⟩⟩
    · rename_i hsame
      split at h
      · cases h
      · cases h
      · rename_i rel_loc hrl
        split at h
        · cases h
        · cases h
        · rename_i sub_loc hsl
          split at h
          · rename_i rbc sbc hrb hsb
            split at h
            · cases h
            · rename_i hcont
              split at h
              · rename_i t1 s1 hfun
                cases h
                exact ⟨relterm, subterm, _, hrel, hsub, rfl, Or.inr ⟨hsame, rel_loc, sub_loc, rbc,
                  sbc, hrl, hsl, hrb, hsb, by simpa using hcont, hfun⟩⟩
              · cases h
          · cases h
  · cases h

theorem updateAt_getElem? (l : ExprTerms) (i : Nat) (f : ExprTerm → ExprTerm) (x : Nat) :
    (updateAt l i f)[x]? = if x = i then l[i]?.map f else l[x]? := by
  unfold updateAt
  split
  · rename_i t ht
    by_cases hx : x = i
    · subst hx
      have hl : x < l.length := by
        by_contra hc
        rw [List.getElem?_eq_none (by omega)] at ht
        cases ht
      simp [List.getElem?_set, hl, ht]
    · simp [List.getElem?_set, hx, Ne.symm hx]
  · rename_i ht
    by_cases hx : x = i
    · subst hx; simp [ht]
    · simp [hx]

theorem updateAt_length (l : ExprTerms) (i : Nat) (f : ExprTerm → ExprTerm) :
    (updateAt l i f).length = l.length := by
  unfold updateAt
  split <;> simp

theorem clearSub_length (terms : ExprTerms) (pos : Nat) (s : SubEntry) :
    (clearSub terms pos s).length = terms.length := by
  simp [clearSub, updateAt_length]

theorem clearSub_getElem? (terms : ExprTerms) (pos : Nat) (s : SubEntry) (x : Nat) :
    (clearSub terms pos s)[x]? =
      if x = pos - s.subroot then
        (if pos - s.subroot = pos - s.subneg1 then
          (if pos - s.subneg1 = pos - s.subpos then (terms[pos - s.subpos]?.map ExprTerm.Clear)
            else terms[pos - s.subneg1]?).map ExprTerm.Clear
         else if pos - s.subroot = pos - s.subpos then terms[pos - s.subpos]?.map ExprTerm.Clear
         else terms[pos - s.subroot]?).map ExprTerm.Zero
      else if x = pos - s.subneg1 then
        (if pos - s.subneg1 = pos - s.subpos then terms[pos - s.subpos]?.map ExprTerm.Clear
          else terms[pos - s.subneg1]?).map ExprTerm.Clear
      else if x = pos - s.subpos then terms[pos - s.subpos]?.map ExprTerm.Clear
      else terms[x]? := by
  simp only [clearSub, updateAt_getElem?]

/-- Pointwise description of `clearSub` when the three positions differ. -/
theorem clearSub_spec (terms : ExprTerms) (pos : Nat) (s : SubEntry)
    (h1 : pos - s.subroot ≠ pos - s.subneg1) (h2 : pos - s.subroot ≠ pos - s.subpos)
    (h3 : pos - s.subneg1 ≠ pos - s.subpos) :
    (clearSub terms pos s)[pos - s.subroot]? = terms[pos - s.subroot]?.map ExprTerm.Zero ∧
    (clearSub terms pos s)[pos - s.subneg1]? = terms[pos - s.subneg1]?.map ExprTerm.Clear ∧
    (clearSub terms pos s)[pos - s.subpos]? = terms[pos - s.subpos]?.map ExprTerm.Clear ∧
    ∀ x, x ≠ pos - s.subroot → x ≠ pos - s.subneg1 → x ≠ pos - s.subpos →
      (clearSub terms pos s)[x]? = terms[x]? := by
  refine ⟨?_, ?_, ?_, ?_⟩
  · rw [clearSub_getElem?]; simp [h1, h2]
  · rw [clearSub_getElem?]; simp [h1, h3, Ne.symm h1]
  · rw [clearSub_getElem?]; simp [Ne.symm h2, Ne.symm h3]
  · intro x hx1 hx2 hx3
    rw [clearSub_getElem?]; simp [hx1, hx2, hx3]

theorem matchSubs_skip_all {σ : Type} (env : Env) (func : DistFunc σ) (pos relIdx : Nat)
    (rel : Option Nat) (done todo : List SubEntry) (terms : ExprTerms) (st : σ)
    (h : ∀ s ∈ todo, s.subpos ≠ 255 →
      matchPair env func pos relIdx rel s terms st = PairResult.next terms st) :
    matchSubs env func pos relIdx rel done todo terms st = Except.ok (terms, done ++ todo, st) := by
  induction todo generalizing done with
  | nil => simp [matchSubs]
  | cons s todo ih =>
    simp only [matchSubs]
    split
    · rw [ih _ (fun s' hs' => h s' (List.mem_cons_of_mem _ hs'))]; simp
    · rename_i hne
      rw [h s (List.mem_cons_self _ _) hne]
      simp only []
      rw [ih _ (fun s' hs' => h s' (List.mem_cons_of_mem _ hs'))]; simp

theorem matchSubs_hit {σ : Type} (env : Env) (func : DistFunc σ) (pos relIdx : Nat)
    (rel : Option Nat) (done pre : List SubEntry) (s : SubEntry) (post : List SubEntry)
    (terms terms1 : ExprTerms) (st st1 : σ)
    (hpre : ∀ s' ∈ pre, s'.subpos ≠ 255 →
      matchPair env func pos relIdx rel s' terms st = PairResult.next terms st)
    (hs : s.subpos ≠ 255)
    (hm : matchPair env func pos relIdx rel s terms st = PairResult.matched terms1 st1) :
    matchSubs env func pos relIdx rel done (pre ++ s :: post) terms st
      = Except.ok (terms1, done ++ pre ++ { s with subpos := 255 } :: post, st1) := by
  induction pre generalizing done with
  | nil => simp [matchSubs, hs, hm]
  | cons p pre ih =>
    rw [List.cons_append, matchSubs]
    split
    · rw [ih _ (fun s' hs' => hpre s' (List.mem_cons_of_mem _ hs'))]; simp
    · rename_i hne
      rw [hpre p (List.mem_cons_self _ _) hne]
      simp only []
      rw [ih _ (fun s' hs' => hpre s' (List.mem_cons_of_mem _ hs'))]; simp

/-- The two ways the inner loop ends normally for a functor that fails
cleanly: no entry matches and nothing changes, or the first entry that matches
is marked and its subtree set to zero. -/
theorem matchSubs_ok {σ : Type} {env : Env} {func : DistFunc σ} (hf : FailsClean func)
    {pos relIdx : Nat} {rel : Option Nat} {done todo : List SubEntry} {terms terms1 : ExprTerms}
    {st st1 : σ} {subs1 : List SubEntry}
    (h : matchSubs env func pos relIdx rel done todo terms st = Except.ok (terms1, subs1, st1)) :
    (terms1 = terms ∧ subs1 = done ++ todo ∧ st1 = st ∧
      ∀ s ∈ todo, s.subpos ≠ 255 →
        matchPair env func pos relIdx rel s terms st = PairResult.next terms st) ∨
    (∃ pre s post, todo = pre ++ s :: post ∧ s.subpos ≠ 255 ∧
      subs1 = done ++ pre ++ { s with subpos := 255 } :: post ∧
      (∀ s' ∈ pre, s'.subpos ≠ 255 →
        matchPair env func pos relIdx rel s' terms st = PairResult.next terms st) ∧
      matchPair env func pos relIdx rel s terms st = PairResult.matched terms1 st1) := by
  induction todo generalizing done with
  | nil =>
    simp [matchSubs] at h
    left; simp [h.1, h.2.1, h.2.2]
  | cons s todo ih =>
    simp only [matchSubs] at h
    split at h
    · rename_i hmark
      rcases ih h with ⟨h1, h2, h3, h4⟩ | ⟨pre, s', post, h1, h2, h3, h4, h5⟩
      · left
        refine ⟨h1, by simp [h2], h3, ?_⟩
        intro s' hs' hne
        rcases List.mem_cons.1 hs' with h | h
        · subst h; exact absurd hmark hne
        · exact h4 s' h hne
      · right
        refine ⟨s :: pre, s', post, by simp [h1], h2, by simp [h3], ?_, h5⟩
        intro s'' hs'' hne
        rcases List.mem_cons.1 hs'' with h | h
        · subst h; exact absurd hmark hne
        · exact h4 s'' h hne
    · rename_i hmark
      split at h
      · rename_i terms2 st2 hp
        obtain ⟨e1, e2⟩ := matchPair_next hf hp
        subst e1; subst e2
        rcases ih h with ⟨h1, h2, h3, h4⟩ | ⟨pre, s', post, h1, h2, h3, h4, h5⟩
        · left
          refine ⟨h1, by simp [h2], h3, ?_⟩
          intro s' hs' hne
          rcases List.mem_cons.1 hs' with h | h
          · subst h; exact hp
          · exact h4 s' h hne
        · right
          refine ⟨s :: pre, s', post, by simp [h1], h2, by simp [h3], ?_, h5⟩
          intro s'' hs'' hne
          rcases List.mem_cons.1 hs'' with h | h
          · subst h; exact hp
          · exact h4 s'' h hne
      · rename_i terms2 st2 hp
        simp at h
        obtain ⟨h1, h2, h3⟩ := h
        subst h1; subst h3
        right
        exact ⟨[], s, todo, rfl, hmark, by simp [h2], by simp, hp⟩
      · cases h

theorem SubOK.root_lt_hi {e : ExprTerms} {pos : Nat} {d : Int} {s : SubEntry}
    (h : SubOK e pos d s) : s.subroot < s.hi ∧ s.subpos ≤ s.hi ∧ s.subneg1 ≤ s.hi ∧ s.hi ≤ pos := by
  have := h.root_lt_sym
  have := h.sym_le
  have := h.neg1_le
  simp only [SubEntry.hi]
  omega

theorem MatchInv.of_scanInv {e : ExprTerms} {pos : Nat} {d : Int} {b : Nat} {rels : List Nat}
    {subs : List SubEntry} (h : ScanInv e pos d b rels subs) : MatchInv e pos d rels subs := by
  refine ⟨fun r hr => (h.rel_ok r hr).1, fun s hs _ => (h.sub_ok s hs).1, h.rel_sorted, ?_,
    fun r hr s hs _ => h.cross r hr s hs⟩
  have hs := h.sub_sorted
  have hall : ∀ s ∈ subs, s.subroot < s.hi := fun s hs => ((h.sub_ok s hs).1.root_lt_hi).1
  clear h
  induction subs with
  | nil => simp
  | cons a l ih =>
    rw [List.pairwise_cons] at hs ⊢
    refine ⟨fun b hb => ⟨?_, fun _ => hs.1 b hb⟩, ih hs.2 (fun s hs' => hall s (List.mem_cons_of_mem _ hs'))⟩
    have := hs.1 b hb
    have := hall a (List.mem_cons_self _ _)
    omega

theorem MatchInv.tail {terms : ExprTerms} {pos : Nat} {d : Int} {r : Nat} {rels : List Nat}
    {subs : List SubEntry} (h : MatchInv terms pos d (r :: rels) subs) :
    MatchInv terms pos d rels subs :=
  ⟨fun r' hr' => h.rel_ok r' (List.mem_cons_of_mem _ hr'), h.sub_ok,
    (List.pairwise_cons.1 h.rel_sorted).2, h.sub_sorted,
    fun r' hr' => h.cross r' (List.mem_cons_of_mem _ hr')⟩

theorem set_getElem?_eq (l : ExprTerms) (i : Nat) (t : ExprTerm) (x : Nat) (hi : i < l.length) :
    (l.set i t)[x]? = if x = i then some t else l[x]? := by
  by_cases h : x = i
  · subst h; simp [List.getElem?_set, hi]
  · simp [List.getElem?_set, h, Ne.symm h]

theorem lt_length_of_getElem? {l : ExprTerms} {i : Nat} {t : ExprTerm} (h : l[i]? = some t) :
    i < l.length := by
  by_contra hc
  rw [List.getElem?_eq_none (by omega)] at h
  cases h

/-- The terms after a match of the additive term at `pos - r` with the entry
`s`: pointwise description. -/
theorem matched_terms_spec {terms : ExprTerms} {pos : Nat} {d : Int} {r : Nat} {rels : List Nat}
    {subs : List SubEntry} {s : SubEntry} (hinv : MatchInv terms pos d (r :: rels) subs)
    (hs : s ∈ subs) (hm : s.subpos ≠ 255) (t : ExprTerm) :
    (clearSub (terms.set (pos - r) t) pos s).length = terms.length ∧
    (clearSub (terms.set (pos - r) t) pos s)[pos - r]? = some t ∧
    (clearSub (terms.set (pos - r) t) pos s)[pos - s.subpos]?
      = terms[pos - s.subpos]?.map ExprTerm.Clear ∧
    (clearSub (terms.set (pos - r) t) pos s)[pos - s.subneg1]?
      = terms[pos - s.subneg1]?.map ExprTerm.Clear ∧
    (clearSub (terms.set (pos - r) t) pos s)[pos - s.subroot]?
      = terms[pos - s.subroot]?.map ExprTerm.Zero ∧
    (∀ x, x ≠ pos - r → x ≠ pos - s.subpos → x ≠ pos - s.subneg1 → x ≠ pos - s.subroot →
      (clearSub (terms.set (pos - r) t) pos s)[x]? = terms[x]?) := by
  have hr := hinv.rel_ok r (List.mem_cons_self _ _)
  have hso := hinv.sub_ok s hs hm
  have hc := hinv.cross r (List.mem_cons_self _ _) s hs hm
  obtain ⟨h1, h2, h3, h4⟩ := hso.root_lt_hi
  have hrl := hr.le_pos
  have hrp := hr.pos_r
  have hsl := hso.root_lt_sym
  have hnl := hso.root_lt_neg1
  have hne := hso.ne
  have hsle := hso.sym_le
  have hnle := hso.neg1_le
  obtain ⟨tr, htr, _, _⟩ := hr.term
  have hlen := lt_length_of_getElem? htr
  obtain ⟨c1, c2, c3, c4⟩ := clearSub_spec (terms.set (pos - r) t) pos s (by omega) (by omega)
    (by omega)
  refine ⟨by simp [clearSub_length], ?_, ?_, ?_, ?_, ?_⟩
  · rw [c4 _ (by omega) (by omega) (by omega), set_getElem?_eq _ _ _ _ hlen]; simp
  · rw [c3, set_getElem?_eq _ _ _ _ hlen, if_neg (by omega)]
  · rw [c2, set_getElem?_eq _ _ _ _ hlen, if_neg (by omega)]
  · rw [c1, set_getElem?_eq _ _ _ _ hlen, if_neg (by omega)]
  · intro x hx1 hx2 hx3 hx4
    rw [c4 x hx4 hx3 hx2, set_getElem?_eq _ _ _ _ hlen, if_neg hx1]

theorem pairwise_split {α : Type} {R : α → α → Prop} {pre post : List α} {s : α}
    (h : (pre ++ s :: post).Pairwise R) :
    pre.Pairwise R ∧ post.Pairwise R ∧ (∀ a ∈ pre, R a s) ∧ (∀ b ∈ post, R s b) ∧
      ∀ a ∈ pre, ∀ b ∈ post, R a b := by
  rw [List.pairwise_append, List.pairwise_cons] at h
  obtain ⟨h1, ⟨h2, h3⟩, h4⟩ := h
  exact ⟨h1, h3, fun a ha => h4 a ha s (List.mem_cons_self _ _), h2,
    fun a ha b hb => h4 a ha b (List.mem_cons_of_mem _ hb)⟩

theorem pairwise_join {α : Type} {R : α → α → Prop} {pre post : List α} {s : α}
    (h1 : pre.Pairwise R) (h2 : post.Pairwise R) (h3 : ∀ a ∈ pre, R a s) (h4 : ∀ b ∈ post, R s b)
    (h5 : ∀ a ∈ pre, ∀ b ∈ post, R a b) : (pre ++ s :: post).Pairwise R := by
  rw [List.pairwise_append, List.pairwise_cons]
  refine ⟨h1, ⟨h4, h2⟩, ?_⟩
  intro a ha b hb
  rcases List.mem_cons.1 hb with h | h
  · subst h; exact h3 a ha
  · exact h5 a ha b h

/-- A sound entry stays sound when the terms change outside its span. -/
theorem SubOK.of_eq_on_span {terms terms1 : ExprTerms} {pos : Nat} {d : Int} {s : SubEntry}
    (h : SubOK terms pos d s)
    (heq : ∀ q, s.subroot ≤ q → q ≤ s.hi → terms1[pos - q]? = terms[pos - q]?) :
    SubOK terms1 pos d s := by
  obtain ⟨h1, h2, h3, h4⟩ := h.root_lt_hi
  refine ⟨h.root_pos, h.root_lt_sym, h.root_lt_neg1, h.sym_le, h.neg1_le, h.sym_lt, h.neg1_lt,
    h.ne, ?_, ?_, ?_, ?_⟩
  · rw [heq _ (le_refl _) (by omega)]; exact h.root
  · rw [heq _ (by have := h.root_lt_sym; omega) h2]; exact h.sym
  · rw [heq _ (by have := h.root_lt_neg1; omega) h3]; exact h.neg1
  · intro r hr1 hr2 hr3 hr4 t ht
    rw [heq _ (by omega) hr2] at ht
    exact h.others r hr1 hr2 hr3 hr4 t ht

theorem RelOK.of_eq_at {terms terms1 : ExprTerms} {pos : Nat} {d : Int} {r : Nat}
    (h : RelOK terms pos d r) (heq : terms1[pos - r]? = terms[pos - r]?) :
    RelOK terms1 pos d r :=
  ⟨h.pos_r, h.le_pos, h.lt, by rw [heq]; exact h.term⟩

/-- The invariant of the matching loops after a match of the first additive
term with the entry `s`. -/
theorem MatchInv.hit {terms : ExprTerms} {pos : Nat} {d : Int} {r : Nat} {rels : List Nat}
    {pre post : List SubEntry} {s : SubEntry}
    (hinv : MatchInv terms pos d (r :: rels) (pre ++ s :: post)) (hm : s.subpos ≠ 255)
    (t : ExprTerm) :
    MatchInv (clearSub (terms.set (pos - r) t) pos s) pos d rels
      (pre ++ { s with subpos := 255 } :: post) := by
  have hsmem : s ∈ pre ++ s :: post := by simp
  obtain ⟨_, _, _, _, _, hframe⟩ := matched_terms_spec hinv hsmem hm t
  have hr := hinv.rel_ok r (List.mem_cons_self _ _)
  have hso := hinv.sub_ok s hsmem hm
  have hc := hinv.cross r (List.mem_cons_self _ _) s hsmem hm
  obtain ⟨h1, h2, h3, h4⟩ := hso.root_lt_hi
  have hrl := hr.le_pos
  have hsl := hso.root_lt_sym
  have hnl := hso.root_lt_neg1
  obtain ⟨p1, p2, p3, p4, p5⟩ := pairwise_split hinv.sub_sorted
  have hrs := List.pairwise_cons.1 hinv.rel_sorted
  -- an unmatched entry other than `s`
  have hother : ∀ s' ∈ pre ++ { s with subpos := 255 } :: post, s'.subpos ≠ 255 →
      s' ∈ pre ++ s :: post ∧ (s'.hi < s.subroot ∨ s.hi < s'.subroot) := by
    intro s' hs' hm'
    rcases List.mem_append.1 hs' with h | h
    · exact ⟨List.mem_append_left _ h, Or.inl ((p3 s' h).2 hm')⟩
    · rcases List.mem_cons.1 h with h | h
      · subst h; simp at hm'
      · exact ⟨List.mem_append_right _ (List.mem_cons_of_mem _ h), Or.inr ((p4 s' h).2 hm)⟩
  refine ⟨?_, ?_, hrs.2, ?_, ?_⟩
  · intro r' hr'
    have hr'ok := hinv.rel_ok r' (List.mem_cons_of_mem _ hr')
    have := hrs.1 r' hr'
    have hc' := hinv.cross r' (List.mem_cons_of_mem _ hr') s hsmem hm
    have := hr'ok.le_pos
    exact hr'ok.of_eq_at (hframe _ (by omega) (by omega) (by omega) (by omega))
  · intro s' hs' hm'
    obtain ⟨hmem, hdis⟩ := hother s' hs' hm'
    have hs'ok := hinv.sub_ok s' hmem hm'
    have hc' := hinv.cross r (List.mem_cons_self _ _) s' hmem hm'
    obtain ⟨q1, q2, q3, q4⟩ := hs'ok.root_lt_hi
    refine hs'ok.of_eq_on_span ?_
    intro q hq1 hq2
    exact hframe _ (by omega) (by omega) (by omega) (by omega)
  · refine pairwise_join p1 p2 ?_ ?_ p5
    · intro a ha; exact p3 a ha
    · intro b hb; exact ⟨(p4 b hb).1, fun h => absurd rfl h⟩
  · intro r' hr' s' hs' hm'
    obtain ⟨hmem, _⟩ := hother s' hs' hm'
    exact hinv.cross r' (List.mem_cons_of_mem _ hr') s' hmem hm'

/-- After a match, the four positions written are out of the footprint. -/
theorem MatchInv.hit_footprint {terms : ExprTerms} {pos : Nat} {d : Int} {r : Nat}
    {rels : List Nat} {pre post : List SubEntry} {s : SubEntry}
    (hinv : MatchInv terms pos d (r :: rels) (pre ++ s :: post)) (hm : s.subpos ≠ 255) (x : Nat)
    (hx : inFootprint pos rels (pre ++ { s with subpos := 255 } :: post) x) :
    x ≠ pos - r ∧ x ≠ pos - s.subpos ∧ x ≠ pos - s.subneg1 ∧ x ≠ pos - s.subroot ∧
      inFootprint pos (r :: rels) (pre ++ s :: post) x := by
  have hsmem : s ∈ pre ++ s :: post := by simp
  have hr := hinv.rel_ok r (List.mem_cons_self _ _)
  have hso := hinv.sub_ok s hsmem hm
  have hc := hinv.cross r (List.mem_cons_self _ _) s hsmem hm
  obtain ⟨h1, h2, h3, h4⟩ := hso.root_lt_hi
  have hrl := hr.le_pos
  have hsl := hso.root_lt_sym
  have hnl := hso.root_lt_neg1
  obtain ⟨p1, p2, p3, p4, p5⟩ := pairwise_split hinv.sub_sorted
  have hrs := List.pairwise_cons.1 hinv.rel_sorted
  rcases hx with ⟨r', hr', rfl⟩ | ⟨s', hs', hm', hx⟩
  · have hr'ok := hinv.rel_ok r' (List.mem_cons_of_mem _ hr')
    have := hrs.1 r' hr'
    have hc' := hinv.cross r' (List.mem_cons_of_mem _ hr') s hsmem hm
    have := hr'ok.le_pos
    exact ⟨by omega, by omega, by omega, by omega, Or.inl ⟨r', List.mem_cons_of_mem _ hr', rfl⟩⟩
  · have hother : s' ∈ pre ++ s :: post ∧ (s'.hi < s.subroot ∨ s.hi < s'.subroot) := by
      rcases List.mem_append.1 hs' with h | h
      · exact ⟨List.mem_append_left _ h, Or.inl ((p3 s' h).2 hm')⟩
      · rcases List.mem_cons.1 h with h | h
        · subst h; simp at hm'
        · exact ⟨List.mem_append_right _ (List.mem_cons_of_mem _ h), Or.inr ((p4 s' h).2 hm)⟩
    obtain ⟨hmem, hdis⟩ := hother
    have hs'ok := hinv.sub_ok s' hmem hm'
    have hc' := hinv.cross r (List.mem_cons_self _ _) s' hmem hm'
    obtain ⟨q1, q2, q3, q4⟩ := hs'ok.root_lt_hi
    have := hs'ok.root_lt_sym
    have := hs'ok.root_lt_neg1
    refine ⟨?_, ?_, ?_, ?_, Or.inr ⟨s', hmem, hm', hx⟩⟩ <;>
      rcases hx with rfl | rfl | rfl <;> omega

theorem Marking.refl (subs : List SubEntry) : Marking subs subs := by
  induction subs with
  | nil => exact List.Forall₂.nil
  | cons a l ih => exact List.Forall₂.cons (Or.inl rfl) ih

theorem Marking.trans {a b c : List SubEntry} (h1 : Marking a b) (h2 : Marking b c) :
    Marking a c := by
  induction h1 generalizing c with
  | nil => cases h2; exact List.Forall₂.nil
  | cons hab _ ih =>
    cases h2 with
    | cons hbc h2' =>
      refine List.Forall₂.cons ?_ (ih h2')
      rcases hab with rfl | ⟨h, rfl⟩
      · exact hbc
      · rcases hbc with rfl | ⟨h', _⟩
        · exact Or.inr ⟨h, rfl⟩
        · simp at h'

theorem Marking.one (pre post : List SubEntry) (s : SubEntry) (h : s.subpos ≠ 255) :
    Marking (pre ++ s :: post) (pre ++ { s with subpos := 255 } :: post) := by
  induction pre with
  | nil => exact List.Forall₂.cons (Or.inr ⟨h, rfl⟩) (Marking.refl post)
  | cons a l ih => exact List.Forall₂.cons (Or.inl rfl) ih

theorem numMatched_one (pre post : List SubEntry) (s : SubEntry) (h : s.subpos ≠ 255) :
    numMatched (pre ++ { s with subpos := 255 } :: post) = numMatched (pre ++ s :: post) + 1 := by
  simp [numMatched, List.countP_append, List.countP_cons, h]
  omega

theorem numMatched_le_length (subs : List SubEntry) : numMatched subs ≤ subs.length :=
  List.countP_le_length _

theorem Marking.length_eq {a b : List SubEntry} (h : Marking a b) : a.length = b.length :=
  List.Forall₂.length_eq h

/-- The inner loop marks at most one entry, one that was not marked. -/
theorem matchSubs_marks {σ : Type} {env : Env} {func : DistFunc σ}
    {pos relIdx : Nat} {rel : Option Nat} {done todo : List SubEntry} {terms terms1 : ExprTerms}
    {st st1 : σ} {subs1 : List SubEntry}
    (h : matchSubs env func pos relIdx rel done todo terms st = Except.ok (terms1, subs1, st1)) :
    subs1 = done ++ todo ∨
    ∃ pre s post, todo = pre ++ s :: post ∧ s.subpos ≠ 255 ∧
      subs1 = done ++ pre ++ { s with subpos := 255 } :: post := by
  induction todo generalizing done terms st with
  | nil =>
    simp [matchSubs] at h
    left; simp [h.2.1]
  | cons s todo ih =>
    simp only [matchSubs] at h
    split at h
    · rcases ih h with h2 | ⟨pre, s', post, h1, h2, h3⟩
      · left; simp [h2]
      · right; exact ⟨s :: pre, s', post, by simp [h1], h2, by simp [h3]⟩
    · rename_i hmark
      split at h
      · rcases ih h with h2 | ⟨pre, s', post, h1, h2, h3⟩
        · left; simp [h2]
        · right; exact ⟨s :: pre, s', post, by simp [h1], h2, by simp [h3]⟩
      · simp at h
        right
        exact ⟨[], s, todo, rfl, hmark, by simp [h.2.1]⟩
      · cases h

theorem matchRels_marks {σ : Type} {env : Env} {func : DistFunc σ} {pos : Nat}
    {rels : List Nat} {terms terms1 : ExprTerms} {subs subs1 : List SubEntry} {st st1 : σ}
    (h : matchRels env func pos rels terms subs st = Except.ok (terms1, subs1, st1)) :
    Marking subs subs1 ∧ numMatched subs1 ≤ numMatched subs + rels.length := by
  induction rels generalizing terms subs st with
  | nil =>
    simp [matchRels] at h
    rw [← h.2.1]
    exact ⟨Marking.refl _, by simp⟩
  | cons r rels ih =>
    simp only [matchRels] at h
    split at h
    · cases h
    · split at h
      · cases h
      · rename_i terms2 subs2 st2 hm
        obtain ⟨h1, h2⟩ := ih h
        rcases matchSubs_marks hm with h3 | ⟨pre, s, post, h3, h4, h5⟩
        · simp at h3; subst h3
          exact ⟨h1, by simp; omega⟩
        · simp at h5; subst h3; subst h5
          refine ⟨(Marking.one pre post s h4).trans h1, ?_⟩
          rw [numMatched_one pre post s h4] at h2
          simp; omega

/-- Normal return of `TransformDistBase` at position `p`: the root is not an
`ADD` and nothing changes, or the scan and the matching loops ran. -/
theorem TransformDistBase_ok {σ : Type} {env : Env} {func : DistFunc σ} {e e1 : ExprTerms}
    {pos : Int} {st st1 : σ}
    (h : TransformDistBase env func e pos st = Except.ok (e1, st1)) :
    ∃ (p : Nat) (root : ExprTerm),
      (if pos < 0 then pos + (e.length : Int) else pos) = (p : Int) ∧ e[p]? = some root ∧
      ((root.isOpOf Op.ADD = false ∧ e1 = e ∧ st1 = st) ∨
        (root.isOpOf Op.ADD = true ∧ root.getNumChild ≤ 32 ∧
          ∃ rels subs subs1, scanTerms e p root.m_depth p p [] [] = Except.ok (rels, subs) ∧
            matchRels env func p rels e subs st = Except.ok (e1, subs1, st1))) := by
  unfold TransformDistBase at h
  generalize (if pos < 0 then pos + (e.length : Int) else pos) = pos1 at h
  simp only [] at h
  split at h
  · cases h
  · rename_i hp
    refine ⟨pos1.toNat, ?_⟩
    split at h
    · cases h
    · rename_i root hroot
      refine ⟨root, by omega, hroot, ?_⟩
      split at h
      · rename_i hadd
        simp at h hadd
        exact Or.inl ⟨hadd, h.1.symm, h.2.symm⟩
      · rename_i hadd
        split at h
        · cases h
        · rename_i hn
          split at h
          · cases h
          · rename_i rels subs hs
            split at h
            · cases h
            · rename_i terms subs1 st2 hm
              simp at h
              obtain ⟨h1, h2⟩ := h
              subst h1; subst h2
              exact Or.inr ⟨by simpa using hadd, by omega, rels, subs, subs1, hs, hm⟩

theorem scanTerms_start_inv {e : ExprTerms} {pos : Nat} {d : Int} {rels : List Nat}
    {subs : List SubEntry} (h : scanTerms e pos d pos pos [] [] = Except.ok (rels, subs)) :
    ScanInv e pos d pos rels subs :=
  scanTerms_inv pos pos [] [] rels subs (le_refl _)
    ⟨by simp, by simp, by simp, by simp, by simp⟩ h

theorem ScanInv.numMatched_eq_zero {e : ExprTerms} {pos : Nat} {d : Int} {b : Nat}
    {rels : List Nat} {subs : List SubEntry} (h : ScanInv e pos d b rels subs) :
    numMatched subs = 0 := by
  simp only [numMatched, List.countP_eq_zero]
  intro s hs
  have := (h.sub_ok s hs).1.sym_lt
  simp; omega

theorem inFootprint_tail {pos r : Nat} {rels : List Nat} {subs : List SubEntry} {x : Nat}
    (h : inFootprint pos rels subs x) : inFootprint pos (r :: rels) subs x := by
  rcases h with ⟨r', hr', hx⟩ | h
  · exact Or.inl ⟨r', List.mem_cons_of_mem _ hr', hx⟩
  · exact Or.inr h

theorem SubstInv.step_nomatch {env : Env} {e : ExprTerms} {pos : Nat} {d : Int}
    {st0 : SubstState} {r : Nat} {rels : List Nat} {terms : ExprTerms} {subs : List SubEntry}
    {st : SubstState} (h : SubstInv env e pos d st0 (r :: rels) terms subs st) :
    SubstInv env e pos d st0 rels terms subs st := by
  refine ⟨h.inv.tail, fun x hx => h.orig x (inFootprint_tail hx), ?_⟩
  obtain ⟨new, h1, h2, h3⟩ := h.calls
  refine ⟨new, h1, h2, fun k hk => ?_⟩
  obtain ⟨hk1, i, u, hi, hu, rest⟩ := h3 k hk
  exact ⟨hk1, i, u, fun hc => hi (inFootprint_tail hc), fun hc => hu (inFootprint_tail hc), rest⟩

theorem SubstInv.step_hit {env : Env} {e : ExprTerms} {pos : Nat} {d : Int}
    {st0 : SubstState} {r : Nat} {rels : List Nat} {terms : ExprTerms}
    {pre post : List SubEntry} {s : SubEntry} {st st1 : SubstState}
    {relterm subterm t : ExprTerm}
    (h : SubstInv env e pos d st0 (r :: rels) terms (pre ++ s :: post) st)
    (hm : s.subpos ≠ 255)
    (hrel : terms[pos - r]? = some relterm) (hsub : terms[pos - s.subpos]? = some subterm)
    (hby : MatchedBy env SubstDistFunctor relterm.getSymbol relterm subterm st t st1) :
    SubstInv env e pos d st0 rels (clearSub (terms.set (pos - r) t) pos s)
      (pre ++ { s with subpos := 255 } :: post) st1 := by
  have hsmem : s ∈ pre ++ s :: post := by simp
  obtain ⟨_, m1, m2, m3, m4, hframe⟩ := matched_terms_spec h.inv hsmem hm t
  have hfp := MatchInv.hit_footprint h.inv hm
  have hr := h.inv.rel_ok r (List.mem_cons_self _ _)
  have hso := h.inv.sub_ok s hsmem hm
  have hfr : inFootprint pos (r :: rels) (pre ++ s :: post) (pos - r) :=
    Or.inl ⟨r, List.mem_cons_self _ _, rfl⟩
  have hfs : inFootprint pos (r :: rels) (pre ++ s :: post) (pos - s.subpos) :=
    Or.inr ⟨s, hsmem, hm, Or.inl rfl⟩
  have hfn : inFootprint pos (r :: rels) (pre ++ s :: post) (pos - s.subneg1) :=
    Or.inr ⟨s, hsmem, hm, Or.inr (Or.inl rfl)⟩
  have hfo : inFootprint pos (r :: rels) (pre ++ s :: post) (pos - s.subroot) :=
    Or.inr ⟨s, hsmem, hm, Or.inr (Or.inr rfl)⟩
  -- the pairs recorded so far stay as they are
  have hold : ∀ x, ¬ inFootprint pos (r :: rels) (pre ++ s :: post) x →
      (clearSub (terms.set (pos - r) t) pos s)[x]? = terms[x]? ∧
      ¬ inFootprint pos rels (pre ++ { s with subpos := 255 } :: post) x := by
    intro x hx
    refine ⟨hframe x ?_ ?_ ?_ ?_, fun hc => hx (hfp x hc).2.2.2.2⟩
    · rintro rfl; exact hx hfr
    · rintro rfl; exact hx hfs
    · rintro rfl; exact hx hfn
    · rintro rfl; exact hx hfo
  refine ⟨h.inv.hit hm t, ?_, ?_⟩
  · intro x hx
    obtain ⟨x1, x2, x3, x4, x5⟩ := hfp x hx
    rw [hframe x x1 x2 x3 x4]
    exact h.orig x x5
  · obtain ⟨new, h1, h2, h3⟩ := h.calls
    have keep : ∀ k (hk : k < new.length), (new[k]).1 = st0.m_subst + k ∧
        ∃ i u, ¬ inFootprint pos rels (pre ++ { s with subpos := 255 } :: post) i ∧
          ¬ inFootprint pos rels (pre ++ { s with subpos := 255 } :: post) u ∧ i < pos ∧ u < pos ∧
          (∃ t0, e[i]? = some t0 ∧ t0.isType (ExprTerm.SYM ||| ExprTerm.LOC) = true ∧
            t0.m_depth = d + 1 ∧ lookupLoc env t0.getSymbol t0 = LocLookup.found (new[k]).2.2 ∧
            (clearSub (terms.set (pos - r) t) pos s)[i]?
              = some ⟨TermData.SUBST (new[k]).1, t0.m_depth⟩) ∧
          (∃ tu, e[u]? = some tu ∧ tu.isType (ExprTerm.SYM ||| ExprTerm.LOC) = true ∧
            tu.m_depth = d + 2 ∧ lookupLoc env tu.getSymbol tu = LocLookup.found (new[k]).2.1 ∧
            (clearSub (terms.set (pos - r) t) pos s)[u]? = some tu.Clear) := by
      intro k hk
      obtain ⟨hk1, i, u, hi, hu, hip, hup, ⟨t0, a1, a2, a3, a4, a5⟩, ⟨tu, b1, b2, b3, b4, b5⟩⟩ :=
        h3 k hk
      refine ⟨hk1, i, u, (hold i hi).2, (hold u hu).2, hip, hup,
        ⟨t0, a1, a2, a3, a4, by rw [(hold i hi).1]; exact a5⟩,
        ⟨tu, b1, b2, b3, b4, by rw [(hold u hu).1]; exact b5⟩⟩
    rcases hby with ⟨_, _, _, hst⟩ | ⟨_, rel_loc, sub_loc, rbc, sbc, hrl, hsl, _, _, _, hfun⟩
    · subst hst
      exact ⟨new, h1, h2, keep⟩
    · simp only [SubstDistFunctor, Prod.mk.injEq, true_and] at hfun
      obtain ⟨ht, hst⟩ := hfun
      subst hst
      refine ⟨new ++ [(st.m_subst, sub_loc, rel_loc)], by simp [h1], by simp [h2]; omega, ?_⟩
      intro k hk
      by_cases hlt : k < new.length
      · have := keep k hlt
        simpa [List.getElem_append_left, hlt] using this
      · have hkeq : k = new.length := by simp at hk; omega
        subst hkeq
        have horig_r := h.orig _ hfr
        have horig_s := h.orig _ hfs
        rw [hrel] at horig_r
        rw [hsub] at horig_s
        obtain ⟨tr, htr, htrty, htrd⟩ := hr.term
        rw [hrel] at htr; cases htr
        obtain ⟨ts, hts, htsty, htsd⟩ := hso.sym
        rw [hsub] at hts; cases hts
        have hrp := hr.pos_r
        have hrl' := hr.le_pos
        have := hso.root_pos
        have := hso.root_lt_sym
        have := hso.sym_le
        simp only [List.getElem_append_right (le_refl _), Nat.sub_self, List.getElem_cons_zero]
        refine ⟨by omega, pos - r, pos - s.subpos, ?_, ?_, by omega, by omega,
          ⟨relterm, horig_r.symm, htrty, htrd, hrl, ?_⟩,
          ⟨subterm, horig_s.symm, htsty, htsd, hsl, ?_⟩⟩
        · exact fun hc => (hfp _ hc).1 rfl
        · exact fun hc => (hfp _ hc).2.1 rfl
        · rw [m1, ← ht, h2]
        · rw [m2, hsub]; rfl

theorem matchRels_subst {env : Env} {e : ExprTerms} {pos : Nat} {d : Int} {st0 : SubstState}
    {rels : List Nat} {terms terms1 : ExprTerms} {subs subs1 : List SubEntry}
    {st st1 : SubstState}
    (hinv : SubstInv env e pos d st0 rels terms subs st)
    (h : matchRels env SubstDistFunctor pos rels terms subs st = Except.ok (terms1, subs1, st1)) :
    SubstInv env e pos d st0 [] terms1 subs1 st1 := by
  induction rels generalizing terms subs st with
  | nil =>
    simp [matchRels] at h
    obtain ⟨h1, h2, h3⟩ := h
    subst h1; subst h2; subst h3
    exact hinv
  | cons r rels ih =>
    simp only [matchRels] at h
    split at h
    · cases h
    · rename_i relterm hrel
      split at h
      · cases h
      · rename_i terms2 subs2 st2 hm
        refine ih ?_ h
        rcases matchSubs_ok SubstDistFunctor_failsClean hm with
          ⟨h1, h2, h3, _⟩ | ⟨pre, s, post, h1, h2, h3, _, h5⟩
        · simp at h2
          subst h1; subst h2; subst h3
          exact hinv.step_nomatch
        · simp at h3
          subst h1; subst h3
          obtain ⟨relterm1, subterm, t, g1, g2, g3, g4⟩ := matchPair_matched h5
          rw [hrel] at g1; cases g1
          subst g3
          exact hinv.step_hit h2 hrel g2 g4

/-- What one call of `TransformDistBase` with the `SubstDistFunctor` does to
the functor state: the callback calls it adds carry the next indices, in
order, and each stands for a pair of the expression. -/
theorem TransformDistBase_subst {env : Env} {e e1 : ExprTerms} {pos : Int}
    {st st1 : SubstState}
    (h : TransformDistBase env SubstDistFunctor e pos st = Except.ok (e1, st1)) :
    ∃ new : List (Nat × Location × Location),
      st1.calls = st.calls ++ new ∧ st1.m_subst = st.m_subst + new.length ∧
      ∀ k (hk : k < new.length), (new[k]).1 = st.m_subst + k ∧
        ∃ (p : Nat) (d : Int), (if pos < 0 then pos + (e.length : Int) else pos) = (p : Int) ∧
          SubstPair env e e1 p d (new[k]) := by
  obtain ⟨p, root, hp, hroot, h1 | ⟨hadd, hn, rels, subs, subs1, hs, hm⟩⟩ :=
    TransformDistBase_ok h
  · obtain ⟨_, h2, h3⟩ := h1
    subst h2; subst h3
    exact ⟨[], by simp, by simp, fun k hk => by simp at hk⟩
  · have hsi := scanTerms_start_inv hs
    have hinit : SubstInv env e p root.m_depth st rels e subs st :=
      ⟨MatchInv.of_scanInv hsi, fun _ _ => rfl, [], by simp, by simp, fun k hk => by simp at hk⟩
    obtain ⟨_, _, new, c1, c2, c3⟩ := matchRels_subst hinit hm
    refine ⟨new, c1, c2, fun k hk => ?_⟩
    obtain ⟨hk1, i, u, _, _, hi, hu, hA, hB⟩ := c3 k hk
    exact ⟨hk1, p, root.m_depth, hp, i, u, hi, hu, hA, hB⟩

theorem CallsInOrder.step {st st1 : SubstState} (h : CallsInOrder st)
    (new : List (Nat × Location × Location)) (h1 : st1.calls = st.calls ++ new)
    (h2 : st1.m_subst = st.m_subst + new.length)
    (h3 : ∀ k (hk : k < new.length), (new[k]).1 = st.m_subst + k) : CallsInOrder st1 := by
  unfold CallsInOrder at h ⊢
  rw [h1, h2, List.map_append, h]
  apply List.ext_getElem
  · simp
  · intro n hn1 hn2
    simp only [List.getElem_range]
    by_cases hlt : n < st.m_subst
    · rw [List.getElem_append_left (by simpa using hlt)]
      simp
    · rw [List.getElem_append_right (by simp; omega)]
      simp only [List.length_range, List.getElem_map]
      rw [h3]
      omega

theorem simplifyWalk_invariant {σ : Type} (func : Transformer σ) (P : σ → Prop)
    (hfunc : ∀ e pos st e1 st1, P st → func e pos st = Except.ok (e1, st1) → P st1)
    (n : Nat) (e e1 : ExprTerms) (st st1 : σ) (hP : P st)
    (h : simplifyWalk func n e st = Except.ok (e1, st1)) : P st1 := by
  induction n generalizing e st with
  | zero => simp [simplifyWalk] at h; rw [← h.2]; exact hP
  | succ n ih =>
    simp only [simplifyWalk] at h
    split at h
    · cases h
    · rename_i e2 st2 hf
      exact ih e2 st2 (hfunc _ _ _ _ _ hP hf) h

theorem isEmpty_of_data_NONE {t : ExprTerm} (h : t.data = TermData.NONE) : t.isEmpty = true := by
  rw [isEmpty_eq, h]

theorem isEmpty_false_of_SYM_LOC {t : ExprTerm}
    (h : t.isType (ExprTerm.SYM ||| ExprTerm.LOC) = true) : t.isEmpty = false := by
  rw [isType_SYM_LOC_eq] at h
  rw [isEmpty_eq]
  cases t with
  | mk data d => cases data <;> simp at h ⊢

theorem isEmpty_false_of_INT {t : ExprTerm} {v : Int} (h : t.data = TermData.INT v) :
    t.isEmpty = false := by
  rw [isEmpty_eq, h]

theorem scanChild_skip_of_empty {e : ExprTerms} {d : Int} {n : Nat} {t : ExprTerm}
    (h : e[n]? = some t) (he : t.isEmpty = true) : scanChild e d n = ScanStep.skip := by
  simp [scanChild, h, he]

theorem scanChild_skip_of_deep {e : ExprTerms} {d : Int} {n : Nat} {t : ExprTerm}
    (h : e[n]? = some t) (hd : d + 1 < t.m_depth) : scanChild e d n = ScanStep.skip := by
  simp only [scanChild, h]
  split
  · rfl
  · rw [if_neg (by omega), if_pos (by omega)]

/-- The positions a successful `isNeg1Sym` jumps over are skipped by the scan. -/
theorem scanChild_skip_of_sub {e : ExprTerms} {d : Int} {n sym neg1 n1 : Nat}
    (h : scanChild e d n = ScanStep.sub sym neg1 n1) (m : Nat) (h1 : n1 ≤ m) (h2 : m < n) :
    scanChild e d m = ScanStep.skip := by
  obtain ⟨hok, t, ht, hdep⟩ := scanChild_sub h
  obtain ⟨se, hse, _, _, ⟨ts, hts, _, htsd⟩, ⟨tn, htn, _, htnd⟩⟩ := hok.root
  rw [ht] at hse; cases hse
  by_cases hs : m = sym
  · subst hs; exact scanChild_skip_of_deep hts (by omega)
  · by_cases hn : m = neg1
    · subst hn; exact scanChild_skip_of_deep htn (by omega)
    · have hlen := lt_length_of_getElem? ht
      have hm : m < e.length := by omega
      have hget : e[m]? = some e[m] := List.getElem?_eq_getElem hm
      exact scanChild_skip_of_empty hget (hok.others m h1 h2 hs hn _ hget)

theorem scanFlat_skip_range {e : ExprTerms} {pos : Nat} {d : Int} (n n1 : Nat)
    (rel : List Nat) (sub : List SubEntry) (h1 : n1 ≤ n)
    (h : ∀ m, n1 ≤ m → m < n → scanChild e d m = ScanStep.skip) :
    scanFlat e pos d n rel sub = scanFlat e pos d n1 rel sub := by
  induction n with
  | zero =>
    have : n1 = 0 := by omega
    subst this; rfl
  | succ k ih =>
    by_cases hk : n1 = k + 1
    · subst hk; rfl
    · rw [scanFlat, h k (by omega) (by omega)]
      exact ih (by omega) (fun m hm1 hm2 => h m hm1 (by omega))

/-- The scan with its jumps gives what the scan without them gives. -/
theorem scanTerms_eq_scanFlat (e : ExprTerms) (pos : Nat) (d : Int) (fuel n : Nat)
    (rel : List Nat) (sub : List SubEntry) (hf : n ≤ fuel) :
    scanTerms e pos d fuel n rel sub = scanFlat e pos d n rel sub := by
  induction fuel generalizing n rel sub with
  | zero =>
    have : n = 0 := by omega
    subst this; simp [scanTerms, scanFlat]
  | succ f ih =>
    cases n with
    | zero => simp [scanTerms, scanFlat]
    | succ n =>
      rw [scanTerms, scanFlat]
      cases hsc : scanChild e d n with
      | skip => exact ih n rel sub (by omega)
      | stop => rfl
      | oob => rfl
      | rel =>
        simp only []
        split
        · rfl
        · split
          · rfl
          · exact ih n _ sub (by omega)
      | sub sym neg1 n1 =>
        simp only []
        split
        · rfl
        · split
          · rfl
          · obtain ⟨hok, _⟩ := scanChild_sub hsc
            have h1 := hok.n1_le_sym
            have h2 := hok.sym_lt
            rw [ih n1 rel _ (by omega)]
            exact (scanFlat_skip_range n n1 rel _ (by omega)
              (fun m hm1 hm2 => scanChild_skip_of_sub hsc m hm1 hm2)).symm

theorem SubstDistFunctor_replacing (env : Env) : Replacing env SubstDistFunctor :=
  ⟨SubstDistFunctor_failsClean, fun _ _ _ _ _ _ _ _ _ => rfl, fun _ _ _ _ => rfl,
    fun _ _ _ _ _ => Or.inr ⟨_, rfl⟩⟩

theorem matchPair_next_unmatchable {σ : Type} {env : Env} {func : DistFunc σ}
    (hf : Replacing env func)
    {pos relIdx : Nat} {rel : Option Nat} {s : SubEntry} {terms terms1 : ExprTerms} {st st1 : σ}
    (h : matchPair env func pos relIdx rel s terms st = PairResult.next terms1 st1) :
    terms1 = terms ∧ st1 = st ∧ ∃ relterm subterm, terms[relIdx]? = some relterm ∧
      terms[pos - s.subpos]? = some subterm ∧ Unmatchable env rel relterm subterm := by
  simp only [matchPair] at h
  split at h
  · rename_i relterm subterm hrel hsub
    split at h
    · cases h
    · rename_i hsame
      split at h
      · cases h
      · rename_i hrl
        cases h
        exact ⟨rfl, rfl, relterm, subterm, hrel, hsub, hsame, Or.inl hrl⟩
      · rename_i rel_loc hrl
        split at h
        · cases h
        · rename_i hsl
          cases h
          exact ⟨rfl, rfl, relterm, subterm, hrel, hsub, hsame, Or.inr ⟨rel_loc, hrl, Or.inl hsl⟩⟩
        · rename_i sub_loc hsl
          split at h
          · rename_i rbc sbc hrb hsb
            split at h
            · rename_i hcont
              cases h
              exact ⟨rfl, rfl, relterm, subterm, hrel, hsub, hsame,
                Or.inr ⟨rel_loc, hrl, Or.inr ⟨sub_loc, rbc, sbc, hsl, hrb, hsb, hcont⟩⟩⟩
            · rename_i hcont
              split at h
              · cases h
              · rename_i t1 s1 hfun
                have := hf.hits st relterm sub_loc rel_loc sbc rbc hsb hrb
                  (by simpa using (Eq.symm (not_not.1 hcont)))
                rw [hfun] at this
                cases this
          · cases h
  · cases h

/-- What a match leaves in the place of the additive term, for a functor of
the kind `Replacing`: an integer or a placeholder at the depth of the term. -/
theorem matchedBy_output {σ : Type} {env : Env} {func : DistFunc σ} (hf : Replacing env func)
    {rel : Option Nat} {relterm subterm t : ExprTerm} {st st1 : σ}
    (h : MatchedBy env func rel relterm subterm st t st1) :
    t.m_depth = relterm.m_depth ∧
      ((∃ v, t.data = TermData.INT v) ∨ (∃ k, t.data = TermData.SUBST k)) := by
  rcases h with ⟨_, _, ht, _⟩ | ⟨_, rel_loc, sub_loc, rbc, sbc, _, _, _, _, _, hfun⟩
  · subst ht; exact ⟨rfl, Or.inl ⟨0, rfl⟩⟩
  · have h1 := hf.depth st relterm sub_loc rel_loc
    have h2 := hf.output st relterm sub_loc rel_loc (by rw [hfun])
    rw [hfun] at h1 h2
    exact ⟨h1, h2⟩

theorem prevNonEmpty_eq_some {e : ExprTerms} {k a : Nat} (ha : a < k)
    (hne : ∃ t, e[a]? = some t ∧ t.isEmpty = false)
    (hbetween : ∀ m, a < m → m < k → ∀ t, e[m]? = some t → t.isEmpty = true) :
    prevNonEmpty e k = some a := by
  induction k with
  | zero => omega
  | succ k ih =>
    simp only [prevNonEmpty]
    by_cases hak : a = k
    · subst hak
      obtain ⟨t, ht, hte⟩ := hne
      simp [ht, hte]
    · have hrec := ih (by omega) (fun m h1 h2 => hbetween m h1 (by omega))
      cases hk : e[k]? with
      | none => simpa using hrec
      | some t =>
        have := hbetween k (by omega) (by omega) t hk
        simpa [this] using hrec

theorem getIntNum_of_data {t : ExprTerm} {v : Int} (h : t.data = TermData.INT v) :
    t.getIntNum = some v := by
  cases t with
  | mk data d => cases data <;> simp [ExprTerm.getIntNum] at h ⊢; exact h

theorem getIntNum_of_SYM_LOC {t : ExprTerm}
    (h : t.isType (ExprTerm.SYM ||| ExprTerm.LOC) = true) : t.getIntNum = none := by
  rw [isType_SYM_LOC_eq] at h
  cases t with
  | mk data d => cases data <;> simp [ExprTerm.getIntNum] at h ⊢

theorem isType_SYM_or_LOC {t : ExprTerm}
    (h : t.isType (ExprTerm.SYM ||| ExprTerm.LOC) = true) :
    t.isType ExprTerm.SYM = true ∨ t.isType ExprTerm.LOC = true := by
  rw [isType_SYM_LOC_eq] at h
  rw [isType_SYM_eq, isType_LOC_eq]
  cases t with
  | mk data d => cases data <;> simp at h ⊢

theorem isNeg1Sym_n1 {e : ExprTerms} {n sym neg1 n1 : Nat} {lok : Bool}
    (h : isNeg1Sym e n lok = some (sym, neg1, n1)) : n1 = min sym neg1 := by
  simp only [isNeg1Sym] at h
  split at h
  · cases h
  · split at h
    · split at h
      · cases h
      · rename_i a ha
        split at h
        · cases h
        · rename_i b hb
          have h1 := (prevNonEmpty_some hb).1
          split at h
          · split at h
            · split at h
              · cases h; omega
              · split at h
                · cases h; omega
                · cases h
            · cases h
          · cases h
    · cases h

/-- The converse of `isNeg1Sym_some`: a `MUL` of two whose two nearest
non-empty terms are a symbol or location and a -1 at the depth of children is
recognised. -/
theorem isNeg1Sym_of_ok {e : ExprTerms} {n sym neg1 n1 : Nat}
    (h : Neg1SymOK e n sym neg1 n1) (hn1 : n1 = min sym neg1) :
    isNeg1Sym e n true = some (sym, neg1, n1) := by
  obtain ⟨se, hse, hmul, hnc, ⟨ts, hts, htsy, htsd⟩, ⟨tn, htn, htnd, htnp⟩⟩ := h.root
  have hsne : ts.isEmpty = false := isEmpty_false_of_SYM_LOC htsy
  have hnne : tn.isEmpty = false := isEmpty_false_of_INT htnd
  have hlt1 := h.sym_lt
  have hlt2 := h.neg1_lt
  have hne := h.ne
  rcases Nat.lt_or_gt_of_ne hne with hlt | hlt
  · -- sym < neg1
    have hn1s : n1 = sym := by omega
    have ha : prevNonEmpty e n = some neg1 :=
      prevNonEmpty_eq_some hlt2 ⟨tn, htn, hnne⟩
        (fun m h1 h2 => h.others m (by omega) h2 (by omega) (by omega))
    have hb : prevNonEmpty e neg1 = some sym :=
      prevNonEmpty_eq_some hlt ⟨ts, hts, hsne⟩
        (fun m h1 h2 => h.others m (by omega) (by omega) (by omega) (by omega))
    have hsl := isType_SYM_or_LOC htsy
    simp only [isNeg1Sym, hse, hmul, hnc, ha, hb, htn, hts, htsd, htnp, getIntNum_of_data htnd]
    rcases hsl with hsl | hsl <;> simp [hsl, hn1s]
  · have hn1s : n1 = neg1 := by omega
    have ha : prevNonEmpty e n = some sym :=
      prevNonEmpty_eq_some hlt1 ⟨ts, hts, hsne⟩
        (fun m h1 h2 => h.others m (by omega) h2 (by omega) (by omega))
    have hb : prevNonEmpty e sym = some neg1 :=
      prevNonEmpty_eq_some hlt ⟨tn, htn, hnne⟩
        (fun m h1 h2 => h.others m (by omega) (by omega) (by omega) (by omega))
    have hsl := isType_SYM_or_LOC htsy
    simp only [isNeg1Sym, hse, hmul, hnc, ha, hb, htn, hts, htsd, htnp, getIntNum_of_data htnd,
      getIntNum_of_SYM_LOC htsy]
    rcases hsl with hsl | hsl <;> simp [hsl, hn1s]

theorem isOpOf_ne {t : ExprTerm} (h1 : t.isOpOf Op.ADD = true) (h2 : t.isOpOf Op.MUL = true) :
    False := by
  cases t with
  | mk data d =>
    cases data with
    | OP op nchild =>
      simp only [ExprTerm.isOpOf, beq_iff_eq] at h1 h2
      rw [h1] at h2
      exact absurd h2 (by decide)
    | _ => simp [ExprTerm.isOpOf] at h1

theorem isEmpty_false_of_isOpOf {t : ExprTerm} {op : Op} (h : t.isOpOf op = true) :
    t.isEmpty = false := by
  rw [isEmpty_eq]
  cases t with
  | mk data d => cases data <;> simp [ExprTerm.isOpOf] at h ⊢

theorem isOpOf_false_of_SYM_LOC {t : ExprTerm} {op : Op}
    (h : t.isType (ExprTerm.SYM ||| ExprTerm.LOC) = true) : t.isOpOf op = false := by
  rw [isType_SYM_LOC_eq] at h
  cases t with
  | mk data d => cases data <;> simp [ExprTerm.isOpOf] at h ⊢

theorem isOpOf_false_of_INT {t : ExprTerm} {op : Op} {v : Int}
    (h : t.data = TermData.INT v) : t.isOpOf op = false := by
  cases t with
  | mk data d => cases data <;> simp [ExprTerm.isOpOf] at h ⊢

/-- A direct operand of an `ADD` is never taken by `isNeg1Sym` for a child of
a `MUL`. -/
theorem isNeg1Sym_not_protected {e : ExprTerms} {n sym neg1 n1 q x : Nat}
    (h : Neg1SymOK e n sym neg1 n1) (hp : ProtectedBy e q x) : x ≠ sym ∧ x ≠ neg1 := by
  obtain ⟨hxq, tq, tx, htq, hadd, htx, hxne, hxd, hbet⟩ := hp
  obtain ⟨se, hse, hmul, hnc, ⟨ts, hts, htsy, htsd⟩, ⟨tn, htn, htnd, htnp⟩⟩ := h.root
  have hsene : se.isEmpty = false := isEmpty_false_of_isOpOf hmul
  have hqne : tq.isEmpty = false := isEmpty_false_of_isOpOf hadd
  have key : ∀ c tc, (c = sym ∨ c = neg1) → e[c]? = some tc → tc.m_depth = se.m_depth + 1 →
      x ≠ c := by
    intro c tc hc htc hcd hxc
    subst hxc
    rw [htx] at htc; cases htc
    have hxn : x < n := by rcases hc with hc | hc <;> (subst hc; first | exact h.sym_lt | exact h.neg1_lt)
    have hn1x : n1 ≤ x := by
      rcases hc with hc | hc <;> (subst hc; first | exact h.n1_le_sym | exact h.n1_le_neg1)
    rcases Nat.lt_trichotomy q n with hqn | hqn | hqn
    · -- q lies in the span of the MUL: it is the other child
      by_cases hqs : q = sym
      · subst hqs; rw [htq] at hts; cases hts
        rw [isOpOf_false_of_SYM_LOC htsy] at hadd; cases hadd
      · by_cases hqn1 : q = neg1
        · subst hqn1; rw [htq] at htn; cases htn
          rw [isOpOf_false_of_INT htnd] at hadd; cases hadd
        · have := h.others q (by omega) hqn hqs hqn1 tq htq
          rw [this] at hqne; cases hqne
    · subst hqn; rw [htq] at hse; cases hse
      exact isOpOf_ne hadd hmul
    · rcases hbet n se hxn hqn hse with h1 | h1
      · rw [h1] at hsene; cases hsene
      · omega
  exact ⟨key sym ts (Or.inl rfl) hts htsd, key neg1 tn (Or.inr rfl) htn htnp⟩

theorem isEmpty_Clear (t : ExprTerm) : t.Clear.isEmpty = true := by
  rw [isEmpty_eq]; rfl

theorem isOp_of_isOpOf {t : ExprTerm} {op : Op} (h : t.isOpOf op = true) : t.isOp = true := by
  cases t with
  | mk data d =>
    cases data with
    | OP o n => rfl
    | _ => simp [ExprTerm.isOpOf] at h

theorem getElem?_of_length_eq {X Y : ExprTerms} (h : Y.length = X.length) {x : Nat}
    {t : ExprTerm} (hy : Y[x]? = some t) : ∃ t0, X[x]? = some t0 := by
  have := lt_length_of_getElem? hy
  exact ⟨X[x], List.getElem?_eq_getElem (by omega)⟩

theorem Edited.some_of_some {Q : Nat → Prop} {X Y : ExprTerms} (h : Edited Q X Y) {x : Nat}
    {t1 : ExprTerm} (hy : Y[x]? = some t1) : ∃ t, X[x]? = some t :=
  getElem?_of_length_eq h.len hy

theorem Edited.add_same {Q : Nat → Prop} {X Y : ExprTerms} (h : Edited Q X Y) {q : Nat}
    {tq : ExprTerm} (hq : X[q]? = some tq) (hadd : tq.isOpOf Op.ADD = true) :
    Y[q]? = some tq := by
  rcases h.point q tq hq with h1 | ⟨_, h2, _⟩ | ⟨h2, _⟩
  · exact h1
  · rw [h2.2] at hadd; cases hadd
  · rcases h2 with h2 | h2
    · rw [isOpOf_false_of_SYM_LOC h2] at hadd; cases hadd
    · rw [isOpOf_false_of_INT h2] at hadd; cases hadd

theorem Edited.depth_same {Q : Nat → Prop} {X Y : ExprTerms} (h : Edited Q X Y) {x : Nat}
    {t : ExprTerm} (hx : X[x]? = some t) :
    ∃ t1, Y[x]? = some t1 ∧ t1.m_depth = t.m_depth ∧ (t.isEmpty = true → t1.isEmpty = true) := by
  rcases h.point x t hx with h1 | ⟨_, _, t1, h2, h3, _⟩ | ⟨_, h2, _⟩
  · exact ⟨t, h1, rfl, id⟩
  · refine ⟨t1, h2, h3, ?_⟩
    intro he
    rename_i hty _
    rw [hty.1] at he; cases he
  · exact ⟨t.Clear, h2, rfl, fun _ => isEmpty_Clear t⟩

theorem ProtectedBy.not_cleared {X Y : ExprTerms} {q x : Nat} {t : ExprTerm}
    (hp : ProtectedBy X q x) (hx : X[x]? = some t) : ¬ Cleared X Y x t := by
  rintro ⟨_, _, m, tm, tm1, hxm, hm, hmul, hd, _, _, hbx, _⟩
  obtain ⟨hxq, tq, tx, htq, hadd, htx, hxne, hxd, hbet⟩ := hp
  rw [hx] at htx; cases htx
  rcases Nat.lt_trichotomy q m with hqm | hqm | hqm
  · rcases hbx q tq hxq hqm htq with h1 | h1
    · rw [isEmpty_false_of_isOpOf hadd] at h1; cases h1
    · rw [isOp_of_isOpOf hadd] at h1; cases h1
  · subst hqm; rw [htq] at hm; cases hm; exact isOpOf_ne hadd hmul
  · rcases hbet m tm hxm hqm hm with h1 | h1
    · rw [isEmpty_false_of_isOpOf hmul] at h1; cases h1
    · omega

theorem ProtectedBy.after_edit {Q : Nat → Prop} {X Y : ExprTerms} {q x : Nat}
    (h : Edited Q X Y) (hp : ProtectedBy X q x) : ProtectedBy Y q x := by
  have hnc := fun t ht => hp.not_cleared (Y := Y) (t := t) ht
  obtain ⟨hxq, tq, tx, htq, hadd, htx, hxne, hxd, hbet⟩ := hp
  have hyq := h.add_same htq hadd
  have hyx : ∃ t1, Y[x]? = some t1 ∧ t1.isEmpty = false ∧ t1.m_depth = tx.m_depth := by
    rcases h.point x tx htx with h1 | ⟨_, _, t1, h2, h3, h4⟩ | h1
    · exact ⟨tx, h1, hxne, rfl⟩
    · refine ⟨t1, h2, ?_, h3⟩
      rcases h4 with ⟨v, h4⟩ | ⟨k, h4⟩
      · exact isEmpty_false_of_INT h4
      · rw [isEmpty_eq, h4]
    · exact (hnc tx htx h1).elim
  obtain ⟨t1, h1, h2, h3⟩ := hyx
  refine ⟨hxq, tq, t1, hyq, hadd, h1, h2, by rw [h3, hxd], ?_⟩
  intro m t hm1 hm2 hmt
  obtain ⟨t0, ht0⟩ := h.some_of_some hmt
  obtain ⟨t2, h4, h5, h6⟩ := h.depth_same ht0
  rw [hmt] at h4; cases h4
  rcases hbet m t0 hm1 hm2 ht0 with h7 | h7
  · exact Or.inl (h6 h7)
  · exact Or.inr (by omega)

theorem Neg1SymOK.edited_fwd {Q : Nat → Prop} {X Y : ExprTerms} {n sym neg1 n1 : Nat}
    (h : Edited Q X Y) (hn : Y[n]? = X[n]?) (hok : Neg1SymOK X n sym neg1 n1) :
    Neg1SymOK Y n sym neg1 n1 := by
  obtain ⟨se, hse, hmul, hnc, ⟨ts, hts, htsy, htsd⟩, ⟨tn, htn, htnd, htnp⟩⟩ := hok.root
  have hyn : Y[n]? = some se := by rw [hn, hse]
  -- a child of the MUL is not cleared: the zeroed MUL would be the root itself
  have child : ∀ c tc, (c = sym ∨ c = neg1) → X[c]? = some tc → Y[c]? = some tc := by
    intro c tc hc hxc
    have hcn : c < n := by
      rcases hc with hc | hc <;> (subst hc; first | exact hok.sym_lt | exact hok.neg1_lt)
    have hn1c : n1 ≤ c := by
      rcases hc with hc | hc <;> (subst hc; first | exact hok.n1_le_sym | exact hok.n1_le_neg1)
    rcases h.point c tc hxc with h1 | ⟨⟨q, _, hq⟩, _⟩ | ⟨_, _, m, tm, tm1, hcm, hm, hmmul, _, hym, hym0, hbx, _⟩
    · exact h1
    · have := isNeg1Sym_not_protected hok hq
      rcases hc with hc | hc
      · exact (this.1 hc).elim
      · exact (this.2 hc).elim
    · exfalso
      rcases Nat.lt_trichotomy m n with hmn | hmn | hmn
      · by_cases hms : m = sym
        · subst hms; rw [hm] at hts; cases hts
          rw [isOpOf_false_of_SYM_LOC htsy] at hmmul; cases hmmul
        · by_cases hmn1 : m = neg1
          · subst hmn1; rw [hm] at htn; cases htn
            rw [isOpOf_false_of_INT htnd] at hmmul; cases hmmul
          · have := hok.others m (by omega) hmn hms hmn1 tm hm
            rw [isEmpty_false_of_isOpOf hmmul] at this; cases this
      · subst hmn
        rw [hyn] at hym; cases hym
        rw [isOpOf_false_of_INT hym0] at hmul; cases hmul
      · rcases hbx n se hcn hmn hse with h1 | h1
        · rw [isEmpty_false_of_isOpOf hmul] at h1; cases h1
        · rw [isOp_of_isOpOf hmul] at h1; cases h1
  refine ⟨hok.sym_lt, hok.neg1_lt, hok.ne, hok.n1_le_sym, hok.n1_le_neg1,
    ⟨se, hyn, hmul, hnc, ⟨ts, child sym ts (Or.inl rfl) hts, htsy, htsd⟩,
      ⟨tn, child neg1 tn (Or.inr rfl) htn, htnd, htnp⟩⟩, ?_⟩
  intro m h1 h2 h3 h4 t ht
  obtain ⟨t0, ht0⟩ := h.some_of_some ht
  obtain ⟨t1, h5, _, h6⟩ := h.depth_same ht0
  rw [ht] at h5; cases h5
  exact h6 (hok.others m h1 h2 h3 h4 t0 ht0)

theorem Neg1SymOK.edited_bwd {Q : Nat → Prop} {X Y : ExprTerms} {n sym neg1 n1 : Nat}
    (h : Edited Q X Y) (hn : Y[n]? = X[n]?) (hok : Neg1SymOK Y n sym neg1 n1) :
    Neg1SymOK X n sym neg1 n1 := by
  obtain ⟨se, hse, hmul, hnc, ⟨ts, hts, htsy, htsd⟩, ⟨tn, htn, htnd, htnp⟩⟩ := hok.root
  have hxn : X[n]? = some se := by rw [← hn, hse]
  have child : ∀ c tc, (c = sym ∨ c = neg1) → Y[c]? = some tc → X[c]? = some tc := by
    intro c tc hc hyc
    have hne : tc.isEmpty = false := by
      rcases hc with hc | hc
      · subst hc; rw [hts] at hyc; cases hyc; exact isEmpty_false_of_SYM_LOC htsy
      · subst hc; rw [htn] at hyc; cases hyc; exact isEmpty_false_of_INT htnd
    obtain ⟨t0, ht0⟩ := h.some_of_some hyc
    rcases h.point c t0 ht0 with h1 | ⟨⟨q, _, hq⟩, _⟩ | ⟨_, h1, _⟩
    · rw [hyc] at h1; cases h1; exact ht0
    · have := isNeg1Sym_not_protected hok (hq.after_edit h)
      rcases hc with hc | hc
      · exact (this.1 hc).elim
      · exact (this.2 hc).elim
    · rw [hyc] at h1; cases h1
      rw [isEmpty_Clear] at hne; cases hne
  refine ⟨hok.sym_lt, hok.neg1_lt, hok.ne, hok.n1_le_sym, hok.n1_le_neg1,
    ⟨se, hxn, hmul, hnc, ⟨ts, child sym ts (Or.inl rfl) hts, htsy, htsd⟩,
      ⟨tn, child neg1 tn (Or.inr rfl) htn, htnd, htnp⟩⟩, ?_⟩
  intro m h1 h2 h3 h4 t ht
  have hlen : m < Y.length := by rw [h.len]; exact lt_length_of_getElem? ht
  have hym : Y[m]? = some Y[m] := List.getElem?_eq_getElem hlen
  have hemp := hok.others m h1 h2 h3 h4 _ hym
  rcases h.point m t ht with h5 | ⟨_, _, t1, h5, _, h6⟩ | ⟨_, _, m1, tm, tm1, hmm1, _, _, _, hym1, hym0, _, hby⟩
  · rw [hym] at h5; cases h5; exact hemp
  · rw [hym] at h5; cases h5
    rcases h6 with ⟨v, h6⟩ | ⟨k, h6⟩
    · rw [isEmpty_false_of_INT h6] at hemp; cases hemp
    · rw [isEmpty_eq, h6] at hemp; cases hemp
  · exfalso
    have hne1 : tm1.isEmpty = false := isEmpty_false_of_INT hym0
    rcases Nat.lt_trichotomy m1 n with hmn | hmn | hmn
    · by_cases hms : m1 = sym
      · subst hms; rw [hym1] at hts; cases hts
        rw [isType_SYM_LOC_eq, hym0] at htsy; cases htsy
      · by_cases hmn1 : m1 = neg1
        · subst hmn1; rw [hym1] at htn; cases htn
          rw [hym0] at htnd; cases htnd
        · have := hok.others m1 (by omega) hmn hms hmn1 tm1 hym1
          rw [hne1] at this; cases this
    · subst hmn
      rw [hse] at hym1; cases hym1
      rw [isOpOf_false_of_INT hym0] at hmul; cases hmul
    · have := hby n se h2 hmn hse
      rw [isEmpty_false_of_isOpOf hmul] at this; cases this

/-- The recognition of a negated symbol at a term that was not changed gives
the same before and after the matches. -/
theorem isNeg1Sym_edited {Q : Nat → Prop} {X Y : ExprTerms} {n : Nat}
    (h : Edited Q X Y) (hn : Y[n]? = X[n]?) : isNeg1Sym Y n true = isNeg1Sym X n true := by
  have h1 : ∀ r, isNeg1Sym X n true = some r → isNeg1Sym Y n true = some r := by
    rintro ⟨sym, neg1, n1⟩ hr
    exact isNeg1Sym_of_ok ((isNeg1Sym_some hr).edited_fwd h hn) (isNeg1Sym_n1 hr)
  have h2 : ∀ r, isNeg1Sym Y n true = some r → isNeg1Sym X n true = some r := by
    rintro ⟨sym, neg1, n1⟩ hr
    exact isNeg1Sym_of_ok ((isNeg1Sym_some hr).edited_bwd h hn) (isNeg1Sym_n1 hr)
  cases hx : isNeg1Sym X n true with
  | some r => exact h1 r hx
  | none =>
    cases hy : isNeg1Sym Y n true with
    | some r => rw [h2 r hy] at hx; cases hx
    | none => rfl

theorem isNeg1Sym_none_of_not_MUL {e : ExprTerms} {n : Nat} {t : ExprTerm} {l : Bool}
    (h : e[n]? = some t) (hm : t.isOpOf Op.MUL = false) : isNeg1Sym e n l = none := by
  simp [isNeg1Sym, h, hm]

theorem scanChild_passable {X : ExprTerms} {d : Int} {n : Nat} {t : ExprTerm}
    (ht : X[n]? = some t) (h : scanChild X d n ≠ ScanStep.stop) :
    t.isEmpty = true ∨ d < t.m_depth := by
  simp only [scanChild, ht] at h
  by_cases he : t.isEmpty = true
  · exact Or.inl he
  · right
    simp only [he] at h
    by_contra hd
    have : t.m_depth ≤ d := by omega
    simp [this] at h

theorem Visible.down {X : ExprTerms} {pos : Nat} {d : Int} {n : Nat}
    (h : Visible X pos d (n + 1)) (hs : scanChild X d n ≠ ScanStep.stop) : Visible X pos d n := by
  intro m t h1 h2 ht
  by_cases hmn : m = n
  · subst hmn; exact scanChild_passable ht hs
  · exact h m t (by omega) h2 ht

theorem ProtectedBy.of_visible {X : ExprTerms} {pos n : Nat} {d : Int} {tp t : ExprTerm}
    (hp : X[pos]? = some tp) (hadd : tp.isOpOf Op.ADD = true) (hd : tp.m_depth = d)
    (hn : n < pos) (hvis : Visible X pos d (n + 1)) (ht : X[n]? = some t)
    (hne : t.isEmpty = false) (htd : t.m_depth = d + 1) : ProtectedBy X pos n :=
  ⟨hn, tp, t, hp, hadd, ht, hne, by rw [htd, hd], fun m t1 h1 h2 h3 => by
    rw [hd]; exact hvis m t1 (by omega) h2 h3⟩

/-- The scan over terms that look the same from the root gives the same. -/
theorem scanFlat_congr {X Y : ExprTerms} {pos : Nat} {d : Int}
    (hcls : ∀ n, n < pos → Visible X pos d (n + 1) → scanChild Y d n = scanChild X d n) :
    ∀ n rel sub, n ≤ pos → Visible X pos d n →
      scanFlat Y pos d n rel sub = scanFlat X pos d n rel sub := by
  intro n
  induction n with
  | zero => intro rel sub _ _; rfl
  | succ n ih =>
    intro rel sub hn hvis
    have hc := hcls n (by omega) hvis
    rw [scanFlat, scanFlat, hc]
    cases hsc : scanChild X d n with
    | oob => rfl
    | stop => rfl
    | skip =>
      simp only []
      exact ih rel sub (by omega) (hvis.down (by rw [hsc]; simp))
    | rel =>
      simp only []
      rw [ih _ sub (by omega) (hvis.down (by rw [hsc]; simp))]
    | sub a b c =>
      simp only []
      rw [ih rel _ (by omega) (hvis.down (by rw [hsc]; simp))]

theorem SubDone.sub_stable {X T T1 : ExprTerms} {pos : Nat} {d : Int} {rels rels1 : List Nat}
    {S S1 : List SubEntry} {s0 : SubEntry}
    (hold : ∀ x, ¬ inFootprint pos rels S x →
      T1[x]? = T[x]? ∧ ¬ inFootprint pos rels1 S1 x)
    (h : SubDone X T pos d rels S s0) : SubDone X T1 pos d rels1 S1 s0 := by
  obtain ⟨h1, h2, h3, h4⟩ := h.ok.root_lt_hi
  have := h.ok.root_lt_sym
  have := h.ok.root_lt_neg1
  refine ⟨h.ok, fun q hq1 hq2 => (hold _ (h.out q hq1 hq2)).2, ?_, ?_, ?_, ?_⟩
  · rw [(hold _ (h.out _ (by omega) h2)).1]; exact h.sym
  · rw [(hold _ (h.out _ (by omega) h3)).1]; exact h.neg1
  · rw [(hold _ (h.out _ (le_refl _) (by omega))).1]; exact h.root
  · intro q hq1 hq2 hq3 hq4
    rw [(hold _ (h.out _ (by omega) hq2)).1]; exact h.others q hq1 hq2 hq3 hq4

theorem RelDone.rel_stable {X T T1 : ExprTerms} {pos : Nat} {d : Int} {rels rels1 : List Nat}
    {S S1 : List SubEntry} {r0 : Nat}
    (hold : ∀ x, ¬ inFootprint pos rels S x →
      T1[x]? = T[x]? ∧ ¬ inFootprint pos rels1 S1 x)
    (h : RelDone X T pos d rels S r0) : RelDone X T1 pos d rels1 S1 r0 :=
  ⟨h.ok, (hold _ h.out).2, by rw [(hold _ h.out).1]; exact h.term⟩

theorem RelPassed.passed_stable {env : Env} {X T T1 : ExprTerms} {pos : Nat} {rels rels1 : List Nat}
    {S S1 : List SubEntry} {r0 : Nat}
    (hold : ∀ x, ¬ inFootprint pos rels S x →
      T1[x]? = T[x]? ∧ ¬ inFootprint pos rels1 S1 x)
    (hsub : ∀ s ∈ S1, s.subpos ≠ 255 → s ∈ S)
    (h : RelPassed env X T pos rels S r0) : RelPassed env X T1 pos rels1 S1 r0 :=
  ⟨(hold _ h.out).2, by rw [(hold _ h.out).1]; exact h.same,
    fun s hs hm => h.unm s (hsub s hs hm) hm⟩

theorem RunInv.init (env : Env) {X : ExprTerms} {pos : Nat} {d : Int} {rels0 : List Nat}
    {subs0 : List SubEntry} (h : MatchInv X pos d rels0 subs0)
    (hm : ∀ s ∈ subs0, s.subpos ≠ 255) : RunInv env X pos d rels0 subs0 rels0 X subs0 :=
  ⟨h, fun _ _ => rfl, fun _ _ _ _ _ _ => rfl, rfl, fun _ hr => hr, fun _ hs _ => hs,
    fun _ => Or.inl rfl, fun s hs => Or.inl ⟨hs, hm s hs⟩, fun _ hr => Or.inl hr⟩

/-- The first additive term is not among those still to come, and is none of
the recorded subtractive positions. -/
theorem MatchInv.head_out {T : ExprTerms} {pos : Nat} {d : Int} {r : Nat} {rels : List Nat}
    {S : List SubEntry} (h : MatchInv T pos d (r :: rels) S) :
    ¬ inFootprint pos rels S (pos - r) := by
  have hr := h.rel_ok r (List.mem_cons_self _ _)
  have hrs := List.pairwise_cons.1 h.rel_sorted
  have hrl := hr.le_pos
  have hrp := hr.pos_r
  rintro (⟨r1, hr1, hx⟩ | ⟨s, hs, hm, hx⟩)
  · have := hrs.1 r1 hr1
    have := (h.rel_ok r1 (List.mem_cons_of_mem _ hr1)).le_pos
    omega
  · have hso := h.sub_ok s hs hm
    have hc := h.cross r (List.mem_cons_self _ _) s hs hm
    obtain ⟨q1, q2, q3, q4⟩ := hso.root_lt_hi
    have := hso.root_lt_sym
    have := hso.root_lt_neg1
    have := hso.root_pos
    rcases hx with hx | hx | hx <;> omega

theorem RunInv.run_nomatch {env : Env} {X : ExprTerms} {pos : Nat} {d : Int}
    {rels0 : List Nat} {subs0 : List SubEntry} {r : Nat} {rels : List Nat} {T : ExprTerms}
    {S : List SubEntry} (h : RunInv env X pos d rels0 subs0 (r :: rels) T S)
    (hunm : ∀ s ∈ S, s.subpos ≠ 255 → ∃ tr ts, T[pos - r]? = some tr ∧
      T[pos - s.subpos]? = some ts ∧ Unmatchable env tr.getSymbol tr ts) :
    RunInv env X pos d rels0 subs0 rels T S := by
  have hold : ∀ x, ¬ inFootprint pos (r :: rels) S x →
      T[x]? = T[x]? ∧ ¬ inFootprint pos rels S x :=
    fun x hx => ⟨rfl, fun hc => hx (inFootprint_tail hc)⟩
  have hfr : inFootprint pos (r :: rels) S (pos - r) := Or.inl ⟨r, List.mem_cons_self _ _, rfl⟩
  refine ⟨h.inv.tail, fun x hx => h.orig x (inFootprint_tail hx), h.span_orig, h.len,
    fun r1 hr1 => h.rel_mem r1 (List.mem_cons_of_mem _ hr1), h.sub_mem, ?_, ?_, ?_⟩
  · intro x
    rcases h.changed x with h1 | ⟨r0, hr0, hx, h1⟩ | ⟨s0, hs0, h1, hx⟩
    · exact Or.inl h1
    · exact Or.inr (Or.inl ⟨r0, hr0, hx, h1.rel_stable hold⟩)
    · exact Or.inr (Or.inr ⟨s0, hs0, h1.sub_stable hold, hx⟩)
  · intro s0 hs0
    rcases h.subs s0 hs0 with h1 | h1
    · exact Or.inl h1
    · exact Or.inr (h1.sub_stable hold)
  · intro r0 hr0
    rcases h.rels r0 hr0 with h1 | h1 | h1
    · rcases List.mem_cons.1 h1 with h2 | h2
      · subst h2
        right; right
        refine ⟨h.inv.head_out, h.orig _ hfr, ?_⟩
        intro s hs hm
        obtain ⟨tr, ts, h3, h4, h5⟩ := hunm s hs hm
        refine ⟨tr, ts, ?_, ?_, h5⟩
        · rw [← h.orig _ hfr]; exact h3
        · rw [← h.orig _ (Or.inr ⟨s, hs, hm, Or.inl rfl⟩)]; exact h4
      · exact Or.inl h2
    · exact Or.inr (Or.inl (h1.rel_stable hold))
    · exact Or.inr (Or.inr (h1.passed_stable hold (fun s hs _ => hs)))

/-- After a match, the span of the matched entry is out of the footprint. -/
theorem MatchInv.hit_span {terms : ExprTerms} {pos : Nat} {d : Int} {r : Nat}
    {rels : List Nat} {pre post : List SubEntry} {s : SubEntry}
    (hinv : MatchInv terms pos d (r :: rels) (pre ++ s :: post)) (hm : s.subpos ≠ 255)
    (q : Nat) (hq1 : s.subroot ≤ q) (hq2 : q ≤ s.hi) :
    ¬ inFootprint pos rels (pre ++ { s with subpos := 255 } :: post) (pos - q) := by
  have hsmem : s ∈ pre ++ s :: post := by simp
  have hso := hinv.sub_ok s hsmem hm
  obtain ⟨h1, h2, h3, h4⟩ := hso.root_lt_hi
  have := hso.root_pos
  obtain ⟨p1, p2, p3, p4, p5⟩ := pairwise_split hinv.sub_sorted
  rintro (⟨r1, hr1, hx⟩ | ⟨s1, hs1, hm1, hx⟩)
  · have hc := hinv.cross r1 (List.mem_cons_of_mem _ hr1) s hsmem hm
    have := (hinv.rel_ok r1 (List.mem_cons_of_mem _ hr1)).le_pos
    omega
  · have hother : s1 ∈ pre ++ s :: post ∧ (s1.hi < s.subroot ∨ s.hi < s1.subroot) := by
      rcases List.mem_append.1 hs1 with h | h
      · exact ⟨List.mem_append_left _ h, Or.inl ((p3 s1 h).2 hm1)⟩
      · rcases List.mem_cons.1 h with h | h
        · subst h; simp at hm1
        · exact ⟨List.mem_append_right _ (List.mem_cons_of_mem _ h), Or.inr ((p4 s1 h).2 hm)⟩
    obtain ⟨hmem, hdis⟩ := hother
    have hs1ok := hinv.sub_ok s1 hmem hm1
    obtain ⟨q1, q2, q3, q4⟩ := hs1ok.root_lt_hi
    have := hs1ok.root_lt_sym
    have := hs1ok.root_lt_neg1
    have := hs1ok.root_pos
    rcases hx with hx | hx | hx <;> omega

theorem RunInv.run_hit {env : Env} {X : ExprTerms} {pos : Nat} {d : Int}
    {rels0 : List Nat} {subs0 : List SubEntry} {r : Nat} {rels : List Nat} {T : ExprTerms}
    {pre post : List SubEntry} {s : SubEntry} {t : ExprTerm}
    (h : RunInv env X pos d rels0 subs0 (r :: rels) T (pre ++ s :: post))
    (hm : s.subpos ≠ 255)
    (ht : t.m_depth = d + 1 ∧
      ((∃ v, t.data = TermData.INT v) ∨ ∃ k, t.data = TermData.SUBST k)) :
    RunInv env X pos d rels0 subs0 rels (clearSub (T.set (pos - r) t) pos s)
      (pre ++ { s with subpos := 255 } :: post) := by
  have hsmem : s ∈ pre ++ s :: post := by simp
  obtain ⟨mlen, m1, m2, m3, m4, hframe⟩ := matched_terms_spec h.inv hsmem hm t
  have hfp := MatchInv.hit_footprint h.inv hm
  have hspan := h.inv.hit_span hm
  have hr := h.inv.rel_ok r (List.mem_cons_self _ _)
  have hso := h.inv.sub_ok s hsmem hm
  have hcr := h.inv.cross r (List.mem_cons_self _ _) s hsmem hm
  obtain ⟨g1, g2, g3, g4⟩ := hso.root_lt_hi
  have hrl := hr.le_pos
  have hrp := hr.pos_r
  have hsl := hso.root_lt_sym
  have hnl := hso.root_lt_neg1
  have hsp := hso.root_pos
  have hsne := hso.ne
  obtain ⟨p1, p2, p3, p4, p5⟩ := pairwise_split h.inv.sub_sorted
  have hfr : inFootprint pos (r :: rels) (pre ++ s :: post) (pos - r) :=
    Or.inl ⟨r, List.mem_cons_self _ _, rfl⟩
  have hfs : inFootprint pos (r :: rels) (pre ++ s :: post) (pos - s.subpos) :=
    Or.inr ⟨s, hsmem, hm, Or.inl rfl⟩
  have hfn : inFootprint pos (r :: rels) (pre ++ s :: post) (pos - s.subneg1) :=
    Or.inr ⟨s, hsmem, hm, Or.inr (Or.inl rfl)⟩
  have hfo : inFootprint pos (r :: rels) (pre ++ s :: post) (pos - s.subroot) :=
    Or.inr ⟨s, hsmem, hm, Or.inr (Or.inr rfl)⟩
  have hold : ∀ x, ¬ inFootprint pos (r :: rels) (pre ++ s :: post) x →
      (clearSub (T.set (pos - r) t) pos s)[x]? = T[x]? ∧
      ¬ inFootprint pos rels (pre ++ { s with subpos := 255 } :: post) x := by
    intro x hx
    refine ⟨hframe x ?_ ?_ ?_ ?_, fun hc => hx (hfp x hc).2.2.2.2⟩
    · rintro rfl; exact hx hfr
    · rintro rfl; exact hx hfs
    · rintro rfl; exact hx hfn
    · rintro rfl; exact hx hfo
  have hother : ∀ s1 ∈ pre ++ { s with subpos := 255 } :: post, s1.subpos ≠ 255 →
      s1 ∈ pre ++ s :: post ∧ (s1.hi < s.subroot ∨ s.hi < s1.subroot) := by
    intro s1 hs1 hm1
    rcases List.mem_append.1 hs1 with h | h
    · exact ⟨List.mem_append_left _ h, Or.inl ((p3 s1 h).2 hm1)⟩
    · rcases List.mem_cons.1 h with h | h
      · subst h; simp at hm1
      · exact ⟨List.mem_append_right _ (List.mem_cons_of_mem _ h), Or.inr ((p4 s1 h).2 hm)⟩
  have hsub : ∀ s1 ∈ pre ++ { s with subpos := 255 } :: post, s1.subpos ≠ 255 →
      s1 ∈ pre ++ s :: post := fun s1 hs1 hm1 => (hother s1 hs1 hm1).1
  have newRel : RelDone X (clearSub (T.set (pos - r) t) pos s) pos d rels
      (pre ++ { s with subpos := 255 } :: post) r :=
    ⟨hr.of_eq_at (h.orig _ hfr).symm, fun hc => (hfp _ hc).1 rfl, ⟨t, m1, ht.1, ht.2⟩⟩
  have newSub : SubDone X (clearSub (T.set (pos - r) t) pos s) pos d rels
      (pre ++ { s with subpos := 255 } :: post) s := by
    refine ⟨hso.of_eq_on_span (fun q hq1 hq2 => (h.span_orig s hsmem hm q hq1 hq2).symm),
      hspan, ?_, ?_, ?_, ?_⟩
    · rw [m2, h.orig _ hfs]
    · rw [m3, h.orig _ hfn]
    · rw [m4, h.orig _ hfo]
    · intro q hq1 hq2 hq3 hq4
      rw [hframe _ (by omega) (by omega) (by omega) (by omega)]
      exact h.span_orig s hsmem hm q (by omega) hq2
  refine ⟨h.inv.hit hm t, ?_, ?_, by rw [mlen, h.len],
    fun r1 hr1 => h.rel_mem r1 (List.mem_cons_of_mem _ hr1),
    fun s1 hs1 hm1 => h.sub_mem s1 (hsub s1 hs1 hm1) hm1, ?_, ?_, ?_⟩
  · intro x hx
    obtain ⟨x1, x2, x3, x4, x5⟩ := hfp x hx
    rw [hframe x x1 x2 x3 x4]
    exact h.orig x x5
  · intro s1 hs1 hm1 q hq1 hq2
    obtain ⟨hmem, hdis⟩ := hother s1 hs1 hm1
    have hs1ok := h.inv.sub_ok s1 hmem hm1
    have hc1 := h.inv.cross r (List.mem_cons_self _ _) s1 hmem hm1
    obtain ⟨q1, q2, q3, q4⟩ := hs1ok.root_lt_hi
    rw [hframe _ (by omega) (by omega) (by omega) (by omega)]
    exact h.span_orig s1 hmem hm1 q hq1 hq2
  · intro x
    by_cases hx1 : x = pos - r
    · exact Or.inr (Or.inl ⟨r, h.rel_mem r (List.mem_cons_self _ _), hx1, newRel⟩)
    · by_cases hx2 : x = pos - s.subpos ∨ x = pos - s.subneg1 ∨ x = pos - s.subroot
      · exact Or.inr (Or.inr ⟨s, h.sub_mem s hsmem hm, newSub, hx2⟩)
      · have hx3 : (clearSub (T.set (pos - r) t) pos s)[x]? = T[x]? :=
          hframe x hx1 (fun hc => hx2 (Or.inl hc)) (fun hc => hx2 (Or.inr (Or.inl hc)))
            (fun hc => hx2 (Or.inr (Or.inr hc)))
        rcases h.changed x with h1 | ⟨r0, hr0, hx, h1⟩ | ⟨s0, hs0, h1, hx⟩
        · exact Or.inl (by rw [hx3, h1])
        · exact Or.inr (Or.inl ⟨r0, hr0, hx, h1.rel_stable hold⟩)
        · exact Or.inr (Or.inr ⟨s0, hs0, h1.sub_stable hold, hx⟩)
  · intro s0 hs0
    rcases h.subs s0 hs0 with ⟨h1, h2⟩ | h1
    · by_cases hs : s0 = s
      · subst hs; exact Or.inr newSub
      · left
        refine ⟨?_, h2⟩
        rcases List.mem_append.1 h1 with h3 | h3
        · exact List.mem_append_left _ h3
        · rcases List.mem_cons.1 h3 with h3 | h3
          · exact absurd h3 hs
          · exact List.mem_append_right _ (List.mem_cons_of_mem _ h3)
    · exact Or.inr (h1.sub_stable hold)
  · intro r0 hr0
    rcases h.rels r0 hr0 with h1 | h1 | h1
    · rcases List.mem_cons.1 h1 with h2 | h2
      · subst h2; exact Or.inr (Or.inl newRel)
      · exact Or.inl h2
    · exact Or.inr (Or.inl (h1.rel_stable hold))
    · exact Or.inr (Or.inr (h1.passed_stable hold hsub))

/-- The outer matching loop carries the invariant to its end. -/
theorem matchRels_run {σ : Type} {env : Env} {func : DistFunc σ} (hf : Replacing env func)
    {X : ExprTerms} {pos : Nat} {d : Int} {rels0 : List Nat} {subs0 : List SubEntry}
    {rels : List Nat} {T T1 : ExprTerms} {S S1 : List SubEntry} {st st1 : σ}
    (hinv : RunInv env X pos d rels0 subs0 rels T S)
    (h : matchRels env func pos rels T S st = Except.ok (T1, S1, st1)) :
    RunInv env X pos d rels0 subs0 [] T1 S1 := by
  induction rels generalizing T S st with
  | nil =>
    simp [matchRels] at h
    obtain ⟨h1, h2, h3⟩ := h
    subst h1; subst h2; subst h3
    exact hinv
  | cons r rels ih =>
    simp only [matchRels] at h
    split at h
    · cases h
    · rename_i relterm hrel
      split at h
      · cases h
      · rename_i terms2 subs2 st2 hm
        refine ih ?_ h
        rcases matchSubs_ok hf.clean hm with
          ⟨h1, h2, h3, h4⟩ | ⟨pre, s, post, h1, h2, h3, _, h5⟩
        · simp at h2
          subst h1; subst h2; subst h3
          refine hinv.run_nomatch ?_
          intro s hs hsm
          obtain ⟨_, _, tr, ts, g1, g2, g3⟩ := matchPair_next_unmatchable hf (h4 s hs hsm)
          rw [hrel] at g1; cases g1
          exact ⟨relterm, ts, hrel, g2, g3⟩
        · simp at h3
          subst h1; subst h3
          obtain ⟨relterm1, subterm, t, g1, g2, g3, g4⟩ := matchPair_matched h5
          rw [hrel] at g1; cases g1
          subst g3
          obtain ⟨o1, o2⟩ := matchedBy_output hf g4
          obtain ⟨tr, htr, _, htrd⟩ := (hinv.inv.rel_ok r (List.mem_cons_self _ _)).term
          rw [hrel] at htr; cases htr
          exact hinv.run_hit h2 ⟨by rw [o1, htrd], o2⟩

theorem scanChild_of_value {e : ExprTerms} {d : Int} {n : Nat} {t : ExprTerm}
    (h : e[n]? = some t) (hd : t.m_depth = d + 1)
    (hv : (∃ v, t.data = TermData.INT v) ∨ ∃ k, t.data = TermData.SUBST k) :
    scanChild e d n = ScanStep.skip := by
  have hne : t.isEmpty = false := by
    rcases hv with ⟨v, hv⟩ | ⟨k, hk⟩
    · exact isEmpty_false_of_INT hv
    · rw [isEmpty_eq, hk]
  have hsl : t.isType (ExprTerm.SYM ||| ExprTerm.LOC) = false := by
    rw [isType_SYM_LOC_eq]
    rcases hv with ⟨v, hv⟩ | ⟨k, hk⟩
    · rw [hv]
    · rw [hk]
  have hmul : t.isOpOf Op.MUL = false := by
    rcases hv with ⟨v, hv⟩ | ⟨k, hk⟩
    · exact isOpOf_false_of_INT hv
    · cases t with
      | mk data dd => simp only at hk; subst hk; rfl
  have hneg := isNeg1Sym_none_of_not_MUL (l := true) h hmul
  simp only [scanChild, h, hne, hd, hsl, hneg]
  simp

/-- Every entry the scan records stands for an index it visited. -/
theorem scanFlat_recorded {X : ExprTerms} {pos : Nat} {d : Int} :
    ∀ n rel sub rels subs, n ≤ pos → Visible X pos d n →
      scanFlat X pos d n rel sub = Except.ok (rels, subs) →
      (∀ r ∈ rels, r ∈ rel ∨ ∃ m, m < n ∧ r = pos - m ∧ scanChild X d m = ScanStep.rel ∧
        Visible X pos d (m + 1)) ∧
      (∀ s ∈ subs, s ∈ sub ∨ ∃ m a b c, m < n ∧ s = ⟨pos - a, pos - b, pos - m⟩ ∧
        scanChild X d m = ScanStep.sub a b c ∧ Visible X pos d (m + 1)) := by
  intro n
  induction n with
  | zero =>
    intro rel sub rels subs _ _ h
    simp only [scanFlat] at h
    cases h
    exact ⟨fun r hr => Or.inl hr, fun s hs => Or.inl hs⟩
  | succ n ih =>
    intro rel sub rels subs hn hvis h
    rw [scanFlat] at h
    cases hsc : scanChild X d n with
    | oob => rw [hsc] at h; cases h
    | stop =>
      rw [hsc] at h; simp only [] at h; cases h
      exact ⟨fun r hr => Or.inl hr, fun s hs => Or.inl hs⟩
    | skip =>
      rw [hsc] at h; simp only [] at h
      obtain ⟨h1, h2⟩ := ih rel sub rels subs (by omega) (hvis.down (by rw [hsc]; simp)) h
      refine ⟨fun r hr => ?_, fun s hs => ?_⟩
      · rcases h1 r hr with h3 | ⟨m, h3, h4⟩
        · exact Or.inl h3
        · exact Or.inr ⟨m, by omega, h4⟩
      · rcases h2 s hs with h3 | ⟨m, a, b, c, h3, h4⟩
        · exact Or.inl h3
        · exact Or.inr ⟨m, a, b, c, by omega, h4⟩
    | rel =>
      rw [hsc] at h; simp only [] at h
      split at h
      · cases h
      · split at h
        · cases h
        · obtain ⟨h1, h2⟩ := ih _ sub rels subs (by omega) (hvis.down (by rw [hsc]; simp)) h
          refine ⟨fun r hr => ?_, fun s hs => ?_⟩
          · rcases h1 r hr with h3 | ⟨m, h3, h4⟩
            · rcases List.mem_append.1 h3 with h5 | h5
              · exact Or.inl h5
              · simp at h5
                exact Or.inr ⟨n, by omega, h5, hsc, hvis⟩
            · exact Or.inr ⟨m, by omega, h4⟩
          · rcases h2 s hs with h3 | ⟨m, a, b, c, h3, h4⟩
            · exact Or.inl h3
            · exact Or.inr ⟨m, a, b, c, by omega, h4⟩
    | sub a b c =>
      rw [hsc] at h; simp only [] at h
      split at h
      · cases h
      · split at h
        · cases h
        · obtain ⟨h1, h2⟩ := ih rel _ rels subs (by omega) (hvis.down (by rw [hsc]; simp)) h
          refine ⟨fun r hr => ?_, fun s hs => ?_⟩
          · rcases h1 r hr with h3 | ⟨m, h3, h4⟩
            · exact Or.inl h3
            · exact Or.inr ⟨m, by omega, h4⟩
          · rcases h2 s hs with h3 | ⟨m, a1, b1, c1, h3, h4⟩
            · rcases List.mem_append.1 h3 with h5 | h5
              · exact Or.inl h5
              · simp at h5
                exact Or.inr ⟨n, a, b, c, by omega, h5, hsc, hvis⟩
            · exact Or.inr ⟨m, a1, b1, c1, by omega, h4⟩

theorem Visible.top (X : ExprTerms) (pos : Nat) (d : Int) : Visible X pos d pos :=
  fun m _ h1 h2 _ => by omega

/-- The additive terms and the `MUL` roots the scan records are direct
operands of the root. -/
theorem scanTerms_protected {X : ExprTerms} {pos : Nat} {root : ExprTerm}
    {rels : List Nat} {subs : List SubEntry}
    (hp : X[pos]? = some root) (hadd : root.isOpOf Op.ADD = true)
    (h : scanTerms X pos root.m_depth pos pos [] [] = Except.ok (rels, subs)) :
    (∀ r ∈ rels, ProtectedBy X pos (pos - r)) ∧
    (∀ s ∈ subs, ProtectedBy X pos (pos - s.subroot)) := by
  rw [scanTerms_eq_scanFlat _ _ _ _ _ _ _ (le_refl _)] at h
  obtain ⟨h1, h2⟩ := scanFlat_recorded pos [] [] rels subs (le_refl _) (Visible.top _ _ _) h
  refine ⟨fun r hr => ?_, fun s hs => ?_⟩
  · rcases h1 r hr with h3 | ⟨m, h3, h4, h5, h6⟩
    · simp at h3
    · obtain ⟨t, ht, hty, htd⟩ := scanChild_rel h5
      have : pos - r = m := by omega
      rw [this]
      exact ProtectedBy.of_visible hp hadd rfl h3 h6 ht (isEmpty_false_of_SYM_LOC hty) htd
  · rcases h2 s hs with h3 | ⟨m, a, b, c, h3, h4, h5, h6⟩
    · simp at h3
    · obtain ⟨hok, t, ht, htd⟩ := scanChild_sub h5
      obtain ⟨se, hse, hmul, _⟩ := hok.root
      rw [ht] at hse; cases hse
      have : pos - s.subroot = m := by rw [h4]; simp only; omega
      rw [this]
      exact ProtectedBy.of_visible hp hadd rfl h3 h6 ht (isEmpty_false_of_isOpOf hmul) htd

theorem isOp_false_of_INT {t : ExprTerm} {v : Int} (h : t.data = TermData.INT v) :
    t.isOp = false := by
  cases t with
  | mk data d => simp only at h; subst h; rfl

theorem isOp_false_of_SYM_LOC {t : ExprTerm}
    (h : t.isType (ExprTerm.SYM ||| ExprTerm.LOC) = true) : t.isOp = false := by
  rw [isType_SYM_LOC_eq] at h
  cases t with
  | mk data d => cases data <;> first | rfl | simp at h

/-- A child of a matched entry, as the relation `Cleared` wants it. -/
theorem SubDone.cleared {X T : ExprTerms} {pos : Nat} {d : Int} {rels : List Nat}
    {S : List SubEntry} {s0 : SubEntry} (h : SubDone X T pos d rels S s0)
    {x : Nat} {t : ExprTerm} (hx : X[x]? = some t)
    (hxe : x = pos - s0.subpos ∨ x = pos - s0.subneg1) : Cleared X T x t := by
  obtain ⟨g1, g2, g3, g4⟩ := h.ok.root_lt_hi
  have hsl := h.ok.root_lt_sym
  have hnl := h.ok.root_lt_neg1
  have hsp := h.ok.root_pos
  have hsle := h.ok.sym_le
  have hnle := h.ok.neg1_le
  have hne := h.ok.ne
  obtain ⟨tm, htm, hmul, hnc, htmd⟩ := h.ok.root
  obtain ⟨ts, hts, htsy, htsd⟩ := h.ok.sym
  obtain ⟨tn, htn, htnd, htnp⟩ := h.ok.neg1
  have hTm : T[pos - s0.subroot]? = some tm.Zero := by rw [h.root, htm]; rfl
  have hTs : T[pos - s0.subpos]? = some ts.Clear := by rw [h.sym, hts]; rfl
  have hTn : T[pos - s0.subneg1]? = some tn.Clear := by rw [h.neg1, htn]; rfl
  have hxlt : x < pos - s0.subroot := by rcases hxe with hxe | hxe <;> omega
  have hty : t.isType (ExprTerm.SYM ||| ExprTerm.LOC) = true ∨ t.data = TermData.INT (-1) := by
    rcases hxe with hxe | hxe
    · subst hxe; rw [hts] at hx; cases hx; exact Or.inl htsy
    · subst hxe; rw [htn] at hx; cases hx; exact Or.inr htnd
  have hTx : T[x]? = some t.Clear := by
    rcases hxe with hxe | hxe
    · subst hxe; rw [hts] at hx; cases hx; exact hTs
    · subst hxe; rw [htn] at hx; cases hx; exact hTn
  have hdep : t.m_depth = tm.m_depth + 1 := by
    rcases hxe with hxe | hxe
    · subst hxe; rw [hts] at hx; cases hx; omega
    · subst hxe; rw [htn] at hx; cases hx; omega
  refine ⟨hty, hTx, pos - s0.subroot, tm, tm.Zero, hxlt, htm, hmul, hdep, hTm, rfl, ?_, ?_⟩
  · intro y ty hy1 hy2 hy
    have hyq : y = pos - (pos - y) := by omega
    by_cases hq1 : pos - y = s0.subpos
    · rw [hyq, hq1, hts] at hy; cases hy
      exact Or.inr (isOp_false_of_SYM_LOC htsy)
    · by_cases hq2 : pos - y = s0.subneg1
      · rw [hyq, hq2, htn] at hy; cases hy
        exact Or.inr (isOp_false_of_INT htnd)
      · rw [hyq] at hy
        exact Or.inl (h.ok.others (pos - y) (by omega) (by rcases hxe with hxe | hxe <;> omega)
          hq1 hq2 ty hy)
  · intro y ty hy1 hy2 hy
    have hyq : y = pos - (pos - y) := by omega
    by_cases hq1 : pos - y = s0.subpos
    · rw [hyq, hq1, hTs] at hy; cases hy
      exact isEmpty_Clear _
    · by_cases hq2 : pos - y = s0.subneg1
      · rw [hyq, hq2, hTn] at hy; cases hy
        exact isEmpty_Clear _
      · have hle : pos - y ≤ s0.hi := by rcases hxe with hxe | hxe <;> omega
        rw [hyq, h.others (pos - y) (by omega) hle hq1 hq2] at hy
        exact h.ok.others (pos - y) (by omega) hle hq1 hq2 ty hy

/-- What the matching loops did to the terms is a set of replacements and
clearings under the root at `pos`. -/
theorem RunInv.to_edited {env : Env} {X : ExprTerms} {pos : Nat} {d : Int} {rels0 : List Nat}
    {subs0 : List SubEntry} {T : ExprTerms} {S : List SubEntry}
    (h : RunInv env X pos d rels0 subs0 [] T S)
    (hpR : ∀ r ∈ rels0, ProtectedBy X pos (pos - r))
    (hpS : ∀ s ∈ subs0, ProtectedBy X pos (pos - s.subroot)) :
    Edited (fun q => q = pos) X T := by
  refine ⟨h.len, fun x t hx => ?_⟩
  rcases h.changed x with h1 | ⟨r0, hr0, hxe, hd⟩ | ⟨s0, hs0, hd, hxe⟩
  · exact Or.inl (by rw [h1, hx])
  · right; left
    subst hxe
    obtain ⟨t0, ht0, hty, htd⟩ := hd.ok.term
    rw [hx] at ht0; cases ht0
    obtain ⟨t1, ht1, ht1d, hk⟩ := hd.term
    exact ⟨⟨pos, rfl, hpR r0 hr0⟩, ⟨isEmpty_false_of_SYM_LOC hty, isOpOf_false_of_SYM_LOC hty⟩,
      t1, ht1, by rw [ht1d, htd], hk⟩
  · rcases hxe with hxe | hxe | hxe
    · exact Or.inr (Or.inr (hd.cleared hx (Or.inl hxe)))
    · exact Or.inr (Or.inr (hd.cleared hx (Or.inr hxe)))
    · right; left
      subst hxe
      obtain ⟨tm, htm, hmul, hnc, htmd⟩ := hd.ok.root
      rw [hx] at htm; cases htm
      have hna : t.isOpOf Op.ADD = false := by
        cases h : t.isOpOf Op.ADD with
        | false => rfl
        | true => exact (isOpOf_ne h hmul).elim
      exact ⟨⟨pos, rfl, hpS s0 hs0⟩, ⟨isEmpty_false_of_isOpOf hmul, hna⟩, t.Zero,
        by rw [hd.root, hx]; rfl, rfl, Or.inl ⟨0, rfl⟩⟩

theorem Edited.same (Q : Nat → Prop) (X : ExprTerms) : Edited Q X X :=
  ⟨rfl, fun _ _ h => Or.inl h⟩

/-- What `TransformDistBase` at `p` does to the terms, for a functor that
replaces what it matches: replacements and clearings under the root at `p`. -/
theorem TransformDistBase_edited {σ : Type} {env : Env} {func : DistFunc σ}
    (hf : Replacing env func) {e e1 : ExprTerms} {p : Nat} {st st1 : σ}
    (h : TransformDistBase env func e (p : Int) st = Except.ok (e1, st1)) :
    Edited (fun q => q = p) e e1 := by
  obtain ⟨p1, root, hp, hroot, h1 | ⟨hadd, hn, rels, subs, subs1, hs, hm⟩⟩ :=
    TransformDistBase_ok h
  · rw [h1.2.1]; exact Edited.same _ _
  · have h0 : ¬ ((p : Int) < 0) := by omega
    rw [if_neg h0] at hp
    have : p1 = p := by omega
    subst this
    have hsi := scanTerms_start_inv hs
    have hrun := matchRels_run hf (RunInv.init env (MatchInv.of_scanInv hsi)
      (fun s hs => by have := (hsi.sub_ok s hs).1.sym_lt; omega)) hm
    obtain ⟨hpR, hpS⟩ := scanTerms_protected hroot hadd hs
    exact hrun.to_edited hpR hpS

theorem Cleanup_nonempty {X : ExprTerms} {t : ExprTerm} (h : t ∈ Cleanup X) :
    t.isEmpty = false := by
  simp only [Cleanup, List.mem_filter] at h
  simpa using h.2

theorem evalChildren_dataEq (ar : Arith) (op : Op) :
    ∀ (cs cs1 : List ExprTerm) (r r1 : ExprTerm), DataEq r r1 → List.Forall₂ DataEq cs cs1 →
      ResEq DataEq (evalChildren ar op r cs) (evalChildren ar op r1 cs1) := by
  intro cs
  induction cs with
  | nil =>
    intro cs1 r r1 hr hcs
    cases hcs
    simpa [evalChildren, ResEq] using hr
  | cons c cs ih =>
    intro cs1 r r1 hr hcs
    cases hcs with
    | cons hc hrest =>
      rename_i c1 cs2
      simp only [DataEq] at hr hc
      simp only [evalChildren, ← hr, ← hc]
      split
      · split
        · exact ih _ _ _ rfl hrest
        · simp [ResEq]
      · split
        · exact ih _ _ _ rfl hrest
        · simp [ResEq]
      · split
        · exact ih _ _ _ rfl hrest
        · simp [ResEq]
      · split
        · exact ih _ _ _ rfl hrest
        · simp [ResEq]
      · simp [ResEq]

theorem evalUnary_dataEq (ar : Arith) (op : Op) (r r1 : ExprTerm) (h : DataEq r r1) :
    ResEq DataEq (evalUnary ar op r) (evalUnary ar op r1) := by
  simp only [DataEq] at h
  simp only [evalUnary, ← h]
  split
  · split
    · split
      · simp [ResEq, DataEq]
      · simp [ResEq]
    · split
      · simp [ResEq, DataEq]
      · simp [ResEq]
    · simp [ResEq]
  · simp [ResEq]

theorem forall₂_dataEq_append {a a1 b b1 : List ExprTerm} (h1 : List.Forall₂ DataEq a a1)
    (h2 : List.Forall₂ DataEq b b1) : List.Forall₂ DataEq (a ++ b) (a1 ++ b1) :=
  List.rel_append h1 h2

theorem evalTerm_dataEq (env : Env) (ar : Arith) (arr : List ExprTerm) (vl zr : Bool)
    (st st1 : List ExprTerm) (t t1 : ExprTerm) (hst : List.Forall₂ DataEq st st1)
    (ht : TermRel arr t t1) :
    ResEq (List.Forall₂ DataEq) (evalTerm env ar (some arr) vl zr st t)
      (evalTerm env ar (some arr) vl zr st1 t1) := by
  have hlen := hst.length_eq
  rcases ht with ht | ⟨k, v, s, h1, h2, h3, h4⟩
  · cases hd : t.data with
    | OP op nchild =>
      rw [hd] at ht
      simp only [evalTerm, hd, ← ht, ← hlen]
      split
      · simp [ResEq]
      · split
        · simp [ResEq]
        · have hdrop : List.Forall₂ DataEq (st.drop (st.length - nchild))
              (st1.drop (st.length - nchild)) := List.forall₂_drop _ hst
          have htake : List.Forall₂ DataEq (st.take (st.length - nchild))
              (st1.take (st.length - nchild)) := List.forall₂_take _ hst
          generalize st1.drop (st.length - nchild) = dr1 at hdrop
          cases hA : st.drop (st.length - nchild) with
          | nil =>
            rw [hA] at hdrop
            cases hdrop
            simp [ResEq]
          | cons res children =>
            rw [hA] at hdrop
            cases hdrop with
            | cons hres hch =>
              rename_i res1 children1
              have hE := evalChildren_dataEq ar op children children1 res res1 hres hch
              simp only []
              cases hF : evalChildren ar op res children with
              | error a =>
                cases hG : evalChildren ar op res1 children1 with
                | error b => rw [hF, hG] at hE; simpa [ResEq] using hE
                | ok x => rw [hF, hG] at hE; cases x <;> simp [ResEq] at hE
              | ok x =>
                cases hG : evalChildren ar op res1 children1 with
                | error b => rw [hF, hG] at hE; cases x <;> simp [ResEq] at hE
                | ok y =>
                  rw [hF, hG] at hE
                  cases x with
                  | none => cases y <;> simp [ResEq] at hE ⊢
                  | some r =>
                    cases y with
                    | none => simp [ResEq] at hE
                    | some r1 =>
                      simp only [ResEq] at hE
                      simp only []
                      split
                      · have hU := evalUnary_dataEq ar op r r1 hE
                        cases hF2 : evalUnary ar op r with
                        | error a =>
                          cases hG2 : evalUnary ar op r1 with
                          | error b => rw [hF2, hG2] at hU; simpa [ResEq] using hU
                          | ok x => rw [hF2, hG2] at hU; cases x <;> simp [ResEq] at hU
                        | ok x =>
                          cases hG2 : evalUnary ar op r1 with
                          | error b => rw [hF2, hG2] at hU; cases x <;> simp [ResEq] at hU
                          | ok y =>
                            rw [hF2, hG2] at hU
                            cases x with
                            | none => cases y <;> simp [ResEq] at hU ⊢
                            | some u =>
                              cases y with
                              | none => simp [ResEq] at hU
                              | some u1 =>
                                simp only [ResEq] at hU ⊢
                                exact forall₂_dataEq_append htake
                                  (List.Forall₂.cons hU List.Forall₂.nil)
                      · simp only [ResEq]
                        exact forall₂_dataEq_append htake
                          (List.Forall₂.cons hE List.Forall₂.nil)
    | NONE =>
      rw [hd] at ht
      simp only [evalTerm, hd, ← ht, ResEq]
      exact hst
    | REG x =>
      rw [hd] at ht
      simp only [evalTerm, hd, ← ht]
      split
      · simp only [ResEq]
        exact forall₂_dataEq_append hst (List.Forall₂.cons rfl List.Forall₂.nil)
      · simp [ResEq]
    | SUBST x =>
      rw [hd] at ht
      simp only [evalTerm, hd, ← ht]
      split
      · simp [ResEq]
      · split
        · simp only [ResEq]
          exact forall₂_dataEq_append hst (List.Forall₂.cons rfl List.Forall₂.nil)
        · simp [ResEq]
    | INT x =>
      rw [hd] at ht
      simp only [evalTerm, hd, ← ht, ResEq]
      exact forall₂_dataEq_append hst (List.Forall₂.cons (show t.data = t1.data by rw [hd, ht]) List.Forall₂.nil)
    | FLOAT x =>
      rw [hd] at ht
      simp only [evalTerm, hd, ← ht, ResEq]
      exact forall₂_dataEq_append hst (List.Forall₂.cons (show t.data = t1.data by rw [hd, ht]) List.Forall₂.nil)
    | SYM x =>
      rw [hd] at ht
      simp only [evalTerm, hd, ← ht]
      split
      · split
        · simp [ResEq]
        · split
          · simp only [ResEq]
            exact forall₂_dataEq_append hst (List.Forall₂.cons rfl List.Forall₂.nil)
          · simp [ResEq]
      · simp [ResEq]
    | LOC x =>
      rw [hd] at ht
      simp only [evalTerm, hd, ← ht]
      split
      · simp only [ResEq]
        exact forall₂_dataEq_append hst (List.Forall₂.cons rfl List.Forall₂.nil)
      · simp [ResEq]
  · have hs : s.getType = ExprTerm.INT := by
      cases s with
      | mk data d => simp only at h4; subst h4; rfl
    simp only [evalTerm, h1, h2, h3, hs, true_or, if_true, ResEq]
    exact forall₂_dataEq_append hst (List.Forall₂.cons (show s.data = t1.data by rw [h4, h2]) List.Forall₂.nil)

theorem ResEq.elim3 {α : Type} {R : α → α → Prop} {x y : Except Abort (Option α)}
    (h : ResEq R x y) :
    (∃ a, x = Except.error a ∧ y = Except.error a) ∨
    (x = Except.ok none ∧ y = Except.ok none) ∨
    (∃ u v, x = Except.ok (some u) ∧ y = Except.ok (some v) ∧ R u v) := by
  cases x with
  | error a =>
    cases y with
    | error b => simp only [ResEq] at h; subst h; exact Or.inl ⟨a, rfl, rfl⟩
    | ok v => cases v <;> simp [ResEq] at h
  | ok u =>
    cases y with
    | error b => cases u <;> simp [ResEq] at h
    | ok v =>
      cases u with
      | none => cases v <;> simp [ResEq] at h ⊢
      | some u =>
        cases v with
        | none => simp [ResEq] at h
        | some v => exact Or.inr (Or.inr ⟨u, v, rfl, rfl, h⟩)

theorem resultValue_eq_of_resEq {x y : Except Abort (Option ExprTerm)} (h : ResEq DataEq x y) :
    resultValue x = resultValue y := by
  rcases h.elim3 with ⟨a, h1, h2⟩ | ⟨h1, h2⟩ | ⟨u, v, h1, h2, h3⟩
  · rw [h1, h2]
  · rw [h1, h2]
  · rw [h1, h2]; simp only [resultValue]; rw [h3]

theorem evalLoop_dataEq (env : Env) (ar : Arith) (arr : List ExprTerm) (vl zr : Bool) :
    ∀ (e e1 : List ExprTerm), List.Forall₂ (TermRel arr) e e1 →
      ∀ (st st1 : List ExprTerm), List.Forall₂ DataEq st st1 →
        ResEq (List.Forall₂ DataEq) (evalLoop env ar (some arr) vl zr e st)
          (evalLoop env ar (some arr) vl zr e1 st1) := by
  intro e e1 h
  induction h with
  | nil =>
    intro st st1 hst
    simpa [evalLoop, ResEq] using hst
  | cons ht _ ih =>
    intro st st1 hst
    simp only [evalLoop]
    rcases (evalTerm_dataEq env ar arr vl zr st st1 _ _ hst ht).elim3 with
      ⟨a, h1, h2⟩ | ⟨h1, h2⟩ | ⟨u, v, h1, h2, h3⟩
    · rw [h1, h2]; simp [ResEq]
    · rw [h1, h2]; simp [ResEq]
    · rw [h1, h2]; exact ih u v h3

theorem isType_INT_FLOAT_eq (t : ExprTerm) :
    t.isType (ExprTerm.INT ||| ExprTerm.FLOAT)
      = (match t.data with | TermData.INT _ => true | TermData.FLOAT _ => true | _ => false) := by
  cases t with
  | mk data d =>
    cases data <;> simp [ExprTerm.isType, ExprTerm.getType, ExprTerm.NONE, ExprTerm.REG,
      ExprTerm.INT, ExprTerm.SUBST, ExprTerm.FLOAT, ExprTerm.SYM, ExprTerm.LOC, ExprTerm.OP] <;>
      decide

/-- `Evaluate` gives the same value on an expression with placeholders and on
the expression with the integers of the substitution array in their place. -/
theorem Evaluate_dataEq (env : Env) (ar : Arith) (arr : List ExprTerm) (vl zr : Bool)
    (e e1 : List ExprTerm) (h : List.Forall₂ (TermRel arr) e e1) :
    ResEq DataEq (Evaluate env ar e (some arr) vl zr) (Evaluate env ar e1 (some arr) vl zr) := by
  cases h with
  | nil => simp [Evaluate, ResEq]
  | cons ht hrest =>
    rename_i t t1 rest rest1
    have hloop := evalLoop_dataEq env ar arr vl zr (t :: rest) (t1 :: rest1)
      (List.Forall₂.cons ht hrest) [] [] List.Forall₂.nil
    have hnil : rest = [] ↔ rest1 = [] := by
      constructor
      · intro h; subst h; cases hrest; rfl
      · intro h; subst h; cases hrest; rfl
    have tail : ResEq DataEq
        (match evalLoop env ar (some arr) vl zr (t :: rest) [] with
          | Except.error a => Except.error a
          | Except.ok none => Except.ok none
          | Except.ok (some [r]) => Except.ok (some r)
          | Except.ok (some _) =>
            Except.error (Abort.assertion "did not fully evaluate expression"))
        (match evalLoop env ar (some arr) vl zr (t1 :: rest1) [] with
          | Except.error a => Except.error a
          | Except.ok none => Except.ok none
          | Except.ok (some [r]) => Except.ok (some r)
          | Except.ok (some _) =>
            Except.error (Abort.assertion "did not fully evaluate expression")) := by
      rcases hloop.elim3 with ⟨a, h1, h2⟩ | ⟨h1, h2⟩ | ⟨u, v, h1, h2, h3⟩
      · rw [h1, h2]; simp [ResEq]
      · rw [h1, h2]; simp [ResEq]
      · rw [h1, h2]
        cases h3 with
        | nil => simp [ResEq]
        | cons hr hr2 =>
          cases hr2 with
          | nil => simpa [ResEq] using hr
          | cons _ _ => simp [ResEq]
    simp only [Evaluate]
    by_cases hr : rest = []
    · have hr1 := hnil.1 hr
      subst hr; subst hr1
      by_cases hty : t.isType (ExprTerm.INT ||| ExprTerm.FLOAT) = true
      · -- the shortcut on the side with placeholders
        have hd : t.data = t1.data := by
          rcases ht with ht | ⟨k, v, s, h1, _⟩
          · exact ht
          · rw [isType_INT_FLOAT_eq, h1] at hty; cases hty
        have hty1 : t1.isType (ExprTerm.INT ||| ExprTerm.FLOAT) = true := by
          rw [isType_INT_FLOAT_eq, ← hd, ← isType_INT_FLOAT_eq]; exact hty
        simp only [hty, hty1, and_self, if_true, ResEq]
        exact hd
      · by_cases hty1 : t1.isType (ExprTerm.INT ||| ExprTerm.FLOAT) = true
        · rcases ht with ht | ⟨k, v, s, h1, h2, h3, h4⟩
          · exfalso
            apply hty
            rw [isType_INT_FLOAT_eq, ht, ← isType_INT_FLOAT_eq]; exact hty1
          · have hs : s.getType = ExprTerm.INT := by
              cases s with
              | mk data d => simp only at h4; subst h4; rfl
            simp only [hty, hty1, and_false, and_self, if_true, if_false]
            simp only [evalLoop, evalTerm, h1, h3, hs, true_or, if_true, List.nil_append, ResEq]
            show s.data = t1.data
            rw [h4, h2]
        · simp only [hty, hty1, and_false, if_false]
          exact tail
    · have hr1 : ¬ rest1 = [] := fun h => hr (hnil.2 h)
      simp only [hr, hr1, false_and, if_false]
      exact tail

theorem intValues_cons {dp : Int} {t : ExprTerm} {rest : ExprTerms} {vs : List Int}
    (h : intValues dp (t :: rest) = some vs) :
    ∃ v vs1, t.data = TermData.INT v ∧ intValues dp rest = some vs1 ∧ vs = v :: vs1 := by
  simp only [intValues] at h
  split at h
  · rename_i v vs1 hd hr
    split at h
    · cases h; exact ⟨v, vs1, hd, hr, rfl⟩
    · cases h
  · cases h

theorem intValues_length {dp : Int} : ∀ {cs : ExprTerms} {vs : List Int},
    intValues dp cs = some vs → vs.length = cs.length := by
  intro cs
  induction cs with
  | nil => intro vs h; simp [intValues] at h; subst h; rfl
  | cons t rest ih =>
    intro vs h
    obtain ⟨v, vs1, _, h2, h3⟩ := intValues_cons h
    subst h3
    simp [ih h2]

/-- The main loop of `Evaluate` pushes integer terms as they are. -/
theorem evalLoop_ints (env : Env) (ar : Arith) (subst : Option (List ExprTerm)) (vl zr : Bool)
    (dp : Int) :
    ∀ (cs : ExprTerms) (vs : List Int) (rest st : List ExprTerm),
      intValues dp cs = some vs →
      evalLoop env ar subst vl zr (cs ++ rest) st = evalLoop env ar subst vl zr rest (st ++ cs) := by
  intro cs
  induction cs with
  | nil => intro vs rest st _; simp
  | cons t cs ih =>
    intro vs rest st h
    obtain ⟨v, vs1, h1, h2, _⟩ := intValues_cons h
    rw [List.cons_append, evalLoop]
    simp only [evalTerm, h1]
    rw [ih vs1 rest _ h2]
    simp

/-- With exact addition, the fold of `Evaluate` over integer children gives
their sum. -/
theorem evalChildren_sum (ar : Arith) (hadd : ∀ a b, ar.Calc Op.ADD a b = some (a + b))
    (dp : Int) :
    ∀ (cs : ExprTerms) (vs : List Int) (r : ExprTerm) (a : Int),
      r.data = TermData.INT a → intValues dp cs = some vs →
      evalChildren ar Op.ADD r cs = Except.ok (some { r with data := TermData.INT (a + vs.sum) }) := by
  intro cs
  induction cs with
  | nil =>
    intro vs r a hr h
    simp [intValues] at h; subst h
    cases r with
    | mk data d => simp only at hr; subst hr; simp [evalChildren]
  | cons t cs ih =>
    intro vs r a hr h
    obtain ⟨v, vs1, h1, h2, h3⟩ := intValues_cons h
    subst h3
    simp only [evalChildren, hr, h1, hadd]
    rw [ih vs1 _ (a + v) rfl h2]
    simp [add_assoc]

/-- With exact addition, the reduction of `Simplify` to a single integer does
not change what `Evaluate` gives. -/
theorem Evaluate_reduceRoot (env : Env) (ar : Arith)
    (hadd : ∀ a b, ar.Calc Op.ADD a b = some (a + b)) (e : ExprTerms)
    (subst : Option (List ExprTerm)) (vl zr : Bool) :
    Evaluate env ar (reduceRoot e) subst vl zr = Evaluate env ar e subst vl zr := by
  unfold reduceRoot
  split
  · rfl
  · rename_i root hlast
    split
    · rename_i hc
      obtain ⟨hroot, h2, hlen⟩ := hc
      split
      · rename_i vs hv
        have he : e = e.dropLast ++ [root] := by
          have := List.dropLast_append_getLast? root hlast
          exact this.symm
        have hvl := intValues_length hv
        have hdl : e.dropLast.length = root.getNumChild := by
          simp only [List.length_dropLast]; omega
        obtain ⟨op, n, hrd⟩ : ∃ op n, root.data = TermData.OP op n := by
          cases root with
          | mk data d => cases data <;> simp [ExprTerm.isOpOf] at hroot ⊢
        have hop : op = Op.ADD := by
          cases root with
          | mk data d =>
            simp only at hrd; subst hrd
            simpa [ExprTerm.isOpOf] using hroot
        have hn : n = root.getNumChild := by
          cases root with
          | mk data d => simp only at hrd; subst hrd; rfl
        subst hop
        cases hdr : e.dropLast with
        | nil => rw [hdr] at hdl; simp at hdl; omega
        | cons c cs =>
          rw [hdr] at hv hdl
          obtain ⟨v, vs1, h1, h3, h4⟩ := intValues_cons hv
          subst h4
          have hcs : cs ≠ [] := by
            intro h; subst h; simp at hdl; omega
          have hE : Evaluate env ar e subst vl zr
              = Except.ok (some ⟨TermData.INT (v + vs1.sum), root.m_depth⟩) := by
            rw [he, hdr]
            have hne : ¬ (cs ++ [root] = [] ∧
                c.isType (ExprTerm.INT ||| ExprTerm.FLOAT) = true) := by simp
            simp only [Evaluate, List.cons_append, hne, if_false]
            rw [← List.cons_append, evalLoop_ints env ar subst vl zr _ (c :: cs) (v :: vs1) [root]
              [] hv]
            have hlen2 : ¬ (c :: cs).length < n := by rw [hn]; simp at hdl ⊢; omega
            have hnn : ¬ Op.NONNUM ≤ Op.ADD := by decide
            have hn1 : ¬ n = 1 := by omega
            have hsub : (c :: cs).length - n = 0 := by rw [hn]; simp at hdl ⊢; omega
            simp only [evalLoop, evalTerm, hrd, List.nil_append, hlen2, hnn, if_false, hsub,
              List.drop_zero, evalChildren_sum ar hadd _ cs vs1 c v h1 h3, hn1, List.take_zero]
          rw [hE]
          simp [Evaluate, List.sum_cons, isType_INT_FLOAT_eq]
      · rfl
    · rfl

theorem Sim.same_of_not_SUBST {P : Nat → Prop} {good : Nat → Int → Prop} {TF TG : ExprTerms}
    (h : Sim P good TF TG) {x : Nat} {t : ExprTerm} (ht : TF[x]? = some t)
    (hns : ∀ k, t.data ≠ TermData.SUBST k) : TG[x]? = some t := by
  rcases h.point x t ht with h1 | ⟨_, t1, _, k, v, h2, _⟩
  · exact h1
  · exact (hns k h2).elim

theorem Sim.eq_of_not_SUBST {P : Nat → Prop} {good : Nat → Int → Prop} {TF TG : ExprTerms}
    (h : Sim P good TF TG) {x : Nat} (hns : ∀ t k, TF[x]? = some t → t.data ≠ TermData.SUBST k) :
    TG[x]? = TF[x]? := by
  cases ht : TF[x]? with
  | none =>
    rw [List.getElem?_eq_none_iff] at ht ⊢
    rw [h.len]; exact ht
  | some t => exact h.same_of_not_SUBST ht (fun k => hns t k ht)

theorem not_SUBST_of_SYM_LOC {t : ExprTerm}
    (h : t.isType (ExprTerm.SYM ||| ExprTerm.LOC) = true) (k : Nat) :
    t.data ≠ TermData.SUBST k := by
  intro hk
  rw [isType_SYM_LOC_eq, hk] at h
  cases h

theorem not_SUBST_of_isOpOf {t : ExprTerm} {op : Op} (h : t.isOpOf op = true) (k : Nat) :
    t.data ≠ TermData.SUBST k := by
  intro hk
  cases t with
  | mk data d => simp only at hk; subst hk; simp [ExprTerm.isOpOf] at h

theorem not_SUBST_of_isEmpty {t : ExprTerm} (h : t.isEmpty = true) (k : Nat) :
    t.data ≠ TermData.SUBST k := by
  intro hk
  rw [isEmpty_eq, hk] at h
  cases h

/-- The invariant of the matching loops carries over to the terms with
integers in the place of placeholders. -/
theorem Sim.matchInv {P : Nat → Prop} {good : Nat → Int → Prop} {TF TG : ExprTerms}
    (h : Sim P good TF TG) {pos : Nat} {d : Int} {rels : List Nat} {S : List SubEntry}
    (hinv : MatchInv TF pos d rels S) : MatchInv TG pos d rels S := by
  refine ⟨?_, ?_, hinv.rel_sorted, hinv.sub_sorted, hinv.cross⟩
  · intro r hr
    have hr1 := hinv.rel_ok r hr
    refine hr1.of_eq_at (h.eq_of_not_SUBST ?_)
    intro t k ht
    obtain ⟨t0, ht0, hty, _⟩ := hr1.term
    rw [ht] at ht0; cases ht0
    exact not_SUBST_of_SYM_LOC hty k
  · intro s hs hm
    have hs1 := hinv.sub_ok s hs hm
    refine hs1.of_eq_on_span (fun q hq1 hq2 => h.eq_of_not_SUBST ?_)
    intro t k ht
    by_cases h1 : q = s.subroot
    · obtain ⟨t0, ht0, hmul, _⟩ := hs1.root
      rw [h1] at ht; rw [ht] at ht0; cases ht0
      exact not_SUBST_of_isOpOf hmul k
    · by_cases h2 : q = s.subpos
      · obtain ⟨t0, ht0, hty, _⟩ := hs1.sym
        rw [h2] at ht; rw [ht] at ht0; cases ht0
        exact not_SUBST_of_SYM_LOC hty k
      · by_cases h3 : q = s.subneg1
        · obtain ⟨t0, ht0, hd, _⟩ := hs1.neg1
          rw [h3] at ht; rw [ht] at ht0; cases ht0
          intro hk; rw [hd] at hk; cases hk
        · exact not_SUBST_of_isEmpty (hs1.others q (by omega) hq2 h2 h3 t ht) k

/-- Run side by side on the same pair of terms, the `SubstDistFunctor` and a
functor coupled with it take the same turn of the inner loop. -/
theorem matchPair_coupled {τ : Type} {env : Env} {G : DistFunc τ}
    {Link : SubstState → τ → Prop} {Good : SubstState → Nat → Int → Prop}
    (hc : Coupled env G Link Good) {s : SubstState} {u : τ} (hl : Link s u)
    {TF TG : ExprTerms} {pos relIdx : Nat} {rel : Option Nat} {se : SubEntry}
    {relterm subterm : ExprTerm}
    (hF1 : TF[relIdx]? = some relterm) (hG1 : TG[relIdx]? = some relterm)
    (hF2 : TF[pos - se.subpos]? = some subterm) (hG2 : TG[pos - se.subpos]? = some subterm) :
    (matchPair env SubstDistFunctor pos relIdx rel se TF s = PairResult.next TF s ∧
      matchPair env G pos relIdx rel se TG u = PairResult.next TG u) ∨
    (∃ a, matchPair env SubstDistFunctor pos relIdx rel se TF s = PairResult.abort a) ∨
    (∃ tF tG s1 u1,
      matchPair env SubstDistFunctor pos relIdx rel se TF s
        = PairResult.matched (clearSub (TF.set relIdx tF) pos se) s1 ∧
      matchPair env G pos relIdx rel se TG u
        = PairResult.matched (clearSub (TG.set relIdx tG) pos se) u1 ∧
      Link s1 u1 ∧ (tF = tG ∨ Twin (Good s1) tF tG) ∧ (∀ k v, Good s k v → Good s1 k v)) := by
  simp only [matchPair, hF1, hF2, hG1, hG2]
  by_cases hsame : rel.isSome ∧ rel = subterm.getSymbol
  · right; right
    simp only [if_pos hsame]
    exact ⟨relterm.Zero, relterm.Zero, s, u, rfl, rfl, hl, Or.inl rfl, fun _ _ h => h⟩
  · simp only [if_neg hsame]
    cases hrl : lookupLoc env rel relterm with
    | bad => right; left; exact ⟨_, rfl⟩
    | external => left; exact ⟨rfl, rfl⟩
    | found rel_loc =>
      simp only []
      cases hsl : lookupLoc env subterm.getSymbol subterm with
      | bad => right; left; exact ⟨_, rfl⟩
      | external => left; exact ⟨rfl, rfl⟩
      | found sub_loc =>
        simp only []
        cases hrb : rel_loc.bc with
        | none => right; left; exact ⟨_, rfl⟩
        | some rbc =>
          cases hsb : sub_loc.bc with
          | none => right; left; exact ⟨_, rfl⟩
          | some sbc =>
            simp only []
            by_cases hcont : env.getContainer rbc ≠ env.getContainer sbc
            · left; simp [hcont]
            · right; right
              simp only [if_neg hcont]
              obtain ⟨v, u1, hG, hl1, hg⟩ := hc.step s u relterm sub_loc rel_loc sbc rbc hl hsb hrb
                (Eq.symm (not_not.1 hcont))
              rw [hG]
              refine ⟨⟨TermData.SUBST s.m_subst, relterm.m_depth⟩,
                ⟨TermData.INT v, relterm.m_depth⟩, s.next sub_loc rel_loc, u1, rfl, rfl, hl1,
                Or.inr ⟨s.m_subst, v, rfl, rfl, rfl, hg⟩,
                fun k w h => hc.mono s sub_loc rel_loc k w h⟩

theorem Sim.weaken {P P1 : Nat → Prop} {good good1 : Nat → Int → Prop} {TF TG : ExprTerms}
    (h : Sim P good TF TG) (hP : ∀ x, P x → P1 x) (hg : ∀ k v, good k v → good1 k v) :
    Sim P1 good1 TF TG := by
  refine ⟨h.len, fun x t ht => ?_⟩
  rcases h.point x t ht with h1 | ⟨hp, t1, h2, k, v, a, b, c, e⟩
  · exact Or.inl h1
  · exact Or.inr ⟨hP x hp, t1, h2, k, v, a, b, c, hg k v e⟩

/-- The terms after a match on both sides: integers stand in the place of
placeholders as before, and perhaps at the additive term just matched. -/
theorem Sim.after_hit {P : Nat → Prop} {good good1 : Nat → Int → Prop} {TF TG : ExprTerms}
    (h : Sim P good TF TG) {pos : Nat} {d : Int} {r : Nat} {rels : List Nat}
    {S : List SubEntry} {se : SubEntry} (hinv : MatchInv TF pos d (r :: rels) S)
    (hs : se ∈ S) (hm : se.subpos ≠ 255) {tF tG : ExprTerm}
    (ht : tF = tG ∨ Twin good1 tF tG) (hg : ∀ k v, good k v → good1 k v) :
    Sim (fun x => P x ∨ x = pos - r) good1 (clearSub (TF.set (pos - r) tF) pos se)
      (clearSub (TG.set (pos - r) tG) pos se) := by
  have hinvG := h.matchInv hinv
  obtain ⟨f0, f1, f2, f3, f4, f5⟩ := matched_terms_spec hinv hs hm tF
  obtain ⟨g0, g1, g2, g3, g4, g5⟩ := matched_terms_spec hinvG hs hm tG
  have hso := hinv.sub_ok se hs hm
  have e2 : TG[pos - se.subpos]? = TF[pos - se.subpos]? := by
    refine h.eq_of_not_SUBST (fun t k ht => ?_)
    obtain ⟨t0, ht0, hty, _⟩ := hso.sym
    rw [ht] at ht0; cases ht0
    exact not_SUBST_of_SYM_LOC hty k
  have e3 : TG[pos - se.subneg1]? = TF[pos - se.subneg1]? := by
    refine h.eq_of_not_SUBST (fun t k ht => ?_)
    obtain ⟨t0, ht0, hd, _⟩ := hso.neg1
    rw [ht] at ht0; cases ht0
    intro hk; rw [hd] at hk; cases hk
  have e4 : TG[pos - se.subroot]? = TF[pos - se.subroot]? := by
    refine h.eq_of_not_SUBST (fun t k ht => ?_)
    obtain ⟨t0, ht0, hmul, _⟩ := hso.root
    rw [ht] at ht0; cases ht0
    exact not_SUBST_of_isOpOf hmul k
  refine ⟨by rw [g0, f0, h.len], fun x t hx => ?_⟩
  by_cases h1 : x = pos - r
  · subst h1
    rw [f1] at hx; cases hx
    rcases ht with ht | ht
    · left; rw [g1, ht]
    · right; exact ⟨Or.inr rfl, tG, g1, ht⟩
  · by_cases h2 : x = pos - se.subpos
    · subst h2; left; rw [g2, e2, ← f2]; exact hx
    · by_cases h3 : x = pos - se.subneg1
      · subst h3; left; rw [g3, e3, ← f3]; exact hx
      · by_cases h4 : x = pos - se.subroot
        · subst h4; left; rw [g4, e4, ← f4]; exact hx
        · rw [f5 x h1 h2 h3 h4] at hx
          rw [g5 x h1 h2 h3 h4]
          rcases h.point x t hx with h5 | ⟨hp, t1, h6, k, v, a, b, c, e⟩
          · exact Or.inl h5
          · exact Or.inr ⟨Or.inl hp, t1, h6, k, v, a, b, c, hg k v e⟩

/-- Run side by side, the matching loops with the `SubstDistFunctor` and with
a functor coupled with it make the same matches. -/
theorem matchRels_coupled {τ : Type} {env : Env} {G : DistFunc τ}
    {Link : SubstState → τ → Prop} {Good : SubstState → Nat → Int → Prop}
    (hc : Coupled env G Link Good) {pos : Nat} {d : Int} :
    ∀ (rels : List Nat) (P : Nat → Prop) (TF TG : ExprTerms) (S : List SubEntry)
      (s : SubstState) (u : τ) (TF1 : ExprTerms) (S1 : List SubEntry) (s1 : SubstState),
      MatchInv TF pos d rels S → Sim P (Good s) TF TG → Link s u →
      matchRels env SubstDistFunctor pos rels TF S s = Except.ok (TF1, S1, s1) →
      ∃ TG1 u1, matchRels env G pos rels TG S u = Except.ok (TG1, S1, u1) ∧
        Sim (fun x => P x ∨ ∃ r ∈ rels, x = pos - r) (Good s1) TF1 TG1 ∧ Link s1 u1 ∧
        (∀ k v, Good s k v → Good s1 k v) := by
  intro rels
  induction rels with
  | nil =>
    intro P TF TG S s u TF1 S1 s1 _ hsim hl h
    simp [matchRels] at h
    obtain ⟨h1, h2, h3⟩ := h
    subst h1; subst h2; subst h3
    exact ⟨TG, u, rfl, hsim.weaken (fun x hx => Or.inl hx) (fun _ _ h => h), hl, fun _ _ h => h⟩
  | cons r rels ih =>
    intro P TF TG S s u TF1 S1 s1 hinv hsim hl h
    simp only [matchRels] at h
    split at h
    · cases h
    · rename_i relterm hrel
      split at h
      · cases h
      · rename_i T2 S2 s2 hm
        have hr := hinv.rel_ok r (List.mem_cons_self _ _)
        obtain ⟨tr, htr, htry, _⟩ := hr.term
        rw [hrel] at htr; cases htr
        have hrelG : TG[pos - r]? = some relterm :=
          hsim.same_of_not_SUBST hrel (not_SUBST_of_SYM_LOC htry)
        -- the turn of the inner loop for an unmatched entry, on both sides
        have pair : ∀ se ∈ S, se.subpos ≠ 255 →
            (matchPair env SubstDistFunctor pos (pos - r) relterm.getSymbol se TF s
                = PairResult.next TF s ∧
              matchPair env G pos (pos - r) relterm.getSymbol se TG u = PairResult.next TG u) ∨
            (∃ a, matchPair env SubstDistFunctor pos (pos - r) relterm.getSymbol se TF s
                = PairResult.abort a) ∨
            (∃ tF tG s1 u1,
              matchPair env SubstDistFunctor pos (pos - r) relterm.getSymbol se TF s
                = PairResult.matched (clearSub (TF.set (pos - r) tF) pos se) s1 ∧
              matchPair env G pos (pos - r) relterm.getSymbol se TG u
                = PairResult.matched (clearSub (TG.set (pos - r) tG) pos se) u1 ∧
              Link s1 u1 ∧ (tF = tG ∨ Twin (Good s1) tF tG) ∧
              (∀ k v, Good s k v → Good s1 k v)) := by
          intro se hse hsm
          obtain ⟨ts, hts, htsy, _⟩ := (hinv.sub_ok se hse hsm).sym
          exact matchPair_coupled hc hl hrel hrelG hts
            (hsim.same_of_not_SUBST hts (not_SUBST_of_SYM_LOC htsy))
        have nextG : ∀ se ∈ S, se.subpos ≠ 255 →
            matchPair env SubstDistFunctor pos (pos - r) relterm.getSymbol se TF s
              = PairResult.next TF s →
            matchPair env G pos (pos - r) relterm.getSymbol se TG u = PairResult.next TG u := by
          intro se hse hsm hn
          rcases pair se hse hsm with ⟨_, h2⟩ | ⟨a, h2⟩ | ⟨tF, tG, s3, u3, h2, _⟩
          · exact h2
          · rw [hn] at h2; cases h2
          · rw [hn] at h2; cases h2
        rcases matchSubs_ok SubstDistFunctor_failsClean hm with
          ⟨h1, h2, h3, h4⟩ | ⟨pre, se, post, h1, h2, h3, h4, h5⟩
        · simp at h2
          subst h1; subst h2; subst h3
          have hG := matchSubs_skip_all env G pos (pos - r) relterm.getSymbol [] S2 TG u
            (fun se hse hsm => nextG se hse hsm (h4 se hse hsm))
          obtain ⟨TG1, u1, g1, g2, g3, g4⟩ := ih P T2 TG S2 s2 u TF1 S1 s1 hinv.tail hsim hl h
          refine ⟨TG1, u1, ?_, g2.weaken ?_ (fun _ _ h => h), g3, g4⟩
          · simp only [matchRels, hrelG, hG, List.nil_append]
            exact g1
          · rintro x (hx | ⟨r1, hr1, hx⟩)
            · exact Or.inl hx
            · exact Or.inr ⟨r1, List.mem_cons_of_mem _ hr1, hx⟩
        · simp at h3
          subst h1; subst h3
          have hsmem : se ∈ pre ++ se :: post := by simp
          rcases pair se hsmem h2 with ⟨h6, _⟩ | ⟨a, h6⟩ | ⟨tF, tG, s3, u3, h6, h7, h8, h9, h10⟩
          · rw [h5] at h6; cases h6
          · rw [h5] at h6; cases h6
          · rw [h5] at h6
            simp only [PairResult.matched.injEq] at h6
            obtain ⟨e1, e2⟩ := h6
            subst e1; subst e2
            have hG := matchSubs_hit env G pos (pos - r) relterm.getSymbol [] pre se post TG
              _ u u3 (fun s4 hs4 hsm => nextG s4 (List.mem_append_left _ hs4) hsm (h4 s4 hs4 hsm))
              h2 h7
            have hsim2 := hsim.after_hit hinv hsmem h2 h9 h10
            obtain ⟨TG1, u1, g1, g2, g3, g4⟩ :=
              ih _ _ _ _ s2 u3 TF1 S1 s1 (hinv.hit h2 tF) hsim2 h8 h
            refine ⟨TG1, u1, ?_, g2.weaken ?_ (fun _ _ h => h), g3, fun k v hk => g4 k v (h10 k v hk)⟩
            · simp only [matchRels, hrelG, hG, List.nil_append]
              exact g1
            · rintro x ((hx | hx) | ⟨r1, hr1, hx⟩)
              · exact Or.inl hx
              · exact Or.inr ⟨r, List.mem_cons_self _ _, hx⟩
              · exact Or.inr ⟨r1, List.mem_cons_of_mem _ hr1, hx⟩

/-- What the scan loop finds at a term that is an integer or a placeholder:
the end of the operands, or nothing. -/
theorem scanChild_value_class {e : ExprTerms} {d : Int} {n : Nat} {t : ExprTerm}
    (h : e[n]? = some t)
    (hv : (∃ v, t.data = TermData.INT v) ∨ ∃ k, t.data = TermData.SUBST k) :
    scanChild e d n = if t.m_depth ≤ d then ScanStep.stop else ScanStep.skip := by
  have hne : t.isEmpty = false := by
    rcases hv with ⟨v, hv⟩ | ⟨k, hk⟩
    · exact isEmpty_false_of_INT hv
    · rw [isEmpty_eq, hk]
  by_cases h1 : t.m_depth ≤ d
  · simp [scanChild, h, hne, h1]
  · by_cases h2 : t.m_depth = d + 1
    · rw [scanChild_of_value h h2 hv, if_neg h1]
    · simp [scanChild, h, hne, h1, h2]

/-- Placeholders against integers at direct operands of `ADD` roots: a case
of the relation `Edited`. -/
theorem Sim.as_edited {good : Nat → Int → Prop} {TF TG : ExprTerms}
    (h : Sim (fun x => ∃ q, ProtectedBy TF q x) good TF TG) :
    Edited (fun _ => True) TF TG := by
  refine ⟨h.len, fun x t ht => ?_⟩
  rcases h.point x t ht with h1 | ⟨⟨q, hq⟩, t1, h2, k, v, a, b, c, _⟩
  · exact Or.inl h1
  · right; left
    refine ⟨⟨q, trivial, hq⟩, ⟨by rw [isEmpty_eq, a], ?_⟩, t1, h2, c.symm, Or.inl ⟨v, b⟩⟩
    cases t with
    | mk data dd => simp only at a; subst a; rfl

theorem scanChild_sim {good : Nat → Int → Prop} {TF TG : ExprTerms}
    (h : Sim (fun x => ∃ q, ProtectedBy TF q x) good TF TG) (d : Int) (n : Nat) :
    scanChild TG d n = scanChild TF d n := by
  cases ht : TF[n]? with
  | none =>
    have : TG[n]? = none := by
      rw [List.getElem?_eq_none_iff] at ht ⊢
      rw [h.len]; exact ht
    simp [scanChild, ht, this]
  | some t =>
    rcases h.point n t ht with h1 | ⟨_, t1, h2, k, v, a, b, c, _⟩
    · simp only [scanChild, ht, h1, isNeg1Sym_edited h.as_edited (show TG[n]? = TF[n]? by
        rw [h1, ht])]
    · rw [scanChild_value_class h2 (Or.inl ⟨v, b⟩), scanChild_value_class ht (Or.inr ⟨k, a⟩), c]

theorem scanTerms_sim {good : Nat → Int → Prop} {TF TG : ExprTerms}
    (h : Sim (fun x => ∃ q, ProtectedBy TF q x) good TF TG) (p : Nat) (d : Int) :
    scanTerms TG p d p p [] [] = scanTerms TF p d p p [] [] := by
  rw [scanTerms_eq_scanFlat _ _ _ _ _ _ _ (le_refl _),
    scanTerms_eq_scanFlat _ _ _ _ _ _ _ (le_refl _)]
  exact scanFlat_congr (fun n _ _ => scanChild_sim h d n) p [] [] (le_refl _) (Visible.top _ _ _)

/-- Run side by side, `TransformDistBase` with the `SubstDistFunctor` and with
a functor coupled with it make the same matches: the terms stay the same but
for integers in the place of placeholders. -/
theorem TransformDistBase_coupled {τ : Type} {env : Env} {G : DistFunc τ}
    {Link : SubstState → τ → Prop} {Good : SubstState → Nat → Int → Prop}
    (hc : Coupled env G Link Good) {TF TG TF1 : ExprTerms} {p : Nat} {s s1 : SubstState}
    {u : τ} (hsim : Sim (fun x => ∃ q, ProtectedBy TF q x) (Good s) TF TG) (hl : Link s u)
    (h : TransformDistBase env SubstDistFunctor TF (p : Int) s = Except.ok (TF1, s1)) :
    ∃ TG1 u1, TransformDistBase env G TG (p : Int) u = Except.ok (TG1, u1) ∧
      Sim (fun x => ∃ q, ProtectedBy TF1 q x) (Good s1) TF1 TG1 ∧ Link s1 u1 ∧
      (∀ k v, Good s k v → Good s1 k v) := by
  have hed := TransformDistBase_edited (SubstDistFunctor_replacing env) h
  obtain ⟨p1, root, hp, hroot, h1 | ⟨hadd, hn, rels, subs, subs1, hs, hm⟩⟩ :=
    TransformDistBase_ok h
  · have h0 : ¬ ((p : Int) < 0) := by omega
    rw [if_neg h0] at hp
    have : p1 = p := by omega
    subst this
    obtain ⟨h2, h3, h4⟩ := h1
    subst h3; subst h4
    refine ⟨TG, u, ?_, hsim, hl, fun _ _ h => h⟩
    rcases hsim.point p1 root hroot with h5 | ⟨_, t1, h5, k, v, a, b, c, _⟩
    · exact TransformDistBase_nonADD env G TG p1 u root h5 h2
    · exact TransformDistBase_nonADD env G TG p1 u t1 h5 (isOpOf_false_of_INT b)
  · have h0 : ¬ ((p : Int) < 0) := by omega
    rw [if_neg h0] at hp
    have : p1 = p := by omega
    subst this
    have hrootG : TG[p1]? = some root :=
      hsim.same_of_not_SUBST hroot (not_SUBST_of_isOpOf hadd)
    have hsG : scanTerms TG p1 root.m_depth p1 p1 [] [] = Except.ok (rels, subs) := by
      rw [scanTerms_sim hsim]; exact hs
    have hsi := scanTerms_start_inv hs
    obtain ⟨TG1, u1, g1, g2, g3, g4⟩ := matchRels_coupled hc rels _ TF TG subs s u TF1 subs1 s1
      (MatchInv.of_scanInv hsi) hsim hl hm
    obtain ⟨hpR, _⟩ := scanTerms_protected hroot hadd hs
    refine ⟨TG1, u1, ?_, g2.weaken ?_ (fun _ _ h => h), g3, g4⟩
    · unfold TransformDistBase
      have hn1 : ¬ root.getNumChild > 32 := by omega
      simp [h0, hrootG, hadd, hn1, hsG, g1]
    · rintro x (⟨q, hq⟩ | ⟨r, hr, rfl⟩)
      · exact ⟨q, hq.after_edit hed⟩
      · exact ⟨p1, (hpR r hr).after_edit hed⟩

/-- Run side by side, the walks of `Simplify` with the two functors stay in
step. -/
theorem simplifyWalk_coupled {τ : Type} {env : Env} {G : DistFunc τ}
    {Link : SubstState → τ → Prop} {Good : SubstState → Nat → Int → Prop}
    (hc : Coupled env G Link Good) :
    ∀ (n : Nat) (TF TG TF1 : ExprTerms) (s s1 : SubstState) (u : τ),
      Sim (fun x => ∃ q, ProtectedBy TF q x) (Good s) TF TG → Link s u →
      simplifyWalk (TransformDistBase env SubstDistFunctor) n TF s = Except.ok (TF1, s1) →
      ∃ TG1 u1, simplifyWalk (TransformDistBase env G) n TG u = Except.ok (TG1, u1) ∧
        Sim (fun x => ∃ q, ProtectedBy TF1 q x) (Good s1) TF1 TG1 ∧ Link s1 u1 := by
  intro n
  induction n with
  | zero =>
    intro TF TG TF1 s s1 u hsim hl h
    simp only [simplifyWalk] at h
    cases h
    exact ⟨TG, u, rfl, hsim, hl⟩
  | succ n ih =>
    intro TF TG TF1 s s1 u hsim hl h
    simp only [simplifyWalk] at h
    split at h
    · cases h
    · rename_i T2 s2 hstep
      obtain ⟨TG2, u2, g1, g2, g3, _⟩ := TransformDistBase_coupled hc hsim hl hstep
      obtain ⟨TG1, u1, k1, k2, k3⟩ := ih T2 TG2 TF1 s2 s1 u2 g2 g3 h
      refine ⟨TG1, u1, ?_, k2, k3⟩
      simp only [simplifyWalk, g1]
      exact k1

theorem Sim.forall₂ {P : Nat → Prop} {good : Nat → Int → Prop} {TF TG : ExprTerms}
    (h : Sim P good TF TG) : List.Forall₂ (fun a b => a = b ∨ Twin good a b) TF TG := by
  rw [List.forall₂_iff_get]
  refine ⟨h.len.symm, fun i h1 h2 => ?_⟩
  have hF : TF[i]? = some (TF.get ⟨i, h1⟩) := List.getElem?_eq_getElem h1
  have hG : TG[i]? = some (TG.get ⟨i, h2⟩) := List.getElem?_eq_getElem h2
  rcases h.point i _ hF with h3 | ⟨_, t1, h3, h4⟩
  · rw [hG] at h3
    exact Or.inl (Option.some.inj h3).symm
  · rw [hG] at h3
    rw [Option.some.inj h3]
    exact Or.inr h4

theorem Cleanup_forall₂ {good : Nat → Int → Prop} {TF TG : ExprTerms}
    (h : List.Forall₂ (fun a b => a = b ∨ Twin good a b) TF TG) :
    List.Forall₂ (fun a b => a = b ∨ Twin good a b) (Cleanup TF) (Cleanup TG) := by
  refine List.rel_filter ?_ h
  intro a b hab
  rcases hab with hab | ⟨k, v, h1, h2, _⟩
  · rw [hab]
  · simp [isEmpty_eq, h1, h2]

/-- `Simplify` with the `SubstDistFunctor` and `Simplify` with a functor
coupled with it give expressions on which `Evaluate` gives the same value,
when the substitution array holds the integers of the coupled functor. -/
theorem Simplify_coupled {τ : Type} {env : Env} {G : DistFunc τ}
    {Link : SubstState → τ → Prop} {Good : SubstState → Nat → Int → Prop}
    (hc : Coupled env G Link Good) (ar : Arith)
    (hadd : ∀ a b, ar.Calc Op.ADD a b = some (a + b)) {e e1 : ExprTerms} {s s1 : SubstState}
    {u : τ} (hl : Link s u)
    (h : Simplify (TransformDistBase env SubstDistFunctor) e s = Except.ok (e1, s1))
    (arr : List ExprTerm)
    (harr : ∀ k v, Good s1 k v → ∃ t, arr[k]? = some t ∧ t.data = TermData.INT v)
    (vl zr : Bool) :
    ∃ e2 u1, Simplify (TransformDistBase env G) e u = Except.ok (e2, u1) ∧ Link s1 u1 ∧
      resultValue (Evaluate env ar e1 (some arr) vl zr)
        = resultValue (Evaluate env ar e2 (some arr) vl zr) := by
  simp only [Simplify] at h
  split at h
  · cases h
  · rename_i w s2 hw
    simp only [Except.ok.injEq, Prod.mk.injEq] at h
    obtain ⟨h1, h2⟩ := h
    subst h1; subst h2
    have hsim0 : Sim (fun x => ∃ q, ProtectedBy e q x) (Good s) e e :=
      ⟨rfl, fun _ _ ht => Or.inl ht⟩
    obtain ⟨wG, u1, g1, g2, g3⟩ := simplifyWalk_coupled hc e.length e e w s s2 u hsim0 hl hw
    refine ⟨reduceRoot (Cleanup wG), u1, by simp only [Simplify, g1], g3, ?_⟩
    rw [Evaluate_reduceRoot env ar hadd, Evaluate_reduceRoot env ar hadd]
    apply resultValue_eq_of_resEq
    apply Evaluate_dataEq
    refine List.Forall₂.imp ?_ (Cleanup_forall₂ g2.forall₂)
    intro a b hab
    rcases hab with hab | ⟨k, v, a1, a2, _, a4⟩
    · exact Or.inl (by rw [hab])
    · obtain ⟨t, ht1, ht2⟩ := harr k v a4
      exact Or.inr ⟨k, v, t, a1, a2, ht1, ht2⟩

/-- The functor that puts the integers of `d` runs alongside the
`SubstDistFunctor`. -/
theorem specIntFunctor_coupled (env : Env) (d : List Int) :
    Coupled env (specIntFunctor d) (fun s k => k = s.m_subst)
      (fun s k v => k < s.m_subst ∧ v = d.getD k 0) := by
  refine ⟨?_, ?_⟩
  · intro s u t loc loc2 b1 b2 hl _ _ _
    subst hl
    exact ⟨d.getD s.m_subst 0, s.m_subst + 1, rfl, rfl,
      by simp [SubstState.next], rfl⟩
  · intro s loc loc2 k v h
    exact ⟨by simp only [SubstState.next]; omega, h.2⟩

/-- The `CalcDistFunctor` runs alongside the `SubstDistFunctor`. -/
theorem CalcDistFunctor_coupled (env : Env) :
    Coupled env (CalcDistFunctor env) (fun _ _ => True)
      (fun s k v => ∃ loc loc2, (k, loc, loc2) ∈ s.calls ∧
        v = (loc2.getOffset env : Int) - (loc.getOffset env : Int)) := by
  refine ⟨?_, ?_⟩
  · intro s u t loc loc2 b1 b2 _ h1 h2 h3
    refine ⟨(loc2.getOffset env : Int) - (loc.getOffset env : Int), (), ?_, trivial,
      loc, loc2, by simp [SubstState.next], rfl⟩
    simp [CalcDistFunctor, CalcDist, h1, h2, h3]
  · rintro s loc loc2 k v ⟨l1, l2, hm, hv⟩
    exact ⟨l1, l2, by simp [SubstState.next, hm], hv⟩

/-- With the calls in order, the call with index `k` is the `k`-th call. -/
theorem CallsInOrder.getElem?_of_mem {st : SubstState} (h : CallsInOrder st) {k : Nat}
    {loc loc2 : Location} (hm : (k, loc, loc2) ∈ st.calls) :
    st.calls[k]? = some (k, loc, loc2) := by
  obtain ⟨i, hi, hget⟩ := List.getElem_of_mem hm
  have h1 : (st.calls.map (fun c => c.1))[i]? = some k := by
    rw [List.getElem?_map, List.getElem?_eq_getElem hi, hget]; rfl
  rw [h] at h1
  have hik : i = k := by
    rw [List.getElem?_range] at h1
    · exact Option.some.inj h1
    · by_contra hc
      rw [List.getElem?_eq_none (by simpa using hc)] at h1
      cases h1
  subst hik
  rw [List.getElem?_eq_getElem hi, hget]

theorem Bytes.resize_replicate (m n : Nat) (h : n ≤ m) :
    Bytes.resize (List.replicate m 0) n = List.replicate n 0 := by
  simp [Bytes.resize, List.take_replicate, Nat.min_eq_left h]
  omega

theorem gapLoop_blocks (blk : Bytes) (fuel : Nat) : ∀ (size : Nat) (st : OutputState),
    size < 2 ^ 32 → (size - 1) / 4096 < fuel → st.scratch = blk →
    BytecodeStreamOutput.gapLoop fuel size st =
      some (size - 4096 * ((size - 1) / 4096),
        { st with os := (st.os ++ List.replicate ((size - 1) / 4096) blk) }) := by
  induction fuel with
  | zero => intro size st _ h; omega
  | succ fuel ih =>
    intro size st h32 hf hs
    rw [BytecodeStreamOutput.gapLoop]
    have hB : BLOCK_SIZE = 4096 := rfl
    rw [hB]
    by_cases hgt : size > 4096
    · rw [if_pos hgt]
      have hmod : (size - 4096) % 2 ^ 32 = size - 4096 :=
        Nat.mod_eq_of_lt (by omega)
      rw [hmod, ih (size - 4096) _ (by omega) (by omega) (by simpa [streamWrite] using hs)]
      have hq : (size - 1) / 4096 = (size - 4096 - 1) / 4096 + 1 := by omega
      rw [hq]
      have ha : size - 4096 - 4096 * ((size - 4096 - 1) / 4096)
          = size - 4096 * ((size - 4096 - 1) / 4096 + 1) := by omega
      rw [ha, List.replicate_succ]
      simp only [streamWrite, hs, List.append_assoc, List.singleton_append]
    · rw [if_neg hgt]
      have hq : (size - 1) / 4096 = 0 := by omega
      simp [hq]

theorem flatten_replicate_zeros (q B : Nat) :
    (List.replicate q (List.replicate B (0 : Nat))).flatten = List.replicate (B * q) 0 := by
  induction q with
  | zero => simp
  | succ q ih =>
    rw [List.replicate_succ, List.flatten_cons, ih, List.append_replicate_replicate, Nat.mul_succ,
      Nat.add_comm]

theorem DoOutputGap_eq (size : Nat) (st : OutputState) (h : size < 2 ^ 32) :
    BytecodeStreamOutput.DoOutputGap size st = some
      { os := st.os ++ (List.replicate ((size - 1) / 4096) (List.replicate 4096 0)
          ++ [List.replicate (size - 4096 * ((size - 1) / 4096)) 0]),
        warns := st.warns ++ [(WarnClass.WARN_UNINIT_CONTENTS,
          "uninitialized space declared in code/data section: zeroing")],
        scratch := List.replicate (size - 4096 * ((size - 1) / 4096)) 0 } := by
  have hB : BLOCK_SIZE = 4096 := rfl
  have hr : Bytes.resize [] BLOCK_SIZE = List.replicate 4096 0 := by
    rw [hB]; simp only [Bytes.resize, List.take_nil, List.nil_append, List.length_nil, Nat.sub_zero]
  unfold BytecodeStreamOutput.DoOutputGap
  simp only [getScratch, setWarn, hr]
  rw [gapLoop_blocks (List.replicate 4096 0) (size + 1) size _ h (by omega) rfl]
  simp only [streamWrite]
  rw [Bytes.resize_replicate _ _ (by omega)]
  simp only [List.append_assoc]

theorem Numeric.data {t : ExprTerm} (h : Numeric t) :
    (∃ v, t.data = TermData.INT v) ∨ (∃ f, t.data = TermData.FLOAT f) := by
  cases t with
  | mk data d =>
    cases data <;> simp [Numeric, ExprTerm.getType, ExprTerm.NONE, ExprTerm.REG,
      ExprTerm.INT, ExprTerm.SUBST, ExprTerm.FLOAT, ExprTerm.SYM, ExprTerm.LOC, ExprTerm.OP] at h ⊢

theorem Numeric.of_int {t : ExprTerm} {v : Int} (h : t.data = TermData.INT v) : Numeric t := by
  left; simp [ExprTerm.getType, h]

theorem Numeric.of_float {t : ExprTerm} {f : APFloat} (h : t.data = TermData.FLOAT f) :
    Numeric t := by
  right; simp [ExprTerm.getType, h]

theorem EarlyEnd.subset {ar : Arith} {subst : Option (List ExprTerm)} {ts us : ExprTerms}
    {a : Abort} (h : EarlyEnd ar subst ts a) (hsub : ∀ t ∈ ts, t ∈ us) :
    EarlyEnd ar subst us a := by
  rcases h with h | ⟨h, t, ht, r⟩ | h | ⟨h, t, ht, r⟩
  · exact Or.inl h
  · exact Or.inr (Or.inl ⟨h, t, hsub t ht, r⟩)
  · exact Or.inr (Or.inr (Or.inl h))
  · exact Or.inr (Or.inr (Or.inr ⟨h, t, hsub t ht, r⟩))

theorem evalLoop_append_error (env : Env) (ar : Arith) (subst : Option (List ExprTerm))
    (vl zr : Bool) (b : ExprTerms) {x : Abort} :
    ∀ (a : ExprTerms) (st : List ExprTerm), evalLoop env ar subst vl zr a st = Except.error x →
      evalLoop env ar subst vl zr (a ++ b) st = Except.error x := by
  intro a
  induction a with
  | nil => intro st h; simp [evalLoop] at h
  | cons t a ih =>
    intro st h
    rw [List.cons_append, evalLoop]
    rw [evalLoop] at h
    cases ht : evalTerm env ar subst vl zr st t with
    | error y => rw [ht] at h; simpa using h
    | ok o =>
      cases o with
      | none => rw [ht] at h; simp at h
      | some s => rw [ht] at h; simpa using ih s h

theorem evalLoop_append_none (env : Env) (ar : Arith) (subst : Option (List ExprTerm))
    (vl zr : Bool) (b : ExprTerms) :
    ∀ (a : ExprTerms) (st : List ExprTerm), evalLoop env ar subst vl zr a st = Except.ok none →
      evalLoop env ar subst vl zr (a ++ b) st = Except.ok none := by
  intro a
  induction a with
  | nil => intro st h; simp [evalLoop] at h
  | cons t a ih =>
    intro st h
    rw [List.cons_append, evalLoop]
    rw [evalLoop] at h
    cases ht : evalTerm env ar subst vl zr st t with
    | error y => rw [ht] at h; simp at h
    | ok o =>
      cases o with
      | none => rfl
      | some s => rw [ht] at h; simpa using ih s h

theorem evalLoop_append_some (env : Env) (ar : Arith) (subst : Option (List ExprTerm))
    (vl zr : Bool) (b : ExprTerms) {s1 : List ExprTerm} :
    ∀ (a : ExprTerms) (st : List ExprTerm),
      evalLoop env ar subst vl zr a st = Except.ok (some s1) →
      evalLoop env ar subst vl zr (a ++ b) st = evalLoop env ar subst vl zr b s1 := by
  intro a
  induction a with
  | nil => intro st h; simp [evalLoop] at h; rw [h]; rfl
  | cons t a ih =>
    intro st h
    rw [List.cons_append, evalLoop]
    rw [evalLoop] at h
    cases ht : evalTerm env ar subst vl zr st t with
    | error y => rw [ht] at h; simp at h
    | ok o =>
      cases o with
      | none => rw [ht] at h; simp at h
      | some s => rw [ht] at h; simpa using ih s h

theorem evalLoop_single (env : Env) (ar : Arith) (subst : Option (List ExprTerm))
    (vl zr : Bool) (t : ExprTerm) (st : List ExprTerm) :
    evalLoop env ar subst vl zr [t] st = evalTerm env ar subst vl zr st t := by
  rw [evalLoop]
  cases ht : evalTerm env ar subst vl zr st t with
  | error y => rfl
  | ok o =>
    cases o with
    | none => rfl
    | some s => simp [evalLoop]

theorem evalChildren_numeric (ar : Arith) (op : Op) :
    ∀ (cs : List ExprTerm) (r : ExprTerm), Numeric r → (∀ c ∈ cs, Numeric c) →
      (∀ a, evalChildren ar op r cs = Except.error a → a = Abort.ArithError ∧ ¬ TotalArith ar) ∧
      (∀ r1, evalChildren ar op r cs = Except.ok (some r1) → Numeric r1) := by
  intro cs
  induction cs with
  | nil =>
    intro r hr _
    refine ⟨fun a h => ?_, fun r1 h => ?_⟩
    · simp [evalChildren] at h
    · simp [evalChildren] at h; rw [← h]; exact hr
  | cons c cs ih =>
    intro r hr hcs
    have hc : Numeric c := hcs c (List.mem_cons_self _ _)
    have hrest : ∀ x ∈ cs, Numeric x := fun x hx => hcs x (List.mem_cons_of_mem _ hx)
    rcases hr.data with ⟨a, ha⟩ | ⟨a, ha⟩ <;> rcases hc.data with ⟨b, hb⟩ | ⟨b, hb⟩
    · rw [evalChildren]
      simp only [ha, hb]
      cases hcalc : ar.Calc op a b with
      | none =>
        refine ⟨fun x h => ?_, fun r1 h => ?_⟩
        · simp at h
          exact ⟨h.symm, fun ht => ht.1 op a b hcalc⟩
        · simp at h
      | some v => exact ih _ (Numeric.of_int rfl) hrest
    · rw [evalChildren]
      simp only [ha, hb]
      by_cases hop : op < Op.NEG
      · rw [if_pos hop]; exact ih _ (Numeric.of_float rfl) hrest
      · rw [if_neg hop]; exact ⟨fun x h => by simp at h, fun r1 h => by simp at h⟩
    · rw [evalChildren]
      simp only [ha, hb]
      by_cases hop : op < Op.NEG
      · rw [if_pos hop]; exact ih _ (Numeric.of_float rfl) hrest
      · rw [if_neg hop]; exact ⟨fun x h => by simp at h, fun r1 h => by simp at h⟩
    · rw [evalChildren]
      simp only [ha, hb]
      by_cases hop : op < Op.NEG
      · rw [if_pos hop]; exact ih _ (Numeric.of_float rfl) hrest
      · rw [if_neg hop]; exact ⟨fun x h => by simp at h, fun r1 h => by simp at h⟩

theorem evalUnary_numeric (ar : Arith) (op : Op) (r : ExprTerm) (hr : Numeric r) :
    (∀ a, evalUnary ar op r = Except.error a →
      (a = Abort.ArithError ∧ ¬ TotalArith ar) ∨
      (a = Abort.assertion "single-term subexpression is non-unary" ∧ isUnary op = false)) ∧
    (∀ r1, evalUnary ar op r = Except.ok (some r1) → Numeric r1) := by
  unfold evalUnary
  by_cases hu : isUnary op = true
  · rw [if_pos hu]
    rcases hr.data with ⟨a, ha⟩ | ⟨a, ha⟩
    · simp only [ha]
      cases hcalc : ar.CalcUnary op a with
      | none =>
        refine ⟨fun x h => ?_, fun r1 h => by simp at h⟩
        simp at h
        exact Or.inl ⟨h.symm, fun ht => ht.2 op a hcalc⟩
      | some v =>
        refine ⟨fun x h => by simp at h, fun r1 h => ?_⟩
        simp at h; rw [← h]; exact Numeric.of_int rfl
    · simp only [ha]
      by_cases hop : op = Op.NEG
      · rw [if_pos hop]
        refine ⟨fun x h => by simp at h, fun r1 h => ?_⟩
        simp at h; rw [← h]; exact Numeric.of_float rfl
      · rw [if_neg hop]; exact ⟨fun x h => by simp at h, fun r1 h => by simp at h⟩
  · rw [if_neg hu]
    refine ⟨fun x h => ?_, fun r1 h => by simp at h⟩
    simp at h
    exact Or.inr ⟨h.symm, by simpa using hu⟩

/-- An operator term met with its `k` children's values `ws` on top of the
stack: the assertion on the stack size holds; the operator ends abnormally
only by an arithmetic error, as a one-child operator that is not unary, or
without a child; and when it is applied it leaves one numeric value at its
depth in the place of `ws`. -/
theorem evalTerm_op_numeric (env : Env) (ar : Arith) (subst : Option (List ExprTerm))
    (vl zr : Bool) (s1 ws : List ExprTerm) (t : ExprTerm) (op : Op) (k : Nat)
    (ht : t.data = TermData.OP op k) (hlen : ws.length = k) (hws : ∀ w ∈ ws, Numeric w) :
    (∀ a, evalTerm env ar subst vl zr (s1 ++ ws) t = Except.error a →
      (a = Abort.ArithError ∧ ¬ TotalArith ar) ∨
      (a = Abort.assertion "single-term subexpression is non-unary" ∧ k = 1 ∧
        op < Op.NONNUM ∧ isUnary op = false) ∨
      (a = Abort.undefined "stack[resultindex] out of bounds" ∧ k = 0 ∧ op < Op.NONNUM)) ∧
    (∀ st1, evalTerm env ar subst vl zr (s1 ++ ws) t = Except.ok (some st1) →
      ∃ v, st1 = s1 ++ [v] ∧ Numeric v ∧ v.m_depth = t.m_depth) := by
  have hnl : ¬ ((s1 ++ ws).length < k) := by rw [List.length_append]; omega
  have hidx : (s1 ++ ws).length - k = s1.length := by rw [List.length_append]; omega
  unfold evalTerm
  simp only [ht, if_neg hnl, hidx, List.drop_left, List.take_left]
  by_cases hnon : Op.NONNUM ≤ op
  · rw [if_pos hnon]
    exact ⟨fun a h => by simp at h, fun st1 h => by simp at h⟩
  · rw [if_neg hnon]
    have hlt : op < Op.NONNUM := Nat.lt_of_not_le hnon
    cases ws with
    | nil =>
      refine ⟨fun a h => ?_, fun st1 h => by simp at h⟩
      simp at h
      exact Or.inr (Or.inr ⟨h.symm, by simpa using hlen.symm, hlt⟩)
    | cons r cs =>
      have hr : Numeric r := hws r (List.mem_cons_self _ _)
      have hcs : ∀ x ∈ cs, Numeric x := fun x hx => hws x (List.mem_cons_of_mem _ hx)
      have hch := evalChildren_numeric ar op cs r hr hcs
      simp only []
      cases he : evalChildren ar op r cs with
      | error a =>
        refine ⟨fun x h => ?_, fun st1 h => by simp at h⟩
        simp at h
        rw [← h]; exact Or.inl (hch.1 a he)
      | ok o =>
        cases o with
        | none => exact ⟨fun a h => by simp at h, fun st1 h => by simp at h⟩
        | some r1 =>
          have hr1 : Numeric r1 := hch.2 r1 he
          by_cases hk : k = 1
          · simp only [if_pos hk]
            have hun := evalUnary_numeric ar op r1 hr1
            cases hu : evalUnary ar op r1 with
            | error a =>
              refine ⟨fun x h => ?_, fun st1 h => by simp at h⟩
              simp at h
              rw [← h]
              rcases hun.1 a hu with h1 | h1
              · exact Or.inl h1
              · exact Or.inr (Or.inl ⟨h1.1, hk, hlt, h1.2⟩)
            | ok o2 =>
              cases o2 with
              | none => exact ⟨fun a h => by simp at h, fun st1 h => by simp at h⟩
              | some r2 =>
                refine ⟨fun a h => by simp at h, fun st1 h => ?_⟩
                simp at h
                refine ⟨_, h.symm, ?_, rfl⟩
                rcases (hun.2 r2 hu).data with ⟨v, hv⟩ | ⟨v, hv⟩
                · exact Numeric.of_int hv
                · exact Numeric.of_float hv
          · simp only [if_neg hk]
            refine ⟨fun a h => by simp at h, fun st1 h => ?_⟩
            simp at h
            refine ⟨_, h.symm, ?_, rfl⟩
            rcases hr1.data with ⟨v, hv⟩ | ⟨v, hv⟩
            · exact Numeric.of_int hv
            · exact Numeric.of_float hv

theorem evalTerm_of_isEmpty (env : Env) (ar : Arith) (subst : Option (List ExprTerm))
    (vl zr : Bool) (st : List ExprTerm) (t : ExprTerm) (h : t.isEmpty = true) :
    evalTerm env ar subst vl zr st t = Except.ok (some st) := by
  cases t with
  | mk data d =>
    cases data <;> simp [ExprTerm.isEmpty, ExprTerm.getType, ExprTerm.NONE, ExprTerm.REG,
      ExprTerm.INT, ExprTerm.SUBST, ExprTerm.FLOAT, ExprTerm.SYM, ExprTerm.LOC, ExprTerm.OP] at h
    simp [evalTerm]

/-- A term that is not an operator is skipped, ends the evaluation with
`false`, fails the assertion on its substitution, or pushes one numeric
value. -/
theorem evalTerm_leaf (env : Env) (ar : Arith) (subst : Option (List ExprTerm))
    (vl zr : Bool) (st : List ExprTerm) (t : ExprTerm) (hop : t.isOp = false) :
    (∀ a, evalTerm env ar subst vl zr st t = Except.error a →
      a = Abort.assertion "substitution must be integer or float" ∧ ¬ SubstNumeric subst) ∧
    (∀ st1, evalTerm env ar subst vl zr st t = Except.ok (some st1) →
      (t.isEmpty = true ∧ st1 = st) ∨
      (t.isEmpty = false ∧ ∃ v, st1 = st ++ [v] ∧ Numeric v)) := by
  cases t with
  | mk data d =>
    cases data with
    | NONE =>
      refine ⟨fun a h => by simp [evalTerm] at h, fun st1 h => ?_⟩
      simp [evalTerm] at h
      exact Or.inl ⟨rfl, h.symm⟩
    | REG r =>
      refine ⟨fun a h => ?_, fun st1 h => ?_⟩
      · cases zr <;> simp [evalTerm] at h
      · cases zr <;> simp [evalTerm] at h
        exact Or.inr ⟨rfl, _, h.symm, Numeric.of_int rfl⟩
    | INT v =>
      refine ⟨fun a h => by simp [evalTerm] at h, fun st1 h => ?_⟩
      simp [evalTerm] at h
      exact Or.inr ⟨rfl, _, h.symm, Numeric.of_int rfl⟩
    | FLOAT v =>
      refine ⟨fun a h => by simp [evalTerm] at h, fun st1 h => ?_⟩
      simp [evalTerm] at h
      exact Or.inr ⟨rfl, _, h.symm, Numeric.of_float rfl⟩
    | SUBST i =>
      cases subst with
      | none => exact ⟨fun a h => by simp [evalTerm] at h, fun st1 h => by simp [evalTerm] at h⟩
      | some arr =>
        cases hi : arr[i]? with
        | none =>
          exact ⟨fun a h => by simp [evalTerm, hi] at h, fun st1 h => by simp [evalTerm, hi] at h⟩
        | some s =>
          by_cases hs : s.getType = ExprTerm.INT ∨ s.getType = ExprTerm.FLOAT
          · refine ⟨fun a h => by simp [evalTerm, hi, hs] at h, fun st1 h => ?_⟩
            simp only [evalTerm, hi, if_pos hs] at h
            simp at h
            exact Or.inr ⟨rfl, s, h.symm, hs⟩
          · refine ⟨fun a h => ?_, fun st1 h => by simp [evalTerm, hi, hs] at h⟩
            simp only [evalTerm, hi, if_neg hs] at h
            simp at h
            refine ⟨h.symm, fun hn => hs (hn arr rfl s ?_)⟩
            exact List.getElem?_mem hi
    | SYM s =>
      refine ⟨fun a h => ?_, fun st1 h => ?_⟩
      · cases vl <;> simp [evalTerm] at h
        cases hl : env.getLabel s with
        | none => simp [hl] at h
        | some loc =>
          by_cases hb : loc.bc.isSome = true <;> simp [hl, hb] at h
      · cases vl <;> simp [evalTerm] at h
        cases hl : env.getLabel s with
        | none => simp [hl] at h
        | some loc =>
          by_cases hb : loc.bc.isSome = true <;> simp [hl, hb] at h
          exact Or.inr ⟨rfl, _, h.symm, Numeric.of_int rfl⟩
    | LOC loc =>
      refine ⟨fun a h => ?_, fun st1 h => ?_⟩
      · by_cases hb : (vl = true ∧ loc.bc.isSome = true) <;> simp [evalTerm, hb] at h
      · by_cases hb : (vl = true ∧ loc.bc.isSome = true)
        · simp only [evalTerm, if_pos hb] at h
          simp at h
          exact Or.inr ⟨rfl, _, h.symm, Numeric.of_int rfl⟩
        · simp only [evalTerm, if_neg hb] at h
          simp at h
    | OP o n => simp [ExprTerm.isOp, ExprTerm.getType] at hop

/-- Evaluating `n` complete subtrees from a stack of numeric values: the
evaluation ends abnormally only in one of the ways of `EarlyEnd` (never by
the assertion on the stack size), and when it comes to the end the stack has
grown by exactly `n` numeric values. -/
theorem evalLoop_forest (env : Env) (ar : Arith) (subst : Option (List ExprTerm))
    (vl zr : Bool) {d : Int} {n : Nat} {ts : ExprTerms} (h : Forest d n ts) :
    ∀ st : List ExprTerm, (∀ x ∈ st, Numeric x) →
      (∀ a, evalLoop env ar subst vl zr ts st = Except.error a → EarlyEnd ar subst ts a) ∧
      (∀ st1, evalLoop env ar subst vl zr ts st = Except.ok (some st1) →
        ∃ vs, st1 = st ++ vs ∧ vs.length = n ∧ ∀ v ∈ vs, Numeric v) := by
  induction h with
  | nil d =>
    intro st _
    refine ⟨fun a h => by simp [evalLoop] at h, fun st1 h => ?_⟩
    simp [evalLoop] at h
    exact ⟨[], by simp [h], rfl, fun v hv => by simp at hv⟩
  | @empty d n ts t _ ht ih =>
    intro st hst
    have ih1 := ih st hst
    cases hl : evalLoop env ar subst vl zr ts st with
    | error x =>
      rw [evalLoop_append_error env ar subst vl zr [t] ts st hl]
      refine ⟨fun a h => ?_, fun st1 h => by simp at h⟩
      simp at h
      rw [← h]
      exact (ih1.1 x hl).subset (fun u hu => List.mem_append_left _ hu)
    | ok o =>
      cases o with
      | none =>
        rw [evalLoop_append_none env ar subst vl zr [t] ts st hl]
        exact ⟨fun a h => by simp at h, fun st1 h => by simp at h⟩
      | some s =>
        rw [evalLoop_append_some env ar subst vl zr [t] ts st hl, evalLoop_single,
          evalTerm_of_isEmpty env ar subst vl zr s t ht]
        refine ⟨fun a h => by simp at h, fun st1 h => ?_⟩
        simp at h
        rw [← h]
        exact ih1.2 s hl
  | @leaf d n ts t _ hne hop hd ih =>
    intro st hst
    have ih1 := ih st hst
    cases hl : evalLoop env ar subst vl zr ts st with
    | error x =>
      rw [evalLoop_append_error env ar subst vl zr [t] ts st hl]
      refine ⟨fun a h => ?_, fun st1 h => by simp at h⟩
      simp at h
      rw [← h]
      exact (ih1.1 x hl).subset (fun u hu => List.mem_append_left _ hu)
    | ok o =>
      cases o with
      | none =>
        rw [evalLoop_append_none env ar subst vl zr [t] ts st hl]
        exact ⟨fun a h => by simp at h, fun st1 h => by simp at h⟩
      | some s =>
        rw [evalLoop_append_some env ar subst vl zr [t] ts st hl, evalLoop_single]
        have hleaf := evalTerm_leaf env ar subst vl zr s t hop
        obtain ⟨vs, hs, hvl, hvn⟩ := ih1.2 s hl
        refine ⟨fun a h => ?_, fun st1 h => ?_⟩
        · exact Or.inr (Or.inr (Or.inl (hleaf.1 a h)))
        · rcases hleaf.2 st1 h with ⟨he, _⟩ | ⟨_, v, hv, hvnum⟩
          · rw [hne] at he; cases he
          · refine ⟨vs ++ [v], by rw [hv, hs, List.append_assoc], by simp [hvl], ?_⟩
            intro w hw
            rcases List.mem_append.1 hw with hw | hw
            · exact hvn w hw
            · rw [List.mem_singleton.1 hw]; exact hvnum
  | @node d n k ts cs op _ _ ih1 ih2 =>
    intro st hst
    have i1 := ih1 st hst
    cases hl : evalLoop env ar subst vl zr ts st with
    | error x =>
      rw [List.append_assoc, evalLoop_append_error env ar subst vl zr _ ts st hl]
      refine ⟨fun a h => ?_, fun st1 h => by simp at h⟩
      simp at h
      rw [← h]
      exact (i1.1 x hl).subset (fun u hu => List.mem_append_left _ hu)
    | ok o =>
      cases o with
      | none =>
        rw [List.append_assoc, evalLoop_append_none env ar subst vl zr _ ts st hl]
        exact ⟨fun a h => by simp at h, fun st1 h => by simp at h⟩
      | some s =>
        obtain ⟨vs, hs, hvl, hvn⟩ := i1.2 s hl
        have hsn : ∀ x ∈ s, Numeric x := by
          intro x hx
          rw [hs] at hx
          rcases List.mem_append.1 hx with hx | hx
          · exact hst x hx
          · exact hvn x hx
        have i2 := ih2 s hsn
        rw [List.append_assoc, evalLoop_append_some env ar subst vl zr _ ts st hl]
        cases hc : evalLoop env ar subst vl zr cs s with
        | error x =>
          rw [evalLoop_append_error env ar subst vl zr _ cs s hc]
          refine ⟨fun a h => ?_, fun st1 h => by simp at h⟩
          simp at h
          rw [← h]
          exact (i2.1 x hc).subset (fun u hu =>
            List.mem_append_right _ (List.mem_append_left _ hu))
        | ok o2 =>
          cases o2 with
          | none =>
            rw [evalLoop_append_none env ar subst vl zr _ cs s hc]
            exact ⟨fun a h => by simp at h, fun st1 h => by simp at h⟩
          | some s2 =>
            obtain ⟨ws, hs2, hwl, hwn⟩ := i2.2 s2 hc
            rw [evalLoop_append_some env ar subst vl zr _ cs s hc, evalLoop_single, hs2]
            have hop := evalTerm_op_numeric env ar subst vl zr s ws ⟨TermData.OP op k, d⟩ op k
              rfl hwl hwn
            have hmem : (⟨TermData.OP op k, d⟩ : ExprTerm) ∈ ts ++ (cs ++ [⟨TermData.OP op k, d⟩]) :=
              List.mem_append_right _ (List.mem_append_right _ (List.mem_singleton.2 rfl))
            refine ⟨fun a h => ?_, fun st1 h => ?_⟩
            · rcases hop.1 a h with h1 | ⟨h1, hk, hlt, hu⟩ | ⟨h1, hk, hlt⟩
              · exact Or.inl h1
              · exact Or.inr (Or.inl ⟨h1, _, hmem, op, by rw [hk], hlt, hu⟩)
              · exact Or.inr (Or.inr (Or.inr ⟨h1, _, hmem, op, by rw [hk], hlt⟩))
            · obtain ⟨v, hv, hvnum, _⟩ := hop.2 st1 h
              refine ⟨vs ++ [v], by rw [hv, hs, List.append_assoc], by simp [hvl], ?_⟩
              intro w hw
              rcases List.mem_append.1 hw with hw | hw
              · exact hvn w hw
              · rw [List.mem_singleton.1 hw]; exact hvnum

theorem isOp_data {t : ExprTerm} (h : t.isOp = true) : ∃ op k, t.data = TermData.OP op k := by
  cases t with
  | mk data d =>
    cases data <;> simp [ExprTerm.isOp, ExprTerm.getType, ExprTerm.NONE, ExprTerm.REG,
      ExprTerm.INT, ExprTerm.SUBST, ExprTerm.FLOAT, ExprTerm.SYM, ExprTerm.LOC, ExprTerm.OP] at h ⊢

theorem isOp_of_data {t : ExprTerm} {op : Op} {k : Nat} (h : t.data = TermData.OP op k) :
    t.isOp = true := by
  simp [ExprTerm.isOp, ExprTerm.getType, h]

/-- An operator term on a stack of numeric values that is high enough. -/
theorem evalTerm_op_stack (env : Env) (ar : Arith) (subst : Option (List ExprTerm))
    (vl zr : Bool) (st : List ExprTerm) (t : ExprTerm) (op : Op) (k : Nat)
    (ht : t.data = TermData.OP op k) (hk : k ≤ st.length) (hst : ∀ x ∈ st, Numeric x) :
    (∀ a, evalTerm env ar subst vl zr st t = Except.error a →
      (a = Abort.ArithError ∧ ¬ TotalArith ar) ∨
      (a = Abort.assertion "single-term subexpression is non-unary" ∧ k = 1 ∧
        op < Op.NONNUM ∧ isUnary op = false) ∨
      (a = Abort.undefined "stack[resultindex] out of bounds" ∧ k = 0 ∧ op < Op.NONNUM)) ∧
    (∀ st1, evalTerm env ar subst vl zr st t = Except.ok (some st1) →
      ∃ v, st1 = st.take (st.length - k) ++ [v] ∧ Numeric v ∧ v.m_depth = t.m_depth) := by
  have h := evalTerm_op_numeric env ar subst vl zr (st.take (st.length - k))
    (st.drop (st.length - k)) t op k ht (by rw [List.length_drop]; omega)
    (fun w hw => hst w (List.mem_of_mem_drop hw))
  rw [List.take_append_drop] at h
  exact h

/-- One round of the loop of `Evaluate` keeps the stack numeric. -/
theorem evalTerm_numeric_stack (env : Env) (ar : Arith) (subst : Option (List ExprTerm))
    (vl zr : Bool) (st st1 : List ExprTerm) (t : ExprTerm) (hst : ∀ x ∈ st, Numeric x)
    (h : evalTerm env ar subst vl zr st t = Except.ok (some st1)) : ∀ x ∈ st1, Numeric x := by
  by_cases hop : t.isOp = true
  · obtain ⟨op, k, ht⟩ := isOp_data hop
    by_cases hk : k ≤ st.length
    · obtain ⟨v, hv, hvn, _⟩ := (evalTerm_op_stack env ar subst vl zr st t op k ht hk hst).2 st1 h
      intro x hx
      rw [hv] at hx
      rcases List.mem_append.1 hx with hx | hx
      · exact hst x (List.mem_of_mem_take hx)
      · rw [List.mem_singleton.1 hx]; exact hvn
    · have : st.length < k := Nat.lt_of_not_le hk
      simp [evalTerm, ht, this] at h
  · have hop1 : t.isOp = false := by simpa using hop
    rcases (evalTerm_leaf env ar subst vl zr st t hop1).2 st1 h with ⟨_, h1⟩ | ⟨_, v, hv, hvn⟩
    · rw [h1]; exact hst
    · intro x hx
      rw [hv] at hx
      rcases List.mem_append.1 hx with hx | hx
      · exact hst x hx
      · rw [List.mem_singleton.1 hx]; exact hvn

/-- The loop of `Evaluate` keeps the stack numeric, on every term list. -/
theorem evalLoop_numeric_stack (env : Env) (ar : Arith) (subst : Option (List ExprTerm))
    (vl zr : Bool) : ∀ (ts : ExprTerms) (st st1 : List ExprTerm), (∀ x ∈ st, Numeric x) →
      evalLoop env ar subst vl zr ts st = Except.ok (some st1) → ∀ x ∈ st1, Numeric x := by
  intro ts
  induction ts with
  | nil =>
    intro st st1 hst h
    simp [evalLoop] at h
    rw [← h]; exact hst
  | cons t ts ih =>
    intro st st1 hst h
    rw [evalLoop] at h
    cases ht : evalTerm env ar subst vl zr st t with
    | error y => rw [ht] at h; simp at h
    | ok o =>
      cases o with
      | none => rw [ht] at h; simp at h
      | some s =>
        rw [ht] at h
        exact ih s st1 (evalTerm_numeric_stack env ar subst vl zr st s t hst ht) h

/-- Splitting the loop of `Evaluate` at a term. -/
theorem evalLoop_split (env : Env) (ar : Arith) (subst : Option (List ExprTerm))
    (vl zr : Bool) (pre post : ExprTerms) (t : ExprTerm) (st0 : List ExprTerm) :
    (∀ a, evalLoop env ar subst vl zr pre st0 = Except.error a →
      evalLoop env ar subst vl zr (pre ++ t :: post) st0 = Except.error a) ∧
    (evalLoop env ar subst vl zr pre st0 = Except.ok none →
      evalLoop env ar subst vl zr (pre ++ t :: post) st0 = Except.ok none) ∧
    (∀ st, evalLoop env ar subst vl zr pre st0 = Except.ok (some st) →
      (∀ a, evalTerm env ar subst vl zr st t = Except.error a →
        evalLoop env ar subst vl zr (pre ++ t :: post) st0 = Except.error a) ∧
      (evalTerm env ar subst vl zr st t = Except.ok none →
        evalLoop env ar subst vl zr (pre ++ t :: post) st0 = Except.ok none) ∧
      (∀ st1, evalTerm env ar subst vl zr st t = Except.ok (some st1) →
        evalLoop env ar subst vl zr (pre ++ t :: post) st0
          = evalLoop env ar subst vl zr post st1)) := by
  refine ⟨fun a h => evalLoop_append_error env ar subst vl zr _ pre st0 h,
    fun h => evalLoop_append_none env ar subst vl zr _ pre st0 h, fun st h => ?_⟩
  rw [evalLoop_append_some env ar subst vl zr _ pre st0 h, evalLoop]
  refine ⟨fun a h1 => by rw [h1], fun h1 => by rw [h1], fun st1 h1 => by rw [h1]⟩

/-- The result of `Evaluate` in terms of its loop, when the expression is
not a single numeric term. -/
theorem Evaluate_of_loop (env : Env) (ar : Arith) (subst : Option (List ExprTerm))
    (vl zr : Bool) (e : ExprTerms)
    (h : ¬ ∃ t, e = [t] ∧ Numeric t) (hne : e ≠ []) :
    (∀ a, evalLoop env ar subst vl zr e [] = Except.error a →
      Evaluate env ar e subst vl zr = Except.error a) ∧
    (evalLoop env ar subst vl zr e [] = Except.ok none →
      Evaluate env ar e subst vl zr = Except.ok none) ∧
    (∀ r, evalLoop env ar subst vl zr e [] = Except.ok (some [r]) →
      Evaluate env ar e subst vl zr = Except.ok (some r)) ∧
    (∀ st, evalLoop env ar subst vl zr e [] = Except.ok (some st) → st.length ≠ 1 →
      Evaluate env ar e subst vl zr
        = Except.error (Abort.assertion "did not fully evaluate expression")) := by
  cases e with
  | nil => exact absurd rfl hne
  | cons first others =>
    have hc : ¬ (others = [] ∧ first.isType (ExprTerm.INT ||| ExprTerm.FLOAT) = true) := by
      rintro ⟨h1, h2⟩
      apply h
      refine ⟨first, by rw [h1], ?_⟩
      rw [isType_INT_FLOAT_eq] at h2
      cases hd : first.data <;> rw [hd] at h2 <;> simp at h2
      · exact Numeric.of_int hd
      · exact Numeric.of_float hd
    refine ⟨fun a h1 => ?_, fun h1 => ?_, fun r h1 => ?_, fun st h1 hl => ?_⟩
    · rw [Evaluate, if_neg hc, h1]
    · rw [Evaluate, if_neg hc, h1]
    · rw [Evaluate, if_neg hc, h1]
    · rw [Evaluate, if_neg hc, h1]
      match st, hl with
      | [], _ => rfl
      | [x], hl => exact absurd rfl hl
      | _ :: _ :: _, _ => rfl

/-- On a single numeric term `Evaluate` takes the shortcut. -/
theorem Evaluate_shortcut (env : Env) (ar : Arith) (subst : Option (List ExprTerm))
    (vl zr : Bool) (t : ExprTerm) (h : Numeric t) :
    Evaluate env ar [t] subst vl zr = Except.ok (some t) := by
  simp [Evaluate, isType_INT_FLOAT_of t h]

theorem EarlyEnd.ne_notEnoughTerms {ar : Arith} {subst : Option (List ExprTerm)}
    {ts : ExprTerms} {a : Abort} (h : EarlyEnd ar subst ts a) : a ≠ notEnoughTerms := by
  rcases h with ⟨h, _⟩ | ⟨h, _⟩ | ⟨h, _⟩ | ⟨h, _⟩ <;> rw [h] <;> simp [notEnoughTerms]

theorem EarlyEnd.ne_notFullyEvaluated {ar : Arith} {subst : Option (List ExprTerm)}
    {ts : ExprTerms} {a : Abort} (h : EarlyEnd ar subst ts a) : a ≠ notFullyEvaluated := by
  rcases h with ⟨h, _⟩ | ⟨h, _⟩ | ⟨h, _⟩ | ⟨h, _⟩ <;> rw [h] <;> simp [notFullyEvaluated]

/-- Under the conditions the assertions of `Evaluate` and the arithmetic ask
for, no abnormal end of `EarlyEnd` is possible. -/
theorem EarlyEnd.impossible {ar : Arith} {subst : Option (List ExprTerm)}
    {ts : ExprTerms} {a : Abort} (h : EarlyEnd ar subst ts a) (har : TotalArith ar)
    (hsub : SubstNumeric subst) (hops : OpsApplicable ts) : False := by
  rcases h with ⟨_, h⟩ | ⟨_, t, ht, op, hd, hlt, hu⟩ | ⟨_, h⟩ | ⟨_, t, ht, op, hd, hlt⟩
  · exact h har
  · have := (hops t ht op 1 hd hlt).2 rfl
    rw [hu] at this; cases this
  · exact h hsub
  · exact (hops t ht op 0 hd hlt).1 rfl

/-- One round of the loop of `Evaluate` on a numeric stack ends abnormally
only in one of the ways of `EarlyEnd`, blamed on the term of the round, or by
the assertion on the stack size. -/
theorem evalTerm_error_kinds (env : Env) (ar : Arith) (subst : Option (List ExprTerm))
    (vl zr : Bool) (st : List ExprTerm) (t : ExprTerm) (hst : ∀ x ∈ st, Numeric x) (a : Abort)
    (h : evalTerm env ar subst vl zr st t = Except.error a) :
    EarlyEnd ar subst [t] a ∨ a = notEnoughTerms := by
  by_cases hop : t.isOp = true
  · obtain ⟨op, k, ht⟩ := isOp_data hop
    by_cases hk : k ≤ st.length
    · rcases (evalTerm_op_stack env ar subst vl zr st t op k ht hk hst).1 a h with
        h1 | ⟨h1, hk1, hlt, hu⟩ | ⟨h1, hk0, hlt⟩
      · exact Or.inl (Or.inl h1)
      · exact Or.inl (Or.inr (Or.inl ⟨h1, t, List.mem_singleton.2 rfl, op, by rw [ht, hk1],
          hlt, hu⟩))
      · exact Or.inl (Or.inr (Or.inr (Or.inr ⟨h1, t, List.mem_singleton.2 rfl, op,
          by rw [ht, hk0], hlt⟩)))
    · have : st.length < k := Nat.lt_of_not_le hk
      simp [evalTerm, ht, this] at h
      exact Or.inr h.symm
  · have hop1 : t.isOp = false := by simpa using hop
    exact Or.inl (Or.inr (Or.inr (Or.inl ((evalTerm_leaf env ar subst vl zr st t hop1).1 a h))))

/-- The loop of `Evaluate` from a numeric stack, on every term list, ends
abnormally only in one of the ways of `EarlyEnd`, blamed on a term of the
list, or by the assertion on the stack size. -/
theorem evalLoop_error_kinds (env : Env) (ar : Arith) (subst : Option (List ExprTerm))
    (vl zr : Bool) : ∀ (ts : ExprTerms) (st : List ExprTerm), (∀ x ∈ st, Numeric x) →
      ∀ a, evalLoop env ar subst vl zr ts st = Except.error a →
        EarlyEnd ar subst ts a ∨ a = notEnoughTerms := by
  intro ts
  induction ts with
  | nil => intro st _ a h; simp [evalLoop] at h
  | cons t ts ih =>
    intro st hst a h
    rw [evalLoop] at h
    cases ht : evalTerm env ar subst vl zr st t with
    | error y =>
      rw [ht] at h
      simp at h
      rw [← h]
      rcases evalTerm_error_kinds env ar subst vl zr st t hst y ht with h1 | h1
      · exact Or.inl (h1.subset (fun u hu => by
          rw [List.mem_singleton.1 hu]; exact List.mem_cons_self _ _))
      · exact Or.inr h1
    | ok o =>
      cases o with
      | none => rw [ht] at h; simp at h
      | some s =>
        rw [ht] at h
        rcases ih s (evalTerm_numeric_stack env ar subst vl zr st s t hst ht) a h with h1 | h1
        · exact Or.inl (h1.subset (fun u hu => List.mem_cons_of_mem _ hu))
        · exact Or.inr h1

theorem Forest.count_of_nil {d : Int} {n : Nat} {ts : ExprTerms} (h : Forest d n ts)
    (hts : ts = []) : n = 0 := by
  cases h with
  | nil => rfl
  | empty t _ _ => simp at hts
  | leaf t _ _ _ _ => simp at hts
  | node op _ _ => simp at hts

theorem WellFormed.ne_nil {e : ExprTerms} (h : WellFormed e) : e ≠ [] := by
  obtain ⟨d, hf⟩ := h
  intro he
  have := hf.count_of_nil he
  omega

/-- On a well-formed expression the loop of `Evaluate` ends abnormally only
in one of the ways of `EarlyEnd`, and when it comes to the end of the terms
the stack holds exactly one term, a numeric one. -/
theorem evalLoop_wellFormed (env : Env) (ar : Arith) (subst : Option (List ExprTerm))
    (vl zr : Bool) {e : ExprTerms} (hwf : WellFormed e) :
    (∀ a, evalLoop env ar subst vl zr e [] = Except.error a → EarlyEnd ar subst e a) ∧
    (∀ st, evalLoop env ar subst vl zr e [] = Except.ok (some st) →
      ∃ v, st = [v] ∧ Numeric v) := by
  obtain ⟨d, hf⟩ := hwf
  have h := evalLoop_forest env ar subst vl zr hf [] (fun x hx => by simp at hx)
  refine ⟨h.1, fun st hst => ?_⟩
  obtain ⟨vs, hvs, hlen, hnum⟩ := h.2 st hst
  match vs, hlen, hnum, hvs with
  | [v], _, hnum, hvs => exact ⟨v, by simpa using hvs, hnum v (List.mem_singleton.2 rfl)⟩

/-- On a well-formed expression `Evaluate` ends abnormally only in one of the
ways of `EarlyEnd`, so by neither of its two assertions on the stack, and a
result it gives is numeric. -/
theorem Evaluate_wellFormed (env : Env) (ar : Arith) (subst : Option (List ExprTerm))
    (vl zr : Bool) {e : ExprTerms} (hwf : WellFormed e) :
    (∀ a, Evaluate env ar e subst vl zr = Except.error a →
      EarlyEnd ar subst e a ∧ evalLoop env ar subst vl zr e [] = Except.error a) ∧
    (∀ r, Evaluate env ar e subst vl zr = Except.ok (some r) → Numeric r) := by
  by_cases hs : ∃ t, e = [t] ∧ Numeric t
  · obtain ⟨t, he, ht⟩ := hs
    rw [he, Evaluate_shortcut env ar subst vl zr t ht]
    refine ⟨fun a h => by simp at h, fun r h => ?_⟩
    simp at h
    rw [← h]; exact ht
  · have hl := Evaluate_of_loop env ar subst vl zr e hs hwf.ne_nil
    have hw := evalLoop_wellFormed env ar subst vl zr hwf
    cases hr : evalLoop env ar subst vl zr e [] with
    | error x =>
      rw [hl.1 x hr]
      refine ⟨fun a h => ?_, fun r h => by simp at h⟩
      simp at h
      rw [← h]; exact ⟨hw.1 x hr, rfl⟩
    | ok o =>
      cases o with
      | none =>
        rw [hl.2.1 hr]
        exact ⟨fun a h => by simp at h, fun r h => by simp at h⟩
      | some st =>
        obtain ⟨v, hv, hvn⟩ := hw.2 st hr
        rw [hv] at hr
        rw [hl.2.2.1 v hr]
        refine ⟨fun a h => by simp at h, fun r h => ?_⟩
        simp at h
        rw [← h]; exact hvn

theorem evalTerm_of_numeric (env : Env) (ar : Arith) (subst : Option (List ExprTerm))
    (vl zr : Bool) (st : List ExprTerm) (t : ExprTerm) (h : Numeric t) :
    evalTerm env ar subst vl zr st t = Except.ok (some (st ++ [t])) := by
  rcases h.data with ⟨v, hv⟩ | ⟨v, hv⟩ <;> simp [evalTerm, hv]

/-- A term at which every round of the loop returns false, or fails the
assertion on the stack size, stops `Evaluate` on a well-formed expression. -/
theorem FalseAt.of_stop (env : Env) (ar : Arith) (subst : Option (List ExprTerm))
    (vl zr : Bool) (pre post : ExprTerms) (t : ExprTerm)
    (hwf : WellFormed (pre ++ t :: post))
    (hstop : ∀ st, evalTerm env ar subst vl zr st t = Except.ok none ∨
      evalTerm env ar subst vl zr st t = Except.error notEnoughTerms) :
    FalseAt env ar subst vl zr (pre ++ t :: post) pre t := by
  have hs : ¬ ∃ u, pre ++ t :: post = [u] ∧ Numeric u := by
    rintro ⟨u, hu, hnum⟩
    have hpre : pre = [] := by
      cases pre with
      | nil => rfl
      | cons p ps =>
        have := congrArg List.length hu
        simp at this
    rw [hpre] at hu
    simp at hu
    have h1 := evalTerm_of_numeric env ar subst vl zr [] t (hu.1 ▸ hnum)
    rcases hstop [] with h2 | h2 <;> rw [h1] at h2 <;> simp at h2
  have hl := Evaluate_of_loop env ar subst vl zr _ hs hwf.ne_nil
  have hsp := evalLoop_split env ar subst vl zr pre post t []
  have hw := Evaluate_wellFormed env ar subst vl zr hwf
  have hnot : Evaluate env ar (pre ++ t :: post) subst vl zr ≠ Except.error notEnoughTerms :=
    fun h => (hw.1 _ h).1.ne_notEnoughTerms rfl
  have hsome : ∀ st, evalLoop env ar subst vl zr pre [] = Except.ok (some st) →
      evalTerm env ar subst vl zr st t = Except.ok none ∧
      Evaluate env ar (pre ++ t :: post) subst vl zr = Except.ok none := by
    intro st hst
    rcases hstop st with h2 | h2
    · exact ⟨h2, hl.2.1 ((hsp.2.2 st hst).2.1 h2)⟩
    · exact absurd (hl.1 _ ((hsp.2.2 st hst).1 _ h2)) hnot
  have hnone : evalLoop env ar subst vl zr pre [] = Except.ok none →
      Evaluate env ar (pre ++ t :: post) subst vl zr = Except.ok none :=
    fun h => hl.2.1 (hsp.2.1 h)
  have hmain : Evaluate env ar (pre ++ t :: post) subst vl zr = Except.ok none ∨
      ∃ a, Evaluate env ar (pre ++ t :: post) subst vl zr = Except.error a ∧
        evalLoop env ar subst vl zr pre [] = Except.error a ∧ EarlyEnd ar subst pre a := by
    cases hp : evalLoop env ar subst vl zr pre [] with
    | error x =>
      have hx := hl.1 x (hsp.1 x hp)
      refine Or.inr ⟨x, hx, rfl, ?_⟩
      rcases evalLoop_error_kinds env ar subst vl zr pre [] (fun y hy => by simp at hy) x hp
        with h1 | h1
      · exact h1
      · rw [h1] at hx; exact absurd hx hnot
    | ok o =>
      cases o with
      | none => exact Or.inl (hnone hp)
      | some st => exact Or.inl (hsome st hp).2
  refine ⟨fun r hr => ?_, hmain, hsome, hnone, fun har hsub hops => ?_⟩
  · rcases hmain with h | ⟨a, h, _⟩ <;> rw [h] at hr <;> simp at hr
  · rcases hmain with h | ⟨a, _, _, h⟩
    · exact h
    · exact (h.impossible har hsub hops).elim

theorem append_singleton_eq_split {α : Type} {xs pre post : List α} {x t : α}
    (h : xs ++ [x] = pre ++ t :: post) :
    (pre = xs ∧ t = x ∧ post = []) ∨ ∃ post1, xs = pre ++ t :: post1 ∧ post = post1 ++ [x] := by
  rcases List.eq_nil_or_concat post with hp | ⟨post1, y, hp⟩
  · rw [hp] at h
    have h1 := List.append_inj' h rfl
    simp at h1
    exact Or.inl ⟨h1.1.symm, h1.2.symm, hp⟩
  · rw [hp] at h
    have h2 : xs ++ [x] = (pre ++ t :: post1) ++ [y] := by simpa using h
    have h1 := List.append_inj' h2 rfl
    simp at h1
    exact Or.inr ⟨post1, by simpa using h1.1, by rw [hp, h1.2]; simp⟩

theorem append_eq_split {α : Type} {A B pre post : List α} {t : α}
    (h : A ++ B = pre ++ t :: post) :
    (∃ post1, A = pre ++ t :: post1 ∧ post = post1 ++ B) ∨
    (∃ pre1, pre = A ++ pre1 ∧ B = pre1 ++ t :: post) := by
  rcases List.append_eq_append_iff.1 h with ⟨a1, h1, h2⟩ | ⟨c1, h1, h2⟩
  · exact Or.inr ⟨a1, h1, h2⟩
  · cases c1 with
    | nil =>
      refine Or.inr ⟨[], by simpa using h1.symm, by simpa using h2.symm⟩
    | cons c cs =>
      simp at h2
      refine Or.inl ⟨cs, by rw [h1, h2.1], h2.2⟩

/-- In terms that are complete subtrees, the terms before an operator term
with child count `n` end with the `n` complete subtrees of its children, at
the depth below the operator. -/
theorem Forest.children_before {d : Int} {m : Nat} {ts : ExprTerms} (h : Forest d m ts) :
    ∀ (pre post : ExprTerms) (t : ExprTerm) (op : Op) (n : Nat),
      ts = pre ++ t :: post → t.data = TermData.OP op n →
      ∃ before block, pre = before ++ block ∧ Forest (t.m_depth + 1) n block := by
  induction h with
  | nil d => intro pre post t op n h; simp at h
  | @empty d m ts x _ hx ih =>
    intro pre post t op n h ht
    rcases append_singleton_eq_split h with ⟨_, htx, _⟩ | ⟨post1, h1, _⟩
    · rw [← htx] at hx
      simp [ExprTerm.isEmpty, ExprTerm.getType, ht, ExprTerm.OP, ExprTerm.NONE] at hx
    · exact ih pre post1 t op n h1 ht
  | @leaf d m ts x _ _ hx _ ih =>
    intro pre post t op n h ht
    rcases append_singleton_eq_split h with ⟨_, htx, _⟩ | ⟨post1, h1, _⟩
    · rw [← htx, isOp_of_data ht] at hx
      cases hx
    · exact ih pre post1 t op n h1 ht
  | @node d m k ts cs op0 _ hcs ih1 ih2 =>
    intro pre post t op n h ht
    rcases append_singleton_eq_split h with ⟨hpre, htx, _⟩ | ⟨post1, h1, _⟩
    · rw [htx] at ht
      simp at ht
      refine ⟨ts, cs, hpre, ?_⟩
      rw [htx, ← ht.2]
      exact hcs
    · rcases append_eq_split h1 with ⟨post2, h2, _⟩ | ⟨pre1, h2, h3⟩
      · exact ih1 pre post2 t op n h2 ht
      · obtain ⟨before, block, hb, hf⟩ := ih2 pre1 post1 t op n h3 ht
        exact ⟨ts ++ before, block, by rw [h2, hb, List.append_assoc], hf⟩

theorem evalLoop_append_inv (env : Env) (ar : Arith) (subst : Option (List ExprTerm))
    (vl zr : Bool) (a b : ExprTerms) (st st1 : List ExprTerm)
    (h : evalLoop env ar subst vl zr (a ++ b) st = Except.ok (some st1)) :
    ∃ s, evalLoop env ar subst vl zr a st = Except.ok (some s) ∧
      evalLoop env ar subst vl zr b s = Except.ok (some st1) := by
  cases ha : evalLoop env ar subst vl zr a st with
  | error x => rw [evalLoop_append_error env ar subst vl zr b a st ha] at h; simp at h
  | ok o =>
    cases o with
    | none => rw [evalLoop_append_none env ar subst vl zr b a st ha] at h; simp at h
    | some s =>
      rw [evalLoop_append_some env ar subst vl zr b a st ha] at h
      exact ⟨s, rfl, h⟩

/-- When the loop of `Evaluate` comes to an operator term of a well-formed
expression, the values of the operator's children, as many as its child
count, are on top of the stack; the round of the operator does not fail the
assertion on the stack size, and when it is completed it has put one numeric
value at the operator's depth in the place of the children's values. -/
theorem evalLoop_at_operator (env : Env) (ar : Arith) (subst : Option (List ExprTerm))
    (vl zr : Bool) {e : ExprTerms} (hwf : WellFormed e) (pre post : ExprTerms) (t : ExprTerm)
    (op : Op) (n : Nat) (st : List ExprTerm) (he : e = pre ++ t :: post)
    (ht : t.data = TermData.OP op n)
    (hst : evalLoop env ar subst vl zr pre [] = Except.ok (some st)) :
    ∃ before block st0 vs, pre = before ++ block ∧ Forest (t.m_depth + 1) n block ∧
      evalLoop env ar subst vl zr before [] = Except.ok (some st0) ∧
      evalLoop env ar subst vl zr block st0 = Except.ok (some st) ∧
      st = st0 ++ vs ∧ vs.length = n ∧ (∀ v ∈ vs, Numeric v) ∧
      evalTerm env ar subst vl zr st t ≠ Except.error notEnoughTerms ∧
      ∀ st1, evalTerm env ar subst vl zr st t = Except.ok (some st1) →
        ∃ v, st1 = st0 ++ [v] ∧ v.m_depth = t.m_depth ∧ Numeric v := by
  obtain ⟨d, hf⟩ := hwf
  obtain ⟨before, block, hpre, hblock⟩ := hf.children_before pre post t op n he ht
  rw [hpre] at hst
  obtain ⟨st0, h0, h1⟩ := evalLoop_append_inv env ar subst vl zr before block [] st hst
  have hn0 : ∀ x ∈ st0, Numeric x :=
    evalLoop_numeric_stack env ar subst vl zr before [] st0 (fun x hx => by simp at hx) h0
  obtain ⟨vs, hvs, hlen, hnum⟩ := (evalLoop_forest env ar subst vl zr hblock st0 hn0).2 st h1
  have hop := evalTerm_op_numeric env ar subst vl zr st0 vs t op n ht hlen hnum
  rw [← hvs] at hop
  refine ⟨before, block, st0, vs, hpre, hblock, h0, h1, hvs, hlen, hnum, ?_, ?_⟩
  · intro h
    rcases hop.1 _ h with ⟨h2, _⟩ | ⟨h2, _⟩ | ⟨h2, _⟩ <;> simp [notEnoughTerms] at h2
  · intro st1 h
    obtain ⟨v, hv, hvn, hvd⟩ := hop.2 st1 h
    exact ⟨v, hv, hvd, hvn⟩

/-- `Evaluate` is `EvaluateInto` without the caller's term. -/
theorem Evaluate_eq_EvaluateInto (env : Env) (ar : Arith) (e : ExprTerms) (result : ExprTerm)
    (subst : Option (List ExprTerm)) (vl zr : Bool) :
    Evaluate env ar e subst vl zr =
      (EvaluateInto env ar e result subst vl zr).map
        (fun p => if p.1 = true then some p.2 else none) := by
  cases e with
  | nil => rfl
  | cons first others =>
    rw [Evaluate, EvaluateInto]
    by_cases hc : others = [] ∧ first.isType (ExprTerm.INT ||| ExprTerm.FLOAT) = true
    · rw [if_pos hc, if_pos hc]; rfl
    · rw [if_neg hc, if_neg hc]
      cases evalLoop env ar subst vl zr (first :: others) [] with
      | error a => rfl
      | ok o =>
        cases o with
        | none => rfl
        | some st =>
          match st with
          | [] => rfl
          | [x] => rfl
          | _ :: _ :: _ => rfl

/-- The caller's term after `Evaluate`: unchanged when false is returned;
when true is returned it is the single term of the shortcut, or the one term
the loop has left on the stack after all terms. -/
theorem EvaluateInto_result (env : Env) (ar : Arith) (e : ExprTerms) (result : ExprTerm)
    (subst : Option (List ExprTerm)) (vl zr : Bool) :
    (∀ r1, EvaluateInto env ar e result subst vl zr = Except.ok (false, r1) → r1 = result) ∧
    (∀ r1, EvaluateInto env ar e result subst vl zr = Except.ok (true, r1) →
      (e = [r1] ∧ Numeric r1) ∨
      evalLoop env ar subst vl zr e [] = Except.ok (some [r1])) := by
  cases e with
  | nil =>
    refine ⟨fun r1 h => ?_, fun r1 h => ?_⟩
    · simp [EvaluateInto] at h; exact h.symm
    · simp [EvaluateInto] at h
  | cons first others =>
    rw [EvaluateInto]
    by_cases hc : others = [] ∧ first.isType (ExprTerm.INT ||| ExprTerm.FLOAT) = true
    · rw [if_pos hc]
      refine ⟨fun r1 h => by simp at h, fun r1 h => ?_⟩
      simp at h
      left
      refine ⟨by rw [hc.1, h], ?_⟩
      have h2 := hc.2
      rw [isType_INT_FLOAT_eq] at h2
      rw [← h]
      cases hd : first.data <;> rw [hd] at h2 <;> simp at h2
      · exact Numeric.of_int hd
      · exact Numeric.of_float hd
    · rw [if_neg hc]
      cases hl : evalLoop env ar subst vl zr (first :: others) [] with
      | error a => exact ⟨fun r1 h => by simp at h, fun r1 h => by simp at h⟩
      | ok o =>
        cases o with
        | none =>
          refine ⟨fun r1 h => ?_, fun r1 h => by simp at h⟩
          simp at h; exact h.symm
        | some st =>
          match st with
          | [] => exact ⟨fun r1 h => by simp at h, fun r1 h => by simp at h⟩
          | [x] =>
            refine ⟨fun r1 h => by simp at h, fun r1 h => ?_⟩
            simp at h
            right; rw [h]
          | _ :: _ :: _ => exact ⟨fun r1 h => by simp at h, fun r1 h => by simp at h⟩

/-- The operands of one round of `Evaluate` over a child, when both are
numeric: after the promotion they have the same kind, float as soon as one of
them was a float and unchanged when both were integers; the integer
calculation is chosen exactly when both were integers, the float calculation
only on two floats; and the round is what `evalChildren` does. -/
theorem childStep_numeric (ar : Arith) (op : Op) (result child : ExprTerm)
    (hr : Numeric result) (hc : Numeric child) :
    (promoteOperands ar result child).1.getType = (promoteOperands ar result child).2.getType ∧
    Numeric (promoteOperands ar result child).1 ∧
    ((result.getType = ExprTerm.FLOAT ∨ child.getType = ExprTerm.FLOAT) →
      (promoteOperands ar result child).1.getType = ExprTerm.FLOAT ∧
      (promoteOperands ar result child).2.getType = ExprTerm.FLOAT) ∧
    ((result.getType = ExprTerm.INT ∧ child.getType = ExprTerm.INT) →
      promoteOperands ar result child = (result, child)) ∧
    (∀ a b, chooseCalc op (promoteOperands ar result child).1 (promoteOperands ar result child).2
        = Except.ok (Calculation.intCalc a b) ↔
      (result.data = TermData.INT a ∧ child.data = TermData.INT b)) ∧
    (∀ a b, chooseCalc op (promoteOperands ar result child).1 (promoteOperands ar result child).2
        = Except.ok (Calculation.floatCalc a b) ↔
      ((promoteOperands ar result child).1.data = TermData.FLOAT a ∧
        (promoteOperands ar result child).2.data = TermData.FLOAT b ∧ op < Op.NEG)) ∧
    (∀ x, chooseCalc op (promoteOperands ar result child).1 (promoteOperands ar result child).2
        ≠ Except.error x) ∧
    (∀ rest,
      (∀ x, childStep ar op result child = Except.error x →
        evalChildren ar op result (child :: rest) = Except.error x) ∧
      (childStep ar op result child = Except.ok none →
        evalChildren ar op result (child :: rest) = Except.ok none) ∧
      (∀ r1, childStep ar op result child = Except.ok (some r1) →
        Numeric r1 ∧
        evalChildren ar op result (child :: rest) = evalChildren ar op r1 rest)) := by
  cases result with
  | mk rd rdepth =>
    cases child with
    | mk cd cdepth =>
      rcases hr.data with ⟨a, ha⟩ | ⟨a, ha⟩ <;> rcases hc.data with ⟨b, hb⟩ | ⟨b, hb⟩ <;>
        simp only [] at ha hb <;> subst ha <;> subst hb
      · refine ⟨rfl, Numeric.of_int rfl, ?_, fun _ => rfl, ?_, ?_, ?_, ?_⟩
        · intro h
          rcases h with h | h <;> simp [ExprTerm.getType, ExprTerm.INT, ExprTerm.FLOAT] at h
        · intro x y
          simp [promoteOperands, ExprTerm.getFloat, chooseCalc, ExprTerm.isType,
            ExprTerm.getType, ExprTerm.INT, ExprTerm.getIntNum]
        · intro x y
          simp [promoteOperands, ExprTerm.getFloat, chooseCalc, ExprTerm.isType,
            ExprTerm.getType, ExprTerm.INT, ExprTerm.getIntNum]
        · intro x
          simp [promoteOperands, ExprTerm.getFloat, chooseCalc, ExprTerm.isType,
            ExprTerm.getType, ExprTerm.INT, ExprTerm.getIntNum]
        · intro rest
          cases hcalc : ar.Calc op a b with
          | none =>
            simp [childStep, promoteOperands, ExprTerm.getFloat, chooseCalc, ExprTerm.isType,
              ExprTerm.getType, ExprTerm.INT, ExprTerm.getIntNum, runCalc, evalChildren, hcalc]
          | some v =>
            have e2 : ((2 : Nat) &&& 2 != 0) = true := by decide
            simp only [childStep, promoteOperands, ExprTerm.getFloat, chooseCalc, ExprTerm.isType,
              ExprTerm.getType, ExprTerm.INT, ExprTerm.getIntNum, runCalc, evalChildren, hcalc, e2,
              if_true]
            refine ⟨fun x h => by simp at h, fun h => by simp at h, fun r1 h1 => ?_⟩
            simp at h1
            rw [← h1]
            exact ⟨Numeric.of_int rfl, rfl⟩
      · have e8 : ((8 : Nat) &&& 2 != 0) = false := by decide
        have e2 : ((2 : Nat) &&& 2 != 0) = true := by decide
        refine ⟨rfl, Numeric.of_float rfl, fun _ => ⟨rfl, rfl⟩, ?_, ?_, ?_, ?_, ?_⟩
        · intro h
          rcases h with ⟨h1, h2⟩
          simp [ExprTerm.getType, ExprTerm.INT, ExprTerm.FLOAT] at h1 h2
        · intro x y
          simp [promoteOperands, ExprTerm.getFloat, chooseCalc, ExprTerm.isType,
            ExprTerm.getType, ExprTerm.INT, ExprTerm.getIntNum, ExprTerm.PromoteToFloat,
            ExprTerm.FLOAT, e8]
          by_cases hop : op < Op.NEG <;> simp [hop]
        · intro x y
          simp [promoteOperands, ExprTerm.getFloat, chooseCalc, ExprTerm.isType,
            ExprTerm.getType, ExprTerm.INT, ExprTerm.getIntNum, ExprTerm.PromoteToFloat,
            ExprTerm.FLOAT, e8]
          by_cases hop : op < Op.NEG <;> simp [hop]
        · intro x
          simp [promoteOperands, ExprTerm.getFloat, chooseCalc, ExprTerm.isType,
            ExprTerm.getType, ExprTerm.INT, ExprTerm.getIntNum, ExprTerm.PromoteToFloat,
            ExprTerm.FLOAT, e8]
          by_cases hop : op < Op.NEG <;> simp [hop]
        · intro rest
          by_cases hop : op < Op.NEG
          · simp only [childStep, promoteOperands, ExprTerm.getFloat, chooseCalc, ExprTerm.isType,
              ExprTerm.getType, ExprTerm.INT, ExprTerm.getIntNum, ExprTerm.PromoteToFloat,
              ExprTerm.FLOAT, runCalc, evalChildren, e8, e2, if_pos hop, if_true, if_false]
            refine ⟨fun x h => by simp at h, fun h => by simp at h, fun r1 h1 => ?_⟩
            simp at h1
            rw [← h1]
            exact ⟨Numeric.of_float rfl, rfl⟩
          · simp [childStep, promoteOperands, ExprTerm.getFloat, chooseCalc, ExprTerm.isType,
              ExprTerm.getType, ExprTerm.INT, ExprTerm.getIntNum, ExprTerm.PromoteToFloat,
              ExprTerm.FLOAT, runCalc, evalChildren, e8, hop]
      · have e8 : ((8 : Nat) &&& 2 != 0) = false := by decide
        have e2 : ((2 : Nat) &&& 2 != 0) = true := by decide
        refine ⟨rfl, Numeric.of_float rfl, fun _ => ⟨rfl, rfl⟩, ?_, ?_, ?_, ?_, ?_⟩
        · intro h
          rcases h with ⟨h1, h2⟩
          simp [ExprTerm.getType, ExprTerm.INT, ExprTerm.FLOAT] at h1 h2
        · intro x y
          simp [promoteOperands, ExprTerm.getFloat, chooseCalc, ExprTerm.isType,
            ExprTerm.getType, ExprTerm.INT, ExprTerm.getIntNum, ExprTerm.PromoteToFloat,
            ExprTerm.FLOAT, e8]
          by_cases hop : op < Op.NEG <;> simp [hop]
        · intro x y
          simp [promoteOperands, ExprTerm.getFloat, chooseCalc, ExprTerm.isType,
            ExprTerm.getType, ExprTerm.INT, ExprTerm.getIntNum, ExprTerm.PromoteToFloat,
            ExprTerm.FLOAT, e8]
          by_cases hop : op < Op.NEG <;> simp [hop]
        · intro x
          simp [promoteOperands, ExprTerm.getFloat, chooseCalc, ExprTerm.isType,
            ExprTerm.getType, ExprTerm.INT, ExprTerm.getIntNum, ExprTerm.PromoteToFloat,
            ExprTerm.FLOAT, e8]
          by_cases hop : op < Op.NEG <;> simp [hop]
        · intro rest
          by_cases hop : op < Op.NEG
          · simp only [childStep, promoteOperands, ExprTerm.getFloat, chooseCalc, ExprTerm.isType,
              ExprTerm.getType, ExprTerm.INT, ExprTerm.getIntNum, ExprTerm.PromoteToFloat,
              ExprTerm.FLOAT, runCalc, evalChildren, e8, e2, if_pos hop, if_true, if_false]
            refine ⟨fun x h => by simp at h, fun h => by simp at h, fun r1 h1 => ?_⟩
            simp at h1
            rw [← h1]
            exact ⟨Numeric.of_float rfl, rfl⟩
          · simp [childStep, promoteOperands, ExprTerm.getFloat, chooseCalc, ExprTerm.isType,
              ExprTerm.getType, ExprTerm.INT, ExprTerm.getIntNum, ExprTerm.PromoteToFloat,
              ExprTerm.FLOAT, runCalc, evalChildren, e8, hop]
      · have e8 : ((8 : Nat) &&& 2 != 0) = false := by decide
        have e2 : ((2 : Nat) &&& 2 != 0) = true := by decide
        refine ⟨rfl, Numeric.of_float rfl, fun _ => ⟨rfl, rfl⟩, ?_, ?_, ?_, ?_, ?_⟩
        · intro h
          rcases h with ⟨h1, h2⟩
          simp [ExprTerm.getType, ExprTerm.INT, ExprTerm.FLOAT] at h1 h2
        · intro x y
          simp [promoteOperands, ExprTerm.getFloat, chooseCalc, ExprTerm.isType,
            ExprTerm.getType, ExprTerm.INT, ExprTerm.getIntNum, ExprTerm.PromoteToFloat,
            ExprTerm.FLOAT, e8]
          by_cases hop : op < Op.NEG <;> simp [hop]
        · intro x y
          simp [promoteOperands, ExprTerm.getFloat, chooseCalc, ExprTerm.isType,
            ExprTerm.getType, ExprTerm.INT, ExprTerm.getIntNum, ExprTerm.PromoteToFloat,
            ExprTerm.FLOAT, e8]
          by_cases hop : op < Op.NEG <;> simp [hop]
        · intro x
          simp [promoteOperands, ExprTerm.getFloat, chooseCalc, ExprTerm.isType,
            ExprTerm.getType, ExprTerm.INT, ExprTerm.getIntNum, ExprTerm.PromoteToFloat,
            ExprTerm.FLOAT, e8]
          by_cases hop : op < Op.NEG <;> simp [hop]
        · intro rest
          by_cases hop : op < Op.NEG
          · simp only [childStep, promoteOperands, ExprTerm.getFloat, chooseCalc, ExprTerm.isType,
              ExprTerm.getType, ExprTerm.INT, ExprTerm.getIntNum, ExprTerm.PromoteToFloat,
              ExprTerm.FLOAT, runCalc, evalChildren, e8, e2, if_pos hop, if_true, if_false]
            refine ⟨fun x h => by simp at h, fun h => by simp at h, fun r1 h1 => ?_⟩
            simp at h1
            rw [← h1]
            exact ⟨Numeric.of_float rfl, rfl⟩
          · simp [childStep, promoteOperands, ExprTerm.getFloat, chooseCalc, ExprTerm.isType,
              ExprTerm.getType, ExprTerm.INT, ExprTerm.getIntNum, ExprTerm.PromoteToFloat,
              ExprTerm.FLOAT, runCalc, evalChildren, e8, hop]

theorem wellFormed_exprBinary (op : Op) (x : TermData)
    (h1 : (⟨x, 1⟩ : ExprTerm).isEmpty = false) (h2 : (⟨x, 1⟩ : ExprTerm).isOp = false) :
    WellFormed (exprBinary op x) := by
  have f1 : Forest (0 + 1) 2 ([] ++ [⟨TermData.INT 1, 1⟩] ++ [⟨x, 1⟩]) :=
    Forest.leaf _ (Forest.leaf _ (Forest.nil _) rfl rfl rfl) h1 h2 rfl
  have f2 := Forest.node op (Forest.nil 0) f1
  exact ⟨0, by simpa [exprBinary] using f2⟩

theorem wellFormed_exprAfterUnaryAdd (op : Op) (x : TermData)
    (h1 : (⟨x, 1⟩ : ExprTerm).isEmpty = false) (h2 : (⟨x, 1⟩ : ExprTerm).isOp = false) :
    WellFormed (exprAfterUnaryAdd op x) := by
  have f0 : Forest (0 + 1 + 1) 1 ([] ++ [⟨TermData.INT 1, 2⟩]) :=
    Forest.leaf _ (Forest.nil _) rfl rfl rfl
  have f1 : Forest (0 + 1) 1 ([] ++ ([] ++ [⟨TermData.INT 1, 2⟩])
      ++ [⟨TermData.OP Op.ADD 1, 0 + 1⟩]) :=
    Forest.node Op.ADD (Forest.nil _) f0
  have f2 : Forest (0 + 1) 2 (([] ++ ([] ++ [⟨TermData.INT 1, 2⟩])
      ++ [⟨TermData.OP Op.ADD 1, 0 + 1⟩]) ++ [⟨x, 1⟩]) :=
    Forest.leaf _ f1 h1 h2 rfl
  have f3 := Forest.node op (Forest.nil 0) f2
  exact ⟨0, by simpa [exprAfterUnaryAdd] using f3⟩

theorem wellFormed_exprSubstFirst (op : Op) (x : TermData)
    (h1 : (⟨x, 1⟩ : ExprTerm).isEmpty = false) (h2 : (⟨x, 1⟩ : ExprTerm).isOp = false) :
    WellFormed (exprSubstFirst op x) := by
  have f1 : Forest (0 + 1) 2 ([] ++ [⟨TermData.SUBST 0, 1⟩] ++ [⟨x, 1⟩]) :=
    Forest.leaf _ (Forest.leaf _ (Forest.nil _) rfl rfl rfl) h1 h2 rfl
  have f2 := Forest.node op (Forest.nil 0) f1
  exact ⟨0, by simpa [exprSubstFirst] using f2⟩

/-- `Evaluate` returns false exactly when `EvaluateInto` returns false with
the caller's term as it was. -/
theorem Evaluate_none_iff (env : Env) (ar : Arith) (e : ExprTerms) (result : ExprTerm)
    (subst : Option (List ExprTerm)) (vl zr : Bool) :
    Evaluate env ar e subst vl zr = Except.ok none ↔
      EvaluateInto env ar e result subst vl zr = Except.ok (false, result) := by
  have h2 := (EvaluateInto_result env ar e result subst vl zr).1
  rw [Evaluate_eq_EvaluateInto env ar e result subst vl zr]
  cases h : EvaluateInto env ar e result subst vl zr with
  | error a => simp [Except.map]
  | ok p =>
    rcases p with ⟨b, r1⟩
    cases b with
    | false =>
      have := h2 r1 h
      simp [Except.map, this]
    | true => simp [Except.map]

theorem to_bytes_append (c : X86Common) (bytes : Bytes) (segreg : Option Nat) :
    c.to_bytes bytes segreg = bytes ++ c.to_bytes [] segreg := by
  unfold X86Common.to_bytes
  cases segreg <;> simp only [] <;> split_ifs <;> simp [Bytes.write_8]

theorem to_bytes_length (c : X86Common) (segreg : Option Nat) :
    (c.to_bytes [] segreg).length = c.calc_len + (if segreg.isSome then 1 else 0) := by
  unfold X86Common.to_bytes X86Common.calc_len
  cases segreg <;> simp only [Option.isSome, if_true, if_false, Bool.false_eq_true] <;>
    split_ifs <;> simp [Bytes.write_8]

theorem calc_len_le (c : X86Common) : c.calc_len ≤ 3 := by
  unfold X86Common.calc_len
  simp only []
  split_ifs <;> omega

/-- One round of `apply_prefixes_common` with the null pointer for `rex`: it
dereferences `rex` exactly on an OPERSIZE prefix of value 64 in 64-bit mode
with `def_opersize_64` other than 64; otherwise `rex` stays null and the mode
bits are left. -/
theorem applyPrefix_null_rex (d : Nat) (s : PrefixState) (p : X86Prefix) (hs : s.rex = none) :
    (applyPrefix d s p = Except.error nullRex ∧
      s.common.m_mode_bits = 64 ∧ d ≠ 64 ∧ p.type = PrefixType.OPERSIZE ∧ p.value % 256 = 64) ∨
    (∃ s1, applyPrefix d s p = Except.ok s1 ∧ s1.rex = none ∧
      s1.common.m_mode_bits = s.common.m_mode_bits ∧
      ¬ (s.common.m_mode_bits = 64 ∧ d ≠ 64 ∧ p.type = PrefixType.OPERSIZE ∧
        p.value % 256 = 64)) := by
  rcases p with ⟨ty, v⟩
  cases ty
  · exact Or.inr ⟨_, rfl, by simp only []; split_ifs <;> simp [PrefixState.warn_set, hs],
      by simp only []; split_ifs <;> simp [PrefixState.warn_set], by simp⟩
  · exact Or.inr ⟨_, rfl, hs, rfl, by simp⟩
  · by_cases hc : s.common.m_mode_bits = 64 ∧ v % 256 = 64 ∧ d ≠ 64
    · left
      refine ⟨?_, hc.1, hc.2.2, rfl, hc.2.1⟩
      simp only [applyPrefix, hs]
      rw [if_pos hc]
    · right
      refine ⟨{ s with common := { s.common with m_opersize := v % 256 } }, ?_, hs, rfl,
        fun h => hc ⟨h.1, h.2.2.2, h.2.1⟩⟩
      simp only [applyPrefix]
      rw [if_neg hc]
  · exact Or.inr ⟨_, rfl, hs, rfl, by simp⟩
  · refine Or.inr ⟨_, rfl, ?_, ?_, by simp⟩
    · simp [hs, PrefixState.warn_set]
    · simp [hs, PrefixState.warn_set]

/-- With the null pointer for `rex`, `apply_prefixes_common` dereferences it
exactly when the mode is 64-bit, `def_opersize_64` is not 64 and the list
holds an OPERSIZE prefix of value 64; it ends abnormally in no other way. -/
theorem applyPrefixes_null_rex (d : Nat) : ∀ (l : List X86Prefix) (s : PrefixState),
    s.rex = none →
    (applyPrefixes d s l = Except.error nullRex ↔
      (s.common.m_mode_bits = 64 ∧ d ≠ 64 ∧
        ∃ p ∈ l, p.type = PrefixType.OPERSIZE ∧ p.value % 256 = 64)) ∧
    (∀ a, applyPrefixes d s l = Except.error a → a = nullRex) := by
  intro l
  induction l with
  | nil =>
    intro s _
    simp [applyPrefixes]
  | cons p l ih =>
    intro s hs
    rw [applyPrefixes]
    rcases applyPrefix_null_rex d s p hs with ⟨h1, hm, hd, ht, hv⟩ | ⟨s1, h1, hr1, hm1, hn⟩
    · rw [h1]
      refine ⟨⟨fun _ => ⟨hm, hd, p, List.mem_cons_self _ _, ht, hv⟩, fun _ => rfl⟩, ?_⟩
      intro a h
      simp at h
      exact h.symm
    · rw [h1]
      have ih1 := ih s1 hr1
      refine ⟨?_, ih1.2⟩
      simp only []
      rw [ih1.1, hm1]
      constructor
      · rintro ⟨hm, hd, q, hq, ht, hv⟩
        exact ⟨hm, hd, q, List.mem_cons_of_mem _ hq, ht, hv⟩
      · rintro ⟨hm, hd, q, hq, ht, hv⟩
        refine ⟨hm, hd, ?_⟩
        rcases List.mem_cons.1 hq with hq | hq
        · rw [hq] at ht hv
          exact absurd ⟨hm, hd, ht, hv⟩ hn
        · exact ⟨q, hq, ht, hv⟩

theorem applyPrefix_lockrep_step (d : Nat) (s : PrefixState) (p : X86Prefix)
    (hseg : p.type ≠ PrefixType.SEGREG)
    (hok : s.rex ≠ none ∨ p.type ≠ PrefixType.OPERSIZE) :
    ∃ s1, applyPrefix d s p = Except.ok s1 ∧
      s1.common.m_lockrep_pre
        = (if p.type = PrefixType.LOCKREP then p.value % 256 else s.common.m_lockrep_pre) ∧
      (∀ w ∈ s.warns, w ∈ s1.warns) ∧
      (p.type = PrefixType.LOCKREP → s.common.m_lockrep_pre ≠ 0 →
        multipleLockRep ∈ s1.warns) ∧
      (s.rex ≠ none → s1.rex ≠ none) := by
  rcases p with ⟨ty, v⟩
  rcases s with ⟨c, rex, first, warns⟩
  cases ty
  · by_cases h0 : c.m_lockrep_pre ≠ 0
    · have e : applyPrefix d ⟨c, rex, first, warns⟩ ⟨PrefixType.LOCKREP, v⟩
          = Except.ok ⟨{ c with m_lockrep_pre := v % 256 }, rex, first,
            warns ++ [multipleLockRep]⟩ := by
        simp [applyPrefix, h0, PrefixState.warn_set, multipleLockRep]
      exact ⟨_, e, (by simp), (fun w hw => by simp [hw]), (fun _ _ => by simp), fun h => h⟩
    · have e : applyPrefix d ⟨c, rex, first, warns⟩ ⟨PrefixType.LOCKREP, v⟩
          = Except.ok ⟨{ c with m_lockrep_pre := v % 256 }, rex, first, warns⟩ := by
        simp [applyPrefix, h0]
      exact ⟨_, e, (by simp), fun w hw => hw, fun _ h => absurd h h0, fun h => h⟩
  · exact ⟨_, rfl, rfl, fun w hw => hw, (fun h => by cases h), fun h => h⟩
  · have hr : rex ≠ none := by
      rcases hok with h | h
      · exact h
      · exact absurd rfl h
    cases rex with
    | none => exact absurd rfl hr
    | some r =>
      by_cases hc : c.m_mode_bits = 64 ∧ v % 256 = 64 ∧ d ≠ 64
      · by_cases hff : r = 0xff
        · have e : applyPrefix d ⟨c, some r, first, warns⟩ ⟨PrefixType.OPERSIZE, v⟩
              = Except.ok ⟨{ c with m_opersize := v % 256 }, some r, first,
                warns ++ [(WarnClass.WARN_GENERAL,
                  "REX prefix not allowed on this instruction, ignoring")]⟩ := by
            simp only [applyPrefix]
            rw [if_pos hc, if_pos hff]
            rfl
          exact ⟨_, e, (by simp), (fun w hw => by simp [hw]), (fun h => by cases h), fun _ => by simp⟩
        · have e : applyPrefix d ⟨c, some r, first, warns⟩ ⟨PrefixType.OPERSIZE, v⟩
              = Except.ok ⟨{ c with m_opersize := v % 256 }, some 0x48, first, warns⟩ := by
            simp only [applyPrefix]
            rw [if_pos hc, if_neg hff]
          exact ⟨_, e, (by simp), fun w hw => hw, (fun h => by cases h), fun _ => by simp⟩
      · have e : applyPrefix d ⟨c, some r, first, warns⟩ ⟨PrefixType.OPERSIZE, v⟩
            = Except.ok ⟨{ c with m_opersize := v % 256 }, some r, first, warns⟩ := by
          simp only [applyPrefix]
          rw [if_neg hc]
        exact ⟨_, e, (by simp), fun w hw => hw, (fun h => by cases h), fun _ => by simp⟩
  · exact absurd rfl hseg
  · cases rex with
    | none =>
      have e : applyPrefix d ⟨c, none, first, warns⟩ ⟨PrefixType.REX, v⟩
          = Except.ok ⟨c, none, false,
            warns ++ [(WarnClass.WARN_GENERAL, "ignoring REX prefix on jump")]⟩ := by
        simp [applyPrefix, PrefixState.warn_set]
      exact ⟨_, e, (by simp), (fun w hw => by simp [hw]), (fun h => by cases h),
        fun h => absurd rfl h⟩
    | some r =>
      by_cases hff : r = 0xff
      · have e : applyPrefix d ⟨c, some r, first, warns⟩ ⟨PrefixType.REX, v⟩
            = Except.ok ⟨c, some r, false, warns ++ [(WarnClass.WARN_GENERAL,
                "REX prefix not allowed on this instruction, ignoring")]⟩ := by
          simp [applyPrefix, PrefixState.warn_set, hff]
        exact ⟨_, e, (by simp), (fun w hw => by simp [hw]), (fun h => by cases h), fun _ => by simp⟩
      · by_cases h0 : r ≠ 0
        · cases first with
          | true =>
            have e : applyPrefix d ⟨c, some r, true, warns⟩ ⟨PrefixType.REX, v⟩
                = Except.ok ⟨{ c with m_mode_bits := 64 }, some (v % 256), false,
                  warns ++ [(WarnClass.WARN_GENERAL, "overriding generated REX prefix")]⟩ := by
              simp [applyPrefix, PrefixState.warn_set, hff, h0]
            exact ⟨_, e, (by simp), (fun w hw => by simp [hw]), (fun h => by cases h),
              fun _ => by simp⟩
          | false =>
            have e : applyPrefix d ⟨c, some r, false, warns⟩ ⟨PrefixType.REX, v⟩
                = Except.ok ⟨{ c with m_mode_bits := 64 }, some (v % 256), false,
                  warns ++ [(WarnClass.WARN_GENERAL,
                    "multiple REX prefixes, using leftmost")]⟩ := by
              simp [applyPrefix, PrefixState.warn_set, hff, h0]
            exact ⟨_, e, (by simp), (fun w hw => by simp [hw]), (fun h => by cases h),
              fun _ => by simp⟩
        · have e : applyPrefix d ⟨c, some r, first, warns⟩ ⟨PrefixType.REX, v⟩
              = Except.ok ⟨{ c with m_mode_bits := 64 }, some (v % 256), false, warns⟩ := by
            simp [applyPrefix, PrefixState.warn_set, hff, h0]
          exact ⟨_, e, (by simp), fun w hw => hw, (fun h => by cases h), fun _ => by simp⟩

theorem lockReps_cons (p : X86Prefix) (l : List X86Prefix) :
    lockReps (p :: l) = if p.type = PrefixType.LOCKREP then p :: lockReps l else lockReps l := by
  unfold lockReps
  by_cases h : p.type = PrefixType.LOCKREP <;> simp [List.filter_cons, h]

/-- The loop of `apply_prefixes_common` on a list without a segment-register
prefix: it comes to the end, `m_lockrep_pre` is the value of the last LOCK/REP
prefix of the list, and the warning is set as soon as a LOCK/REP prefix finds
`m_lockrep_pre` not zero. -/
theorem applyPrefixes_lockrep (d : Nat) : ∀ (l : List X86Prefix) (s : PrefixState),
    (∀ p ∈ l, p.type ≠ PrefixType.SEGREG) →
    (∀ p ∈ l, p.type = PrefixType.LOCKREP → p.value % 256 ≠ 0) →
    (s.rex ≠ none ∨ ∀ p ∈ l, p.type ≠ PrefixType.OPERSIZE) →
    ∃ s1, applyPrefixes d s l = Except.ok s1 ∧
      s1.common.m_lockrep_pre
        = (((lockReps l).getLast?).map (fun p => p.value % 256)).getD s.common.m_lockrep_pre ∧
      (∀ w ∈ s.warns, w ∈ s1.warns) ∧
      ((2 ≤ (lockReps l).length ∨ (s.common.m_lockrep_pre ≠ 0 ∧ 1 ≤ (lockReps l).length)) →
        multipleLockRep ∈ s1.warns) := by
  intro l
  induction l with
  | nil =>
    intro s _ _ _
    refine ⟨s, rfl, by simp [lockReps], fun w hw => hw, ?_⟩
    simp [lockReps]
  | cons p l ih =>
    intro s hseg hnz hok
    have hok1 : s.rex ≠ none ∨ p.type ≠ PrefixType.OPERSIZE := by
      rcases hok with h | h
      · exact Or.inl h
      · exact Or.inr (h p (List.mem_cons_self _ _))
    obtain ⟨s1, h1, hlr, hmono, hwarn, hrex⟩ :=
      applyPrefix_lockrep_step d s p (hseg p (List.mem_cons_self _ _)) hok1
    have hok2 : s1.rex ≠ none ∨ ∀ q ∈ l, q.type ≠ PrefixType.OPERSIZE := by
      rcases hok with h | h
      · exact Or.inl (hrex h)
      · exact Or.inr (fun q hq => h q (List.mem_cons_of_mem _ hq))
    obtain ⟨s2, h2, hlr2, hmono2, hwarn2⟩ := ih s1
      (fun q hq => hseg q (List.mem_cons_of_mem _ hq))
      (fun q hq => hnz q (List.mem_cons_of_mem _ hq)) hok2
    refine ⟨s2, by rw [applyPrefixes, h1]; exact h2, ?_, fun w hw => hmono2 w (hmono w hw), ?_⟩
    · rw [hlr2, hlr, lockReps_cons]
      by_cases hp : p.type = PrefixType.LOCKREP
      · rw [if_pos hp, if_pos hp]
        cases hL : lockReps l with
        | nil => simp
        | cons q L =>
          have hx := List.getLast?_eq_getLast (q :: L) (by simp)
          rw [List.getLast?_cons_cons, hx]
          rfl
      · rw [if_neg hp, if_neg hp]
    · rw [lockReps_cons]
      by_cases hp : p.type = PrefixType.LOCKREP
      · rw [if_pos hp]
        intro hcond
        have hs1 : s1.common.m_lockrep_pre ≠ 0 := by
          rw [hlr, if_pos hp]; exact hnz p (List.mem_cons_self _ _) hp
        by_cases hL : 1 ≤ (lockReps l).length
        · exact hwarn2 (Or.inr ⟨hs1, hL⟩)
        · have hL0 : (lockReps l).length = 0 := by omega
          rcases hcond with hc | ⟨hc, _⟩
          · simp [hL0] at hc
          · exact hmono2 _ (hwarn hp hc)
      · rw [if_neg hp]
        intro hcond
        apply hwarn2
        rw [hlr, if_neg hp]
        exact hcond

theorem check_lma_overlap_pair_iff (a b : LmaSection) :
    check_lma_overlap_pair a b = true ↔
      ∃ x, (a.start ≤ x ∧ x < a.start + a.length) ∧ (b.start ≤ x ∧ x < b.start + b.length) := by
  unfold check_lma_overlap_pair
  rw [decide_eq_true_iff]
  constructor
  · intro h
    refine ⟨max a.start b.start, ⟨le_max_left _ _, ?_⟩, ⟨le_max_right _ _, ?_⟩⟩
    · exact lt_of_lt_of_le h (min_le_left _ _)
    · exact lt_of_lt_of_le h (min_le_right _ _)
  · rintro ⟨x, ⟨h1, h2⟩, ⟨h3, h4⟩⟩
    exact lt_of_le_of_lt (max_le h1 h3) (lt_min h2 h4)

theorem mem_check_lma_overlap (sections : List LmaSection) (i j : Nat) :
    (i, j) ∈ check_lma_overlap sections ↔
      (i < j ∧ j < sections.length ∧
        check_lma_overlap_pair (sections.getD i ⟨0, 0⟩) (sections.getD j ⟨0, 0⟩) = true) := by
  unfold check_lma_overlap
  simp only [List.mem_flatMap, List.mem_range, List.mem_map, List.mem_filter, Bool.and_eq_true,
    decide_eq_true_eq, Prod.mk.injEq]
  constructor
  · rintro ⟨i1, _, j1, ⟨hj, hij, hp⟩, rfl, rfl⟩
    exact ⟨hij, hj, hp⟩
  · rintro ⟨hij, hj, hp⟩
    exact ⟨i, by omega, j, ⟨hj, hij, hp⟩, rfl, rfl⟩

theorem dropWhile_newline (l : List Char) :
    l.dropWhile (fun c => c != '\n') = [] ∨
    ∃ r, l.dropWhile (fun c => c != '\n') = '\n' :: r := by
  induction l with
  | nil => left; rfl
  | cons c l ih =>
    by_cases hc : c = '\n'
    · right; exact ⟨l, by simp [List.dropWhile, hc]⟩
    · have : (c != '\n') = true := by simpa using hc
      rw [List.dropWhile_cons, if_pos this]
      exact ih

theorem takeWhile_no_newline (l : List Char) :
    '\n' ∉ l.takeWhile (fun c => c != '\n') := by
  intro h
  have := List.mem_takeWhile_imp h
  simp at this

theorem get_line_of_nil (p : RawPreproc) (h : p.rest = []) : p.get_line = (false, [], p) := by
  unfold RawPreproc.get_line
  rw [h]

theorem get_line_of_ne_nil (p : RawPreproc) (h : p.rest ≠ []) :
    p.get_line = (true, p.rest.takeWhile (fun c => c != '\n'),
      ⟨(p.rest.dropWhile (fun c => c != '\n')).drop 1⟩) := by
  unfold RawPreproc.get_line
  cases hr : p.rest with
  | nil => exact absurd hr h
  | cons c r => rfl

/-- The raw preprocessor gives back the input line by line: with enough
calls, every call before the end returns true with the next line, the call
after the last line returns false, no line holds a newline, and the lines,
each followed by a newline, are the input, up to the newline the input may
lack at its end. -/
theorem readLines_spec : ∀ (fuel : Nat) (p : RawPreproc), p.rest.length ≤ fuel →
    (∀ k (hk : k < (RawPreproc.readLines fuel p).length),
      (RawPreproc.afterCalls k p).get_line.1 = true ∧
      (RawPreproc.afterCalls k p).get_line.2.1 = (RawPreproc.readLines fuel p)[k]) ∧
    (RawPreproc.afterCalls (RawPreproc.readLines fuel p).length p).get_line.1 = false ∧
    (∀ l ∈ RawPreproc.readLines fuel p, '\n' ∉ l) ∧
    (unlines (RawPreproc.readLines fuel p) = p.rest ∨
      unlines (RawPreproc.readLines fuel p) = p.rest ++ ['\n']) := by
  intro fuel
  induction fuel with
  | zero =>
    intro p hp
    have h0 : p.rest = [] := List.length_eq_zero.1 (Nat.le_zero.1 hp)
    refine ⟨fun k hk => by simp [RawPreproc.readLines] at hk, ?_, ?_, ?_⟩
    · simp [RawPreproc.readLines, RawPreproc.afterCalls, get_line_of_nil p h0]
    · simp [RawPreproc.readLines]
    · left; simp [RawPreproc.readLines, unlines, h0]
  | succ fuel ih =>
    intro p hp
    by_cases h0 : p.rest = []
    · have hr : RawPreproc.readLines (fuel + 1) p = [] := by
        simp [RawPreproc.readLines, get_line_of_nil p h0]
      rw [hr]
      refine ⟨fun k hk => by simp at hk, ?_, by simp, ?_⟩
      · simp [RawPreproc.afterCalls, get_line_of_nil p h0]
      · left; simp [unlines, h0]
    · have hg := get_line_of_ne_nil p h0
      have hsplit := List.takeWhile_append_dropWhile (fun c => c != '\n') p.rest
      have hlen : (⟨(p.rest.dropWhile (fun c => c != '\n')).drop 1⟩ : RawPreproc).rest.length
          ≤ fuel := by
        have h1 : (p.rest.dropWhile (fun c => c != '\n')).length ≤ p.rest.length := by
          have := congrArg List.length hsplit
          rw [List.length_append] at this
          omega
        have h2 : 0 < p.rest.length := List.length_pos.2 h0
        simp only [List.length_drop]
        omega
      obtain ⟨i1, i2, i3, i4⟩ := ih _ hlen
      have hr : RawPreproc.readLines (fuel + 1) p
          = p.rest.takeWhile (fun c => c != '\n')
            :: RawPreproc.readLines fuel ⟨(p.rest.dropWhile (fun c => c != '\n')).drop 1⟩ := by
        simp [RawPreproc.readLines, hg]
      rw [hr]
      refine ⟨fun k hk => ?_, ?_, ?_, ?_⟩
      · cases k with
        | zero => simp [RawPreproc.afterCalls, hg]
        | succ k =>
          have hk1 : k < (RawPreproc.readLines fuel
              ⟨(p.rest.dropWhile (fun c => c != '\n')).drop 1⟩).length := by
            simpa using hk
          have := i1 k hk1
          simpa [RawPreproc.afterCalls, hg] using this
      · simpa [RawPreproc.afterCalls, hg] using i2
      · intro l hl
        rcases List.mem_cons.1 hl with h | h
        · rw [h]; exact takeWhile_no_newline _
        · exact i3 l h
      · have hu : ∀ x xs, unlines (x :: xs) = x ++ ['\n'] ++ unlines xs := by
          intro x xs; simp [unlines]
        rw [hu]
        rcases dropWhile_newline p.rest with hd | ⟨r, hd⟩
        · right
          rw [hd] at i4 hsplit
          rw [List.append_nil] at hsplit
          have h5 : RawPreproc.readLines fuel ⟨List.drop 1 ([] : List Char)⟩ = [] := by
            cases fuel <;> simp [RawPreproc.readLines, RawPreproc.get_line]
          rw [hd, h5, hsplit]
          simp [unlines]
        · rw [hd] at i4 hsplit
          simp only [List.drop_succ_cons, List.drop_zero] at i4
          rw [hd]
          simp only [List.drop_succ_cons, List.drop_zero]
          rcases i4 with h | h
          · left
            rw [h]
            conv_rhs => rw [← hsplit]
            simp
          · right
            rw [h]
            conv_rhs => rw [← hsplit]
            simp

theorem map_data_cons {t : ExprTerm} {cs : ExprTerms} {vs : List Int}
    (h : (t :: cs).map (fun x => x.data) = vs.map TermData.INT) :
    ∃ v ws, vs = v :: ws ∧ t.data = TermData.INT v ∧
      cs.map (fun x => x.data) = ws.map TermData.INT := by
  cases vs with
  | nil => simp at h
  | cons v ws =>
    simp only [List.map_cons, List.cons.injEq] at h
    exact ⟨v, ws, rfl, h.1, h.2⟩

/-- The fold of `Evaluate` over integer children is the left fold of their
values with `IntNum::Calc`, left in the first child. -/
theorem evalChildren_fold (ar : Arith) (op : Op) :
    ∀ (cs : ExprTerms) (vs : List Int) (r : ExprTerm) (a : Int),
      r.data = TermData.INT a → cs.map (fun x => x.data) = vs.map TermData.INT →
      (∀ v, foldCalc ar op a vs = some v →
        evalChildren ar op r cs = Except.ok (some { r with data := TermData.INT v })) ∧
      (foldCalc ar op a vs = none → evalChildren ar op r cs = Except.error Abort.ArithError) := by
  intro cs
  induction cs with
  | nil =>
    intro vs r a hr h
    cases vs with
    | nil =>
      refine ⟨fun v hv => ?_, fun hv => by simp [foldCalc] at hv⟩
      simp [foldCalc] at hv
      cases r with
      | mk data d => simp only at hr; subst hr; subst hv; simp [evalChildren]
    | cons w ws => simp at h
  | cons t cs ih =>
    intro vs r a hr h
    obtain ⟨w, ws, hvs, ht, hrest⟩ := map_data_cons h
    subst hvs
    cases hc : ar.Calc op a w with
    | none =>
      refine ⟨fun v hv => by simp [foldCalc, hc] at hv, fun _ => ?_⟩
      simp only [evalChildren, hr, ht, hc]
    | some x =>
      have ih1 := ih ws { r with data := TermData.INT x } x rfl hrest
      refine ⟨fun v hv => ?_, fun hv => ?_⟩
      · simp only [foldCalc, hc] at hv
        simp only [evalChildren, hr, ht, hc]
        exact ih1.1 v hv
      · simp only [foldCalc, hc] at hv
        simp only [evalChildren, hr, ht, hc]
        exact ih1.2 hv

/-- With exact addition the left fold is the sum. -/
theorem foldCalc_add (ar : Arith) (hadd : ∀ a b, ar.Calc Op.ADD a b = some (a + b)) :
    ∀ (vs : List Int) (a : Int), foldCalc ar Op.ADD a vs = some (a + vs.sum) := by
  intro vs
  induction vs with
  | nil => intro a; simp [foldCalc]
  | cons w ws ih =>
    intro a
    simp only [foldCalc, hadd, ih, List.sum_cons]
    rw [add_assoc]

/-- The main loop of `Evaluate` pushes integer terms as they are. -/
theorem evalLoop_int_terms (env : Env) (ar : Arith) (subst : Option (List ExprTerm))
    (vl zr : Bool) :
    ∀ (cs : ExprTerms) (vs : List Int) (rest st : List ExprTerm),
      cs.map (fun x => x.data) = vs.map TermData.INT →
      evalLoop env ar subst vl zr (cs ++ rest) st
        = evalLoop env ar subst vl zr rest (st ++ cs) := by
  intro cs
  induction cs with
  | nil => intro vs rest st _; simp
  | cons t cs ih =>
    intro vs rest st h
    obtain ⟨w, ws, _, ht, hrest⟩ := map_data_cons h
    rw [List.cons_append, evalLoop]
    simp only [evalTerm, ht]
    rw [ih ws rest _ hrest]
    simp

/-- The round of an operator below `Op::NONNUM` with two or more integer
children on top of the stack. -/
theorem evalTerm_fold (env : Env) (ar : Arith) (subst : Option (List ExprTerm))
    (vl zr : Bool) (st cs : List ExprTerm) (v1 : Int) (vs : List Int) (op : Op) (d : Int)
    (hop : op < Op.NONNUM) (hcs : cs.map (fun x => x.data) = (v1 :: vs).map TermData.INT)
    (hn : vs ≠ []) :
    (∀ v, foldCalc ar op v1 vs = some v →
      evalTerm env ar subst vl zr (st ++ cs) ⟨TermData.OP op (vs.length + 1), d⟩
        = Except.ok (some (st ++ [⟨TermData.INT v, d⟩]))) ∧
    (foldCalc ar op v1 vs = none →
      evalTerm env ar subst vl zr (st ++ cs) ⟨TermData.OP op (vs.length + 1), d⟩
        = Except.error Abort.ArithError) := by
  have hlen : cs.length = vs.length + 1 := by
    have := congrArg List.length hcs
    simpa using this
  have hnl : ¬ ((st ++ cs).length < vs.length + 1) := by rw [List.length_append]; omega
  have hidx : (st ++ cs).length - (vs.length + 1) = st.length := by
    rw [List.length_append]; omega
  have hnon : ¬ (Op.NONNUM ≤ op) := Nat.not_le.2 hop
  have hk : ¬ (vs.length + 1 = 1) := by
    intro h
    have : vs.length = 0 := by omega
    exact hn (List.length_eq_zero.1 this)
  cases cs with
  | nil => simp at hlen
  | cons r cs1 =>
    obtain ⟨w, ws, hvs, hr, hrest⟩ := map_data_cons hcs
    simp only [List.cons.injEq] at hvs
    obtain ⟨rfl, rfl⟩ := hvs
    have hf := evalChildren_fold ar op cs1 vs r v1 hr hrest
    refine ⟨fun v hv => ?_, fun hv => ?_⟩
    · simp only [evalTerm, if_neg hnl, if_neg hnon, hidx, List.drop_left, List.take_left]
      rw [hf.1 v hv]
      simp only [if_neg hk]
    · simp only [evalTerm, if_neg hnl, if_neg hnon, hidx, List.drop_left, List.take_left]
      rw [hf.2 hv]

theorem isEmpty_false_of_OP {t : ExprTerm} {op : Op} {n : Nat} (h : t.data = TermData.OP op n) :
    t.isEmpty = false := by
  simp [ExprTerm.isEmpty, ExprTerm.getType, h, ExprTerm.OP, ExprTerm.NONE]

theorem Forest.depth_ge {d : Int} {n : Nat} {ts : ExprTerms} (h : Forest d n ts) :
    ∀ t ∈ ts, t.isEmpty = false → d ≤ t.m_depth := by
  induction h with
  | nil d => intro t ht; simp at ht
  | @empty d n ts x _ hx ih =>
    intro t ht hne
    rcases List.mem_append.1 ht with h1 | h1
    · exact ih t h1 hne
    · simp at h1
      rw [h1, hx] at hne
      cases hne
  | @leaf d n ts x _ _ _ hd ih =>
    intro t ht hne
    rcases List.mem_append.1 ht with h1 | h1
    · exact ih t h1 hne
    · simp at h1
      rw [h1, hd]
  | @node d n k ts cs op _ _ ih1 ih2 =>
    intro t ht hne
    rcases List.mem_append.1 ht with h1 | h1
    · rcases List.mem_append.1 h1 with h2 | h2
      · exact ih1 t h2 hne
      · have := ih2 t h2 hne
        omega
    · simp at h1
      rw [h1]

theorem Forest.append_forest {d : Int} {b : Nat} {ys : ExprTerms} (hy : Forest d b ys) :
    ∀ {a : Nat} {xs : ExprTerms}, Forest d a xs → Forest d (a + b) (xs ++ ys) := by
  induction hy with
  | nil d => intro a xs hx; simpa using hx
  | @empty d n ts t _ ht ih =>
    intro a xs hx
    have := Forest.empty t (ih hx) ht
    simpa [List.append_assoc] using this
  | @leaf d n ts t _ hne hop hd ih =>
    intro a xs hx
    have := Forest.leaf t (ih hx) hne hop hd
    simpa [List.append_assoc, Nat.add_assoc] using this
  | @node d n k ts cs op _ hcs ih1 _ =>
    intro a xs hx
    have := Forest.node op (ih1 hx) hcs
    simpa [List.append_assoc, Nat.add_assoc] using this

theorem Forest.of_empties {d : Int} : ∀ (es : ExprTerms), (∀ e ∈ es, e.isEmpty = true) →
    Forest d 0 es := by
  intro es
  induction es using List.reverseRecOn with
  | nil => intro _; exact Forest.nil d
  | append_singleton es e ih =>
    intro h
    exact Forest.empty e (ih (fun x hx => h x (List.mem_append_left _ hx)))
      (h e (by simp))

theorem Forest.zero_empties {d : Int} {n : Nat} {ts : ExprTerms} (h : Forest d n ts) :
    n = 0 → ∀ t ∈ ts, t.isEmpty = true := by
  induction h with
  | nil d => intro _ t ht; simp at ht
  | @empty d n ts x _ hx ih =>
    intro hn t ht
    rcases List.mem_append.1 ht with h1 | h1
    · exact ih hn t h1
    · simp at h1
      rw [h1]; exact hx
  | @leaf d n ts x _ _ _ _ _ => intro hn; omega
  | @node d n k ts cs op _ _ _ _ => intro hn; omega

theorem Forest.closed {d : Int} {n : Nat} {ts : ExprTerms} (h : Forest d n ts) :
    ClosedAt d ts := by
  induction h with
  | nil d => intro pre t post h; simp at h
  | @empty d n ts x _ hx ih =>
    intro pre t post h hne
    rcases append_singleton_eq_split h with ⟨_, htx, _⟩ | ⟨post1, h1, hp⟩
    · rw [htx, hx] at hne
      cases hne
    · obtain ⟨u, hu, hu1, hu2⟩ := ih pre t post1 h1 hne
      refine ⟨u, ?_, hu1, hu2⟩
      rw [hp]
      rcases List.mem_cons.1 hu with h2 | h2
      · rw [h2]; simp
      · exact List.mem_cons_of_mem _ (List.mem_append_left _ h2)
  | @leaf d n ts x _ hxe _ hd ih =>
    intro pre t post h hne
    rcases append_singleton_eq_split h with ⟨_, htx, _⟩ | ⟨post1, h1, hp⟩
    · exact ⟨t, by simp, hne, by rw [htx, hd]⟩
    · exact ⟨x, by rw [hp]; simp, hxe, by rw [hd]⟩
  | @node d n k ts cs op _ _ _ _ =>
    intro pre t post h hne
    rcases append_singleton_eq_split h with ⟨_, htx, _⟩ | ⟨post1, h1, hp⟩
    · exact ⟨t, by simp, hne, by rw [htx]⟩
    · exact ⟨⟨TermData.OP op k, d⟩, by rw [hp]; simp, isEmpty_false_of_OP rfl, le_refl _⟩

theorem ClosedAt.at_deeper {d d1 : Int} {xs : ExprTerms} (h : ClosedAt d xs) (hd : d ≤ d1) :
    ClosedAt d1 xs := by
  intro pre t post he hne
  obtain ⟨u, hu, hu1, hu2⟩ := h pre t post he hne
  exact ⟨u, hu, hu1, by omega⟩

theorem ClosedAt.append_closed {d : Int} {xs ys : ExprTerms} (hx : ClosedAt d xs)
    (hy : ClosedAt d ys) : ClosedAt d (xs ++ ys) := by
  intro pre t post he hne
  rcases append_eq_split he with ⟨post1, h1, hp⟩ | ⟨pre1, _, h2⟩
  · obtain ⟨u, hu, hu1, hu2⟩ := hx pre t post1 h1 hne
    refine ⟨u, ?_, hu1, hu2⟩
    rw [hp]
    rcases List.mem_cons.1 hu with h2 | h2
    · rw [h2]; simp
    · exact List.mem_cons_of_mem _ (List.mem_append_left _ h2)
  · exact hy pre1 t post h2 hne

/-- The terms before an operator term of complete subtrees: they end with the
complete subtrees of the operator's children, and what is before these is
closed at the operator's depth. -/
theorem Forest.children_closed {d : Int} {m : Nat} {ts : ExprTerms} (h : Forest d m ts) :
    ∀ (pre post : ExprTerms) (t : ExprTerm) (op : Op) (n : Nat),
      ts = pre ++ t :: post → t.data = TermData.OP op n →
      ∃ before block, pre = before ++ block ∧ Forest (t.m_depth + 1) n block ∧
        ClosedAt t.m_depth before := by
  induction h with
  | nil d => intro pre post t op n h; simp at h
  | @empty d m ts x _ hx ih =>
    intro pre post t op n h ht
    rcases append_singleton_eq_split h with ⟨_, htx, _⟩ | ⟨post1, h1, _⟩
    · rw [← htx, isEmpty_false_of_OP ht] at hx
      cases hx
    · exact ih pre post1 t op n h1 ht
  | @leaf d m ts x _ _ hx _ ih =>
    intro pre post t op n h ht
    rcases append_singleton_eq_split h with ⟨_, htx, _⟩ | ⟨post1, h1, _⟩
    · rw [← htx, isOp_of_data ht] at hx
      cases hx
    · exact ih pre post1 t op n h1 ht
  | @node d m k ts cs op0 hts hcs ih1 ih2 =>
    intro pre post t op n h ht
    rcases append_singleton_eq_split h with ⟨hpre, htx, _⟩ | ⟨post1, h1, _⟩
    · rw [htx] at ht
      simp at ht
      refine ⟨ts, cs, hpre, ?_, ?_⟩
      · rw [htx, ← ht.2]
        exact hcs
      · rw [htx]
        exact hts.closed
    · rcases append_eq_split h1 with ⟨post2, h2, _⟩ | ⟨pre1, h2, h3⟩
      · exact ih1 pre post2 t op n h2 ht
      · obtain ⟨before, block, hb, hf, hc⟩ := ih2 pre1 post1 t op n h3 ht
        refine ⟨ts ++ before, block, by rw [h2, hb, List.append_assoc], hf, ?_⟩
        have hdt : d + 1 ≤ t.m_depth :=
          hcs.depth_ge t (by rw [h3]; simp) (isEmpty_false_of_OP ht)
        exact (hts.closed.at_deeper (by omega)).append_closed hc

/-- Complete subtrees split at one of their roots: a non-empty term at the
depth of the roots is a root; what follows it are complete subtrees, and what
precedes it are complete subtrees followed, for an operator, by the complete
subtrees of its children. -/
theorem Forest.split_at {d : Int} {n : Nat} {ts : ExprTerms} (h : Forest d n ts) :
    ∀ (pre post : ExprTerms) (t : ExprTerm), ts = pre ++ t :: post → t.isEmpty = false →
      t.m_depth = d →
      ∃ n1 n2, n = n1 + 1 + n2 ∧ Forest d n2 post ∧
        ((t.isOp = false ∧ Forest d n1 pre) ∨
          ∃ op k pre1 cs, t = ⟨TermData.OP op k, d⟩ ∧ pre = pre1 ++ cs ∧ Forest d n1 pre1 ∧
            Forest (d + 1) k cs) := by
  induction h with
  | nil d => intro pre post t h; simp at h
  | @empty d m ts x _ hx ih =>
    intro pre post t h hne hd
    rcases append_singleton_eq_split h with ⟨_, htx, _⟩ | ⟨post1, h1, hp⟩
    · rw [htx, hx] at hne
      cases hne
    · obtain ⟨n1, n2, hn, hpost, hpre⟩ := ih pre post1 t h1 hne hd
      exact ⟨n1, n2, hn, by rw [hp]; exact Forest.empty x hpost hx, hpre⟩
  | @leaf d m ts x hts hxe hxo hxd ih =>
    intro pre post t h hne hd
    rcases append_singleton_eq_split h with ⟨hpre, htx, hp⟩ | ⟨post1, h1, hp⟩
    · refine ⟨m, 0, rfl, by rw [hp]; exact Forest.nil d, Or.inl ⟨by rw [htx]; exact hxo, ?_⟩⟩
      rw [hpre]; exact hts
    · obtain ⟨n1, n2, hn, hpost, hpre⟩ := ih pre post1 t h1 hne hd
      refine ⟨n1, n2 + 1, by omega, ?_, hpre⟩
      rw [hp]; exact Forest.leaf x hpost hxe hxo hxd
  | @node d m k ts cs op0 hts hcs ih1 _ =>
    intro pre post t h hne hd
    rcases append_singleton_eq_split h with ⟨hpre, htx, hp⟩ | ⟨post1, h1, hp⟩
    · exact ⟨m, 0, rfl, by rw [hp]; exact Forest.nil d,
        Or.inr ⟨op0, k, ts, cs, htx, hpre, hts, hcs⟩⟩
    · rcases append_eq_split h1 with ⟨post2, h2, hp2⟩ | ⟨pre1, _, h3⟩
      · obtain ⟨n1, n2, hn, hpost, hpre⟩ := ih1 pre post2 t h2 hne hd
        refine ⟨n1, n2 + 1, by omega, ?_, hpre⟩
        rw [hp, hp2]
        have := Forest.node op0 hpost hcs
        simpa [List.append_assoc] using this
      · have := hcs.depth_ge t (by rw [h3]; simp) hne
        omega

/-- The last of one or more complete subtrees: its root is the last non-empty
term. -/
theorem Forest.last_tree {d : Int} {n : Nat} {ts : ExprTerms} (h : Forest d n ts) :
    n ≠ 0 → ∃ c1 y es, ts = c1 ++ y :: es ∧ (∀ e ∈ es, e.isEmpty = true) ∧
      y.isEmpty = false ∧ y.m_depth = d ∧
      ((y.isOp = false ∧ Forest d (n - 1) c1) ∨
        ∃ op k pre1 cs, y = ⟨TermData.OP op k, d⟩ ∧ c1 = pre1 ++ cs ∧ Forest d (n - 1) pre1 ∧
          Forest (d + 1) k cs) := by
  induction h with
  | nil d => intro h; exact absurd rfl h
  | @empty d m ts x _ hx ih =>
    intro hn
    obtain ⟨c1, y, es, he, hes, hy, hyd, hc⟩ := ih hn
    refine ⟨c1, y, es ++ [x], by rw [he]; simp, ?_, hy, hyd, hc⟩
    intro e hmem
    rcases List.mem_append.1 hmem with h1 | h1
    · exact hes e h1
    · simp at h1
      rw [h1]; exact hx
  | @leaf d m ts x hts hxe hxo hxd _ =>
    intro _
    exact ⟨ts, x, [], rfl, by simp, hxe, hxd, Or.inl ⟨hxo, by simpa using hts⟩⟩
  | @node d m k ts cs op0 hts hcs _ _ =>
    intro _
    exact ⟨ts ++ cs, ⟨TermData.OP op0 k, d⟩, [], by simp, by simp, isEmpty_false_of_OP rfl, rfl,
      Or.inr ⟨op0, k, ts, cs, rfl, rfl, by simpa using hts, hcs⟩⟩

theorem evalTerm_op_frame (env : Env) (ar : Arith) (subst : Option (List ExprTerm))
    (vl zr : Bool) (w ws : List ExprTerm) (t : ExprTerm) (op : Op) (k : Nat)
    (ht : t.data = TermData.OP op k) (hlen : ws.length = k) (st1 : List ExprTerm)
    (h : evalTerm env ar subst vl zr (w ++ ws) t = Except.ok (some st1)) :
    ∃ v, st1 = w ++ [v] ∧
      ∀ s, evalTerm env ar subst vl zr (s ++ ws) t = Except.ok (some (s ++ [v])) := by
  have hnl : ∀ s : List ExprTerm, ¬ ((s ++ ws).length < k) := by
    intro s; rw [List.length_append]; omega
  have hidx : ∀ s : List ExprTerm, (s ++ ws).length - k = s.length := by
    intro s; rw [List.length_append]; omega
  unfold evalTerm at h
  simp only [ht, if_neg (hnl w), hidx w, List.drop_left, List.take_left] at h
  by_cases hnon : Op.NONNUM ≤ op
  · rw [if_pos hnon] at h
    simp at h
  · rw [if_neg hnon] at h
    cases ws with
    | nil => simp at h
    | cons r cs =>
      simp only [] at h
      cases he : evalChildren ar op r cs with
      | error a => rw [he] at h; simp at h
      | ok o =>
        cases o with
        | none => rw [he] at h; simp at h
        | some r1 =>
          rw [he] at h
          by_cases hk : k = 1
          · simp only [if_pos hk] at h
            cases hu : evalUnary ar op r1 with
            | error a => rw [hu] at h; simp at h
            | ok o2 =>
              cases o2 with
              | none => rw [hu] at h; simp at h
              | some r2 =>
                rw [hu] at h
                simp at h
                refine ⟨_, h.symm, fun s => ?_⟩
                unfold evalTerm
                simp only [ht, if_neg (hnl s), hidx s, List.drop_left, List.take_left,
                  if_neg hnon, he, if_pos hk, hu]
          · simp only [if_neg hk] at h
            simp at h
            refine ⟨_, h.symm, fun s => ?_⟩
            unfold evalTerm
            simp only [ht, if_neg (hnl s), hidx s, List.drop_left, List.take_left,
              if_neg hnon, he, if_neg hk]

theorem evalTerm_leaf_frame (env : Env) (ar : Arith) (subst : Option (List ExprTerm))
    (vl zr : Bool) (t : ExprTerm) (hop : t.isOp = false) (w st1 : List ExprTerm)
    (h : evalTerm env ar subst vl zr w t = Except.ok (some st1)) :
    ∃ vs, st1 = w ++ vs ∧ (t.isEmpty = true → vs = []) ∧ (t.isEmpty = false → vs.length = 1) ∧
      ∀ s, evalTerm env ar subst vl zr s t = Except.ok (some (s ++ vs)) := by
  cases hd : t.data with
  | OP op k => rw [isOp_of_data hd] at hop; cases hop
  | NONE =>
    simp only [evalTerm, hd] at h
    simp at h
    exact ⟨[], by simp [h], fun _ => rfl, fun he => by
      simp [ExprTerm.isEmpty, ExprTerm.getType, hd, ExprTerm.NONE] at he,
      fun s => by simp [evalTerm, hd]⟩
  | REG reg =>
    simp only [evalTerm, hd] at h
    by_cases hz : zr = true
    · simp [hz] at h
      exact ⟨_, h.symm, fun he => by
        simp [ExprTerm.isEmpty, ExprTerm.getType, hd, ExprTerm.NONE, ExprTerm.REG] at he,
        fun _ => rfl, fun s => by simp [evalTerm, hd, hz]⟩
    · simp [hz] at h
  | INT v =>
    simp only [evalTerm, hd] at h
    simp at h
    exact ⟨_, h.symm, fun he => by
      simp [ExprTerm.isEmpty, ExprTerm.getType, hd, ExprTerm.NONE, ExprTerm.INT] at he,
      fun _ => rfl, fun s => by simp [evalTerm, hd]⟩
  | FLOAT v =>
    simp only [evalTerm, hd] at h
    simp at h
    exact ⟨_, h.symm, fun he => by
      simp [ExprTerm.isEmpty, ExprTerm.getType, hd, ExprTerm.NONE, ExprTerm.FLOAT] at he,
      fun _ => rfl, fun s => by simp [evalTerm, hd]⟩
  | SUBST k =>
    simp only [evalTerm, hd] at h
    cases hsub : subst with
    | none => rw [hsub] at h; simp at h
    | some arr =>
      rw [hsub] at h
      simp only [] at h
      cases ha : arr[k]? with
      | none => rw [ha] at h; simp at h
      | some x =>
        rw [ha] at h
        simp only [] at h
        by_cases hx : x.getType = ExprTerm.INT ∨ x.getType = ExprTerm.FLOAT
        · rw [if_pos hx] at h
          simp at h
          exact ⟨_, h.symm, fun he => by
            simp [ExprTerm.isEmpty, ExprTerm.getType, hd, ExprTerm.NONE, ExprTerm.SUBST] at he,
            fun _ => rfl, fun s => by simp only [evalTerm, hd, ha, if_pos hx]⟩
        · rw [if_neg hx] at h
          simp at h
  | SYM sym =>
    simp only [evalTerm, hd] at h
    by_cases hv : vl = true
    · rw [if_pos hv] at h
      cases hl : env.getLabel sym with
      | none => rw [hl] at h; simp at h
      | some loc =>
        rw [hl] at h
        simp only [] at h
        by_cases hb : loc.bc.isSome = true
        · rw [if_pos hb] at h
          simp at h
          exact ⟨_, h.symm, fun he => by
            simp [ExprTerm.isEmpty, ExprTerm.getType, hd, ExprTerm.NONE, ExprTerm.SYM] at he,
            fun _ => rfl, fun s => by simp only [evalTerm, hd, if_pos hv, hl, if_pos hb]⟩
        · rw [if_neg hb] at h
          simp at h
    · rw [if_neg hv] at h
      simp at h
  | LOC loc =>
    simp only [evalTerm, hd] at h
    by_cases hv : vl = true ∧ loc.bc.isSome = true
    · rw [if_pos hv] at h
      simp at h
      exact ⟨_, h.symm, fun he => by
        simp [ExprTerm.isEmpty, ExprTerm.getType, hd, ExprTerm.NONE, ExprTerm.LOC] at he,
        fun _ => rfl, fun s => by simp only [evalTerm, hd, if_pos hv]⟩
    · rw [if_neg hv] at h
      simp at h

/-- The loop of `Evaluate` over complete subtrees: it puts one value for each
subtree on the stack it starts from, and the values do not depend on that
stack. -/
theorem evalLoop_frame (env : Env) (ar : Arith) (subst : Option (List ExprTerm))
    (vl zr : Bool) {d : Int} {n : Nat} {ts : ExprTerms} (h : Forest d n ts) :
    ∀ w st1, evalLoop env ar subst vl zr ts w = Except.ok (some st1) →
      ∃ vs, st1 = w ++ vs ∧ vs.length = n ∧
        ∀ s, evalLoop env ar subst vl zr ts s = Except.ok (some (s ++ vs)) := by
  induction h with
  | nil d =>
    intro w st1 h
    simp [evalLoop] at h
    exact ⟨[], by simp [h], rfl, fun s => by simp [evalLoop]⟩
  | @empty d n ts x _ hx ih =>
    intro w st1 h
    obtain ⟨s1, h1, h2⟩ := evalLoop_append_inv env ar subst vl zr ts [x] w st1 h
    obtain ⟨vs, hs1, hlen, hall⟩ := ih w s1 h1
    rw [evalLoop_single, evalTerm_of_isEmpty env ar subst vl zr s1 x hx] at h2
    simp at h2
    refine ⟨vs, by rw [← h2, hs1], hlen, fun s => ?_⟩
    rw [evalLoop_append_some env ar subst vl zr [x] ts s (hall s), evalLoop_single,
      evalTerm_of_isEmpty env ar subst vl zr _ x hx]
  | @leaf d n ts x _ hxe hxo _ ih =>
    intro w st1 h
    obtain ⟨s1, h1, h2⟩ := evalLoop_append_inv env ar subst vl zr ts [x] w st1 h
    obtain ⟨vs, hs1, hlen, hall⟩ := ih w s1 h1
    rw [evalLoop_single] at h2
    obtain ⟨us, hst1, _, hus, huall⟩ := evalTerm_leaf_frame env ar subst vl zr x hxo s1 st1 h2
    refine ⟨vs ++ us, by rw [hst1, hs1, List.append_assoc], ?_, fun s => ?_⟩
    · rw [List.length_append, hlen, hus hxe]
    · rw [evalLoop_append_some env ar subst vl zr [x] ts s (hall s), evalLoop_single,
        huall, List.append_assoc]
  | @node d n k ts cs op _ _ ih1 ih2 =>
    intro w st1 h
    obtain ⟨s2, h12, h3⟩ :=
      evalLoop_append_inv env ar subst vl zr (ts ++ cs) [⟨TermData.OP op k, d⟩] w st1 h
    obtain ⟨s1, h1, h2⟩ := evalLoop_append_inv env ar subst vl zr ts cs w s2 h12
    obtain ⟨vs1, hs1, hlen1, hall1⟩ := ih1 w s1 h1
    obtain ⟨vs2, hs2, hlen2, hall2⟩ := ih2 s1 s2 h2
    rw [evalLoop_single, hs2] at h3
    obtain ⟨v, hst1, hvall⟩ :=
      evalTerm_op_frame env ar subst vl zr s1 vs2 ⟨TermData.OP op k, d⟩ op k rfl hlen2 st1 h3
    refine ⟨vs1 ++ [v], by rw [hst1, hs1, List.append_assoc], ?_, fun s => ?_⟩
    · rw [List.length_append, hlen1]; rfl
    · have hcs2 : evalLoop env ar subst vl zr (ts ++ cs) s
          = Except.ok (some (s ++ vs1 ++ vs2)) := by
        rw [evalLoop_append_some env ar subst vl zr cs ts s (hall1 s)]
        exact hall2 _
      rw [evalLoop_append_some env ar subst vl zr [⟨TermData.OP op k, d⟩] (ts ++ cs) s hcs2,
        evalLoop_single, hvall, List.append_assoc]

theorem evalChildren_int (ar : Arith) (op : Op) :
    ∀ (cs : List ExprTerm) (r r1 : ExprTerm), (∃ a, r.data = TermData.INT a) → IntStack cs →
      evalChildren ar op r cs = Except.ok (some r1) → ∃ v, r1.data = TermData.INT v := by
  intro cs
  induction cs with
  | nil =>
    intro r r1 hr _ h
    simp [evalChildren] at h
    rw [← h]; exact hr
  | cons c cs ih =>
    intro r r1 hr hcs h
    obtain ⟨a, ha⟩ := hr
    obtain ⟨b, hb⟩ := hcs c (List.mem_cons_self _ _)
    simp only [evalChildren, ha, hb] at h
    cases hc : ar.Calc op a b with
    | none => rw [hc] at h; simp at h
    | some v =>
      rw [hc] at h
      exact ih _ r1 ⟨v, rfl⟩ (fun x hx => hcs x (List.mem_cons_of_mem _ hx)) h

theorem evalUnary_int (ar : Arith) (op : Op) (r r1 : ExprTerm)
    (hr : ∃ a, r.data = TermData.INT a) (h : evalUnary ar op r = Except.ok (some r1)) :
    ∃ v, r1.data = TermData.INT v := by
  obtain ⟨a, ha⟩ := hr
  unfold evalUnary at h
  by_cases hu : isUnary op = true
  · simp only [if_pos hu, ha] at h
    cases hc : ar.CalcUnary op a with
    | none => rw [hc] at h; simp at h
    | some v =>
      rw [hc] at h
      simp at h
      exact ⟨v, by rw [← h]⟩
  · simp only [if_neg hu] at h
    simp at h

theorem evalTerm_intStack (env : Env) (ar : Arith) (subst : Option (List ExprTerm))
    (vl zr : Bool) (t : ExprTerm) (ht : ∀ f, t.data ≠ TermData.FLOAT f)
    (hsub : ∀ arr, subst = some arr → ∀ s ∈ arr, ∀ f, s.data ≠ TermData.FLOAT f)
    (st st1 : List ExprTerm) (hst : IntStack st)
    (h : evalTerm env ar subst vl zr st t = Except.ok (some st1)) : IntStack st1 := by
  have push : ∀ v : ExprTerm, (∃ a, v.data = TermData.INT a) → IntStack (st ++ [v]) := by
    intro v hv x hx
    rcases List.mem_append.1 hx with h1 | h1
    · exact hst x h1
    · simp at h1; rw [h1]; exact hv
  cases hd : t.data with
  | OP op k =>
    unfold evalTerm at h
    simp only [hd] at h
    by_cases hlt : st.length < k
    · rw [if_pos hlt] at h; simp at h
    · rw [if_neg hlt] at h
      by_cases hnon : Op.NONNUM ≤ op
      · rw [if_pos hnon] at h; simp at h
      · rw [if_neg hnon] at h
        have hdrop : IntStack (st.drop (st.length - k)) :=
          fun x hx => hst x (List.mem_of_mem_drop hx)
        have htake : IntStack (st.take (st.length - k)) :=
          fun x hx => hst x (List.mem_of_mem_take hx)
        have fin : ∀ v : ExprTerm, (∃ a, v.data = TermData.INT a) →
            IntStack (st.take (st.length - k) ++ [{ v with m_depth := t.m_depth }]) := by
          intro v hv x hx
          rcases List.mem_append.1 hx with h1 | h1
          · exact htake x h1
          · simp at h1; rw [h1]; exact hv
        cases hdr : st.drop (st.length - k) with
        | nil => rw [hdr] at h; simp at h
        | cons r cs =>
          rw [hdr] at h hdrop
          simp only [] at h
          cases he : evalChildren ar op r cs with
          | error a => rw [he] at h; simp at h
          | ok o =>
            cases o with
            | none => rw [he] at h; simp at h
            | some r1 =>
              rw [he] at h
              have hr1 := evalChildren_int ar op cs r r1 (hdrop r (List.mem_cons_self _ _))
                (fun x hx => hdrop x (List.mem_cons_of_mem _ hx)) he
              by_cases hk : k = 1
              · simp only [if_pos hk] at h
                cases hu : evalUnary ar op r1 with
                | error a => rw [hu] at h; simp at h
                | ok o2 =>
                  cases o2 with
                  | none => rw [hu] at h; simp at h
                  | some r2 =>
                    rw [hu] at h
                    simp at h
                    rw [← h]
                    exact fin r2 (evalUnary_int ar op r1 r2 hr1 hu)
              · simp only [if_neg hk] at h
                simp at h
                rw [← h]
                exact fin r1 hr1
  | NONE =>
    simp only [evalTerm, hd] at h
    simp at h
    rw [← h]; exact hst
  | REG reg =>
    simp only [evalTerm, hd] at h
    by_cases hz : zr = true
    · simp [hz] at h
      rw [← h]; exact push _ ⟨0, rfl⟩
    · simp [hz] at h
  | INT v =>
    simp only [evalTerm, hd] at h
    simp at h
    rw [← h]; exact push _ ⟨v, hd⟩
  | FLOAT v => exact absurd hd (ht v)
  | SUBST k =>
    simp only [evalTerm, hd] at h
    cases hs : subst with
    | none => rw [hs] at h; simp at h
    | some arr =>
      rw [hs] at h
      simp only [] at h
      cases ha : arr[k]? with
      | none => rw [ha] at h; simp at h
      | some x =>
        rw [ha] at h
        simp only [] at h
        by_cases hx : x.getType = ExprTerm.INT ∨ x.getType = ExprTerm.FLOAT
        · rw [if_pos hx] at h
          simp at h
          rw [← h]
          refine push x ?_
          have hxf := hsub arr hs x (List.getElem?_mem ha)
          rcases (show Numeric x from hx).data with ⟨v, hv⟩ | ⟨v, hv⟩
          · exact ⟨v, hv⟩
          · exact absurd hv (hxf v)
        · rw [if_neg hx] at h
          simp at h
  | SYM sym =>
    simp only [evalTerm, hd] at h
    by_cases hv : vl = true
    · rw [if_pos hv] at h
      cases hl : env.getLabel sym with
      | none => rw [hl] at h; simp at h
      | some loc =>
        rw [hl] at h
        simp only [] at h
        by_cases hb : loc.bc.isSome = true
        · rw [if_pos hb] at h
          simp at h
          rw [← h]; exact push _ ⟨_, rfl⟩
        · rw [if_neg hb] at h
          simp at h
    · rw [if_neg hv] at h
      simp at h
  | LOC loc =>
    simp only [evalTerm, hd] at h
    by_cases hv : vl = true ∧ loc.bc.isSome = true
    · rw [if_pos hv] at h
      simp at h
      rw [← h]; exact push _ ⟨_, rfl⟩
    · rw [if_neg hv] at h
      simp at h

theorem evalLoop_intStack (env : Env) (ar : Arith) (subst : Option (List ExprTerm))
    (vl zr : Bool)
    (hsub : ∀ arr, subst = some arr → ∀ s ∈ arr, ∀ f, s.data ≠ TermData.FLOAT f) :
    ∀ (ts : ExprTerms) (st st1 : List ExprTerm), (∀ t ∈ ts, ∀ f, t.data ≠ TermData.FLOAT f) →
      IntStack st → evalLoop env ar subst vl zr ts st = Except.ok (some st1) → IntStack st1 := by
  intro ts
  induction ts with
  | nil =>
    intro st st1 _ hst h
    simp [evalLoop] at h
    rw [← h]; exact hst
  | cons t ts ih =>
    intro st st1 hts hst h
    rw [evalLoop] at h
    cases ht : evalTerm env ar subst vl zr st t with
    | error a => rw [ht] at h; simp at h
    | ok o =>
      cases o with
      | none => rw [ht] at h; simp at h
      | some s =>
        rw [ht] at h
        exact ih s st1 (fun x hx => hts x (List.mem_cons_of_mem _ hx))
          (evalTerm_intStack env ar subst vl zr t (hts t (List.mem_cons_self _ _)) hsub st s
            hst ht) h

theorem IntStack.values {st : List ExprTerm} (h : IntStack st) :
    ∃ ws : List Int, st.map (fun x => x.data) = ws.map TermData.INT := by
  induction st with
  | nil => exact ⟨[], rfl⟩
  | cons x xs ih =>
    obtain ⟨a, ha⟩ := h x (List.mem_cons_self _ _)
    obtain ⟨ws, hws⟩ := ih (fun y hy => h y (List.mem_cons_of_mem _ hy))
    exact ⟨a :: ws, by simp [ha, hws]⟩

theorem map_data_length {vs : List ExprTerm} {ws : List Int}
    (h : vs.map (fun x => x.data) = ws.map TermData.INT) : vs.length = ws.length := by
  have := congrArg List.length h
  simpa using this

theorem map_data_split : ∀ (v1 v2 : List ExprTerm) (ws : List Int),
    (v1 ++ v2).map (fun x => x.data) = ws.map TermData.INT →
    ∃ ws1 ws2, ws = ws1 ++ ws2 ∧ v1.map (fun x => x.data) = ws1.map TermData.INT ∧
      v2.map (fun x => x.data) = ws2.map TermData.INT := by
  intro v1
  induction v1 with
  | nil => intro v2 ws h; exact ⟨[], ws, rfl, rfl, by simpa using h⟩
  | cons x xs ih =>
    intro v2 ws h
    rw [List.cons_append] at h
    obtain ⟨w, ws0, hws, hx, hrest⟩ := map_data_cons h
    obtain ⟨ws1, ws2, h1, h2, h3⟩ := ih v2 ws0 hrest
    exact ⟨w :: ws1, ws2, by rw [hws, h1]; rfl, by simp [hx, h2], h3⟩

theorem Yields.of_eval {env : Env} {ar : Arith} {subst : Option (List ExprTerm)} {zr : Bool}
    {d : Int} {n : Nat} {ts : ExprTerms} (hf : Forest d n ts) {w st1 : List ExprTerm}
    (h : evalLoop env ar subst true zr ts w = Except.ok (some st1)) (hint : IntStack st1) :
    ∃ ws vs, Yields env ar subst zr d ts ws ∧ ws.length = n ∧ st1 = w ++ vs ∧
      vs.map (fun x => x.data) = ws.map TermData.INT := by
  obtain ⟨vs, hst1, hlen, hall⟩ := evalLoop_frame env ar subst true zr hf w st1 h
  have hvs : IntStack vs := fun x hx => hint x (by rw [hst1]; exact List.mem_append_right _ hx)
  obtain ⟨ws, hws⟩ := hvs.values
  have hl := map_data_length hws
  exact ⟨ws, vs, ⟨by rw [← hl, hlen]; exact hf, vs, hws, hall⟩, by omega, hst1, hws⟩

theorem Yields.append_yields {env : Env} {ar : Arith} {subst : Option (List ExprTerm)} {zr : Bool}
    {d : Int} {xs ys : ExprTerms} {ws1 ws2 : List Int}
    (hx : Yields env ar subst zr d xs ws1) (hy : Yields env ar subst zr d ys ws2) :
    Yields env ar subst zr d (xs ++ ys) (ws1 ++ ws2) := by
  obtain ⟨hf1, v1, hv1, hall1⟩ := hx
  obtain ⟨hf2, v2, hv2, hall2⟩ := hy
  refine ⟨by rw [List.length_append]; exact hf2.append_forest hf1, v1 ++ v2, by simp [hv1, hv2],
    fun s => ?_⟩
  rw [evalLoop_append_some env ar subst true zr ys xs s (hall1 s), hall2, List.append_assoc]

theorem Yields.split {env : Env} {ar : Arith} {subst : Option (List ExprTerm)} {zr : Bool}
    {d : Int} {xs ys : ExprTerms} {ws : List Int} {n1 n2 : Nat}
    (h : Yields env ar subst zr d (xs ++ ys) ws) (hx : Forest d n1 xs) (hy : Forest d n2 ys) :
    ∃ ws1 ws2, ws = ws1 ++ ws2 ∧ ws1.length = n1 ∧ ws2.length = n2 ∧
      Yields env ar subst zr d xs ws1 ∧ Yields env ar subst zr d ys ws2 := by
  obtain ⟨_, vs, hvs, hall⟩ := h
  obtain ⟨s1, h1, h2⟩ := evalLoop_append_inv env ar subst true zr xs ys [] _ (hall [])
  obtain ⟨v1, hs1, hl1, hall1⟩ := evalLoop_frame env ar subst true zr hx [] s1 h1
  obtain ⟨v2, hs2, hl2, hall2⟩ := evalLoop_frame env ar subst true zr hy s1 _ h2
  have hvs12 : vs = v1 ++ v2 := by
    have := hs2
    rw [hs1] at this
    simpa using this
  rw [hvs12] at hvs
  obtain ⟨ws1, ws2, hws, hw1, hw2⟩ := map_data_split v1 v2 ws hvs
  have e1 := map_data_length hw1
  have e2 := map_data_length hw2
  exact ⟨ws1, ws2, hws, by omega, by omega, ⟨by rw [← e1, hl1]; exact hx, v1, hw1, hall1⟩,
    ⟨by rw [← e2, hl2]; exact hy, v2, hw2, hall2⟩⟩

/-- A part of the terms, complete subtrees itself between complete subtrees,
can be exchanged for other complete subtrees: the values before and after it
stay. -/
theorem Yields.exchange {env : Env} {ar : Arith} {subst : Option (List ExprTerm)} {zr : Bool}
    {d : Int} {pre xs post : ExprTerms} {ws : List Int} {n1 m n2 : Nat}
    (h : Yields env ar subst zr d (pre ++ xs ++ post) ws)
    (h1 : Forest d n1 pre) (hx : Forest d m xs) (h2 : Forest d n2 post) :
    ∃ ws1 wx ws2, ws = ws1 ++ wx ++ ws2 ∧ wx.length = m ∧ Yields env ar subst zr d xs wx ∧
      ∀ xs1 wx1, Yields env ar subst zr d xs1 wx1 →
        Yields env ar subst zr d (pre ++ xs1 ++ post) (ws1 ++ wx1 ++ ws2) := by
  obtain ⟨w12, ws2, hws, _, _, hy12, hy2⟩ := h.split (hx.append_forest h1) h2
  obtain ⟨ws1, wx, hw12, _, hlx, hy1, hyx⟩ := hy12.split h1 hx
  exact ⟨ws1, wx, ws2, by rw [hws, hw12], hlx, hyx,
    fun xs1 wx1 hnew => (hy1.append_yields hnew).append_yields hy2⟩

/-- The value that the loop of `Evaluate` (with the value of locations
allowed) puts on the stack for a symbol or a location: the offset of the
location that `TransformDistBase` finds for it. -/
theorem evalTerm_symloc_found (env : Env) (ar : Arith) (subst : Option (List ExprTerm))
    (zr : Bool) (t : ExprTerm) (ht : t.isType (ExprTerm.SYM ||| ExprTerm.LOC) = true)
    (s st1 : List ExprTerm)
    (h : evalTerm env ar subst true zr s t = Except.ok (some st1)) :
    ∃ loc, lookupLoc env t.getSymbol t = LocLookup.found loc ∧
      st1 = s ++ [⟨TermData.INT (loc.getOffset env), t.m_depth⟩] := by
  have hcases : (∃ sym, t.data = TermData.SYM sym) ∨ ∃ loc, t.data = TermData.LOC loc := by
    rw [isType_SYM_LOC_eq] at ht
    cases hd : t.data <;> rw [hd] at ht <;> simp at ht
    · exact Or.inl ⟨_, rfl⟩
    · exact Or.inr ⟨_, rfl⟩
  rcases hcases with ⟨sym, hd⟩ | ⟨loc, hd⟩
  · simp only [evalTerm, hd] at h
    cases hl : env.getLabel sym with
    | none => rw [hl] at h; simp at h
    | some loc =>
      rw [hl] at h
      simp only [if_true] at h
      by_cases hb : loc.bc.isSome = true
      · rw [if_pos hb] at h
        simp at h
        exact ⟨loc, by simp [lookupLoc, ExprTerm.getSymbol, hd, hl], h.symm⟩
      · rw [if_neg hb] at h
        simp at h
  · simp only [evalTerm, hd] at h
    by_cases hb : loc.bc.isSome = true
    · simp [hb] at h
      exact ⟨loc, by simp [lookupLoc, ExprTerm.getSymbol, ExprTerm.getLocation, hd], h.symm⟩
    · simp [hb] at h

theorem Yields.int_leaf (env : Env) (ar : Arith) (subst : Option (List ExprTerm)) (zr : Bool)
    (d : Int) (a : Int) : Yields env ar subst zr d [⟨TermData.INT a, d⟩] [a] := by
  refine ⟨?_, [⟨TermData.INT a, d⟩], rfl, fun s => ?_⟩
  · have := Forest.leaf ⟨TermData.INT a, d⟩ (Forest.nil d) rfl rfl rfl
    simpa using this
  · simp [evalLoop, evalTerm]

theorem Yields.empties (env : Env) (ar : Arith) (subst : Option (List ExprTerm)) (zr : Bool)
    (d : Int) (es : ExprTerms) (h : ∀ e ∈ es, e.isEmpty = true) :
    Yields env ar subst zr d es [] := by
  refine ⟨Forest.of_empties es h, [], rfl, ?_⟩
  induction es with
  | nil => intro s; simp [evalLoop]
  | cons e es ih =>
    intro s
    rw [evalLoop, evalTerm_of_isEmpty env ar subst true zr s e (h e (List.mem_cons_self _ _))]
    exact ih (fun x hx => h x (List.mem_cons_of_mem _ hx)) s

theorem split_of_getElem? {l : ExprTerms} {j : Nat} {t : ExprTerm} (h : l[j]? = some t) :
    ∃ L R, l = L ++ t :: R ∧ L.length = j := by
  obtain ⟨hj, ht⟩ := List.getElem?_eq_some.1 h
  refine ⟨l.take j, l.drop (j + 1), ?_, ?_⟩
  · rw [← ht, List.getElem_cons_drop, List.take_append_drop]
  · rw [List.length_take]; omega

theorem getElem?_split (P Q : ExprTerms) (t : ExprTerm) (i : Nat) (hi : i = P.length) :
    (P ++ t :: Q)[i]? = some t := by
  rw [hi, List.getElem?_append_right (Nat.le_refl _)]
  simp

theorem set_split (P Q : ExprTerms) (t t1 : ExprTerm) (i : Nat) (hi : i = P.length) :
    (P ++ t :: Q).set i t1 = P ++ t1 :: Q := by
  rw [hi]; simp

theorem updateAt_split (P Q : ExprTerms) (t : ExprTerm) (f : ExprTerm → ExprTerm) (i : Nat)
    (hi : i = P.length) : updateAt (P ++ t :: Q) i f = P ++ f t :: Q := by
  unfold updateAt
  rw [getElem?_split P Q t i hi]
  exact set_split P Q t (f t) i hi

theorem updateAt_comm (l : ExprTerms) (i j : Nat) (f g : ExprTerm → ExprTerm) (hij : i ≠ j) :
    updateAt (updateAt l i f) j g = updateAt (updateAt l j g) i f := by
  apply List.ext_getElem?
  intro x
  simp only [updateAt_getElem?]
  by_cases h1 : x = j <;> by_cases h2 : x = i
  · omega
  · simp [h1, hij, Ne.symm hij]
  · simp [h2, hij, Ne.symm hij]
  · simp [h1, h2]

theorem getElem?_mid_mem {T P M Q : ExprTerms} (hT : T = P ++ M ++ Q) {j : Nat}
    (h1 : P.length ≤ j) (h2 : j < P.length + M.length) {t : ExprTerm} (ht : T[j]? = some t) :
    t ∈ M := by
  rw [hT, List.append_assoc, List.getElem?_append_right h1,
    List.getElem?_append_left (by omega)] at ht
  exact List.getElem?_mem ht

theorem Yields.single {env : Env} {ar : Arith} {subst : Option (List ExprTerm)} {zr : Bool}
    {d : Int} {t : ExprTerm} {ws : List Int} (h : Yields env ar subst zr d [t] ws)
    (hlen : ws.length = 1) :
    ∃ w v, ws = [w] ∧ v.data = TermData.INT w ∧
      ∀ s, evalTerm env ar subst true zr s t = Except.ok (some (s ++ [v])) := by
  obtain ⟨_, vs, hvs, hall⟩ := h
  cases ws with
  | nil => simp at hlen
  | cons w ws1 =>
    cases ws1 with
    | cons _ _ => simp at hlen
    | nil =>
      cases vs with
      | nil => simp at hvs
      | cons v vs1 =>
        cases vs1 with
        | cons _ _ => simp at hvs
        | nil =>
          simp at hvs
          refine ⟨w, v, rfl, hvs, fun s => ?_⟩
          rw [← evalLoop_single]
          exact hall s

/-- A direct child of `root` that is not an operator is exchanged for an
integer: the sum of the values of the children changes by the difference. -/
theorem Block.replace_leaf {env : Env} {ar : Arith} {subst : Option (List ExprTerm)}
    {zr : Bool} {before after T : ExprTerms} {root : ExprTerm} {ws : List Int}
    (hB : Block env ar subst zr before root after T ws) {pos i : Nat}
    (hlen : pos + 1 + after.length = T.length) (hi1 : before.length ≤ i) (hi2 : i < pos)
    {t : ExprTerm} (ht : T[i]? = some t) (hne : t.isEmpty = false) (hop : t.isOp = false)
    (hd : t.m_depth = root.m_depth + 1) (a : Int) :
    ∃ w v ws1, (∀ s, evalTerm env ar subst true zr s t = Except.ok (some (s ++ [v]))) ∧
      v.data = TermData.INT w ∧ ws1.sum = ws.sum - w + a ∧ ws1.length = ws.length ∧
      Block env ar subst zr before root after (T.set i ⟨TermData.INT a, root.m_depth + 1⟩)
        ws1 := by
  obtain ⟨B, hT, hY⟩ := hB
  have hTl : T.length = before.length + B.length + (1 + after.length) := by
    rw [hT]; simp; omega
  have hBi : B[i - before.length]? = some t := by
    rw [hT, List.append_assoc, List.getElem?_append_right hi1,
      List.getElem?_append_left (by omega)] at ht
    exact ht
  obtain ⟨L, R, hBs, hL⟩ := split_of_getElem? hBi
  obtain ⟨n1, n2, _, hR, hcase⟩ := hY.1.split_at L R t hBs hne hd
  have hLf : Forest (root.m_depth + 1) n1 L := by
    rcases hcase with ⟨_, h⟩ | ⟨op, k, _, _, h, _⟩
    · exact h
    · rw [h] at hop; cases hop
  have htf : Forest (root.m_depth + 1) 1 [t] := by
    have := Forest.leaf t (Forest.nil (root.m_depth + 1)) hne hop hd
    simpa using this
  have hBs2 : B = L ++ [t] ++ R := by rw [hBs]; simp
  rw [hBs2] at hY
  obtain ⟨ws1, wx, ws2, hws, hwx, hYt, hrep⟩ := hY.exchange hLf htf hR
  obtain ⟨w, v, hw, hv, hall⟩ := hYt.single hwx
  refine ⟨w, v, ws1 ++ [a] ++ ws2, hall, hv, ?_, ?_,
    L ++ [⟨TermData.INT a, root.m_depth + 1⟩] ++ R, ?_,
    hrep _ _ (Yields.int_leaf env ar subst zr _ a)⟩
  · rw [hws, hw]; simp [List.sum_append]; omega
  · rw [hws, hw]; simp
  · have e : T = (before ++ L) ++ t :: (R ++ root :: after) := by
      rw [hT, hBs]; simp
    rw [e, set_split _ _ _ _ _ (by rw [List.length_append]; omega)]
    simp

theorem data_of_isOpOf {t : ExprTerm} {op : Op} {k : Nat} (h : t.isOpOf op = true)
    (hk : t.getNumChild = k) : t.data = TermData.OP op k := by
  cases hd : t.data with
  | OP o n =>
    simp [ExprTerm.isOpOf, hd] at h
    simp [ExprTerm.getNumChild, hd] at hk
    rw [h, hk]
  | _ => simp [ExprTerm.isOpOf, hd] at h

theorem evalLoop_empties_append (env : Env) (ar : Arith) (subst : Option (List ExprTerm))
    (vl zr : Bool) (rest : ExprTerms) :
    ∀ (es : ExprTerms) (s : List ExprTerm), (∀ e ∈ es, e.isEmpty = true) →
      evalLoop env ar subst vl zr (es ++ rest) s = evalLoop env ar subst vl zr rest s := by
  intro es
  induction es with
  | nil => intro s _; rfl
  | cons e es ih =>
    intro s h
    rw [List.cons_append, evalLoop,
      evalTerm_of_isEmpty env ar subst vl zr s e (h e (List.mem_cons_self _ _))]
    exact ih s (fun x hx => h x (List.mem_cons_of_mem _ hx))

/-- The two children of a recorded negated symbol, by their places: `lo`
before `hi`, both before the `MUL`, one the symbol and the other the -1, and
only empty terms between `lo` and the `MUL` besides `hi`. -/
theorem SubOK.spans {T : ExprTerms} {pos : Nat} {d : Int} {s : SubEntry}
    (hs : SubOK T pos d s) :
    ∃ lo hi : Nat, lo < hi ∧ hi < pos - s.subroot ∧
      ((lo = pos - s.subpos ∧ hi = pos - s.subneg1) ∨
        (lo = pos - s.subneg1 ∧ hi = pos - s.subpos)) ∧
      ∀ j t, lo < j → j < pos - s.subroot → j ≠ hi → T[j]? = some t → t.isEmpty = true := by
  have h1 := hs.root_pos
  have h2 := hs.root_lt_sym
  have h3 := hs.root_lt_neg1
  have h4 := hs.sym_le
  have h5 := hs.neg1_le
  have h6 := hs.ne
  have hhi : s.hi = max s.subpos s.subneg1 := rfl
  have hoth := hs.others
  by_cases hlt : s.subneg1 < s.subpos
  · refine ⟨pos - s.subpos, pos - s.subneg1, by omega, by omega, Or.inl ⟨rfl, rfl⟩, ?_⟩
    intro j t hj1 hj2 hj3 hj
    have e : pos - (pos - j) = j := by omega
    refine hoth (pos - j) (by omega) (by omega) (by omega) (by omega) t ?_
    rw [e]; exact hj
  · refine ⟨pos - s.subneg1, pos - s.subpos, by omega, by omega, Or.inr ⟨rfl, rfl⟩, ?_⟩
    intro j t hj1 hj2 hj3 hj
    have e : pos - (pos - j) = j := by omega
    refine hoth (pos - j) (by omega) (by omega) (by omega) (by omega) t ?_
    rw [e]; exact hj

/-- The last of one or more complete subtrees, found by its place: a term
without children that is followed by empty terms only is the last subtree. -/
theorem Forest.last_at {d : Int} {k : Nat} {cs T P Q : ExprTerms} {j0 : Nat} {t0 : ExprTerm}
    (hT : T = P ++ cs ++ Q) (hF : Forest d k cs) (hk : k ≠ 0)
    (hj : j0 < P.length + cs.length) (ht0 : T[j0]? = some t0) (hne : t0.isEmpty = false)
    (hop : t0.isOp = false)
    (hgap : ∀ j t, j0 < j → j < P.length + cs.length → T[j]? = some t → t.isEmpty = true) :
    ∃ c1 es, cs = c1 ++ t0 :: es ∧ P.length + c1.length = j0 ∧ (∀ e ∈ es, e.isEmpty = true) ∧
      Forest d (k - 1) c1 := by
  obtain ⟨c1, y, es, hcs, hes, hy, _, hcy⟩ := hF.last_tree hk
  have hlen : cs.length = c1.length + (es.length + 1) := by rw [hcs]; simp
  have hTy : T = (P ++ c1) ++ y :: (es ++ Q) := by rw [hT, hcs]; simp
  have hyi : T[P.length + c1.length]? = some y := by
    rw [hTy]; exact getElem?_split _ _ _ _ (by simp)
  have hTE : T = (P ++ c1 ++ [y]) ++ es ++ Q := by rw [hTy]; simp
  have hb : P.length + c1.length = j0 := by
    rcases Nat.lt_trichotomy (P.length + c1.length) j0 with h | h | h
    · have hmem := getElem?_mid_mem hTE (by simp; omega) (by simp; omega) ht0
      rw [hes t0 hmem] at hne; cases hne
    · exact h
    · have := hgap (P.length + c1.length) y h (by omega) hyi
      rw [this] at hy; cases hy
  rw [hb, ht0] at hyi
  simp only [Option.some.injEq] at hyi
  rw [← hyi] at hcs hcy
  refine ⟨c1, es, hcs, hb, hes, ?_⟩
  rcases hcy with ⟨_, h⟩ | ⟨op, k1, _, _, h, _⟩
  · exact h
  · rw [h] at hop; cases hop

/-- The `MUL` of a recorded negated symbol is the root of one of the complete
subtrees of the children of the root; its two children are before it. -/
theorem SubOK.locate {T before B after : ExprTerms} {root : ExprTerm} {n pos : Nat}
    {s : SubEntry} (hT : T = before ++ B ++ root :: after)
    (hF : Forest (root.m_depth + 1) n B) (hpos : pos = before.length + B.length)
    (hs : SubOK T pos root.m_depth s) (hsb : before.length ≤ pos - s.subroot) :
    ∃ pre1 cs R n1 n2,
      B = pre1 ++ cs ++ ⟨TermData.OP Op.MUL 2, root.m_depth + 1⟩ :: R ∧
      Forest (root.m_depth + 1) n1 pre1 ∧ Forest (root.m_depth + 1) n2 R ∧
      Forest (root.m_depth + 1 + 1) 2 cs ∧
      before.length + pre1.length + cs.length = pos - s.subroot := by
  obtain ⟨mul, hmulT, hmulop, hmulk, hmuld⟩ := hs.root
  have hmd : mul.data = TermData.OP Op.MUL 2 := data_of_isOpOf hmulop hmulk
  have h1 := hs.root_pos
  have h2 := hs.root_lt_sym
  have h4 := hs.sym_le
  have hBi : B[pos - s.subroot - before.length]? = some mul := by
    rw [hT, List.append_assoc, List.getElem?_append_right hsb,
      List.getElem?_append_left (by omega)] at hmulT
    exact hmulT
  obtain ⟨L, R, hBs, hL⟩ := split_of_getElem? hBi
  obtain ⟨n1, n2, _, hR, hcase⟩ :=
    hF.split_at L R mul hBs (isEmpty_false_of_OP hmd) hmuld
  rcases hcase with ⟨hno, _⟩ | ⟨op, k, pre1, cs, hmk, hLs, hpre1, hcs⟩
  · rw [isOp_of_data hmd] at hno; cases hno
  rw [hmk] at hmd
  simp only [TermData.OP.injEq] at hmd
  rw [hmd.1, hmd.2] at hmk
  rw [hmd.2] at hcs
  refine ⟨pre1, cs, R, n1, n2, by rw [hBs, hLs, hmk], hpre1, hR, hcs, ?_⟩
  rw [hLs, List.length_append] at hL
  omega

/-- What the scan recorded as a negated symbol is, among the complete
subtrees of the children of the root, the subtree of a `MUL` whose children
are two terms without children, the symbol and the -1 in either order, with
empty terms only between and around them. -/
theorem SubOK.children {T before B after : ExprTerms} {root : ExprTerm} {n pos : Nat}
    {s : SubEntry} (hT : T = before ++ B ++ root :: after)
    (hF : Forest (root.m_depth + 1) n B) (hpos : pos = before.length + B.length)
    (hs : SubOK T pos root.m_depth s) (hsb : before.length ≤ pos - s.subroot) :
    ∃ L1 c0 x E2 y E3 R n1 n2,
      B = L1 ++ (c0 ++ x :: (E2 ++ y :: (E3 ++ [⟨TermData.OP Op.MUL 2, root.m_depth + 1⟩])))
        ++ R ∧
      Forest (root.m_depth + 1) n1 L1 ∧ Forest (root.m_depth + 1) n2 R ∧
      Forest (root.m_depth + 1) 1
        (c0 ++ x :: (E2 ++ y :: (E3 ++ [⟨TermData.OP Op.MUL 2, root.m_depth + 1⟩]))) ∧
      (∀ e ∈ c0, e.isEmpty = true) ∧ (∀ e ∈ E2, e.isEmpty = true) ∧
      (∀ e ∈ E3, e.isEmpty = true) ∧
      before.length + L1.length + c0.length + 1 + E2.length + 1 + E3.length
        = pos - s.subroot ∧
      ((before.length + L1.length + c0.length = pos - s.subpos ∧
          before.length + L1.length + c0.length + 1 + E2.length = pos - s.subneg1 ∧
          x.isType (ExprTerm.SYM ||| ExprTerm.LOC) = true ∧ y.data = TermData.INT (-1)) ∨
        (before.length + L1.length + c0.length = pos - s.subneg1 ∧
          before.length + L1.length + c0.length + 1 + E2.length = pos - s.subpos ∧
          x.data = TermData.INT (-1) ∧ y.isType (ExprTerm.SYM ||| ExprTerm.LOC) = true)) := by
  obtain ⟨pre1, cs, R, n1, n2, hBs, hpre1, hR, hcs, him⟩ := SubOK.locate hT hF hpos hs hsb
  obtain ⟨lo, hi, hlohi, hhi, hwhich, hgap⟩ := hs.spans
  obtain ⟨ts, hts, htsty, _⟩ := hs.sym
  obtain ⟨tn, htn, htnd, _⟩ := hs.neg1
  have hTc : T = (before ++ pre1) ++ cs ++
      (⟨TermData.OP Op.MUL 2, root.m_depth + 1⟩ :: (R ++ root :: after)) := by
    rw [hT, hBs]; simp
  have hPl : (before ++ pre1).length + cs.length = pos - s.subroot := by
    rw [List.length_append]; exact him
  -- the terms at `lo` and at `hi`
  obtain ⟨tlo, thi, htlo, hthi, hlone, hloop, hhine, hhiop, hkind⟩ :
      ∃ tlo thi, T[lo]? = some tlo ∧ T[hi]? = some thi ∧ tlo.isEmpty = false ∧
        tlo.isOp = false ∧ thi.isEmpty = false ∧ thi.isOp = false ∧
        ((lo = pos - s.subpos ∧ hi = pos - s.subneg1 ∧
            tlo.isType (ExprTerm.SYM ||| ExprTerm.LOC) = true ∧ thi.data = TermData.INT (-1)) ∨
          (lo = pos - s.subneg1 ∧ hi = pos - s.subpos ∧ tlo.data = TermData.INT (-1) ∧
            thi.isType (ExprTerm.SYM ||| ExprTerm.LOC) = true)) := by
    rcases hwhich with ⟨e1, e2⟩ | ⟨e1, e2⟩
    · exact ⟨ts, tn, by rw [e1]; exact hts, by rw [e2]; exact htn,
        isEmpty_false_of_SYM_LOC htsty, isOp_false_of_SYM_LOC htsty,
        isEmpty_false_of_INT htnd, isOp_false_of_INT htnd, Or.inl ⟨e1, e2, htsty, htnd⟩⟩
    · exact ⟨tn, ts, by rw [e1]; exact htn, by rw [e2]; exact hts,
        isEmpty_false_of_INT htnd, isOp_false_of_INT htnd,
        isEmpty_false_of_SYM_LOC htsty, isOp_false_of_SYM_LOC htsty,
        Or.inr ⟨e1, e2, htnd, htsty⟩⟩
  obtain ⟨c1, E3, hcs1, hc1len, hE3, hc1⟩ :=
    Forest.last_at hTc hcs (by decide) (by omega) hthi hhine hhiop
      (fun j t hj1 hj2 hj => hgap j t (by omega) (by omega) (by omega) hj)
  have hTc1 : T = (before ++ pre1) ++ c1 ++
      (thi :: (E3 ++ ⟨TermData.OP Op.MUL 2, root.m_depth + 1⟩ :: (R ++ root :: after))) := by
    rw [hTc, hcs1]; simp
  obtain ⟨c0, E2, hc1s, hc0len, hE2, hc0⟩ :=
    Forest.last_at hTc1 hc1 (by decide) (by omega) htlo hlone hloop
      (fun j t hj1 hj2 hj => hgap j t hj1 (by omega) (by omega) hj)
  have hc0e : ∀ e ∈ c0, e.isEmpty = true := hc0.zero_empties rfl
  have hXf : Forest (root.m_depth + 1) 1
      (c0 ++ tlo :: (E2 ++ thi :: (E3 ++ [⟨TermData.OP Op.MUL 2, root.m_depth + 1⟩]))) := by
    have := Forest.node Op.MUL (Forest.nil (root.m_depth + 1)) hcs
    rw [hcs1, hc1s] at this
    simpa using this
  have hl1 : c1.length = c0.length + (E2.length + 1) := by rw [hc1s]; simp
  have hl2 : cs.length = c1.length + (E3.length + 1) := by rw [hcs1]; simp
  rw [List.length_append] at hc1len hc0len
  refine ⟨pre1, c0, tlo, E2, thi, E3, R, n1, n2, ?_, hpre1, hR, hXf, hc0e, hE2, hE3,
    by omega, ?_⟩
  · rw [hBs, hcs1, hc1s]; simp
  · rcases hkind with ⟨e1, e2, k1, k2⟩ | ⟨e1, e2, k1, k2⟩
    · exact Or.inl ⟨by omega, by omega, k1, k2⟩
    · exact Or.inr ⟨by omega, by omega, k1, k2⟩

theorem mul_lt_NONNUM : Op.MUL < Op.NONNUM := by decide

/-- The value of the subtree of a negated symbol: the negated offset of the
location of the symbol, whether the symbol or the -1 is stored first. -/
theorem Yields.neg_sym {env : Env} {ar : Arith} {subst : Option (List ExprTerm)} {zr : Bool}
    (hmul : ∀ a b, ar.Calc Op.MUL a b = some (a * b)) {d : Int} {c0 E2 E3 : ExprTerms}
    {x y subterm : ExprTerm} {wx : List Int}
    (hc0 : ∀ e ∈ c0, e.isEmpty = true) (hE2 : ∀ e ∈ E2, e.isEmpty = true)
    (hE3 : ∀ e ∈ E3, e.isEmpty = true)
    (hY : Yields env ar subst zr d
      (c0 ++ x :: (E2 ++ y :: (E3 ++ [⟨TermData.OP Op.MUL 2, d⟩]))) wx)
    (hcase : (subterm = x ∧ x.isType (ExprTerm.SYM ||| ExprTerm.LOC) = true ∧
        y.data = TermData.INT (-1)) ∨
      (subterm = y ∧ x.data = TermData.INT (-1) ∧
        y.isType (ExprTerm.SYM ||| ExprTerm.LOC) = true)) :
    ∃ u v, (∀ st, evalTerm env ar subst true zr st subterm = Except.ok (some (st ++ [v]))) ∧
      v.data = TermData.INT u ∧ wx = [-u] := by
  obtain ⟨_, vs, hvs, hall⟩ := hY
  have h0 := hall []
  rw [evalLoop_empties_append env ar subst true zr _ c0 [] hc0, evalLoop] at h0
  cases hx : evalTerm env ar subst true zr [] x with
  | error a => rw [hx] at h0; simp at h0
  | ok o =>
    cases o with
    | none => rw [hx] at h0; simp at h0
    | some s1 =>
      rw [hx] at h0
      simp only [] at h0
      rw [evalLoop_empties_append env ar subst true zr _ E2 s1 hE2, evalLoop] at h0
      cases hy : evalTerm env ar subst true zr s1 y with
      | error a => rw [hy] at h0; simp at h0
      | ok o2 =>
        cases o2 with
        | none => rw [hy] at h0; simp at h0
        | some s2 =>
          rw [hy] at h0
          simp only [] at h0
          rw [evalLoop_empties_append env ar subst true zr _ E3 s2 hE3, evalLoop_single] at h0
          have fin : ∀ (a b : Int) (cs : List ExprTerm), s2 = cs →
              cs.map (fun t => t.data) = [a, b].map TermData.INT → wx = [a * b] := by
            intro a b cs hs2 hcs
            have hf := (evalTerm_fold env ar subst true zr [] cs a [b] Op.MUL d mul_lt_NONNUM
              hcs (by simp)).1 (a * b) (by simp [foldCalc, hmul])
            rw [hs2] at h0
            simp only [List.nil_append, List.length_singleton] at hf
            rw [hf] at h0
            simp at h0
            rw [← h0] at hvs
            cases wx with
            | nil => simp at hvs
            | cons w ws1 =>
              cases ws1 with
              | cons _ _ => simp at hvs
              | nil =>
                simp at hvs
                rw [hvs]
          rcases hcase with ⟨hsub, hxs, hyd⟩ | ⟨hsub, hxd, hys⟩
          · obtain ⟨loc, _, hs1⟩ := evalTerm_symloc_found env ar subst zr x hxs [] s1 hx
            rw [evalTerm_of_numeric env ar subst true zr s1 y (Numeric.of_int hyd)] at hy
            simp at hy
            obtain ⟨us, hus1, _, _, huall⟩ :=
              evalTerm_leaf_frame env ar subst true zr x (isOp_false_of_SYM_LOC hxs) [] s1 hx
            have hus : us = [⟨TermData.INT (loc.getOffset env), x.m_depth⟩] := by
              rw [hs1] at hus1
              simpa using hus1.symm
            refine ⟨(loc.getOffset env : Int), ⟨TermData.INT (loc.getOffset env), x.m_depth⟩,
              ?_, rfl, ?_⟩
            · intro st
              rw [hsub, huall st, hus]
            · have := fin (loc.getOffset env : Int) (-1) _ hy.symm
                (by rw [hs1]; simp [hyd])
              rw [this]
              simp
          · rw [evalTerm_of_numeric env ar subst true zr [] x (Numeric.of_int hxd)] at hx
            simp at hx
            obtain ⟨loc, _, hs2⟩ := evalTerm_symloc_found env ar subst zr y hys s1 s2 hy
            obtain ⟨us, hus1, _, _, huall⟩ :=
              evalTerm_leaf_frame env ar subst true zr y (isOp_false_of_SYM_LOC hys) s1 s2 hy
            have hus : us = [⟨TermData.INT (loc.getOffset env), y.m_depth⟩] := by
              rw [hs2] at hus1
              simpa using hus1.symm
            refine ⟨(loc.getOffset env : Int), ⟨TermData.INT (loc.getOffset env), y.m_depth⟩,
              ?_, rfl, ?_⟩
            · intro st
              rw [hsub, huall st, hus]
            · have := fin (-1) (loc.getOffset env : Int) _ hs2
                (by rw [← hx]; simp [hxd])
              rw [this]
              simp

/-- A matched negated symbol is set to zero: its symbol and its -1 are
cleared and its `MUL` becomes the integer 0; the sum of the values of the
children of `root` grows by the offset of the symbol's location. -/
theorem Block.clear_sub {env : Env} {ar : Arith} {subst : Option (List ExprTerm)}
    {zr : Bool} (hmul : ∀ a b, ar.Calc Op.MUL a b = some (a * b))
    {before after T : ExprTerms} {root : ExprTerm} {ws : List Int}
    (hB : Block env ar subst zr before root after T ws) {pos : Nat}
    (hlen : pos + 1 + after.length = T.length) {s : SubEntry}
    (hs : SubOK T pos root.m_depth s) (hsb : before.length ≤ pos - s.subroot)
    {subterm : ExprTerm} (hsub : T[pos - s.subpos]? = some subterm) :
    ∃ u v ws1, (∀ st, evalTerm env ar subst true zr st subterm = Except.ok (some (st ++ [v]))) ∧
      v.data = TermData.INT u ∧ ws1.sum = ws.sum + u ∧ ws1.length = ws.length ∧
      Block env ar subst zr before root after (clearSub T pos s) ws1 := by
  obtain ⟨B, hT, hY⟩ := hB
  have hpos : pos = before.length + B.length := by
    have : T.length = before.length + B.length + (1 + after.length) := by
      rw [hT]; simp; omega
    omega
  obtain ⟨L1, c0, x, E2, y, E3, R, n1, n2, hBs, hL1, hR, hXf, hc0, hE2, hE3, him, hcase⟩ :=
    SubOK.children hT hY.1 hpos hs hsb
  rw [hBs] at hY
  obtain ⟨ws1, wx, ws2, hws, hwx, hYx, hrep⟩ := hY.exchange hL1 hXf hR
  have hTx : T = (before ++ L1 ++ c0) ++
      x :: (E2 ++ y :: (E3 ++ ⟨TermData.OP Op.MUL 2, root.m_depth + 1⟩ ::
        (R ++ root :: after))) := by
    rw [hT, hBs]; simp
  have hxi : T[before.length + L1.length + c0.length]? = some x := by
    rw [hTx]; exact getElem?_split _ _ _ _ (by simp; omega)
  have hTy : T = (before ++ L1 ++ c0 ++ x :: E2) ++
      y :: (E3 ++ ⟨TermData.OP Op.MUL 2, root.m_depth + 1⟩ :: (R ++ root :: after)) := by
    rw [hTx]; simp
  have hyi : T[before.length + L1.length + c0.length + 1 + E2.length]? = some y := by
    rw [hTy]; exact getElem?_split _ _ _ _ (by simp; omega)
  have hcase2 : (subterm = x ∧ x.isType (ExprTerm.SYM ||| ExprTerm.LOC) = true ∧
        y.data = TermData.INT (-1)) ∨
      (subterm = y ∧ x.data = TermData.INT (-1) ∧
        y.isType (ExprTerm.SYM ||| ExprTerm.LOC) = true) := by
    rcases hcase with ⟨ha, _, h1, h2⟩ | ⟨_, hb, h1, h2⟩
    · rw [← ha, hxi] at hsub
      simp at hsub
      exact Or.inl ⟨hsub.symm, h1, h2⟩
    · rw [← hb, hyi] at hsub
      simp at hsub
      exact Or.inr ⟨hsub.symm, h1, h2⟩
  obtain ⟨u, v, hall, hv, hwxu⟩ := hYx.neg_sym hmul hc0 hE2 hE3 hcase2
  have hnew : Yields env ar subst zr (root.m_depth + 1)
      ((c0 ++ x.Clear :: (E2 ++ y.Clear :: E3)) ++ [⟨TermData.INT 0, root.m_depth + 1⟩])
      [0] := by
    have he : ∀ e ∈ c0 ++ x.Clear :: (E2 ++ y.Clear :: E3), e.isEmpty = true := by
      intro e he
      simp only [List.mem_append, List.mem_cons] at he
      rcases he with h | h | h | h | h
      · exact hc0 e h
      · rw [h]; exact isEmpty_Clear x
      · exact hE2 e h
      · rw [h]; exact isEmpty_Clear y
      · exact hE3 e h
    have := (Yields.empties env ar subst zr (root.m_depth + 1) _ he).append_yields
      (Yields.int_leaf env ar subst zr (root.m_depth + 1) 0)
    simpa using this
  have hclear : clearSub T pos s = (before ++ L1 ++ c0) ++
      x.Clear :: (E2 ++ y.Clear :: (E3 ++ ⟨TermData.INT 0, root.m_depth + 1⟩ ::
        (R ++ root :: after))) := by
    have hswap : clearSub T pos s = updateAt (updateAt (updateAt T
        (before.length + L1.length + c0.length) ExprTerm.Clear)
        (before.length + L1.length + c0.length + 1 + E2.length) ExprTerm.Clear)
        (pos - s.subroot) ExprTerm.Zero := by
      have h4 := hs.sym_le
      have h5 := hs.neg1_le
      have h6 := hs.ne
      unfold clearSub
      rcases hcase with ⟨ha, hb, _, _⟩ | ⟨ha, hb, _, _⟩
      · rw [hb, ha]
      · rw [hb, ha, updateAt_comm T (pos - s.subpos) (pos - s.subneg1) ExprTerm.Clear
          ExprTerm.Clear (by omega)]
    rw [hswap, hTx, updateAt_split _ _ _ _ _ (by simp; omega)]
    have e2 : (before ++ L1 ++ c0) ++ x.Clear :: (E2 ++ y :: (E3 ++
        ⟨TermData.OP Op.MUL 2, root.m_depth + 1⟩ :: (R ++ root :: after)))
        = (before ++ L1 ++ c0 ++ x.Clear :: E2) ++ y :: (E3 ++
        ⟨TermData.OP Op.MUL 2, root.m_depth + 1⟩ :: (R ++ root :: after)) := by simp
    rw [e2, updateAt_split _ _ _ _ _ (by simp; omega)]
    have e3 : (before ++ L1 ++ c0 ++ x.Clear :: E2) ++ y.Clear :: (E3 ++
        ⟨TermData.OP Op.MUL 2, root.m_depth + 1⟩ :: (R ++ root :: after))
        = (before ++ L1 ++ c0 ++ x.Clear :: E2 ++ y.Clear :: E3) ++
        ⟨TermData.OP Op.MUL 2, root.m_depth + 1⟩ :: (R ++ root :: after) := by simp
    rw [e3, updateAt_split _ _ _ _ _ (by simp; omega)]
    simp [ExprTerm.Zero]
  refine ⟨u, v, ws1 ++ [0] ++ ws2, hall, hv, ?_, ?_,
    L1 ++ ((c0 ++ x.Clear :: (E2 ++ y.Clear :: E3)) ++ [⟨TermData.INT 0, root.m_depth + 1⟩])
      ++ R, ?_, hrep _ _ hnew⟩
  · rw [hws, hwxu]; simp [List.sum_append]; omega
  · rw [hws, hwxu]; simp
  · rw [hclear]; simp

theorem add_lt_NONNUM : Op.ADD < Op.NONNUM := by decide

/-- The round of an `ADD` over integer children on top of the stack depends
on the children through their sum only. -/
theorem evalTerm_add_sum (env : Env) (ar : Arith) (subst : Option (List ExprTerm))
    (vl zr : Bool) (hadd : ∀ a b, ar.Calc Op.ADD a b = some (a + b))
    (st0 vs vs1 st2 : List ExprTerm) (ws ws1 : List Int) (d : Int)
    (hvs : vs.map (fun x => x.data) = ws.map TermData.INT)
    (hvs1 : vs1.map (fun x => x.data) = ws1.map TermData.INT)
    (hlen : ws1.length = ws.length) (hsum : ws1.sum = ws.sum)
    (h : evalTerm env ar subst vl zr (st0 ++ vs) ⟨TermData.OP Op.ADD ws.length, d⟩
      = Except.ok (some st2)) :
    evalTerm env ar subst vl zr (st0 ++ vs1) ⟨TermData.OP Op.ADD ws.length, d⟩
      = Except.ok (some st2) := by
  cases ws with
  | nil =>
    have hv : vs = [] := by simpa using hvs
    rw [hv] at h
    simp [evalTerm, Op.ADD, Op.NONNUM] at h
  | cons w wr =>
    cases wr with
    | nil =>
      cases vs with
      | nil => simp at hvs
      | cons v vr =>
        cases vr with
        | cons _ _ => simp at hvs
        | nil =>
          simp only [List.map_cons, List.map_nil, List.cons.injEq, and_true] at hvs
          have hnl : ¬ ((st0 ++ [v]).length < 1) := by simp
          have hidx : (st0 ++ [v]).length - 1 = st0.length := by simp
          simp only [evalTerm, List.length_singleton, if_neg hnl, hidx, List.drop_left,
            List.take_left, evalChildren, if_true, evalUnary] at h
          simp [Op.ADD, Op.NONNUM, isUnary, Op.NEG, Op.NOT, Op.LNOT] at h
    | cons w2 wr2 =>
      cases ws1 with
      | nil => simp at hlen
      | cons u ur =>
        have hlen2 : ur.length = (w2 :: wr2).length := by simpa using hlen
        have hne : ur ≠ [] := by
          intro hu
          rw [hu] at hlen2
          simp at hlen2
        have h1 := (evalTerm_fold env ar subst vl zr st0 vs w (w2 :: wr2) Op.ADD d add_lt_NONNUM
          hvs (by simp)).1 _ (foldCalc_add ar hadd _ _)
        have h2 := (evalTerm_fold env ar subst vl zr st0 vs1 u ur Op.ADD d add_lt_NONNUM
          hvs1 hne).1 _ (foldCalc_add ar hadd _ _)
        rw [hlen2] at h2
        have e1 : (w :: w2 :: wr2).length = (w2 :: wr2).length + 1 := rfl
        rw [e1] at h ⊢
        rw [h1] at h
        rw [h2, ← h]
        have : u + ur.sum = w + (w2 :: wr2).sum := by
          simpa [List.sum_cons] using hsum
        rw [this]

theorem Evaluate_some_loop (env : Env) (ar : Arith) (subst : Option (List ExprTerm))
    (vl zr : Bool) (e : ExprTerms) (r : ExprTerm)
    (h : Evaluate env ar e subst vl zr = Except.ok (some r))
    (hn : ¬ ∃ t, e = [t] ∧ Numeric t) :
    evalLoop env ar subst vl zr e [] = Except.ok (some [r]) := by
  have hne : e ≠ [] := by
    intro he
    rw [he] at h
    simp [Evaluate] at h
  obtain ⟨h1, h2, h3, h4⟩ := Evaluate_of_loop env ar subst vl zr e hn hne
  cases hl : evalLoop env ar subst vl zr e [] with
  | error a => rw [h1 a hl] at h; simp at h
  | ok o =>
    cases o with
    | none => rw [h2 hl] at h; simp at h
    | some st =>
      by_cases hlen : st.length = 1
      · cases st with
        | nil => simp at hlen
        | cons x xs =>
          cases xs with
          | cons _ _ => simp at hlen
          | nil =>
            rw [h3 x hl] at h
            simp at h
            rw [h]
      · rw [h4 st hl hlen] at h
        simp at h

theorem CalcDistFunctor_value {env : Env} {relterm t : ExprTerm} {sub_loc rel_loc : Location}
    {st st1 : Unit} (h : CalcDistFunctor env st relterm sub_loc rel_loc = (true, t, st1)) :
    t = ⟨TermData.INT ((rel_loc.getOffset env : Int) - (sub_loc.getOffset env : Int)),
      relterm.m_depth⟩ := by
  unfold CalcDistFunctor at h
  cases hc : CalcDist env sub_loc rel_loc with
  | none => rw [hc] at h; simp at h
  | some dist =>
    rw [hc] at h
    simp only [Prod.mk.injEq, true_and] at h
    unfold CalcDist at hc
    cases h1 : sub_loc.bc with
    | none => rw [h1] at hc; simp at hc
    | some b1 =>
      cases h2 : rel_loc.bc with
      | none => rw [h1, h2] at hc; simp at hc
      | some b2 =>
        rw [h1, h2] at hc
        simp only [] at hc
        by_cases hcont : env.getContainer b1 = env.getContainer b2
        · rw [if_pos hcont] at hc
          simp at hc
          rw [← h.1, ← hc]
        · rw [if_neg hcont] at hc
          simp at hc

theorem lookupLoc_same_symbol (env : Env) {a b : ExprTerm} {sy : Nat}
    (ha : a.getSymbol = some sy) (hb : b.getSymbol = some sy) :
    lookupLoc env a.getSymbol a = lookupLoc env b.getSymbol b := by
  rw [ha, hb]
  simp [lookupLoc]

/-- One match of `TransformDistBase` with the `CalcDist` functor leaves the
sum of the values of the children of the root as it is: the additive term
becomes the distance, or zero for the same symbol, and the negated symbol
becomes zero. -/
theorem Block.matched {env : Env} {ar : Arith} {subst : Option (List ExprTerm)}
    {zr : Bool} (hmul : ∀ a b, ar.Calc Op.MUL a b = some (a * b))
    {before after T : ExprTerms} {root : ExprTerm} {ws : List Int}
    (hB : Block env ar subst zr before root after T ws) {pos r : Nat}
    (hlen : pos + 1 + after.length = T.length) {s : SubEntry}
    (hr : RelOK T pos root.m_depth r) (hrb : before.length ≤ pos - r)
    (hs : SubOK T pos root.m_depth s) (hsb : before.length ≤ pos - s.subroot)
    (hcross : r < s.subroot ∨ s.hi < r) {relterm subterm t : ExprTerm} {st st1 : Unit}
    (hrel : T[pos - r]? = some relterm) (hsubt : T[pos - s.subpos]? = some subterm)
    (hm : MatchedBy env (CalcDistFunctor env) relterm.getSymbol relterm subterm st t st1) :
    ∃ ws1, Block env ar subst zr before root after (clearSub (T.set (pos - r) t) pos s) ws1 ∧
      ws1.sum = ws.sum ∧ ws1.length = ws.length := by
  obtain ⟨t0, ht0, hrty, hrd⟩ := hr.term
  rw [hrel] at ht0
  simp only [Option.some.injEq] at ht0
  subst ht0
  obtain ⟨t1, ht1, hsty, _⟩ := hs.sym
  rw [hsubt] at ht1
  simp only [Option.some.injEq] at ht1
  subst ht1
  have hr1 := hr.pos_r
  have hr2 := hr.le_pos
  have h2 := hs.root_lt_sym
  have h3 := hs.root_lt_neg1
  have h4 := hs.sym_le
  have h5 := hs.neg1_le
  have hhi1 : s.subpos ≤ s.hi := by unfold SubEntry.hi; omega
  have hhi2 : s.subneg1 ≤ s.hi := by unfold SubEntry.hi; omega
  have hhi3 : s.hi ≤ pos := by unfold SubEntry.hi; omega
  have hilt : pos - r < T.length := lt_length_of_getElem? hrel
  -- the term left in the place of the additive term
  obtain ⟨a, hta⟩ : ∃ a : Int, t = ⟨TermData.INT a, root.m_depth + 1⟩ ∧
      ∀ locr locs, lookupLoc env relterm.getSymbol relterm = LocLookup.found locr →
        lookupLoc env subterm.getSymbol subterm = LocLookup.found locs →
        a = (locr.getOffset env : Int) - (locs.getOffset env : Int) := by
    rcases hm with ⟨hsome, hsame, hz, _⟩ | ⟨_, rel_loc, sub_loc, rbc, sbc, hl1, hl2, _, _, _, hf⟩
    · refine ⟨0, by rw [hz, ← hrd]; rfl, ?_⟩
      intro locr locs hlr hls
      obtain ⟨sy, hsy⟩ := Option.isSome_iff_exists.1 hsome
      rw [lookupLoc_same_symbol env hsy (by rw [← hsame, hsy])] at hlr
      rw [hlr] at hls
      simp only [LocLookup.found.injEq] at hls
      rw [hls]; omega
    · refine ⟨_, by rw [CalcDistFunctor_value hf, hrd], ?_⟩
      intro locr locs hlr hls
      rw [hl1] at hlr
      rw [hl2] at hls
      simp only [LocLookup.found.injEq] at hlr hls
      rw [hlr, hls]
  obtain ⟨hteq, hval⟩ := hta
  obtain ⟨w, v, ws1, hallr, hv, hsum1, hlen1, hB1⟩ :=
    hB.replace_leaf hlen hrb (by omega) hrel (isEmpty_false_of_SYM_LOC hrty)
      (isOp_false_of_SYM_LOC hrty) hrd a
  rw [← hteq] at hB1
  have hset : ∀ q, s.subroot ≤ q → q ≤ s.hi →
      (T.set (pos - r) t)[pos - q]? = T[pos - q]? := by
    intro q hq1 hq2
    rw [set_getElem?_eq T (pos - r) t (pos - q) hilt, if_neg (by omega)]
  have hs1 : SubOK (T.set (pos - r) t) pos root.m_depth s := hs.of_eq_on_span hset
  have hsubt1 : (T.set (pos - r) t)[pos - s.subpos]? = some subterm := by
    rw [hset s.subpos (by omega) hhi1]; exact hsubt
  obtain ⟨u, v2, ws2, halls, hv2, hsum2, hlen2, hB2⟩ :=
    hB1.clear_sub hmul (by rw [List.length_set]; exact hlen) hs1 hsb hsubt1
  refine ⟨ws2, hB2, ?_, by omega⟩
  obtain ⟨locr, hlr, hvr⟩ :=
    evalTerm_symloc_found env ar subst zr relterm hrty [] _ (hallr [])
  obtain ⟨locs, hls, hvs⟩ :=
    evalTerm_symloc_found env ar subst zr subterm hsty [] _ (halls [])
  have hw : w = (locr.getOffset env : Int) := by
    simp only [List.nil_append, List.cons.injEq, and_true] at hvr
    rw [hvr] at hv
    simp only [TermData.INT.injEq] at hv
    exact hv.symm
  have hu : u = (locs.getOffset env : Int) := by
    simp only [List.nil_append, List.cons.injEq, and_true] at hvs
    rw [hvs] at hv2
    simp only [TermData.INT.injEq] at hv2
    exact hv2.symm
  have := hval locr locs hlr hls
  omega

/-- A direct child of the root that the scan loop reaches is not among the
terms before the complete subtrees of the children. -/
theorem ProtectedBy.in_block {e before B after : ExprTerms} {root : ExprTerm} {x : Nat}
    (he : e = before ++ B ++ root :: after) (hc : ClosedAt root.m_depth before)
    (h : ProtectedBy e (before.length + B.length) x) : before.length ≤ x := by
  obtain ⟨hxq, tq, tx, htq, _, htx, hne, hd, hbetween⟩ := h
  have hroot : e[before.length + B.length]? = some root := by
    rw [he]; exact getElem?_split _ _ _ _ (by simp)
  rw [hroot] at htq
  simp only [Option.some.injEq] at htq
  subst htq
  by_contra hlt
  have hlt : x < before.length := Nat.lt_of_not_le hlt
  have hbx : before[x]? = some tx := by
    rw [he, List.append_assoc, List.getElem?_append_left hlt] at htx
    exact htx
  obtain ⟨P, Q, hbs, hP⟩ := split_of_getElem? hbx
  obtain ⟨u, hu, hune, hud⟩ := hc P tx Q hbs hne
  rcases List.mem_cons.1 hu with h1 | h1
  · rw [h1] at hud; omega
  · obtain ⟨k, hk⟩ := List.mem_iff_getElem?.1 h1
    have hklt : k < Q.length := lt_length_of_getElem? hk
    have hbl : before.length = x + 1 + Q.length := by rw [hbs]; simp; omega
    have hek : e[x + 1 + k]? = some u := by
      rw [he, List.append_assoc, List.getElem?_append_left (by omega), hbs,
        List.getElem?_append_right (by omega)]
      rw [show x + 1 + k - P.length = k + 1 by omega]
      simpa using hk
    rcases hbetween (x + 1 + k) u (by omega) (by omega) hek with h2 | h2
    · rw [h2] at hune; cases hune
    · omega

/-- The matching loops of `TransformDistBase` with the `CalcDist` functor
leave the sum of the values of the children of the root as it is. -/
theorem matchRels_block {env : Env} {ar : Arith} {subst : Option (List ExprTerm)} {zr : Bool}
    (hmul : ∀ a b, ar.Calc Op.MUL a b = some (a * b))
    {before after : ExprTerms} {root : ExprTerm} {pos : Nat} :
    ∀ (rels : List Nat) (T : ExprTerms) (subs : List SubEntry) (ws : List Int) (T1 : ExprTerms)
      (subs1 : List SubEntry) (st st1 : Unit),
      MatchInv T pos root.m_depth rels subs →
      (∀ r ∈ rels, before.length ≤ pos - r) →
      (∀ s ∈ subs, before.length ≤ pos - s.subroot) →
      pos + 1 + after.length = T.length →
      Block env ar subst zr before root after T ws →
      matchRels env (CalcDistFunctor env) pos rels T subs st = Except.ok (T1, subs1, st1) →
      ∃ ws1, Block env ar subst zr before root after T1 ws1 ∧ ws1.sum = ws.sum ∧
        ws1.length = ws.length := by
  intro rels
  induction rels with
  | nil =>
    intro T subs ws T1 subs1 st st1 _ _ _ _ hB h
    simp only [matchRels, Except.ok.injEq, Prod.mk.injEq] at h
    rw [← h.1]
    exact ⟨ws, hB, rfl, rfl⟩
  | cons r rels ih =>
    intro T subs ws T1 subs1 st st1 hinv hrb hsb hlen hB h
    rw [matchRels] at h
    cases hrel : T[pos - r]? with
    | none => rw [hrel] at h; simp at h
    | some relterm =>
      rw [hrel] at h
      simp only [] at h
      cases hms : matchSubs env (CalcDistFunctor env) pos (pos - r) relterm.getSymbol [] subs T st
        with
      | error a => rw [hms] at h; simp at h
      | ok res =>
        obtain ⟨T2, subs2, st2⟩ := res
        rw [hms] at h
        simp only [] at h
        rcases matchSubs_ok (CalcDistFunctor_failsClean env) hms with
          ⟨hT2, hsubs2, _, _⟩ | ⟨pre, s, post, hsplit, hm, hsubs2, _, hpair⟩
        · rw [hT2] at h
          rw [hsubs2] at h
          exact ih T subs ws T1 subs1 st2 st1 hinv.tail
            (fun r' hr' => hrb r' (List.mem_cons_of_mem _ hr')) hsb hlen hB
            (by simpa using h)
        · simp only [List.nil_append] at hsplit hsubs2
          obtain ⟨relterm1, subterm, t, hrel1, hsubt, hT2, hmb⟩ := matchPair_matched hpair
          rw [hrel] at hrel1
          simp only [Option.some.injEq] at hrel1
          subst hrel1
          rw [hsplit] at hinv hsb
          have hsmem : s ∈ pre ++ s :: post := by simp
          obtain ⟨ws2, hB2, hsum2, hlen2⟩ :=
            hB.matched hmul hlen (hinv.rel_ok r (List.mem_cons_self _ _))
              (hrb r (List.mem_cons_self _ _)) (hinv.sub_ok s hsmem hm) (hsb s hsmem)
              (hinv.cross r (List.mem_cons_self _ _) s hsmem hm) hrel hsubt hmb
          have hinv2 := hinv.hit hm t
          rw [← hT2] at hinv2 hB2
          have hsb2 : ∀ s' ∈ subs2, before.length ≤ pos - s'.subroot := by
            intro s' hs'
            rw [hsubs2] at hs'
            rcases List.mem_append.1 hs' with h1 | h1
            · exact hsb s' (List.mem_append_left _ h1)
            · rcases List.mem_cons.1 h1 with h2 | h2
              · rw [h2]; exact hsb s hsmem
              · exact hsb s' (List.mem_append_right _ (List.mem_cons_of_mem _ h2))
          have hlenT2 : pos + 1 + after.length = T2.length := by
            rw [hT2, clearSub_length, List.length_set]; exact hlen
          rw [← hsubs2] at hinv2
          obtain ⟨ws3, hB3, hsum3, hlen3⟩ := ih T2 subs2 ws2 T1 subs1 st2 st1 hinv2
            (fun r' hr' => hrb r' (List.mem_cons_of_mem _ hr')) hsb2 hlenT2 hB2 h
          exact ⟨ws3, hB3, by omega, by omega⟩

theorem wellFormed_exprSub (A B : Nat) (d : Int) : WellFormed (exprSub A B d) := by
  have f0 : Forest (d + 1) 1 ([] ++ [⟨TermData.SYM A, d + 1⟩]) :=
    Forest.leaf _ (Forest.nil _) rfl rfl rfl
  have f1 : Forest (d + 1 + 1) 2
      ([] ++ [⟨TermData.SYM B, d + 2⟩] ++ [⟨TermData.INT (-1), d + 2⟩]) :=
    Forest.leaf _ (Forest.leaf _ (Forest.nil _) rfl rfl (by simp only; omega)) rfl rfl
      (by simp only; omega)
  have f2 := Forest.node Op.MUL f0 f1
  have f3 := Forest.node Op.ADD (Forest.nil d) f2
  exact ⟨d, by simpa [exprSub] using f3⟩

theorem integerExpr_exprSub (A B : Nat) (d : Int) : IntegerExpr (exprSub A B d) none := by
  refine ⟨fun t ht f => ?_, fun arr h => by cases h⟩
  simp only [exprSub, List.mem_cons, List.mem_singleton, List.not_mem_nil, or_false] at ht
  rcases ht with h | h | h | h | h <;> rw [h] <;> simp

theorem not_numeric_of_OP {t : ExprTerm} {op : Op} {k : Nat} (h : t.data = TermData.OP op k) :
    ¬ Numeric t := by
  intro hn
  rcases hn.data with ⟨v, hv⟩ | ⟨v, hv⟩ <;> rw [h] at hv <;> cases hv

/-- One round of `apply_prefixes_common` with `*rex` 0xff: it ends normally,
`*rex` is still 0xff and `m_mode_bits` is unchanged. -/
theorem applyPrefix_rex_ff (d : Nat) (s : PrefixState) (pfx : X86Prefix)
    (h : s.rex = some 0xff) :
    ∃ s1, applyPrefix d s pfx = Except.ok s1 ∧ s1.rex = some 0xff ∧
      s1.common.m_mode_bits = s.common.m_mode_bits := by
  obtain ⟨c, rex, first, warns⟩ := s
  simp only at h
  subst h
  unfold applyPrefix
  cases pfx.type
  · by_cases hl : c.m_lockrep_pre ≠ 0 <;> simp [hl, PrefixState.warn_set]
  · simp
  · simp only
    split_ifs <;> simp [PrefixState.warn_set]
  · simp
  · simp [PrefixState.warn_set]

theorem applyPrefixes_rex_ff (d : Nat) : ∀ (prefixes : List X86Prefix) (s : PrefixState),
    s.rex = some 0xff →
    ∃ s1, applyPrefixes d s prefixes = Except.ok s1 ∧ s1.rex = some 0xff ∧
      s1.common.m_mode_bits = s.common.m_mode_bits := by
  intro prefixes
  induction prefixes with
  | nil => intro s h; exact ⟨s, rfl, h, rfl⟩
  | cons p rest ih =>
    intro s h
    obtain ⟨s1, h1, hr1, hm1⟩ := applyPrefix_rex_ff d s p h
    obtain ⟨s2, h2, hr2, hm2⟩ := ih s1 hr1
    refine ⟨s2, ?_, hr2, hm2.trans hm1⟩
    rw [applyPrefixes, h1]
    exact h2

/-- Complete subtrees with `n` roots at depth `d` hold exactly `n` non-empty
terms at depth `d`. -/
theorem Forest.countP_roots {d : Int} {n : Nat} {ts : ExprTerms} (h : Forest d n ts) :
    ts.countP (isRootAt d) = n := by
  induction h with
  | nil d => rfl
  | @empty d n ts t _ ht ih =>
    rw [List.countP_append, ih]
    simp [isRootAt, ht]
  | @leaf d n ts t _ hne _ hd ih =>
    rw [List.countP_append, ih]
    simp [isRootAt, hne, hd]
  | @node d n k ts cs op _ hcs ih _ =>
    rw [List.countP_append, List.countP_append, ih]
    have h0 : cs.countP (isRootAt d) = 0 := by
      rw [List.countP_eq_zero]
      intro t ht
      by_cases hne : t.isEmpty = true
      · simp [isRootAt, hne]
      · have hne1 : t.isEmpty = false := by simpa using hne
        have := hcs.depth_ge t ht hne1
        have hd : t.m_depth ≠ d := by omega
        simp [isRootAt, hd]
    rw [h0]
    have h1 : (⟨TermData.OP op k, d⟩ : ExprTerm).isEmpty = false := isEmpty_false_of_OP rfl
    simp [isRootAt, h1]

theorem countP_take_succ (q : ExprTerm → Bool) (e : ExprTerms) (L n : Nat) (t : ExprTerm)
    (ht : e[n]? = some t) :
    ((e.take (n + 1)).drop L).countP q
      = ((e.take n).drop L).countP q + (([t] : ExprTerms).drop (L - n)).countP q := by
  have hlt : n < e.length := (List.getElem?_eq_some.1 ht).1
  rw [List.take_succ, ht, List.drop_append_eq_append_drop, List.countP_append, List.length_take]
  have : min n e.length = n := by omega
  rw [this]
  rfl

theorem scanChild_not_oob {e : ExprTerms} {d : Int} {n : Nat} (hn : n < e.length) :
    scanChild e d n ≠ ScanStep.oob := by
  intro h
  have ht : e[n]? = some e[n] := List.getElem?_eq_getElem hn
  simp only [scanChild, ht] at h
  repeat' split at h
  all_goals cases h

/-- The scan loop below an `ADD` root whose direct children are the roots of
the complete subtrees `B`: the entries recorded and the direct children still
to come are together never more than the bound `K` of at most 32, so that
the loop writes no array at 32 or beyond and its only error is the one for a
position of 0xff or more. -/
theorem scanFlat_count {e before B after : ExprTerms} {root : ExprTerm} {K : Nat}
    (he : e = before ++ B ++ root :: after) (hc : ClosedAt root.m_depth before)
    (hadd : root.isOpOf Op.ADD = true) (hK : K ≤ 32) :
    ∀ (n : Nat) (rel : List Nat) (sub : List SubEntry), n ≤ before.length + B.length →
      Visible e (before.length + B.length) root.m_depth n →
      rel.length + sub.length
        + ((e.take n).drop before.length).countP (isRootAt (root.m_depth + 1)) ≤ K →
      (∀ a, scanFlat e (before.length + B.length) root.m_depth n rel sub = Except.error a →
        a = Abort.TooComplexError "expression too large") ∧
      (∀ rels subs, scanFlat e (before.length + B.length) root.m_depth n rel sub
          = Except.ok (rels, subs) → rels.length + subs.length ≤ K) := by
  have hroot : e[before.length + B.length]? = some root := by
    rw [he]; exact getElem?_split _ _ _ _ (by simp)
  have hlen : before.length + B.length < e.length := (List.getElem?_eq_some.1 hroot).1
  intro n
  induction n with
  | zero =>
    intro rel sub _ _ hcnt
    refine ⟨fun a h => ?_, fun rels subs h => ?_⟩
    · simp [scanFlat] at h
    · simp only [scanFlat, Except.ok.injEq, Prod.mk.injEq] at h
      obtain ⟨h1, h2⟩ := h
      subst h1; subst h2
      omega
  | succ n ih =>
    intro rel sub hn hvis hcnt
    have hnl : n < e.length := by omega
    have ht : e[n]? = some e[n] := List.getElem?_eq_getElem hnl
    have hstep := countP_take_succ (isRootAt (root.m_depth + 1)) e before.length n _ ht
    rw [hstep] at hcnt
    have hchild : ∀ t, e[n]? = some t → t.isEmpty = false → t.m_depth = root.m_depth + 1 →
        (([e[n]] : ExprTerms).drop (before.length - n)).countP (isRootAt (root.m_depth + 1))
          = 1 := by
      intro t ht1 hne hd
      have hp := ProtectedBy.of_visible hroot hadd rfl (by omega) hvis ht1 hne hd
      have hb := ProtectedBy.in_block he hc hp
      have h0 : before.length - n = 0 := by omega
      rw [ht] at ht1
      simp only [Option.some.injEq] at ht1
      rw [h0, List.drop_zero, ht1]
      simp [isRootAt, hne, hd]
    cases hsc : scanChild e root.m_depth n with
    | oob => exact absurd hsc (scanChild_not_oob hnl)
    | stop =>
      refine ⟨fun a h => ?_, fun rels subs h => ?_⟩
      · rw [scanFlat, hsc] at h; cases h
      · rw [scanFlat, hsc] at h
        simp only [Except.ok.injEq, Prod.mk.injEq] at h
        obtain ⟨h1, h2⟩ := h
        subst h1; subst h2
        omega
    | skip =>
      have := ih rel sub (by omega) (hvis.down (by rw [hsc]; simp)) (by omega)
      rw [scanFlat, hsc]
      exact this
    | rel =>
      obtain ⟨t, ht1, hty, hd⟩ := scanChild_rel hsc
      have h1 := hchild t ht1 (isEmpty_false_of_SYM_LOC hty) hd
      rw [h1] at hcnt
      have := ih (rel ++ [before.length + B.length - n]) sub (by omega)
        (hvis.down (by rw [hsc]; simp)) (by rw [List.length_append]; simp; omega)
      rw [scanFlat, hsc]
      simp only []
      split
      · exact ⟨fun a h => by cases h; rfl, fun rels subs h => by cases h⟩
      · rw [if_neg (by omega)]
        exact this
    | sub a b c =>
      obtain ⟨hok, t, ht1, hd⟩ := scanChild_sub hsc
      obtain ⟨se, hse, hmul, _⟩ := hok.root
      have hne : t.isEmpty = false := by
        rw [ht1] at hse
        simp only [Option.some.injEq] at hse
        subst hse
        exact isEmpty_false_of_OP (data_of_isOpOf hmul rfl)
      have h1 := hchild t ht1 hne hd
      rw [h1] at hcnt
      have := ih rel (sub ++ [⟨before.length + B.length - a, before.length + B.length - b,
        before.length + B.length - n⟩]) (by omega)
        (hvis.down (by rw [hsc]; simp)) (by rw [List.length_append]; simp; omega)
      rw [scanFlat, hsc]
      simp only []
      split
      · exact ⟨fun a h => by cases h; rfl, fun rels subs h => by cases h⟩
      · rw [if_neg (by omega)]
        exact this

/-- The scan of `TransformDistBase` at an `ADD` term of a well-formed
expression with at most 32 children: it ends normally or with the error for a
position of 0xff or more, and it records no more entries than the term has
children. -/
theorem scanTerms_count {e : ExprTerms} {p : Nat} {root : ExprTerm} (hwf : WellFormed e)
    (hp : e[p]? = some root) (hadd : root.isOpOf Op.ADD = true)
    (hnum : root.getNumChild ≤ 32) :
    (∀ a, scanTerms e p root.m_depth p p [] [] = Except.error a →
      a = Abort.TooComplexError "expression too large") ∧
    (∀ rels subs, scanTerms e p root.m_depth p p [] [] = Except.ok (rels, subs) →
      rels.length + subs.length ≤ root.getNumChild) := by
  obtain ⟨d0, hf⟩ := hwf
  obtain ⟨L, R, he, hL⟩ := split_of_getElem? hp
  have hdata := data_of_isOpOf hadd rfl
  obtain ⟨before, B, hpre, hB, hc⟩ := hf.children_closed L R root Op.ADD _ he hdata
  have he1 : e = before ++ B ++ root :: R := by rw [he, hpre]
  have hpl : p = before.length + B.length := by rw [← hL, hpre, List.length_append]
  rw [scanTerms_eq_scanFlat _ _ _ _ _ _ _ (le_refl _), hpl]
  refine scanFlat_count he1 hc hadd hnum _ [] [] (le_refl _) (Visible.top _ _ _) ?_
  have htake : (e.take (before.length + B.length)).drop before.length = B := by
    rw [he1, List.append_assoc, List.take_append_eq_append_take]
    simp
  rw [htake, hB.countP_roots]
  simp

theorem optionPos_of_drop {positions : List Nat} {num : Nat} {xs : List Nat}
    (h : positions.drop num = xs) : optionPos positions num = Except.ok (xs.headD 0) := by
  subst h
  unfold optionPos getPosition
  by_cases hn : num < positions.length
  · rw [if_pos hn, List.getElem?_eq_getElem hn, List.drop_eq_getElem_cons hn]
    rfl
  · rw [if_neg hn, List.drop_eq_nil_of_le (by omega)]
    rfl

theorem drop_succ_of_drop {positions : List Nat} {num : Nat} {x : Nat} {xs : List Nat}
    (h : positions.drop num = x :: xs) : positions.drop (num + 1) = xs := by
  have : positions.drop (num + 1) = (positions.drop num).drop 1 := by
    rw [List.drop_drop, Nat.add_comm]
  rw [this, h]
  rfl

theorem positionsOf_cons_self (o : WarnOption) (p : Nat) (rest : List (Nat × WarnOption)) :
    positionsOf o ((p, o) :: rest) = p :: positionsOf o rest := by
  simp [positionsOf]

theorem positionsOf_cons_ne {o k : WarnOption} (p : Nat) (rest : List (Nat × WarnOption))
    (h : k ≠ o) : positionsOf o ((p, k) :: rest) = positionsOf o rest := by
  simp [positionsOf, h]

/-- The first position of an option on the rest of the command line, 0 for
none, is 0 or beyond every position before. -/
theorem positionsOf_headD_gt (o : WarnOption) (p : Nat) (rest : List (Nat × WarnOption))
    (h : ∀ x ∈ rest, p < x.1) :
    (positionsOf o rest).headD 0 = 0 ∨ p < (positionsOf o rest).headD 0 := by
  cases hl : positionsOf o rest with
  | nil => exact Or.inl rfl
  | cons q qs =>
    right
    have hq : q ∈ positionsOf o rest := by rw [hl]; exact List.mem_cons_self _ _
    simp only [positionsOf, List.mem_map, List.mem_filter] at hq
    obtain ⟨x, ⟨hx, _⟩, hxq⟩ := hq
    have := h x hx
    simp only [List.headD_cons]
    omega

theorem positionsOf_length_sum (occs : List (Nat × WarnOption)) :
    (positionsOf WarnOption.inhibit_warnings occs).length
      + (positionsOf WarnOption.enable_warnings occs).length
      + (positionsOf WarnOption.fatal_warnings occs).length
      + (positionsOf WarnOption.no_signed_overflow occs).length = occs.length := by
  induction occs with
  | nil => rfl
  | cons x rest ih =>
    obtain ⟨p, k⟩ := x
    cases k
    · rw [positionsOf_cons_self, positionsOf_cons_ne _ _ (by decide),
        positionsOf_cons_ne _ _ (by decide), positionsOf_cons_ne _ _ (by decide)]
      simp only [List.length_cons]; omega
    · rw [positionsOf_cons_self, positionsOf_cons_ne _ _ (by decide),
        positionsOf_cons_ne _ _ (by decide), positionsOf_cons_ne _ _ (by decide)]
      simp only [List.length_cons]; omega
    · rw [positionsOf_cons_self, positionsOf_cons_ne _ _ (by decide),
        positionsOf_cons_ne _ _ (by decide), positionsOf_cons_ne _ _ (by decide)]
      simp only [List.length_cons]; omega
    · rw [positionsOf_cons_self, positionsOf_cons_ne _ _ (by decide),
        positionsOf_cons_ne _ _ (by decide), positionsOf_cons_ne _ _ (by decide)]
      simp only [List.length_cons]; omega

/-- The loop of `ApplyWarningSettings` from a state whose counters stand at
the occurrences `rest` still to come: it handles them one per round in the
order of the command line, breaks in the round after, and leaves every
counter at the size of its list. -/
theorem ApplyWarningSettings_loop_rest (I E F S : List Nat) :
    ∀ (rest : List (Nat × WarnOption)) (s : WarnLoopState) (fuel : Nat),
      (∀ x ∈ rest, 0 < x.1) → rest.Pairwise (fun a b => a.1 < b.1) →
      I.drop s.inhibit_num = positionsOf WarnOption.inhibit_warnings rest →
      E.drop s.enable_num = positionsOf WarnOption.enable_warnings rest →
      F.drop s.fatal_num = positionsOf WarnOption.fatal_warnings rest →
      S.drop s.signed_num = positionsOf WarnOption.no_signed_overflow rest →
      s.inhibit_num ≤ I.length → s.enable_num ≤ E.length → s.fatal_num ≤ F.length →
      s.signed_num ≤ S.length →
      ApplyWarningSettings.loop I E F S fuel s =
        if fuel ≤ rest.length then Except.error Abort.fuel
        else Except.ok ⟨specWarningSettings rest s.diags, I.length, E.length, F.length,
          S.length⟩ := by
  intro rest
  induction rest with
  | nil =>
    intro s fuel _ _ hI hE hF hS hi he hf hs
    cases fuel with
    | zero => rfl
    | succ fuel =>
      rw [ApplyWarningSettings.loop, optionPos_of_drop hI, optionPos_of_drop hE,
        optionPos_of_drop hF, optionPos_of_drop hS]
      have h1 := congrArg List.length hI
      have h2 := congrArg List.length hE
      have h3 := congrArg List.length hF
      have h4 := congrArg List.length hS
      simp only [positionsOf, List.filter_nil, List.map_nil, List.length_nil,
        List.length_drop] at h1 h2 h3 h4
      have e1 : s.inhibit_num = I.length := by omega
      have e2 : s.enable_num = E.length := by omega
      have e3 : s.fatal_num = F.length := by omega
      have e4 : s.signed_num = S.length := by omega
      obtain ⟨d, a, b, c, e⟩ := s
      simp only at e1 e2 e3 e4
      subst e1; subst e2; subst e3; subst e4
      simp [positionsOf, specWarningSettings]
  | cons x rest ih =>
    intro s fuel hpos hinc hI hE hF hS hi he hf hs
    obtain ⟨p, k⟩ := x
    have hp : 0 < p := hpos (p, k) (List.mem_cons_self _ _)
    have hgt : ∀ y ∈ rest, p < y.1 := (List.pairwise_cons.1 hinc).1
    have hinc1 := (List.pairwise_cons.1 hinc).2
    have hpos1 : ∀ y ∈ rest, 0 < y.1 := fun y hy => hpos y (List.mem_cons_of_mem _ hy)
    have gI := positionsOf_headD_gt WarnOption.inhibit_warnings p rest hgt
    have gE := positionsOf_headD_gt WarnOption.enable_warnings p rest hgt
    have gF := positionsOf_headD_gt WarnOption.fatal_warnings p rest hgt
    have gS := positionsOf_headD_gt WarnOption.no_signed_overflow p rest hgt
    cases fuel with
    | zero => rfl
    | succ fuel =>
      rw [ApplyWarningSettings.loop, optionPos_of_drop hI, optionPos_of_drop hE,
        optionPos_of_drop hF, optionPos_of_drop hS]
      cases k
      · rw [positionsOf_cons_self] at hI
        rw [positionsOf_cons_ne _ _ (by decide)] at hE hF hS
        have hlen := congrArg List.length hI
        simp only [List.length_drop, List.length_cons] at hlen
        rw [positionsOf_cons_self, positionsOf_cons_ne _ _ (by decide),
          positionsOf_cons_ne _ _ (by decide), positionsOf_cons_ne _ _ (by decide)]
        simp only [List.headD_cons]
        rw [if_pos ⟨by omega, gE, gF, gS⟩]
        refine (ih ⟨s.diags.setIgnoreAllWarnings true, s.inhibit_num + 1, s.enable_num, s.fatal_num,
            s.signed_num⟩
          fuel hpos1 hinc1 (drop_succ_of_drop hI) hE hF hS (by simp only; omega) he hf
          hs).trans ?_
        simp only [List.length_cons, Nat.add_le_add_iff_right]
        rfl
      · rw [positionsOf_cons_self] at hE
        rw [positionsOf_cons_ne _ _ (by decide)] at hI hF hS
        have hlen := congrArg List.length hE
        simp only [List.length_drop, List.length_cons] at hlen
        rw [positionsOf_cons_self, positionsOf_cons_ne _ _ (by decide),
          positionsOf_cons_ne _ _ (by decide), positionsOf_cons_ne _ _ (by decide)]
        simp only [List.headD_cons]
        rw [if_neg (by omega), if_pos ⟨by omega, gI, gF, gS⟩]
        refine (ih ⟨((s.diags.setIgnoreAllWarnings false).setWarningsAsErrors
              false).setSignedOverflowMapping Mapping.MAP_WARNING,
            s.inhibit_num, s.enable_num + 1, s.fatal_num, s.signed_num⟩
          fuel hpos1 hinc1 hI (drop_succ_of_drop hE) hF hS hi (by simp only; omega) hf
          hs).trans ?_
        simp only [List.length_cons, Nat.add_le_add_iff_right]
        rfl
      · rw [positionsOf_cons_self] at hF
        rw [positionsOf_cons_ne _ _ (by decide)] at hI hE hS
        have hlen := congrArg List.length hF
        simp only [List.length_drop, List.length_cons] at hlen
        rw [positionsOf_cons_self, positionsOf_cons_ne _ _ (by decide),
          positionsOf_cons_ne _ _ (by decide), positionsOf_cons_ne _ _ (by decide)]
        simp only [List.headD_cons]
        rw [if_neg (by omega), if_neg (by omega), if_pos ⟨by omega, gE, gI, gS⟩]
        refine (ih ⟨s.diags.setWarningsAsErrors true, s.inhibit_num, s.enable_num, s.fatal_num + 1,
            s.signed_num⟩
          fuel hpos1 hinc1 hI hE (drop_succ_of_drop hF) hS hi he (by simp only; omega)
          hs).trans ?_
        simp only [List.length_cons, Nat.add_le_add_iff_right]
        rfl
      · rw [positionsOf_cons_self] at hS
        rw [positionsOf_cons_ne _ _ (by decide)] at hI hE hF
        have hlen := congrArg List.length hS
        simp only [List.length_drop, List.length_cons] at hlen
        rw [positionsOf_cons_self, positionsOf_cons_ne _ _ (by decide),
          positionsOf_cons_ne _ _ (by decide), positionsOf_cons_ne _ _ (by decide)]
        simp only [List.headD_cons]
        rw [if_neg (by omega), if_neg (by omega), if_neg (by omega),
          if_pos ⟨by omega, gE, gF, gI⟩]
        refine (ih ⟨s.diags.setSignedOverflowMapping Mapping.MAP_IGNORE, s.inhibit_num, s.enable_num,
            s.fatal_num, s.signed_num + 1⟩
          fuel hpos1 hinc1 hI hE hF (drop_succ_of_drop hS) hi he hf
          (by simp only; omega)).trans ?_
        simp only [List.length_cons, Nat.add_le_add_iff_right]
        rfl

/-- `Evaluate` cannot get past a term that is not a number and at which every
round of the loop that comes to it returns false. -/
theorem FalseAt.of_reached (env : Env) (ar : Arith) (subst : Option (List ExprTerm))
    (vl zr : Bool) (pre post : ExprTerms) (t : ExprTerm)
    (hwf : WellFormed (pre ++ t :: post)) (hnn : ¬ Numeric t)
    (hstop : ∀ st, evalLoop env ar subst vl zr pre [] = Except.ok (some st) →
      evalTerm env ar subst vl zr st t = Except.ok none ∨
      evalTerm env ar subst vl zr st t = Except.error notEnoughTerms) :
    FalseAt env ar subst vl zr (pre ++ t :: post) pre t := by
  have hs : ¬ ∃ u, pre ++ t :: post = [u] ∧ Numeric u := by
    rintro ⟨u, hu, hnum⟩
    have hpre : pre = [] := by
      cases pre with
      | nil => rfl
      | cons p ps =>
        have := congrArg List.length hu
        simp at this
    rw [hpre] at hu
    simp at hu
    exact hnn (hu.1 ▸ hnum)
  have hl := Evaluate_of_loop env ar subst vl zr _ hs hwf.ne_nil
  have hsp := evalLoop_split env ar subst vl zr pre post t []
  have hw := Evaluate_wellFormed env ar subst vl zr hwf
  have hnot : Evaluate env ar (pre ++ t :: post) subst vl zr ≠ Except.error notEnoughTerms :=
    fun h => (hw.1 _ h).1.ne_notEnoughTerms rfl
  have hsome : ∀ st, evalLoop env ar subst vl zr pre [] = Except.ok (some st) →
      evalTerm env ar subst vl zr st t = Except.ok none ∧
      Evaluate env ar (pre ++ t :: post) subst vl zr = Except.ok none := by
    intro st hst
    rcases hstop st hst with h2 | h2
    · exact ⟨h2, hl.2.1 ((hsp.2.2 st hst).2.1 h2)⟩
    · exact absurd (hl.1 _ ((hsp.2.2 st hst).1 _ h2)) hnot
  have hnone : evalLoop env ar subst vl zr pre [] = Except.ok none →
      Evaluate env ar (pre ++ t :: post) subst vl zr = Except.ok none :=
    fun h => hl.2.1 (hsp.2.1 h)
  have hmain : Evaluate env ar (pre ++ t :: post) subst vl zr = Except.ok none ∨
      ∃ a, Evaluate env ar (pre ++ t :: post) subst vl zr = Except.error a ∧
        evalLoop env ar subst vl zr pre [] = Except.error a ∧ EarlyEnd ar subst pre a := by
    cases hp : evalLoop env ar subst vl zr pre [] with
    | error x =>
      have hx := hl.1 x (hsp.1 x hp)
      refine Or.inr ⟨x, hx, rfl, ?_⟩
      rcases evalLoop_error_kinds env ar subst vl zr pre [] (fun y hy => by simp at hy) x hp
        with h1 | h1
      · exact h1
      · rw [h1] at hx; exact absurd hx hnot
    | ok o =>
      cases o with
      | none => exact Or.inl (hnone hp)
      | some st => exact Or.inl (hsome st hp).2
  refine ⟨fun r hr => ?_, hmain, hsome, hnone, fun har hsub hops => ?_⟩
  · rcases hmain with h | ⟨a, h, _⟩ <;> rw [h] at hr <;> simp at hr
  · rcases hmain with h | ⟨a, _, _, h⟩
    · exact h
    · exact (h.impossible har hsub hops).elim

/-- The fold over the children for two numeric operands of which one is a
float and an operator that is not below `Op::NEG`: `return false`. -/
theorem evalChildren_float_pair (ar : Arith) (op : Op) (x y : ExprTerm) (hx : Numeric x)
    (hy : Numeric y) (hop : Op.NEG ≤ op)
    (hf : (∃ f, x.data = TermData.FLOAT f) ∨ ∃ f, y.data = TermData.FLOAT f) :
    evalChildren ar op x [y] = Except.ok none := by
  have hop1 : ¬ op < Op.NEG := Nat.not_lt.2 hop
  rcases hx.data with ⟨a, ha⟩ | ⟨a, ha⟩ <;> rcases hy.data with ⟨b, hb⟩ | ⟨b, hb⟩
  · rcases hf with ⟨f, h⟩ | ⟨f, h⟩
    · rw [ha] at h; cases h
    · rw [hb] at h; cases h
  · simp [evalChildren, ha, hb, hop1]
  · simp [evalChildren, ha, hb, hop1]
  · simp [evalChildren, ha, hb, hop1]

theorem drop_last_two {α : Type} (st : List α) (h : 2 ≤ st.length) :
    ∃ x y, st.drop (st.length - 2) = [x, y] := by
  have hl : (st.drop (st.length - 2)).length = 2 := by rw [List.length_drop]; omega
  match hd : st.drop (st.length - 2), hl with
  | [x, y], _ => exact ⟨x, y, rfl⟩

/-- The round of the loop of `Evaluate` on an operator from `Op::NEG` to
below `Op::NONNUM` with two children, on a numeric stack whose last two terms
are not both integers: `return false` (or the assertion on the size of the
stack). -/
theorem evalTerm_binary_float (env : Env) (ar : Arith) (subst : Option (List ExprTerm))
    (vl zr : Bool) (st : List ExprTerm) (t : ExprTerm) (op : Op)
    (ht : t.data = TermData.OP op 2) (hlo : Op.NEG ≤ op) (hhi : op < Op.NONNUM)
    (hnum : ∀ x ∈ st, Numeric x)
    (hf : ∃ x ∈ st.drop (st.length - 2), ∃ f, x.data = TermData.FLOAT f) :
    evalTerm env ar subst vl zr st t = Except.ok none ∨
    evalTerm env ar subst vl zr st t = Except.error notEnoughTerms := by
  by_cases hl : st.length < 2
  · right; simp [evalTerm, ht, hl, notEnoughTerms]
  · left
    obtain ⟨x, y, hxy⟩ := drop_last_two st (by omega)
    have hmem : ∀ z ∈ [x, y], z ∈ st := fun z hz => List.mem_of_mem_drop (hxy ▸ hz)
    have hx := hnum x (hmem x (by simp))
    have hy := hnum y (hmem y (by simp))
    have hfl : (∃ f, x.data = TermData.FLOAT f) ∨ ∃ f, y.data = TermData.FLOAT f := by
      obtain ⟨z, hz, f, hzf⟩ := hf
      rw [hxy] at hz
      simp only [List.mem_cons, List.mem_singleton, List.not_mem_nil, or_false] at hz
      rcases hz with h | h
      · exact Or.inl ⟨f, h ▸ hzf⟩
      · exact Or.inr ⟨f, h ▸ hzf⟩
    have hnn : ¬ Op.NONNUM ≤ op := Nat.not_le.2 hhi
    simp only [evalTerm, ht, hl, hnn, if_false, hxy,
      evalChildren_float_pair ar op x y hx hy hlo hfl]

/-- The round of the loop of `Evaluate` on a unary operator, on a stack whose
last term is a float: `Op::NEG` flips the sign, the other unary operators
`return false`. -/
theorem evalTerm_unary_float (env : Env) (ar : Arith) (subst : Option (List ExprTerm))
    (vl zr : Bool) (s0 : List ExprTerm) (x t : ExprTerm) (op : Op) (f : APFloat)
    (ht : t.data = TermData.OP op 1) (hu : isUnary op = true)
    (hx : x.data = TermData.FLOAT f) :
    evalTerm env ar subst vl zr (s0 ++ [x]) t =
      if op = Op.NEG then
        Except.ok (some (s0 ++ [⟨TermData.FLOAT (ar.changeSign f), t.m_depth⟩]))
      else Except.ok none := by
  have hnn : ¬ Op.NONNUM ≤ op := by
    simp only [isUnary, Bool.or_eq_true, beq_iff_eq] at hu
    rcases hu with (h | h) | h <;> rw [h] <;> decide
  have hdrop : (s0 ++ [x]).drop ((s0 ++ [x]).length - 1) = [x] := by simp
  have htake : (s0 ++ [x]).take ((s0 ++ [x]).length - 1) = s0 := by simp
  have hlen : ¬ (s0 ++ [x]).length < 1 := by simp
  simp only [evalTerm, ht, hlen, hnn, if_false, hdrop, htake, evalChildren, evalUnary, hu,
    if_true, hx]
  by_cases hneg : op = Op.NEG
  · simp [hneg]
  · simp [hneg]

/-- A call of the callable that `SubstDist` hands to `Simplify` leaves the
counter of `functor` as it was: the call counts on its own copy. -/
theorem SubstDist_bound_m_subst {env : Env} {e e1 : ExprTerms} {pos : Int}
    {st st1 : SubstState} (h : SubstDist.bound env e pos st = Except.ok (e1, st1)) :
    st1.m_subst = st.m_subst := by
  unfold SubstDist.bound at h
  split at h
  · cases h
  · simp only [Except.ok.injEq, Prod.mk.injEq] at h
    rw [← h.2]

/-- The counter of `functor` that `SubstDist` returns is 0. -/
theorem SubstDist_m_subst_zero {env : Env} {e e1 : ExprTerms} {st1 : SubstState}
    (h : SubstDist env e = Except.ok (e1, st1)) : st1.m_subst = 0 := by
  unfold SubstDist Simplify at h
  split at h
  · cases h
  · rename_i e2 st2 hw
    simp only [Except.ok.injEq, Prod.mk.injEq] at h
    rw [← h.2]
    exact simplifyWalk_invariant _ (fun s => s.m_subst = 0)
      (fun e pos st e1 st1 hP hf => (SubstDist_bound_m_subst hf).trans hP)
      _ _ _ _ _ rfl hw

/-- One call of `TransformDistBase` with a fresh copy of the functor: the
callback is called with the indices `0, 1, ...` in this order, as many times
as the copy has counted. -/
theorem TransformDistBase_fresh_calls {env : Env} {e e1 : ExprTerms} {pos : Int}
    {st1 : SubstState}
    (h : TransformDistBase env SubstDistFunctor e pos ⟨0, []⟩ = Except.ok (e1, st1)) :
    CallsInOrder st1 ∧ st1.calls.length = st1.m_subst := by
  obtain ⟨new, c1, c2, c3⟩ := TransformDistBase_subst h
  have h0 : CallsInOrder (⟨0, []⟩ : SubstState) := by simp [CallsInOrder]
  have hc : CallsInOrder st1 := h0.step new c1 c2 (fun k hk => (c3 k hk).1)
  refine ⟨hc, ?_⟩
  have := congrArg List.length hc
  simpa using this

/-- The run of `do_assemble` after its head, by what the collaborators
answer. -/
theorem do_assemble_run_spec (r : AssembleRun) :
    ((do_assemble.run r).1 = EXIT_SUCCESS ∨ (do_assemble.run r).1 = EXIT_FAILURE) ∧
    ((do_assemble.run r).1 = EXIT_SUCCESS ↔
      (r.fatalAfterCreate = false ∧ r.fatalAfterParser = false ∧
        ¬ (r.okDebugFormat = true ∧ r.fatalAfterDebugFormat = true) ∧
        (r.inputIsStdin = true ∨ r.inputFound = true)) ∧
      r.assembleOk = true ∧ r.openOk = true ∧ r.outputOk = true) ∧
    ((do_assemble.run r).1 = EXIT_SUCCESS →
      (do_assemble.run r).2 = [RunEvent.assemble true, RunEvent.openObject true,
        RunEvent.output true, RunEvent.closeObject]) ∧
    ((r.fatalAfterCreate = false ∧ r.fatalAfterParser = false ∧
        ¬ (r.okDebugFormat = true ∧ r.fatalAfterDebugFormat = true) ∧
        (r.inputIsStdin = true ∨ r.inputFound = true)) →
      (r.assembleOk = false →
        do_assemble.run r = (EXIT_FAILURE, [RunEvent.assemble false])) ∧
      (r.assembleOk = true → r.openOk = false →
        do_assemble.run r
          = (EXIT_FAILURE, [RunEvent.assemble true, RunEvent.openObject false])) ∧
      (r.assembleOk = true → r.openOk = true → r.outputOk = false →
        do_assemble.run r
          = (EXIT_FAILURE, [RunEvent.assemble true, RunEvent.openObject true,
              RunEvent.output false, RunEvent.closeObject, RunEvent.removeObject]))) ∧
    (¬ (r.fatalAfterCreate = false ∧ r.fatalAfterParser = false ∧
        ¬ (r.okDebugFormat = true ∧ r.fatalAfterDebugFormat = true) ∧
        (r.inputIsStdin = true ∨ r.inputFound = true)) →
      do_assemble.run r = (EXIT_FAILURE, [])) ∧
    ((do_assemble.run r).1 = EXIT_FAILURE → objectFileLeft (do_assemble.run r).2 false = false) ∧
    ((do_assemble.run r).1 = EXIT_SUCCESS → objectFileLeft (do_assemble.run r).2 false = true) := by
  unfold do_assemble.run
  split_ifs <;> simp_all [EXIT_SUCCESS, EXIT_FAILURE, objectFileLeft]
  by_cases hs : r.inputIsStdin = true
  · exact Or.inl hs
  · exact Or.inr (by simp_all)

/-! ## The claims -/

/-- C1: for two distinct symbols `A` and `B` whose labels lie in the same
section, `TransformDistBase` on `A + (-1 * B)` hands the functor the term `A`
with (location of `B`, location of `A`): when the functor succeeds its output
stands in the place of `A` and the `-1 * B` subtree is reduced to zero (`B`
and `-1` cleared, the `MUL` zeroed).  With the `CalcDistFunctor` the term `A`
becomes the integer `oA - oB` at the depth of `A`, and `SimplifyCalcDist`
yields the single integer `oA - oB`. -/
theorem C1_SimplifyCalcDist_sub (env : Env) (A B : Nat) (d : Int) (locA locB : Location)
    (ba bb : Nat)
    (hAB : A ≠ B) (hA : env.getLabel A = some locA) (hB : env.getLabel B = some locB)
    (hba : locA.bc = some ba) (hbb : locB.bc = some bb)
    (hsec : env.getContainer ba = env.getContainer bb) :
    (∀ (σ : Type) (func : DistFunc σ) (st : σ) (pos : Int), pos = 4 ∨ pos = -1 →
      TransformDistBase env func (exprSub A B d) pos st =
        match func st ⟨TermData.SYM A, d + 1⟩ locB locA with
        | (true, t, st1) =>
          Except.ok ([t, ⟨TermData.NONE, d + 2⟩, ⟨TermData.NONE, d + 2⟩, ⟨TermData.INT 0, d + 1⟩,
            ⟨TermData.OP Op.ADD 2, d⟩], st1)
        | (false, t, st1) =>
          Except.ok ([t, ⟨TermData.SYM B, d + 2⟩, ⟨TermData.INT (-1), d + 2⟩,
            ⟨TermData.OP Op.MUL 2, d + 1⟩, ⟨TermData.OP Op.ADD 2, d⟩], st1))
    ∧ TransformDistBase env (CalcDistFunctor env) (exprSub A B d) (-1) () =
        Except.ok ([⟨TermData.INT ((locA.getOffset env : Int) - (locB.getOffset env : Int)), d + 1⟩,
          ⟨TermData.NONE, d + 2⟩, ⟨TermData.NONE, d + 2⟩, ⟨TermData.INT 0, d + 1⟩,
          ⟨TermData.OP Op.ADD 2, d⟩], ())
    ∧ SimplifyCalcDist env (exprSub A B d) =
        Except.ok ([⟨TermData.INT ((locA.getOffset env : Int) - (locB.getOffset env : Int)), d⟩],
          ()) := by
  have hgen := fun (σ : Type) (func : DistFunc σ) (st : σ) (pos : Int)
      (hpos : pos = 4 ∨ pos = -1) =>
    TransformDistBase_exprSub env func st A B d locA locB ba bb pos hpos hAB hA hB hba hbb hsec
  have hcalc : CalcDistFunctor env () ⟨TermData.SYM A, d + 1⟩ locB locA
      = (true, ⟨TermData.INT ((locA.getOffset env : Int) - (locB.getOffset env : Int)), d + 1⟩,
          ()) := by
    simp [CalcDistFunctor, CalcDist, hba, hbb, hsec]
  refine ⟨hgen, ?_, ?_⟩
  · rw [hgen Unit _ () (-1) (Or.inr rfl), hcalc]
  · unfold SimplifyCalcDist Simplify
    have h4 := hgen Unit (CalcDistFunctor env) () 4 (Or.inl rfl)
    rw [hcalc] at h4
    simp only [] at h4
    have hlen : (exprSub A B d).length = 5 := rfl
    rw [hlen]
    simp only [simplifyWalk]
    have h4n : TransformDistBase env (CalcDistFunctor env) (exprSub A B d) ((4 : Nat) : Int) ()
        = _ := h4
    rw [h4n]
    simp only []
    rw [TransformDistBase_nonADD env _ _ 3 () ⟨TermData.INT 0, d + 1⟩ rfl rfl]
    simp only []
    rw [TransformDistBase_nonADD env _ _ 2 () ⟨TermData.NONE, d + 2⟩ rfl rfl]
    simp only []
    rw [TransformDistBase_nonADD env _ _ 1 () ⟨TermData.NONE, d + 2⟩ rfl rfl]
    simp only []
    rw [TransformDistBase_nonADD env _ _ 0 ()
      ⟨TermData.INT ((locA.getOffset env : Int) - (locB.getOffset env : Int)), d + 1⟩ rfl rfl]
    simp [Cleanup, isEmpty_eq, reduceRoot, ExprTerm.isOpOf, ExprTerm.getNumChild, intValues]

/-- Witness of C1: symbols 2 (offset 104) and 1 (offset 100) of the sample
environment; `SimplifyCalcDist` on `2 - 1` yields the integer 4. -/
theorem C1_SimplifyCalcDist_sub_witness :
    SimplifyCalcDist sampleEnv (exprSub 2 1 0) = Except.ok ([⟨TermData.INT 4, 0⟩], ()) :=
  (C1_SimplifyCalcDist_sub sampleEnv 2 1 0 ⟨some 10, 4⟩ ⟨some 10, 0⟩ 10 10
    (by decide) rfl rfl rfl rfl rfl).2.2

/-- C2: for labels `L1` and `L2` with locations in bytecodes, `Evaluate` with
value-of-location allowed on `L2 - L1` (terms `L2, L1, -1, MUL, ADD`) returns
true with the integer `o2 - o1` (at the depth of the root), whatever the
substitution array and the zero-register flag are, `IntNum::Calc` being exact
for `ADD` and `MUL`. -/
theorem C2_Evaluate_label_difference (env : Env) (ar : Arith) (L1 L2 : Nat)
    (loc1 loc2 : Location) (d : Int) (subst : Option (List ExprTerm)) (zeroreg : Bool)
    (hadd : ∀ a b, ar.Calc Op.ADD a b = some (a + b))
    (hmul : ∀ a b, ar.Calc Op.MUL a b = some (a * b))
    (h1 : env.getLabel L1 = some loc1) (h2 : env.getLabel L2 = some loc2)
    (hb1 : loc1.bc.isSome) (hb2 : loc2.bc.isSome) :
    Evaluate env ar (exprSub L2 L1 d) subst true zeroreg
      = Except.ok (some ⟨TermData.INT ((loc2.getOffset env : Int) - (loc1.getOffset env : Int)),
          d⟩) := by
  simp [exprSub, Evaluate, evalLoop, evalTerm, evalChildren, ExprTerm.isType, ExprTerm.getType,
    h1, h2, hb1, hb2, hadd, hmul,
    show ¬ Op.NONNUM ≤ Op.MUL from by decide, show ¬ Op.NONNUM ≤ Op.ADD from by decide]
  ring

/-- Witness of C2: `L1` at offset 0 and `L2` at offset 4 of the same bytecode
(symbols 1 and 2 of the sample environment); the result is the integer 4. -/
theorem C2_Evaluate_label_difference_witness :
    Evaluate sampleEnv exactArith (exprSub 2 1 0) none true false
      = Except.ok (some ⟨TermData.INT 4, 0⟩) :=
  C2_Evaluate_label_difference sampleEnv exactArith 1 2 ⟨some 10, 0⟩ ⟨some 10, 4⟩ 0 none false
    (fun _ _ => rfl) (fun _ _ => rfl) rfl rfl rfl rfl

/-- C3 fails as stated: in `A + (-1 * B) + (-1 * C)` with `B` without label
(symbol 5 of the sample environment) and `C` a label of the section of `A`
(symbols 1 and 2), `TransformDistBase` changes the term `A`: it is matched
with `-1 * C` and becomes the integer 4. -/
theorem C3_counterexample :
    sampleEnv.getLabel 5 = none ∧
    TransformDistBase sampleEnv (CalcDistFunctor sampleEnv) (exprSub2 2 5 1) (-1) ()
      = Except.ok ([⟨TermData.INT 4, 1⟩, ⟨TermData.SYM 5, 2⟩, ⟨TermData.INT (-1), 2⟩,
          ⟨TermData.OP Op.MUL 2, 1⟩, ⟨TermData.NONE, 2⟩, ⟨TermData.NONE, 2⟩,
          ⟨TermData.INT 0, 1⟩, ⟨TermData.OP Op.ADD 3, 0⟩], ()) := by
  decide

/-- C3 as amended: for different symbols `A` and `B` where `A` or `B` has no
label or the two labels lie in different sections, the turn of the matching
loop for the additive term `A` and the subtractive term `-1 * B` does not call
the functor and changes neither a term nor the functor state (whatever the
functor, the loop goes on to the next entry with the same terms and state);
and when `A` and `-1 * B` are the only children of the `ADD`,
`TransformDistBase` returns all terms unmodified. -/
theorem C3_unmatched_pair_unmodified {σ : Type} (env : Env) (func : DistFunc σ) (st : σ)
    (A B : Nat) (hAB : A ≠ B)
    (h : env.getLabel A = none ∨ env.getLabel B = none ∨
      ∃ la lb ba bb, env.getLabel A = some la ∧ env.getLabel B = some lb ∧ la.bc = some ba ∧
        lb.bc = some bb ∧ env.getContainer ba ≠ env.getContainer bb) :
    (∀ (pos relIdx : Nat) (s : SubEntry) (terms : ExprTerms) (relterm subterm : ExprTerm),
      terms[relIdx]? = some relterm → terms[pos - s.subpos]? = some subterm →
      subterm.data = TermData.SYM B → s.subpos ≠ 255 →
        matchPair env func pos relIdx (some A) s terms st = PairResult.next terms st ∧
        ∀ done todo, matchSubs env func pos relIdx (some A) done (s :: todo) terms st
          = matchSubs env func pos relIdx (some A) (done ++ [s]) todo terms st)
    ∧ (∀ (d : Int) (pos : Int), pos = 4 ∨ pos = -1 →
        TransformDistBase env func (exprSub A B d) pos st = Except.ok (exprSub A B d, st)) := by
  refine ⟨?_, fun d pos hpos => TransformDistBase_exprSub_unmatched env func st A B d pos hpos hAB h⟩
  intro pos relIdx s terms relterm subterm hrel hsub hB hs
  have hp := matchPair_unmatched env func pos relIdx s terms st relterm subterm A B hrel hsub hB
    hAB h
  refine ⟨hp, fun done todo => ?_⟩
  rw [matchSubs]
  simp [hs, hp]

/-- Witness of C3: symbol 2 (section 0) and symbol 3 (section 1) of the sample
environment; `2 - 3` is returned unmodified. -/
theorem C3_unmatched_pair_unmodified_witness :
    TransformDistBase sampleEnv (CalcDistFunctor sampleEnv) (exprSub 2 3 0) (-1) ()
      = Except.ok (exprSub 2 3 0, ()) :=
  (C3_unmatched_pair_unmodified sampleEnv (CalcDistFunctor sampleEnv) () 2 3 (by decide)
    (Or.inr (Or.inr ⟨⟨some 10, 4⟩, ⟨some 11, 8⟩, 10, 11, rfl, rfl, rfl, rfl, by decide⟩))).2
    0 (-1) (Or.inr rfl)

/-- C4 fails as stated: the `ADD` of `A + (-1 * A) + (-1 * B)` has the
children `A` and `-1 * A`, yet with `B` a label of the section of `A` (symbols
1 and 2 of the sample environment) the functor is called, for the pair of `A`
and `-1 * B`, which is scanned first: `A` becomes the placeholder it returns
and `-1 * A` is left as it is. -/
theorem C4_counterexample :
    TransformDistBase sampleEnv SubstDistFunctor (exprSub2 2 2 1) (-1) ⟨0, []⟩
      = Except.ok ([⟨TermData.SUBST 0, 1⟩, ⟨TermData.SYM 2, 2⟩, ⟨TermData.INT (-1), 2⟩,
          ⟨TermData.OP Op.MUL 2, 1⟩, ⟨TermData.NONE, 2⟩, ⟨TermData.NONE, 2⟩,
          ⟨TermData.INT 0, 1⟩, ⟨TermData.OP Op.ADD 3, 0⟩],
          ⟨1, [(0, ⟨some 10, 0⟩, ⟨some 10, 4⟩)]⟩) := by
  decide

/-- C4 as amended: for every symbol `A`, with or without label, when the
matching loop pairs the additive term `A` with a not yet matched subtractive
term `-1 * A`, the pair is cancelled without calling the functor (the state is
unchanged, whatever the functor): the `A` term is zeroed, the `A` and `-1`
terms under the `MUL` are cleared and the `MUL` term is zeroed; and an `ADD`
whose only children are `A` and `-1 * A` is cancelled exactly in this way. -/
theorem C4_same_symbol_cancels {σ : Type} (env : Env) (func : DistFunc σ) (st : σ) (A : Nat)
    (pos relIdx : Nat) (s : SubEntry) (terms : ExprTerms) (relterm subterm : ExprTerm)
    (hrel : terms[relIdx]? = some relterm) (hsub : terms[pos - s.subpos]? = some subterm)
    (hA : subterm.data = TermData.SYM A) (hs : s.subpos ≠ 255) :
    matchPair env func pos relIdx (some A) s terms st
        = PairResult.matched (clearSub (terms.set relIdx relterm.Zero) pos s) st
    ∧ (∀ done todo, matchSubs env func pos relIdx (some A) done (s :: todo) terms st
        = Except.ok (clearSub (terms.set relIdx relterm.Zero) pos s,
            done ++ { s with subpos := 255 } :: todo, st))
    ∧ (∀ (d : Int) (pos1 : Int), pos1 = 4 ∨ pos1 = -1 →
        TransformDistBase env func (exprSub A A d) pos1 st
          = Except.ok ([⟨TermData.INT 0, d + 1⟩, ⟨TermData.NONE, d + 2⟩, ⟨TermData.NONE, d + 2⟩,
              ⟨TermData.INT 0, d + 1⟩, ⟨TermData.OP Op.ADD 2, d⟩], st)) := by
  have hp := matchPair_same env func pos relIdx s terms st relterm subterm A hrel hsub hA
  refine ⟨hp, fun done todo => ?_,
    fun d pos1 hpos => TransformDistBase_exprSub_same env func st A d pos1 hpos⟩
  rw [matchSubs]
  simp [hs, hp]

/-- Witness of C4: symbol 7 of the sample environment, which has no label;
`7 - 7` is cancelled and the functor state is as it was. -/
theorem C4_same_symbol_cancels_witness :
    TransformDistBase sampleEnv SubstDistFunctor (exprSub 7 7 0) (-1) ⟨0, []⟩
      = Except.ok ([⟨TermData.INT 0, 1⟩, ⟨TermData.NONE, 2⟩, ⟨TermData.NONE, 2⟩,
          ⟨TermData.INT 0, 1⟩, ⟨TermData.OP Op.ADD 2, 0⟩], ⟨0, []⟩) :=
  (C4_same_symbol_cancels sampleEnv SubstDistFunctor ⟨0, []⟩ 7 4 0 ⟨3, 2, 1⟩ (exprSub 7 7 0)
    ⟨TermData.SYM 7, 1⟩ ⟨TermData.SYM 7, 2⟩ rfl rfl rfl (by decide)).2.2 0 (-1) (Or.inr rfl)

/-- C5: in one call of `TransformDistBase` on an `ADD` root the cancellations
pair additive and subtractive terms one to one.  The turn of an additive term
(one run of the inner loop) marks at most one entry, and one that was not
marked; over the whole call the entries only go from unmarked to marked (a
marked entry is passed over and stays as it is); none is marked after the
scan; so the number of marked entries, which is that of the cancellations, is
at most the number of additive terms and at most the number of subtractive
terms. -/
theorem C5_one_to_one_pairing {σ : Type} (env : Env) (func : DistFunc σ) (e e1 : ExprTerms)
    (pos : Int) (st st1 : σ) (p : Nat) (root : ExprTerm)
    (h : TransformDistBase env func e pos st = Except.ok (e1, st1))
    (hp : (if pos < 0 then pos + (e.length : Int) else pos) = (p : Int))
    (hroot : e[p]? = some root) (hadd : root.isOpOf Op.ADD = true) :
    (∃ rels subs subs1,
      scanTerms e p root.m_depth p p [] [] = Except.ok (rels, subs) ∧
      matchRels env func p rels e subs st = Except.ok (e1, subs1, st1) ∧
      numMatched subs = 0 ∧ Marking subs subs1 ∧
      numMatched subs1 ≤ min rels.length subs.length) ∧
    (∀ (relIdx : Nat) (rel : Option Nat) (done todo subs2 : List SubEntry)
      (terms terms2 : ExprTerms) (st2 st3 : σ),
      matchSubs env func p relIdx rel done todo terms st2 = Except.ok (terms2, subs2, st3) →
        subs2 = done ++ todo ∨
        ∃ pre s post, todo = pre ++ s :: post ∧ s.subpos ≠ 255 ∧
          subs2 = done ++ pre ++ { s with subpos := 255 } :: post) := by
  refine ⟨?_, fun relIdx rel done todo subs2 terms terms2 st2 st3 hm => matchSubs_marks hm⟩
  obtain ⟨p1, root1, hp1, hroot1, h1 | ⟨_, _, rels, subs, subs1, hs, hm⟩⟩ := TransformDistBase_ok h
  · rw [hp] at hp1
    have : p = p1 := by omega
    subst this
    rw [hroot] at hroot1; cases hroot1
    rw [hadd] at h1; simp at h1
  · rw [hp] at hp1
    have : p = p1 := by omega
    subst this
    rw [hroot] at hroot1; cases hroot1
    have hz := (scanTerms_start_inv hs).numMatched_eq_zero
    obtain ⟨m1, m2⟩ := matchRels_marks hm
    refine ⟨rels, subs, subs1, hs, hm, hz, m1, ?_⟩
    have := numMatched_le_length subs1
    have := m1.length_eq
    rw [hz] at m2
    omega

/-- Witness of C5: `A + (-1 * B) + (-1 * C)` with one additive and two
subtractive terms (symbols 2, 1 and 1 of the sample environment): one
cancellation. -/
theorem C5_one_to_one_pairing_witness :
    ∃ rels subs subs1,
      scanTerms (exprSub2 2 1 1) 7 0 7 7 [] [] = Except.ok (rels, subs) ∧
      matchRels sampleEnv (CalcDistFunctor sampleEnv) 7 rels (exprSub2 2 1 1) subs ()
        = Except.ok ([⟨TermData.INT 4, 1⟩, ⟨TermData.SYM 1, 2⟩, ⟨TermData.INT (-1), 2⟩,
          ⟨TermData.OP Op.MUL 2, 1⟩, ⟨TermData.NONE, 2⟩, ⟨TermData.NONE, 2⟩,
          ⟨TermData.INT 0, 1⟩, ⟨TermData.OP Op.ADD 3, 0⟩], subs1, ()) ∧
      numMatched subs = 0 ∧ Marking subs subs1 ∧
      numMatched subs1 ≤ min rels.length subs.length :=
  (C5_one_to_one_pairing sampleEnv (CalcDistFunctor sampleEnv) (exprSub2 2 1 1) _ (-1) () () 7
    ⟨TermData.OP Op.ADD 3, 0⟩ (by decide) (by decide) rfl rfl).1

/-- C6: `TransformDistBase` ends with the error "too many add terms; internal
limit of 32" exactly when the term at `pos` is an `ADD` operator with more
than 32 children, and then the terms and the functor state are as they were
on entry; so an `ADD` root with 32 or fewer children never raises it. -/
theorem C6_TransformDistBase_too_many_iff {σ : Type} (env : Env) (func : DistFunc σ)
    (e : ExprTerms) (pos : Int) (st : σ) (t : ExprTerms) (s : σ) :
    TransformDistBase env func e pos st = Except.error (tooManyAddTerms, t, s)
      ↔ (t = e ∧ s = st ∧ 0 ≤ (if pos < 0 then pos + (e.length : Int) else pos) ∧
          ∃ root, e[(if pos < 0 then pos + (e.length : Int) else pos).toNat]? = some root
            ∧ root.isOpOf Op.ADD = true ∧ 32 < root.getNumChild) := by
  unfold TransformDistBase
  generalize (if pos < 0 then pos + (e.length : Int) else pos) = pos1
  simp only []
  constructor
  · intro h
    split at h
    · simp [tooManyAddTerms] at h
    · rename_i hp
      split at h
      · simp [tooManyAddTerms] at h
      · rename_i root hroot
        split at h
        · simp at h
        · rename_i hadd
          split at h
          · rename_i hn
            simp at h
            refine ⟨h.2.1.symm, h.2.2.symm, by omega, root, hroot, by simpa using hadd, hn⟩
          · split at h
            · rename_i a hs
              simp at h
              exact absurd h.1 (scanTerms_error_ne _ _ _ _ _ _ _ _ hs)
            · split at h
              · rename_i a hm
                have := matchRels_error_ne _ _ _ _ _ _ _ _ hm
                simp at h
                rw [h] at this
                exact absurd rfl this
              · simp at h
  · rintro ⟨rfl, rfl, hp, root, hroot, hadd, hn⟩
    have : ¬ pos1 < 0 := by omega
    simp [this, hroot, hadd, hn, tooManyAddTerms]

/-- C7, on the code: `SubstDist` does not return the number of matched
pairs, and the indices do not run through `0, 1, ..., n - 1`.  On `L2 - L1`
(two labels of one section) one pair is matched, the callback is called once,
with index 0, and the additive term becomes `SUBST 0`, but `SubstDist`
returns 0.  On `(L2 - L1) * (L1 - L2)` two pairs are matched, one under each
`ADD`; the callback is called twice, both times with index 0, both additive
terms become `SUBST 0`, and `SubstDist` returns 0.  It returns 0 on every
expression: every call of `TransformDistBase` counts on its own copy of the
functor.  Within one call the functor is right: from a fresh copy the
callback is called with the indices `0, 1, ...` in this order, as many times
as the copy has counted. -/
theorem C7_SubstDist_failing_input :
    SubstDist sampleEnv (exprSub 2 1 0)
      = Except.ok ([⟨TermData.SUBST 0, 1⟩, ⟨TermData.INT 0, 1⟩, ⟨TermData.OP Op.ADD 2, 0⟩],
          ⟨0, [(0, ⟨some 10, 0⟩, ⟨some 10, 4⟩)]⟩) ∧
    SubstDist sampleEnv (exprSubProduct 2 1 1 2)
      = Except.ok ([⟨TermData.SUBST 0, 2⟩, ⟨TermData.INT 0, 2⟩, ⟨TermData.OP Op.ADD 2, 1⟩,
            ⟨TermData.SUBST 0, 2⟩, ⟨TermData.INT 0, 2⟩, ⟨TermData.OP Op.ADD 2, 1⟩,
            ⟨TermData.OP Op.MUL 2, 0⟩],
          ⟨0, [(0, ⟨some 10, 4⟩, ⟨some 10, 0⟩), (0, ⟨some 10, 0⟩, ⟨some 10, 4⟩)]⟩) ∧
    (∀ (env : Env) (e e1 : ExprTerms) (st1 : SubstState),
      SubstDist env e = Except.ok (e1, st1) → st1.m_subst = 0) ∧
    (∀ (env : Env) (e e1 : ExprTerms) (pos : Int) (st st1 : SubstState),
      SubstDist.bound env e pos st = Except.ok (e1, st1) → st1.m_subst = st.m_subst) ∧
    (∀ (env : Env) (e e1 : ExprTerms) (pos : Int) (st1 : SubstState),
      TransformDistBase env SubstDistFunctor e pos ⟨0, []⟩ = Except.ok (e1, st1) →
      st1.calls.map (fun c => c.1) = List.range st1.m_subst ∧
      st1.calls.length = st1.m_subst) :=
  ⟨by decide, by decide, fun _ _ _ _ h => SubstDist_m_subst_zero h,
    fun _ _ _ _ _ _ h => SubstDist_bound_m_subst h,
    fun _ _ _ _ _ h => TransformDistBase_fresh_calls h⟩

/-- C8, on the code: on `L2 - L1` (labels at offsets 104 and 100 of one
section) `SubstDist` returns `n = 0` and records the pair 0 with the distance
4; with an array of `n = 0` integers `Evaluate` of the transformed expression
returns false, where `SimplifyCalcDist` followed by `Evaluate` gives 4.  On
`(L2 - L1) * (L1 - L2)` it records two pairs, with the distances -4 and 4,
both under the index 0; with the array of these two distances `Evaluate` of
the transformed expression reads the first for both pairs and gives 16, where
the expression with the k-th pair replaced by the k-th distance, and
`SimplifyCalcDist`, evaluate to -16. -/
theorem C8_SubstDist_failing_input :
    SubstDist sampleEnv (exprSub 2 1 0)
      = Except.ok ([⟨TermData.SUBST 0, 1⟩, ⟨TermData.INT 0, 1⟩, ⟨TermData.OP Op.ADD 2, 0⟩],
          ⟨0, [(0, ⟨some 10, 0⟩, ⟨some 10, 4⟩)]⟩) ∧
    pairDistances sampleEnv ⟨0, [(0, ⟨some 10, 0⟩, ⟨some 10, 4⟩)]⟩ = [4] ∧
    Evaluate sampleEnv exactArith
        [⟨TermData.SUBST 0, 1⟩, ⟨TermData.INT 0, 1⟩, ⟨TermData.OP Op.ADD 2, 0⟩]
        (some (([] : List Int).map intTerm)) true false = Except.ok none ∧
    SimplifyCalcDist sampleEnv (exprSub 2 1 0) = Except.ok ([⟨TermData.INT 4, 0⟩], ()) ∧
    Evaluate sampleEnv exactArith [⟨TermData.INT 4, 0⟩] (some (([] : List Int).map intTerm))
        true false = Except.ok (some ⟨TermData.INT 4, 0⟩) ∧
    SubstDist sampleEnv (exprSubProduct 2 1 1 2)
      = Except.ok ([⟨TermData.SUBST 0, 2⟩, ⟨TermData.INT 0, 2⟩, ⟨TermData.OP Op.ADD 2, 1⟩,
            ⟨TermData.SUBST 0, 2⟩, ⟨TermData.INT 0, 2⟩, ⟨TermData.OP Op.ADD 2, 1⟩,
            ⟨TermData.OP Op.MUL 2, 0⟩],
          ⟨0, [(0, ⟨some 10, 4⟩, ⟨some 10, 0⟩), (0, ⟨some 10, 0⟩, ⟨some 10, 4⟩)]⟩) ∧
    pairDistances sampleEnv
        ⟨0, [(0, ⟨some 10, 4⟩, ⟨some 10, 0⟩), (0, ⟨some 10, 0⟩, ⟨some 10, 4⟩)]⟩ = [-4, 4] ∧
    Evaluate sampleEnv exactArith
        [⟨TermData.SUBST 0, 2⟩, ⟨TermData.INT 0, 2⟩, ⟨TermData.OP Op.ADD 2, 1⟩,
          ⟨TermData.SUBST 0, 2⟩, ⟨TermData.INT 0, 2⟩, ⟨TermData.OP Op.ADD 2, 1⟩,
          ⟨TermData.OP Op.MUL 2, 0⟩]
        (some ([-4, 4].map intTerm)) true false = Except.ok (some ⟨TermData.INT 16, 0⟩) ∧
    specReplacedExpr sampleEnv [-4, 4] (exprSubProduct 2 1 1 2)
      = Except.ok ([⟨TermData.INT 4, 2⟩, ⟨TermData.INT 0, 2⟩, ⟨TermData.OP Op.ADD 2, 1⟩,
            ⟨TermData.INT (-4), 2⟩, ⟨TermData.INT 0, 2⟩, ⟨TermData.OP Op.ADD 2, 1⟩,
            ⟨TermData.OP Op.MUL 2, 0⟩], 2) ∧
    SimplifyCalcDist sampleEnv (exprSubProduct 2 1 1 2)
      = Except.ok ([⟨TermData.INT 4, 2⟩, ⟨TermData.INT 0, 2⟩, ⟨TermData.OP Op.ADD 2, 1⟩,
            ⟨TermData.INT (-4), 2⟩, ⟨TermData.INT 0, 2⟩, ⟨TermData.OP Op.ADD 2, 1⟩,
            ⟨TermData.OP Op.MUL 2, 0⟩], ()) ∧
    Evaluate sampleEnv exactArith
        [⟨TermData.INT 4, 2⟩, ⟨TermData.INT 0, 2⟩, ⟨TermData.OP Op.ADD 2, 1⟩,
          ⟨TermData.INT (-4), 2⟩, ⟨TermData.INT 0, 2⟩, ⟨TermData.OP Op.ADD 2, 1⟩,
          ⟨TermData.OP Op.MUL 2, 0⟩]
        (some ([-4, 4].map intTerm)) true false = Except.ok (some ⟨TermData.INT (-16), 0⟩) :=
  ⟨by decide, by decide, by decide, by decide, by decide, by decide, by decide, by decide,
    by decide, by decide, by decide⟩

/-- C10: on an expression that consists of exactly one term of type `INT` or
`FLOAT`, `Evaluate` returns true with that term as the result, whatever the
substitution array, the value-of-location flag and the zero-register flag. -/
theorem C10_Evaluate_single_term (env : Env) (ar : Arith) (t : ExprTerm)
    (subst : Option (List ExprTerm)) (valueloc zeroreg : Bool)
    (h : t.getType = ExprTerm.INT ∨ t.getType = ExprTerm.FLOAT) :
    Evaluate env ar [t] subst valueloc zeroreg = Except.ok (some t) := by
  simp [Evaluate, isType_INT_FLOAT_of t h]

/-- Witness of C10: a single `FLOAT` term at depth 3. -/
theorem C10_Evaluate_single_term_witness :
    Evaluate sampleEnv exactArith [⟨TermData.FLOAT ⟨5⟩, 3⟩] none false false
      = Except.ok (some ⟨TermData.FLOAT ⟨5⟩, 3⟩) :=
  C10_Evaluate_single_term sampleEnv exactArith ⟨TermData.FLOAT ⟨5⟩, 3⟩ none false false
    (Or.inr rfl)

/-- Counterexample to C11 as stated: `(+ 1) op 2` with the operator
`Op::NONNUM` at the root is well-formed and contains an operator at
`Op::NONNUM`, and `Evaluate` does not return false on it: the assertion on
the one-child `ADD` fails before the root is reached.  Nor does it on
`subst0 op 2` with a substitution array whose entry 0 is a symbol: the
assertion on the substitution fails before the root is reached. -/
theorem C11_counterexample :
    WellFormed (exprAfterUnaryAdd Op.NONNUM (TermData.INT 2)) ∧
    (⟨TermData.OP Op.NONNUM 2, 0⟩ : ExprTerm) ∈ exprAfterUnaryAdd Op.NONNUM (TermData.INT 2) ∧
    Evaluate sampleEnv exactArith (exprAfterUnaryAdd Op.NONNUM (TermData.INT 2)) none false false
      = Except.error (Abort.assertion "single-term subexpression is non-unary") ∧
    Evaluate sampleEnv exactArith (exprAfterUnaryAdd Op.NONNUM (TermData.INT 2)) none false false
      ≠ Except.ok none ∧
    WellFormed (exprSubstFirst Op.NONNUM (TermData.INT 2)) ∧
    Evaluate sampleEnv exactArith (exprSubstFirst Op.NONNUM (TermData.INT 2)) (some symSubst)
      false false = Except.error (Abort.assertion "substitution must be integer or float") ∧
    Evaluate sampleEnv exactArith (exprSubstFirst Op.NONNUM (TermData.INT 2)) (some symSubst)
      false false ≠ Except.ok none :=
  ⟨wellFormed_exprAfterUnaryAdd _ _ rfl rfl, by decide, by decide, by decide,
    wellFormed_exprSubstFirst _ _ rfl rfl, by decide, by decide⟩

/-- C11, amended: on a well-formed expression that contains an operator term
at or above `Op::NONNUM`, `Evaluate` never returns true, and it returns
false unless the evaluation of the terms before that operator ends
abnormally (the arithmetic raises an error, the assertion on a one-child
operator that is not unary or on a substitution that is neither integer nor
float fails, or an operator has no child): it returns false whenever the loop
comes to the operator or returns false before, and whenever the arithmetic
raises no error, the substitutions are numeric and every numeric operator
before has a child and is unary when it has one child. -/
theorem C11_Evaluate_nonnum_operator (env : Env) (ar : Arith) (subst : Option (List ExprTerm))
    (valueloc zeroreg : Bool) (e pre post : ExprTerms) (t : ExprTerm) (op : Op) (n : Nat)
    (hwf : WellFormed e) (he : e = pre ++ t :: post) (ht : t.data = TermData.OP op n)
    (hop : Op.NONNUM ≤ op) :
    FalseAt env ar subst valueloc zeroreg e pre t := by
  subst he
  refine FalseAt.of_stop env ar subst valueloc zeroreg pre post t hwf (fun st => ?_)
  by_cases hl : st.length < n
  · right; simp [evalTerm, ht, hl, notEnoughTerms]
  · left; simp [evalTerm, ht, hl, hop]

/-- Witness of C11: `1 op 2` with the operator `Op::NONNUM`. -/
theorem C11_Evaluate_nonnum_operator_witness :
    WellFormed (exprBinary Op.NONNUM (TermData.INT 2)) ∧
    FalseAt sampleEnv exactArith none false false (exprBinary Op.NONNUM (TermData.INT 2))
      [⟨TermData.INT 1, 1⟩, ⟨TermData.INT 2, 1⟩] ⟨TermData.OP Op.NONNUM 2, 0⟩ :=
  ⟨wellFormed_exprBinary _ _ rfl rfl,
    C11_Evaluate_nonnum_operator sampleEnv exactArith none false false _
      [⟨TermData.INT 1, 1⟩, ⟨TermData.INT 2, 1⟩] [] ⟨TermData.OP Op.NONNUM 2, 0⟩ Op.NONNUM 2
      (wellFormed_exprBinary _ _ rfl rfl) rfl rfl (by decide)⟩

/-- Counterexample to C12 as stated: `(+ 1) + reg` is well-formed and
contains a `REG` term, and with `zeroreg` false `Evaluate` does not return
false on it: the assertion on the one-child `ADD` fails before the register
is reached.  Nor does it on `subst0 + reg` with a substitution array whose
entry 0 is a symbol: the assertion on the substitution fails before the
register is reached. -/
theorem C12_counterexample :
    WellFormed (exprAfterUnaryAdd Op.ADD (TermData.REG 0)) ∧
    (⟨TermData.REG 0, 1⟩ : ExprTerm) ∈ exprAfterUnaryAdd Op.ADD (TermData.REG 0) ∧
    Evaluate sampleEnv exactArith (exprAfterUnaryAdd Op.ADD (TermData.REG 0)) none false false
      = Except.error (Abort.assertion "single-term subexpression is non-unary") ∧
    Evaluate sampleEnv exactArith (exprAfterUnaryAdd Op.ADD (TermData.REG 0)) none false false
      ≠ Except.ok none ∧
    WellFormed (exprSubstFirst Op.ADD (TermData.REG 0)) ∧
    Evaluate sampleEnv exactArith (exprSubstFirst Op.ADD (TermData.REG 0)) (some symSubst)
      false false = Except.error (Abort.assertion "substitution must be integer or float") ∧
    Evaluate sampleEnv exactArith (exprSubstFirst Op.ADD (TermData.REG 0)) (some symSubst)
      false false ≠ Except.ok none :=
  ⟨wellFormed_exprAfterUnaryAdd _ _ rfl rfl, by decide, by decide, by decide,
    wellFormed_exprSubstFirst _ _ rfl rfl, by decide, by decide⟩

/-- C12, amended: on a well-formed expression that contains a `REG` term,
when `zeroreg` is false `Evaluate` never returns true, and it returns false
unless the evaluation of the terms before the register ends abnormally (the
arithmetic raises an error, the assertion on a one-child operator that is not
unary or on a substitution that is neither integer nor float fails, or an
operator has no child): it returns false whenever the loop comes to the
register or returns false before, and whenever none of these abnormal ends is
possible.  When `zeroreg` is true the round of a `REG` term pushes the
integer 0 at the term's depth. -/
theorem C12_Evaluate_reg (env : Env) (ar : Arith) (subst : Option (List ExprTerm))
    (valueloc zeroreg : Bool) (e pre post : ExprTerms) (t : ExprTerm) (reg : Nat)
    (hwf : WellFormed e) (he : e = pre ++ t :: post) (ht : t.data = TermData.REG reg) :
    (zeroreg = false → FalseAt env ar subst valueloc zeroreg e pre t) ∧
    (zeroreg = true → ∀ st, evalTerm env ar subst valueloc zeroreg st t
      = Except.ok (some (st ++ [⟨TermData.INT 0, t.m_depth⟩]))) := by
  subst he
  refine ⟨fun hz => ?_, fun hz st => ?_⟩
  · refine FalseAt.of_stop env ar subst valueloc zeroreg pre post t hwf (fun st => ?_)
    left; simp [evalTerm, ht, hz]
  · simp [evalTerm, ht, hz]

/-- Witness of C12: `1 + reg`. -/
theorem C12_Evaluate_reg_witness :
    WellFormed (exprBinary Op.ADD (TermData.REG 0)) ∧
    (false = false → FalseAt sampleEnv exactArith none false false
      (exprBinary Op.ADD (TermData.REG 0)) [⟨TermData.INT 1, 1⟩] ⟨TermData.REG 0, 1⟩) ∧
    (false = true → ∀ st, evalTerm sampleEnv exactArith none false false st ⟨TermData.REG 0, 1⟩
      = Except.ok (some (st ++ [⟨TermData.INT 0, 1⟩]))) :=
  ⟨wellFormed_exprBinary _ _ rfl rfl,
    C12_Evaluate_reg sampleEnv exactArith none false false _ [⟨TermData.INT 1, 1⟩]
      [⟨TermData.OP Op.ADD 2, 0⟩] ⟨TermData.REG 0, 1⟩ 0 (wellFormed_exprBinary _ _ rfl rfl) rfl rfl⟩

/-- Counterexample to C13 as stated: `(+ 1) + subst0` is well-formed and
contains a `SUBST` term, and without a substitution array `Evaluate` does not
return false on it: the assertion on the one-child `ADD` fails before the
placeholder is reached.  Nor does it on `subst0 + subst5` with a
substitution array of length 1 whose entry 0 is a symbol: the placeholder 5
is beyond the array, and the placeholder 0, within it, is not evaluated as
`subst[0]` but fails the assertion on the substitution. -/
theorem C13_counterexample :
    WellFormed (exprAfterUnaryAdd Op.ADD (TermData.SUBST 0)) ∧
    (⟨TermData.SUBST 0, 1⟩ : ExprTerm) ∈ exprAfterUnaryAdd Op.ADD (TermData.SUBST 0) ∧
    Evaluate sampleEnv exactArith (exprAfterUnaryAdd Op.ADD (TermData.SUBST 0)) none false false
      = Except.error (Abort.assertion "single-term subexpression is non-unary") ∧
    Evaluate sampleEnv exactArith (exprAfterUnaryAdd Op.ADD (TermData.SUBST 0)) none false false
      ≠ Except.ok none ∧
    WellFormed (exprSubstFirst Op.ADD (TermData.SUBST 5)) ∧
    symSubst.length ≤ 5 ∧
    Evaluate sampleEnv exactArith (exprSubstFirst Op.ADD (TermData.SUBST 5)) (some symSubst)
      false false = Except.error (Abort.assertion "substitution must be integer or float") ∧
    Evaluate sampleEnv exactArith (exprSubstFirst Op.ADD (TermData.SUBST 5)) (some symSubst)
      false false ≠ Except.ok none ∧
    evalTerm sampleEnv exactArith (some symSubst) false false [] ⟨TermData.SUBST 0, 1⟩
      ≠ Except.ok (some [⟨TermData.SYM 1, 0⟩]) :=
  ⟨wellFormed_exprAfterUnaryAdd _ _ rfl rfl, by decide, by decide, by decide,
    wellFormed_exprSubstFirst _ _ rfl rfl, by decide, by decide, by decide, by decide⟩

/-- C13, amended: on a well-formed expression that contains a `SUBST` term
with index `i`, when no substitution array is given or `i >= nsubst`,
`Evaluate` never returns true, and it returns false unless the evaluation of
the terms before the placeholder ends abnormally (the arithmetic raises an
error, the assertion on a one-child operator that is not unary or on a
substitution that is neither integer nor float fails, or an operator has no
child): it returns false whenever the loop comes to the placeholder or
returns false before, and whenever none of these abnormal ends is possible.
When `i < nsubst`, the round of the term pushes `subst[i]` if that is an
integer or a float, and fails the assertion on the substitution if not. -/
theorem C13_Evaluate_subst (env : Env) (ar : Arith) (subst : Option (List ExprTerm))
    (valueloc zeroreg : Bool) (e pre post : ExprTerms) (t : ExprTerm) (i : Nat)
    (hwf : WellFormed e) (he : e = pre ++ t :: post) (ht : t.data = TermData.SUBST i) :
    ((subst = none ∨ ∃ arr, subst = some arr ∧ arr.length ≤ i) →
      FalseAt env ar subst valueloc zeroreg e pre t) ∧
    (∀ arr, subst = some arr → i < arr.length →
      ∃ s, arr[i]? = some s ∧
        (Numeric s → ∀ st, evalTerm env ar subst valueloc zeroreg st t
          = Except.ok (some (st ++ [s]))) ∧
        (¬ Numeric s → ∀ st, evalTerm env ar subst valueloc zeroreg st t
          = Except.error (Abort.assertion "substitution must be integer or float"))) := by
  subst he
  refine ⟨fun hs => ?_, fun arr hs hi => ?_⟩
  · refine FalseAt.of_stop env ar subst valueloc zeroreg pre post t hwf (fun st => ?_)
    left
    rcases hs with hs | ⟨arr, hs, hlen⟩
    · simp [evalTerm, ht, hs]
    · have : arr[i]? = none := List.getElem?_eq_none hlen
      simp [evalTerm, ht, hs, this]
  · refine ⟨arr[i], List.getElem?_eq_getElem hi, fun hn st => ?_, fun hn st => ?_⟩
    · have hn2 : arr[i].getType = ExprTerm.INT ∨ arr[i].getType = ExprTerm.FLOAT := hn
      simp only [evalTerm, ht, hs, List.getElem?_eq_getElem hi, if_pos hn2]
    · have hn2 : ¬ (arr[i].getType = ExprTerm.INT ∨ arr[i].getType = ExprTerm.FLOAT) := hn
      simp only [evalTerm, ht, hs, List.getElem?_eq_getElem hi, if_neg hn2]

/-- Witness of C13: `1 + subst0`, without a substitution array. -/
theorem C13_Evaluate_subst_witness :
    WellFormed (exprBinary Op.ADD (TermData.SUBST 0)) ∧
    (((none : Option (List ExprTerm)) = none ∨
        ∃ arr : List ExprTerm, none = some arr ∧ arr.length ≤ 0) →
      FalseAt sampleEnv exactArith none false false
        (exprBinary Op.ADD (TermData.SUBST 0)) [⟨TermData.INT 1, 1⟩] ⟨TermData.SUBST 0, 1⟩) ∧
    (∀ arr : List ExprTerm, none = some arr → 0 < arr.length →
      ∃ s, arr[0]? = some s ∧
        (Numeric s → ∀ st, evalTerm sampleEnv exactArith none false false st ⟨TermData.SUBST 0, 1⟩
          = Except.ok (some (st ++ [s]))) ∧
        (¬ Numeric s → ∀ st,
          evalTerm sampleEnv exactArith none false false st ⟨TermData.SUBST 0, 1⟩
            = Except.error (Abort.assertion "substitution must be integer or float"))) :=
  ⟨wellFormed_exprBinary _ _ rfl rfl,
    C13_Evaluate_subst sampleEnv exactArith none false false _ [⟨TermData.INT 1, 1⟩]
      [⟨TermData.OP Op.ADD 2, 0⟩] ⟨TermData.SUBST 0, 1⟩ 0
      (wellFormed_exprBinary _ _ rfl rfl) rfl rfl⟩

/-- Counterexample to C14 as stated: `(+ 1) + sym` is well-formed and
contains a `SYM` term, and with `valueloc` false `Evaluate` does not return
false on it: the assertion on the one-child `ADD` fails before the symbol is
reached.  Nor does it on `subst0 + sym` with a substitution array whose
entry 0 is a symbol: the assertion on the substitution fails before the
symbol term is reached. -/
theorem C14_counterexample :
    WellFormed (exprAfterUnaryAdd Op.ADD (TermData.SYM 1)) ∧
    (⟨TermData.SYM 1, 1⟩ : ExprTerm) ∈ exprAfterUnaryAdd Op.ADD (TermData.SYM 1) ∧
    Evaluate sampleEnv exactArith (exprAfterUnaryAdd Op.ADD (TermData.SYM 1)) none false false
      = Except.error (Abort.assertion "single-term subexpression is non-unary") ∧
    Evaluate sampleEnv exactArith (exprAfterUnaryAdd Op.ADD (TermData.SYM 1)) none false false
      ≠ Except.ok none ∧
    WellFormed (exprSubstFirst Op.ADD (TermData.SYM 1)) ∧
    Evaluate sampleEnv exactArith (exprSubstFirst Op.ADD (TermData.SYM 1)) (some symSubst)
      false false = Except.error (Abort.assertion "substitution must be integer or float") ∧
    Evaluate sampleEnv exactArith (exprSubstFirst Op.ADD (TermData.SYM 1)) (some symSubst)
      false false ≠ Except.ok none :=
  ⟨wellFormed_exprAfterUnaryAdd _ _ rfl rfl, by decide, by decide, by decide,
    wellFormed_exprSubstFirst _ _ rfl rfl, by decide, by decide⟩

/-- C14, amended: on a well-formed expression that contains a `SYM` or `LOC`
term, when `valueloc` is false, when the symbol of the `SYM` term has no
label, or when the location has no bytecode, `Evaluate` never returns true,
and it returns false unless the evaluation of the terms before that term ends
abnormally (the arithmetic raises an error, the assertion on a one-child
operator that is not unary or on a substitution that is neither integer nor
float fails, or an operator has no child): it returns false whenever the loop
comes to the term or returns false before, and whenever none of these
abnormal ends is possible.  Otherwise the round of the term pushes the
integer offset of its location at the term's depth. -/
theorem C14_Evaluate_sym_loc (env : Env) (ar : Arith) (subst : Option (List ExprTerm))
    (valueloc zeroreg : Bool) (e pre post : ExprTerms) (t : ExprTerm)
    (hwf : WellFormed e) (he : e = pre ++ t :: post) :
    (∀ sym, t.data = TermData.SYM sym →
      (valueloc = false ∨ env.getLabel sym = none ∨
        ∃ loc, env.getLabel sym = some loc ∧ loc.bc = none) →
      FalseAt env ar subst valueloc zeroreg e pre t) ∧
    (∀ loc, t.data = TermData.LOC loc → (valueloc = false ∨ loc.bc = none) →
      FalseAt env ar subst valueloc zeroreg e pre t) ∧
    (∀ sym loc, t.data = TermData.SYM sym → valueloc = true → env.getLabel sym = some loc →
      loc.bc ≠ none → ∀ st, evalTerm env ar subst valueloc zeroreg st t
        = Except.ok (some (st ++ [⟨TermData.INT (loc.getOffset env), t.m_depth⟩]))) ∧
    (∀ loc, t.data = TermData.LOC loc → valueloc = true → loc.bc ≠ none →
      ∀ st, evalTerm env ar subst valueloc zeroreg st t
        = Except.ok (some (st ++ [⟨TermData.INT (loc.getOffset env), t.m_depth⟩]))) := by
  subst he
  refine ⟨fun sym ht hc => ?_, fun loc ht hc => ?_, fun sym loc ht hv hl hb st => ?_,
    fun loc ht hv hb st => ?_⟩
  · refine FalseAt.of_stop env ar subst valueloc zeroreg pre post t hwf (fun st => ?_)
    left
    rcases hc with hc | hc | ⟨loc, hl, hb⟩
    · simp [evalTerm, ht, hc]
    · cases valueloc <;> simp [evalTerm, ht, hc]
    · cases valueloc <;> simp [evalTerm, ht, hl, hb]
  · refine FalseAt.of_stop env ar subst valueloc zeroreg pre post t hwf (fun st => ?_)
    left
    rcases hc with hc | hc
    · simp [evalTerm, ht, hc]
    · simp [evalTerm, ht, hc]
  · have hb2 : loc.bc.isSome = true := by
      cases hbc : loc.bc with
      | none => exact absurd hbc hb
      | some b => rfl
    simp [evalTerm, ht, hv, hl, hb2]
  · have hb2 : loc.bc.isSome = true := by
      cases hbc : loc.bc with
      | none => exact absurd hbc hb
      | some b => rfl
    simp [evalTerm, ht, hv, hb2]

/-- Witness of C14: `1 + sym` for the symbol 1 of the sample environment. -/
theorem C14_Evaluate_sym_loc_witness :
    WellFormed (exprBinary Op.ADD (TermData.SYM 1)) ∧
    FalseAt sampleEnv exactArith none false false (exprBinary Op.ADD (TermData.SYM 1))
      [⟨TermData.INT 1, 1⟩] ⟨TermData.SYM 1, 1⟩ ∧
    (∀ st, evalTerm sampleEnv exactArith none true false st ⟨TermData.SYM 2, 1⟩
      = Except.ok (some (st ++ [⟨TermData.INT 104, 1⟩]))) :=
  ⟨wellFormed_exprBinary _ _ rfl rfl,
    (C14_Evaluate_sym_loc sampleEnv exactArith none false false
      (exprBinary Op.ADD (TermData.SYM 1)) [⟨TermData.INT 1, 1⟩]
      [⟨TermData.OP Op.ADD 2, 0⟩] ⟨TermData.SYM 1, 1⟩
      (wellFormed_exprBinary _ _ rfl rfl) rfl).1 1 rfl (Or.inl rfl),
    (C14_Evaluate_sym_loc sampleEnv exactArith none true false
      (exprBinary Op.ADD (TermData.SYM 2)) [⟨TermData.INT 1, 1⟩]
      [⟨TermData.OP Op.ADD 2, 0⟩] ⟨TermData.SYM 2, 1⟩
      (wellFormed_exprBinary _ _ rfl rfl) rfl).2.2.1 2 ⟨some 10, 4⟩ rfl rfl rfl (by decide)⟩

/-- C15: whenever `Evaluate` returns false, the caller's result term is
exactly what it was before the call; the result is assigned only when true
is returned, and then it is the single numeric term of the shortcut or the
one term left on the stack after the loop has gone through all terms.
`Evaluate` of this development is `EvaluateInto` without the caller's
term. -/
theorem C15_Evaluate_result_untouched (env : Env) (ar : Arith) (e : ExprTerms)
    (result : ExprTerm) (subst : Option (List ExprTerm)) (valueloc zeroreg : Bool) :
    (∀ r1, EvaluateInto env ar e result subst valueloc zeroreg = Except.ok (false, r1) →
      r1 = result) ∧
    (∀ r1, EvaluateInto env ar e result subst valueloc zeroreg = Except.ok (true, r1) →
      (e = [r1] ∧ Numeric r1) ∨
      evalLoop env ar subst valueloc zeroreg e [] = Except.ok (some [r1])) ∧
    (Evaluate env ar e subst valueloc zeroreg = Except.ok none ↔
      EvaluateInto env ar e result subst valueloc zeroreg = Except.ok (false, result)) ∧
    Evaluate env ar e subst valueloc zeroreg =
      (EvaluateInto env ar e result subst valueloc zeroreg).map
        (fun p => if p.1 = true then some p.2 else none) :=
  ⟨(EvaluateInto_result env ar e result subst valueloc zeroreg).1,
    (EvaluateInto_result env ar e result subst valueloc zeroreg).2,
    Evaluate_none_iff env ar e result subst valueloc zeroreg,
    Evaluate_eq_EvaluateInto env ar e result subst valueloc zeroreg⟩

/-- C16: every stack the loop of `Evaluate` reaches holds integers and
floats only, so that the operands of every operator application, the
accumulated result and the next child, are numeric and the case of an operand
that is neither never arises; and for numeric operands: after the promotion
both have the same kind, float as soon as one of them was a float and
unchanged when both were integers; the integer calculation is applied exactly
when both are integers and the float calculation only when both are floats;
and this round of promotion and calculation is what the loop over the children
does. -/
theorem C16_Evaluate_same_kind (env : Env) (ar : Arith) (subst : Option (List ExprTerm))
    (valueloc zeroreg : Bool) (ts : ExprTerms) (st : List ExprTerm) (op : Op)
    (result child : ExprTerm)
    (hreach : evalLoop env ar subst valueloc zeroreg ts [] = Except.ok (some st))
    (hr : Numeric result) (hc : Numeric child) :
    (∀ x ∈ st, Numeric x) ∧
    (∀ ts1, evalLoop env ar subst valueloc zeroreg ts1 []
      ≠ Except.error (Abort.undefined "operand is neither integer nor float")) ∧
    (promoteOperands ar result child).1.getType = (promoteOperands ar result child).2.getType ∧
    Numeric (promoteOperands ar result child).1 ∧
    ((result.getType = ExprTerm.FLOAT ∨ child.getType = ExprTerm.FLOAT) →
      (promoteOperands ar result child).1.getType = ExprTerm.FLOAT ∧
      (promoteOperands ar result child).2.getType = ExprTerm.FLOAT) ∧
    ((result.getType = ExprTerm.INT ∧ child.getType = ExprTerm.INT) →
      promoteOperands ar result child = (result, child)) ∧
    (∀ a b, chooseCalc op (promoteOperands ar result child).1 (promoteOperands ar result child).2
        = Except.ok (Calculation.intCalc a b) ↔
      (result.data = TermData.INT a ∧ child.data = TermData.INT b)) ∧
    (∀ a b, chooseCalc op (promoteOperands ar result child).1 (promoteOperands ar result child).2
        = Except.ok (Calculation.floatCalc a b) ↔
      ((promoteOperands ar result child).1.data = TermData.FLOAT a ∧
        (promoteOperands ar result child).2.data = TermData.FLOAT b ∧ op < Op.NEG)) ∧
    (∀ x, chooseCalc op (promoteOperands ar result child).1 (promoteOperands ar result child).2
        ≠ Except.error x) ∧
    (∀ rest,
      (∀ x, childStep ar op result child = Except.error x →
        evalChildren ar op result (child :: rest) = Except.error x) ∧
      (childStep ar op result child = Except.ok none →
        evalChildren ar op result (child :: rest) = Except.ok none) ∧
      (∀ r1, childStep ar op result child = Except.ok (some r1) →
        Numeric r1 ∧
        evalChildren ar op result (child :: rest) = evalChildren ar op r1 rest)) := by
  refine ⟨evalLoop_numeric_stack env ar subst valueloc zeroreg ts [] st
    (fun x hx => by simp at hx) hreach, fun ts1 h => ?_, childStep_numeric ar op result child hr hc⟩
  rcases evalLoop_error_kinds env ar subst valueloc zeroreg ts1 [] (fun x hx => by simp at hx)
    _ h with h1 | h1
  · rcases h1 with ⟨h2, _⟩ | ⟨h2, _⟩ | ⟨h2, _⟩ | ⟨h2, _⟩ <;> simp at h2
  · simp [notEnoughTerms] at h1

/-- Witness of C16: the integer 1 and the float 5, the stack after the terms
`1, 5.0`, under `ADD`: the integer is promoted and the float calculation is
applied. -/
theorem C16_Evaluate_same_kind_witness :
    evalLoop sampleEnv exactArith none false false
      [⟨TermData.INT 1, 1⟩, ⟨TermData.FLOAT ⟨5⟩, 1⟩] []
      = Except.ok (some [⟨TermData.INT 1, 1⟩, ⟨TermData.FLOAT ⟨5⟩, 1⟩]) ∧
    Numeric ⟨TermData.INT 1, 1⟩ ∧ Numeric ⟨TermData.FLOAT ⟨5⟩, 1⟩ ∧
    (promoteOperands exactArith ⟨TermData.INT 1, 1⟩ ⟨TermData.FLOAT ⟨5⟩, 1⟩).1.getType
      = ExprTerm.FLOAT ∧
    (promoteOperands exactArith ⟨TermData.INT 1, 1⟩ ⟨TermData.FLOAT ⟨5⟩, 1⟩).2.getType
      = ExprTerm.FLOAT :=
  ⟨by decide, by decide, by decide,
    (C16_Evaluate_same_kind sampleEnv exactArith none false false
      [⟨TermData.INT 1, 1⟩, ⟨TermData.FLOAT ⟨5⟩, 1⟩]
      [⟨TermData.INT 1, 1⟩, ⟨TermData.FLOAT ⟨5⟩, 1⟩] Op.ADD
      ⟨TermData.INT 1, 1⟩ ⟨TermData.FLOAT ⟨5⟩, 1⟩ (by decide) (by decide)
      (by decide)).2.2.2.2.1 (Or.inr rfl)⟩

/-- C17: on a well-formed expression neither assertion of `Evaluate` on the
stack can fail.  Whenever the loop comes to an operator, the terms before it
end with the complete subtrees of its children, as many as its child count,
and the stack holds their values on top, so at least the child count; when
the operator is applied, these values, and nothing else, are replaced by one
value at the operator's depth; and when the last term has been processed the
stack holds exactly one term. -/
theorem C17_Evaluate_stack_safety (env : Env) (ar : Arith) (subst : Option (List ExprTerm))
    (valueloc zeroreg : Bool) (e : ExprTerms) (hwf : WellFormed e) :
    Evaluate env ar e subst valueloc zeroreg
      ≠ Except.error (Abort.assertion "not enough terms to evaluate op") ∧
    Evaluate env ar e subst valueloc zeroreg
      ≠ Except.error (Abort.assertion "did not fully evaluate expression") ∧
    (∀ pre post t op n st, e = pre ++ t :: post → t.data = TermData.OP op n →
      evalLoop env ar subst valueloc zeroreg pre [] = Except.ok (some st) →
      n ≤ st.length ∧
      evalTerm env ar subst valueloc zeroreg st t
        ≠ Except.error (Abort.assertion "not enough terms to evaluate op") ∧
      ∃ before block st0 vs, pre = before ++ block ∧ Forest (t.m_depth + 1) n block ∧
        evalLoop env ar subst valueloc zeroreg before [] = Except.ok (some st0) ∧
        evalLoop env ar subst valueloc zeroreg block st0 = Except.ok (some st) ∧
        st = st0 ++ vs ∧ vs.length = n ∧
        ∀ st1, evalTerm env ar subst valueloc zeroreg st t = Except.ok (some st1) →
          ∃ v, st1 = st0 ++ [v] ∧ v.m_depth = t.m_depth) ∧
    (∀ st, evalLoop env ar subst valueloc zeroreg e [] = Except.ok (some st) →
      st.length = 1) := by
  have hw := Evaluate_wellFormed env ar subst valueloc zeroreg hwf
  refine ⟨fun h => (hw.1 _ h).1.ne_notEnoughTerms rfl,
    fun h => (hw.1 _ h).1.ne_notFullyEvaluated rfl, ?_, fun st hst => ?_⟩
  · intro pre post t op n st he ht hst
    obtain ⟨before, block, st0, vs, h1, h2, h3, h4, h5, h6, _, h8, h9⟩ :=
      evalLoop_at_operator env ar subst valueloc zeroreg hwf pre post t op n st he ht hst
    refine ⟨by rw [h5, List.length_append]; omega, h8, before, block, st0, vs, h1, h2, h3, h4,
      h5, h6, fun st1 hst1 => ?_⟩
    obtain ⟨v, hv, hvd, _⟩ := h9 st1 hst1
    exact ⟨v, hv, hvd⟩
  · obtain ⟨v, hv, _⟩ := (evalLoop_wellFormed env ar subst valueloc zeroreg hwf).2 st hst
    rw [hv]; rfl

/-- Witness of C17: `1 + 2`, which evaluates to 3. -/
theorem C17_Evaluate_stack_safety_witness :
    WellFormed (exprBinary Op.ADD (TermData.INT 2)) ∧
    Evaluate sampleEnv exactArith (exprBinary Op.ADD (TermData.INT 2)) none false false
      = Except.ok (some ⟨TermData.INT 3, 0⟩) ∧
    Evaluate sampleEnv exactArith (exprBinary Op.ADD (TermData.INT 2)) none false false
      ≠ Except.error (Abort.assertion "not enough terms to evaluate op") ∧
    (∀ st, evalLoop sampleEnv exactArith none false false
      (exprBinary Op.ADD (TermData.INT 2)) [] = Except.ok (some st) → st.length = 1) :=
  ⟨wellFormed_exprBinary _ _ rfl rfl, by decide,
    (C17_Evaluate_stack_safety sampleEnv exactArith none false false
      (exprBinary Op.ADD (TermData.INT 2)) (wellFormed_exprBinary _ _ rfl rfl)).1,
    (C17_Evaluate_stack_safety sampleEnv exactArith none false false
      (exprBinary Op.ADD (TermData.INT 2)) (wellFormed_exprBinary _ _ rfl rfl)).2.2.2⟩

/-- C18: for every `unsigned int` size, `BytecodeStreamOutput::DoOutputGap`
returns after writing chunks to the stream that together are exactly `size`
bytes, all zero; every chunk has at most 4096 bytes, every chunk but the last
exactly 4096; what was written before stays, followed by the `size` zero
bytes; and exactly one warning is set, the uninitialized-contents warning. -/
theorem C18_StreamOutput_DoOutputGap (size : Nat) (st : OutputState) (h : size < 2 ^ 32) :
    ∃ (st1 : OutputState) (chunks : List Bytes),
      BytecodeStreamOutput.DoOutputGap size st = some st1 ∧
      st1.os = st.os ++ chunks ∧
      chunks.flatten = List.replicate size 0 ∧
      chunks.length = (size - 1) / 4096 + 1 ∧
      (∀ c ∈ chunks, c.length ≤ 4096) ∧
      (∀ c ∈ chunks.dropLast, c.length = 4096) ∧
      st1.written = st.written ++ List.replicate size 0 ∧
      st1.warns = st.warns ++ [(WarnClass.WARN_UNINIT_CONTENTS,
        "uninitialized space declared in code/data section: zeroing")] := by
  have hfl : (List.replicate ((size - 1) / 4096) (List.replicate 4096 (0 : Nat))
      ++ [List.replicate (size - 4096 * ((size - 1) / 4096)) 0]).flatten
      = List.replicate size 0 := by
    rw [List.flatten_append, flatten_replicate_zeros, List.flatten_cons, List.flatten_nil,
      List.append_nil, List.append_replicate_replicate]
    congr 1
    omega
  refine ⟨_, _, DoOutputGap_eq size st h, rfl, hfl, ?_, ?_, ?_, ?_, rfl⟩
  · rw [List.length_append, List.length_replicate, List.length_singleton]
  · intro c hc
    rw [List.mem_append, List.mem_singleton] at hc
    rcases hc with hc | hc
    · rw [List.eq_of_mem_replicate hc, List.length_replicate]
    · rw [hc, List.length_replicate]; omega
  · intro c hc
    rw [List.dropLast_concat] at hc
    rw [List.eq_of_mem_replicate hc, List.length_replicate]
  · show (st.os ++ _).flatten = st.os.flatten ++ _
    rw [List.flatten_append, hfl]

/-- Witness of C18: a gap of 10000 bytes after the byte 7 is written in the
three chunks of 4096, 4096 and 1808 zero bytes. -/
theorem C18_StreamOutput_DoOutputGap_witness :
    10000 < 2 ^ 32 ∧
    ∃ (st1 : OutputState) (chunks : List Bytes),
      BytecodeStreamOutput.DoOutputGap 10000 ⟨[[7]], [], []⟩ = some st1 ∧
      st1.os = [[7]] ++ chunks ∧
      chunks.flatten = List.replicate 10000 0 ∧
      chunks.length = (10000 - 1) / 4096 + 1 ∧
      (∀ c ∈ chunks, c.length ≤ 4096) ∧
      (∀ c ∈ chunks.dropLast, c.length = 4096) ∧
      st1.written = OutputState.written ⟨[[7]], [], []⟩ ++ List.replicate 10000 0 ∧
      st1.warns = [] ++ [(WarnClass.WARN_UNINIT_CONTENTS,
        "uninitialized space declared in code/data section: zeroing")] :=
  ⟨by decide, C18_StreamOutput_DoOutputGap 10000 ⟨[[7]], [], []⟩ (by decide)⟩

/-- Counterexample to C19 as stated: on a no-output sink with no warning so
far, `DoOutputGap` of 16 bytes leaves no warning (and writes nothing), where
the claim has one warning. -/
theorem C19_counterexample :
    ¬ ((BytecodeNoOutput.DoOutputGap 16 freshOutput).written = freshOutput.written ∧
      (BytecodeNoOutput.DoOutputGap 16 freshOutput).warns.length
        = freshOutput.warns.length + 1) := by
  decide

/-- C19, amended: for every size, `BytecodeNoOutput::DoOutputGap` changes
nothing: no byte is emitted and no warning is set. -/
theorem C19_NoOutput_DoOutputGap (size : Nat) (st : OutputState) :
    BytecodeNoOutput.DoOutputGap size st = st ∧
    (BytecodeNoOutput.DoOutputGap size st).written = st.written ∧
    (BytecodeNoOutput.DoOutputGap size st).warns = st.warns :=
  ⟨rfl, rfl, rfl⟩

/-- C20: for every byte sequence, `BytecodeNoOutput::DoOutputBytes` writes
nothing to the stream and sets exactly one warning, the general warning that
initialized space in a nobits section is ignored. -/
theorem C20_NoOutput_DoOutputBytes (bytes : Bytes) (st : OutputState) :
    (BytecodeNoOutput.DoOutputBytes bytes st).os = st.os ∧
    (BytecodeNoOutput.DoOutputBytes bytes st).written = st.written ∧
    (BytecodeNoOutput.DoOutputBytes bytes st).warns = st.warns ++ [(WarnClass.WARN_GENERAL,
      "initialized space declared in nobits section: ignoring")] :=
  ⟨rfl, rfl, rfl⟩

/-- C21: when the two calls at its head return, `do_assemble` returns, with
`EXIT_SUCCESS` or `EXIT_FAILURE`.  It returns `EXIT_SUCCESS` if and only if
`Assemble` is called and succeeds, the object file is opened and `Output`
succeeds; the object file is then left, closed.  When `Assemble` is called
and fails it returns `EXIT_FAILURE` and the object file is never opened; when
`Output` fails the opened object file is closed and then removed and
`EXIT_FAILURE` is returned; a run that returns `EXIT_FAILURE` leaves no
object file of its own.  When a call at the head ends abnormally,
`do_assemble` ends there, before anything is done with the assembler or the
object file. -/
theorem C21_do_assemble (YGAS_OBJFMT_BITS : String) (opts : OptionLists) (diags : DiagSettings)
    (collab : DiagSettings → String → AssembleRun) :
    (∀ a, ApplyWarningSettings opts.inhibit_warnings opts.enable_warnings opts.fatal_warnings
        opts.no_signed_overflow diags = Except.error a →
      do_assemble YGAS_OBJFMT_BITS opts diags collab = Except.error a) ∧
    (∀ diags1 a, ApplyWarningSettings opts.inhibit_warnings opts.enable_warnings
        opts.fatal_warnings opts.no_signed_overflow diags = Except.ok diags1 →
      GetBitsSetting YGAS_OBJFMT_BITS opts.bits_32 opts.bits_64 = Except.error a →
      do_assemble YGAS_OBJFMT_BITS opts diags collab = Except.error a) ∧
    ∀ diags1 objfmt_bits,
      ApplyWarningSettings opts.inhibit_warnings opts.enable_warnings opts.fatal_warnings
        opts.no_signed_overflow diags = Except.ok diags1 →
      GetBitsSetting YGAS_OBJFMT_BITS opts.bits_32 opts.bits_64 = Except.ok objfmt_bits →
      ∃ code events, do_assemble YGAS_OBJFMT_BITS opts diags collab = Except.ok (code, events) ∧
        (code = EXIT_SUCCESS ∨ code = EXIT_FAILURE) ∧
        (code = EXIT_SUCCESS ↔
          ((collab diags1 objfmt_bits).fatalAfterCreate = false ∧
            (collab diags1 objfmt_bits).fatalAfterParser = false ∧
            ¬ ((collab diags1 objfmt_bits).okDebugFormat = true ∧
              (collab diags1 objfmt_bits).fatalAfterDebugFormat = true) ∧
            ((collab diags1 objfmt_bits).inputIsStdin = true ∨
              (collab diags1 objfmt_bits).inputFound = true)) ∧
          (collab diags1 objfmt_bits).assembleOk = true ∧
          (collab diags1 objfmt_bits).openOk = true ∧
          (collab diags1 objfmt_bits).outputOk = true) ∧
        (code = EXIT_SUCCESS →
          events = [RunEvent.assemble true, RunEvent.openObject true, RunEvent.output true,
            RunEvent.closeObject]) ∧
        (((collab diags1 objfmt_bits).fatalAfterCreate = false ∧
            (collab diags1 objfmt_bits).fatalAfterParser = false ∧
            ¬ ((collab diags1 objfmt_bits).okDebugFormat = true ∧
              (collab diags1 objfmt_bits).fatalAfterDebugFormat = true) ∧
            ((collab diags1 objfmt_bits).inputIsStdin = true ∨
              (collab diags1 objfmt_bits).inputFound = true)) →
          ((collab diags1 objfmt_bits).assembleOk = false →
            code = EXIT_FAILURE ∧ events = [RunEvent.assemble false]) ∧
          ((collab diags1 objfmt_bits).assembleOk = true →
            (collab diags1 objfmt_bits).openOk = false →
            code = EXIT_FAILURE ∧
            events = [RunEvent.assemble true, RunEvent.openObject false]) ∧
          ((collab diags1 objfmt_bits).assembleOk = true →
            (collab diags1 objfmt_bits).openOk = true →
            (collab diags1 objfmt_bits).outputOk = false →
            code = EXIT_FAILURE ∧
            events = [RunEvent.assemble true, RunEvent.openObject true, RunEvent.output false,
              RunEvent.closeObject, RunEvent.removeObject])) ∧
        (¬ ((collab diags1 objfmt_bits).fatalAfterCreate = false ∧
            (collab diags1 objfmt_bits).fatalAfterParser = false ∧
            ¬ ((collab diags1 objfmt_bits).okDebugFormat = true ∧
              (collab diags1 objfmt_bits).fatalAfterDebugFormat = true) ∧
            ((collab diags1 objfmt_bits).inputIsStdin = true ∨
              (collab diags1 objfmt_bits).inputFound = true)) →
          code = EXIT_FAILURE ∧ events = []) ∧
        (code = EXIT_FAILURE → objectFileLeft events false = false) ∧
        (code = EXIT_SUCCESS → objectFileLeft events false = true) := by
  refine ⟨fun a h => ?_, fun diags1 a h1 h2 => ?_, fun diags1 objfmt_bits h1 h2 => ?_⟩
  · simp only [do_assemble, h]
  · simp only [do_assemble, h1, h2]
  · have hdo : do_assemble YGAS_OBJFMT_BITS opts diags collab
        = Except.ok (do_assemble.run (collab diags1 objfmt_bits)) := by
      simp only [do_assemble, h1, h2]
    obtain ⟨s1, s2, s3, s4, s5, s6, s7⟩ := do_assemble_run_spec (collab diags1 objfmt_bits)
    refine ⟨(do_assemble.run (collab diags1 objfmt_bits)).1,
      (do_assemble.run (collab diags1 objfmt_bits)).2, hdo, s1, s2, s3, fun hc => ?_,
      fun hc => ?_, s6, s7⟩
    · obtain ⟨t1, t2, t3⟩ := s4 hc
      refine ⟨fun h => ?_, fun h h' => ?_, fun h h' h'' => ?_⟩
      · rw [t1 h]; exact ⟨rfl, rfl⟩
      · rw [t2 h h']; exact ⟨rfl, rfl⟩
      · rw [t3 h h' h'']; exact ⟨rfl, rfl⟩
    · rw [s5 hc]; exact ⟨rfl, rfl⟩

/-- Witness of C21: with the options `-W -32` and a default of 64 bits, four
runs of the assembler: all well; `Assemble` fails; the object file cannot be
opened; `Output` fails.  And with the options `-32 -64` the call of
`GetBitsSetting` at the head ends abnormally, and `do_assemble` with it. -/
theorem C21_do_assemble_witness :
    do_assemble "64" ⟨[1], [], [], [], [2], []⟩ ⟨false, false, Mapping.MAP_WARNING⟩
        (fun _ _ => ⟨false, false, true, false, false, true, true, true, true⟩)
      = Except.ok (EXIT_SUCCESS, [RunEvent.assemble true, RunEvent.openObject true,
          RunEvent.output true, RunEvent.closeObject]) ∧
    do_assemble "64" ⟨[1], [], [], [], [2], []⟩ ⟨false, false, Mapping.MAP_WARNING⟩
        (fun _ _ => ⟨false, false, true, false, false, true, false, true, true⟩)
      = Except.ok (EXIT_FAILURE, [RunEvent.assemble false]) ∧
    do_assemble "64" ⟨[1], [], [], [], [2], []⟩ ⟨false, false, Mapping.MAP_WARNING⟩
        (fun _ _ => ⟨false, false, true, false, false, true, true, false, true⟩)
      = Except.ok (EXIT_FAILURE, [RunEvent.assemble true, RunEvent.openObject false]) ∧
    do_assemble "64" ⟨[1], [], [], [], [2], []⟩ ⟨false, false, Mapping.MAP_WARNING⟩
        (fun _ _ => ⟨false, false, true, false, false, true, true, true, false⟩)
      = Except.ok (EXIT_FAILURE, [RunEvent.assemble true, RunEvent.openObject true,
          RunEvent.output false, RunEvent.closeObject, RunEvent.removeObject]) ∧
    do_assemble "64" ⟨[], [], [], [], [1], [2]⟩ ⟨false, false, Mapping.MAP_WARNING⟩
        (fun _ _ => ⟨false, false, true, false, false, true, true, true, true⟩)
      = Except.error (Abort.assertion "Invalid option index") ∧
    (∃ code events,
      do_assemble "64" ⟨[1], [], [], [], [2], []⟩ ⟨false, false, Mapping.MAP_WARNING⟩
          (fun _ bits => ⟨false, false, true, false, false, true, true, true,
            decide (bits = "64")⟩)
        = Except.ok (code, events) ∧ code = EXIT_FAILURE ∧
      events = [RunEvent.assemble true, RunEvent.openObject true, RunEvent.output false,
        RunEvent.closeObject, RunEvent.removeObject] ∧
      objectFileLeft events false = false) := by
  refine ⟨by decide, by decide, by decide, by decide, by decide, ?_⟩
  obtain ⟨code, events, h, _, _, _, h4, _, h6, _⟩ :=
    (C21_do_assemble "64" ⟨[1], [], [], [], [2], []⟩ ⟨false, false, Mapping.MAP_WARNING⟩
      (fun _ bits => ⟨false, false, true, false, false, true, true, true,
        decide (bits = "64")⟩)).2.2 ⟨true, false, Mapping.MAP_WARNING⟩ "32"
      (by decide) (by decide)
  obtain ⟨hc, he⟩ := (h4 (by decide)).2.2 rfl rfl (by decide)
  exact ⟨code, events, h, hc, he, h6 hc⟩

/-- C22, on the code: for the command line `-64 -32 -64` (the option `-32`
at position 2, the option `-64` at positions 1 and 3) `GetBitsSetting` returns
"32", where the last option is `-64`; for the command line `-32 -64` it fails
the assertion of `getPosition`, because the position of the `-64` option is
read with the count of the `-32` options. -/
theorem C22_GetBitsSetting_failing_input :
    GetBitsSetting "64" [2] [1, 3] = Except.ok "32" ∧
    specBitsSetting "64" [2] [1, 3] = "64" ∧
    GetBitsSetting "32" [1] [2] = Except.error (Abort.assertion "Invalid option index") ∧
    specBitsSetting "32" [1] [2] = "64" := by
  decide

/-- C23, on the code: on the format "%0" of a composer without arguments
`getStr` reads `m_arg_pos[-1]`, where the reference expansion copies the two
characters (the test `spec_no == m_arg` is made without `spec_no > 0`); and
on the format "50%", whose last character is `%`, it reads the format beyond
its end, where the reference expansion copies the text unchanged.  On the
format "%1-%2: 100%%, %3" with the arguments "a" and "bc" it is the reference
expansion. -/
theorem C23_Composer_getStr_failing_input :
    (Composer.new "%0").getStr = Except.error (Abort.undefined "m_arg_pos index out of bounds") ∧
    specExpand [] "%0".toList = "%0".toList ∧
    (Composer.new "50%").getStr = Except.error (Abort.assertion "Invalid index!") ∧
    specExpand [] "50%".toList = "50%".toList ∧
    (((Composer.new "%1-%2: 100%%, %3").arg "a").arg "bc").getStr
      = Except.ok "a-bc: 100%, %3".toList ∧
    specExpand ["a".toList, "bc".toList] "%1-%2: 100%%, %3".toList = "a-bc: 100%, %3".toList := by
  decide

/-- C24: for the raw preprocessor initialised on an input stream, successive
`get_line` calls return the lines of the input unchanged and in order, each
call returning true, and the call after the last line returns false: no line
returned holds a newline, and the lines, each followed by a newline, are the
input (up to the newline the input may lack at its end).  On the input
"test text" of the test the one line is "test text", and the `main` of the
test returns `EXIT_SUCCESS`. -/
theorem C24_raw_preproc_lines (is : String) :
    (∀ k (hk : k < (RawPreproc.readLines is.toList.length (RawPreproc.init is)).length),
      (RawPreproc.afterCalls k (RawPreproc.init is)).get_line.1 = true ∧
      (RawPreproc.afterCalls k (RawPreproc.init is)).get_line.2.1
        = (RawPreproc.readLines is.toList.length (RawPreproc.init is))[k]) ∧
    (RawPreproc.afterCalls (RawPreproc.readLines is.toList.length (RawPreproc.init is)).length
      (RawPreproc.init is)).get_line.1 = false ∧
    (∀ l ∈ RawPreproc.readLines is.toList.length (RawPreproc.init is), '\n' ∉ l) ∧
    (unlines (RawPreproc.readLines is.toList.length (RawPreproc.init is)) = is.toList ∨
      unlines (RawPreproc.readLines is.toList.length (RawPreproc.init is))
        = is.toList ++ ['\n']) ∧
    RawPreproc.readLines 9 (RawPreproc.init "test text") = ["test text".toList] ∧
    test_preproc_main "test text" = EXIT_SUCCESS :=
  ⟨(readLines_spec is.toList.length (RawPreproc.init is) (Nat.le_refl _)).1,
    (readLines_spec is.toList.length (RawPreproc.init is) (Nat.le_refl _)).2.1,
    (readLines_spec is.toList.length (RawPreproc.init is) (Nat.le_refl _)).2.2.1,
    (readLines_spec is.toList.length (RawPreproc.init is) (Nat.le_refl _)).2.2.2,
    by decide, by decide⟩

/-- C25: the overlap check of the flat-binary link reports the two sections
`i < j` exactly when their load-address intervals `[s, e)` have an address in
common; it reports `[0,10)` and `[5,15)`, and reports nothing for `[0,10)` and
`[10,20)`, which only touch. -/
theorem C25_check_lma_overlap (sections : List LmaSection) (i j : Nat) (hij : i < j)
    (hj : j < sections.length) :
    ((i, j) ∈ check_lma_overlap sections ↔
      ∃ x, ((sections.getD i ⟨0, 0⟩).start ≤ x ∧
          x < (sections.getD i ⟨0, 0⟩).start + (sections.getD i ⟨0, 0⟩).length) ∧
        ((sections.getD j ⟨0, 0⟩).start ≤ x ∧
          x < (sections.getD j ⟨0, 0⟩).start + (sections.getD j ⟨0, 0⟩).length)) ∧
    check_lma_overlap [⟨0, 10⟩, ⟨5, 10⟩] = [(0, 1)] ∧
    check_lma_overlap [⟨0, 10⟩, ⟨10, 10⟩] = [] := by
  refine ⟨?_, by decide, by decide⟩
  rw [mem_check_lma_overlap, check_lma_overlap_pair_iff]
  constructor
  · rintro ⟨_, _, h⟩; exact h
  · intro h; exact ⟨hij, hj, h⟩

/-- Witness of C25: of the three sections `[0,10)`, `[10,20)` and `[5,15)`
the first and the third are reported. -/
theorem C25_check_lma_overlap_witness :
    ((0, 2) ∈ check_lma_overlap [⟨0, 10⟩, ⟨10, 10⟩, ⟨5, 10⟩] ↔
      ∃ x, ((0 : Nat) ≤ x ∧ x < 0 + 10) ∧ (5 ≤ x ∧ x < 5 + 10)) ∧
    check_lma_overlap [⟨0, 10⟩, ⟨5, 10⟩] = [(0, 1)] ∧
    check_lma_overlap [⟨0, 10⟩, ⟨10, 10⟩] = [] :=
  C25_check_lma_overlap [⟨0, 10⟩, ⟨10, 10⟩, ⟨5, 10⟩] 0 2 (by decide) (by decide)

/-- C26: for every `X86Common` state, `to_bytes` appends exactly `calc_len()`
bytes when `segreg` is null and `calc_len() + 1` bytes when a segment register
is given, after the bytes already there, and `calc_len()` is at most 3. -/
theorem C26_X86Common_length (c : X86Common) (bytes : Bytes) :
    (c.to_bytes bytes none).length = bytes.length + c.calc_len ∧
    (∀ p, (c.to_bytes bytes (some p)).length = bytes.length + c.calc_len + 1) ∧
    (∀ segreg, ∃ out, c.to_bytes bytes segreg = bytes ++ out ∧
      out.length = c.calc_len + (if segreg.isSome then 1 else 0)) ∧
    c.calc_len ≤ 3 := by
  refine ⟨?_, fun p => ?_, fun segreg => ⟨_, to_bytes_append c bytes segreg,
    to_bytes_length c segreg⟩, calc_len_le c⟩
  · rw [to_bytes_append, List.length_append, to_bytes_length]; simp
  · rw [to_bytes_append, List.length_append, to_bytes_length]; simp; omega

/-- C27: cancellation preserves the value.  For every well-formed integer
expression `e` on which `Evaluate`, with the value of locations allowed,
returns true with the integer `v` (at depth `dr`), `Evaluate` returns true
with the same integer on the terms `e1` that `TransformDistBase` with the
`CalcDist` functor leaves when it is applied at any position `pos` of `e`, an
`ADD` root or not.  `CalcDist(loc1, loc2)` is the offset of `loc2` minus the
offset of `loc1` whenever it succeeds; `IntNum::Calc` adds and multiplies
exactly. -/
theorem C27_cancellation_preserves_value (env : Env) (ar : Arith) (e e1 : ExprTerms)
    (pos : Int) (subst : Option (List ExprTerm)) (zr : Bool) (v : Int) (dr : Int)
    (hwf : WellFormed e) (hint : IntegerExpr e subst)
    (hadd : ∀ a b, ar.Calc Op.ADD a b = some (a + b))
    (hmul : ∀ a b, ar.Calc Op.MUL a b = some (a * b))
    (hev : Evaluate env ar e subst true zr = Except.ok (some ⟨TermData.INT v, dr⟩))
    (htr : TransformDistBase env (CalcDistFunctor env) e pos () = Except.ok (e1, ())) :
    Evaluate env ar e1 subst true zr = Except.ok (some ⟨TermData.INT v, dr⟩) := by
  obtain ⟨p, root, _, hroot, hcase⟩ := TransformDistBase_ok htr
  rcases hcase with ⟨_, he1, _⟩ | ⟨hisadd, _, rels, subs, subs1, hscan, hmatch⟩
  · rw [he1]; exact hev
  obtain ⟨pre, after, hes, hpre⟩ := split_of_getElem? hroot
  have hdata : root.data = TermData.OP Op.ADD root.getNumChild := data_of_isOpOf hisadd rfl
  obtain ⟨d0, hF⟩ := hwf
  obtain ⟨before, B, hpb, hFB, hclosed⟩ :=
    hF.children_closed pre after root Op.ADD root.getNumChild hes hdata
  have heq : e = before ++ B ++ root :: after := by rw [hes, hpb]
  have hp : p = before.length + B.length := by rw [← hpre, hpb]; simp
  have hns : ∀ T B1, T = before ++ B1 ++ root :: after → ¬ ∃ t, T = [t] ∧ Numeric t := by
    intro T B1 hT ⟨t, het, hnum⟩
    have hmem : root ∈ T := by rw [hT]; simp
    rw [het] at hmem
    simp only [List.mem_singleton] at hmem
    rw [← hmem] at hnum
    exact not_numeric_of_OP hdata hnum
  have hloop := Evaluate_some_loop env ar subst true zr e _ hev (hns e B heq)
  rw [heq] at hloop
  obtain ⟨st1, h1, h2⟩ :=
    evalLoop_append_inv env ar subst true zr (before ++ B) (root :: after) [] _ hloop
  obtain ⟨st0, h0, hB⟩ := evalLoop_append_inv env ar subst true zr before B [] st1 h1
  rw [evalLoop] at h2
  cases ht : evalTerm env ar subst true zr st1 root with
  | error a => rw [ht] at h2; simp at h2
  | ok o =>
    cases o with
    | none => rw [ht] at h2; simp at h2
    | some st2 =>
      rw [ht] at h2
      simp only [] at h2
      have hist1 : IntStack st1 :=
        evalLoop_intStack env ar subst true zr hint.2 (before ++ B) [] st1
          (fun t htm => hint.1 t (by rw [heq]; exact List.mem_append_left _ htm))
          (fun x hx => by simp at hx) h1
      obtain ⟨ws, vs, hY, hwl, hst1, hvs⟩ := Yields.of_eval hFB hB hist1
      have hBlock : Block env ar subst zr before root after e ws := ⟨B, heq, hY⟩
      have hinv := MatchInv.of_scanInv (scanTerms_start_inv hscan)
      obtain ⟨hprot1, hprot2⟩ := scanTerms_protected hroot hisadd hscan
      have hrb : ∀ r ∈ rels, before.length ≤ p - r := fun r hr =>
        ProtectedBy.in_block heq hclosed (by rw [← hp]; exact hprot1 r hr)
      have hsb : ∀ s ∈ subs, before.length ≤ p - s.subroot := fun s hs =>
        ProtectedBy.in_block heq hclosed (by rw [← hp]; exact hprot2 s hs)
      have hlenT : p + 1 + after.length = e.length := by rw [heq, hp]; simp; omega
      obtain ⟨ws1, hB1, hsum, hlen⟩ :=
        matchRels_block hmul rels e subs ws e1 subs1 () () hinv hrb hsb hlenT hBlock hmatch
      obtain ⟨B1, he1, _, vs1, hvs1, hall1⟩ := hB1
      have hroot_eq : root = ⟨TermData.OP Op.ADD ws.length, root.m_depth⟩ := by
        cases root with
        | mk data dep =>
          simp only at hdata
          rw [hdata, hwl]
      have ht1 : evalTerm env ar subst true zr (st0 ++ vs1) root = Except.ok (some st2) := by
        rw [hroot_eq]
        refine evalTerm_add_sum env ar subst true zr hadd st0 vs vs1 st2 ws ws1 _ hvs hvs1
          hlen hsum ?_
        rw [← hroot_eq, ← hst1]
        exact ht
      have hloop1 : evalLoop env ar subst true zr e1 []
          = Except.ok (some [⟨TermData.INT v, dr⟩]) := by
        rw [he1, List.append_assoc,
          evalLoop_append_some env ar subst true zr (B1 ++ root :: after) before [] h0,
          evalLoop_append_some env ar subst true zr (root :: after) B1 st0 (hall1 st0),
          evalLoop, ht1]
        exact h2
      have hne1 : e1 ≠ [] := by rw [he1]; simp
      exact (Evaluate_of_loop env ar subst true zr e1 (hns e1 B1 he1) hne1).2.2.1 _ hloop1

/-- Witness of C27: `L2 - L1` for the labels at offsets 104 and 100 of one
section (symbols 2 and 1 of the sample environment) evaluates to 4;
`TransformDistBase` at the root leaves `4 + 0`, which evaluates to 4. -/
theorem C27_cancellation_preserves_value_witness :
    Evaluate sampleEnv exactArith (exprSub 2 1 0) none true false
      = Except.ok (some ⟨TermData.INT 4, 0⟩) ∧
    TransformDistBase sampleEnv (CalcDistFunctor sampleEnv) (exprSub 2 1 0) 4 ()
      = Except.ok ([⟨TermData.INT 4, 1⟩, ⟨TermData.NONE, 2⟩, ⟨TermData.NONE, 2⟩,
          ⟨TermData.INT 0, 1⟩, ⟨TermData.OP Op.ADD 2, 0⟩], ()) ∧
    Evaluate sampleEnv exactArith
      [⟨TermData.INT 4, 1⟩, ⟨TermData.NONE, 2⟩, ⟨TermData.NONE, 2⟩, ⟨TermData.INT 0, 1⟩,
        ⟨TermData.OP Op.ADD 2, 0⟩] none true false
      = Except.ok (some ⟨TermData.INT 4, 0⟩) :=
  ⟨by decide, by decide,
    C27_cancellation_preserves_value sampleEnv exactArith (exprSub 2 1 0)
      [⟨TermData.INT 4, 1⟩, ⟨TermData.NONE, 2⟩, ⟨TermData.NONE, 2⟩, ⟨TermData.INT 0, 1⟩,
        ⟨TermData.OP Op.ADD 2, 0⟩] 4 none false 4 0 (wellFormed_exprSub 2 1 0)
      (integerExpr_exprSub 2 1 0) (fun _ _ => rfl) (fun _ _ => rfl) (by decide) (by decide)⟩

/-- C28, on the code: called with the null pointer for `rex` in 64-bit mode,
with `def_opersize_64` 32 and the one prefix OPERSIZE of value 64,
`apply_prefixes_common` dereferences `rex`.  With the null pointer for `rex`
it does so exactly when the mode is 64-bit, `def_opersize_64` is not 64 and
the list holds an OPERSIZE prefix of value 64, and it ends abnormally in no
other way. -/
theorem C28_apply_prefixes_null_rex :
    X86Common.apply_prefixes_common ⟨0, 0, 0, 64⟩ none 32 [⟨PrefixType.OPERSIZE, 64⟩] []
      = Except.error nullRex ∧
    ∀ (c : X86Common) (d : Nat) (prefixes : List X86Prefix) (warns : List (WarnClass × String)),
      (c.apply_prefixes_common none d prefixes warns = Except.error nullRex ↔
        (c.m_mode_bits = 64 ∧ d ≠ 64 ∧
          ∃ p ∈ prefixes, p.type = PrefixType.OPERSIZE ∧ p.value % 256 = 64)) ∧
      (∀ a, c.apply_prefixes_common none d prefixes warns = Except.error a → a = nullRex) :=
  ⟨by decide, fun c d prefixes warns =>
    applyPrefixes_null_rex d prefixes ⟨c, none, true, warns⟩ rfl⟩

/-- Counterexample to C29 as stated: on the list of the two LOCK/REP
prefixes `0xF0, 0xF3` the warning is set and `m_lockrep_pre` ends as `0xF3`,
the last-listed prefix, not as `0xF0`, the first-listed. -/
theorem C29_counterexample :
    ∃ s, X86Common.apply_prefixes_common ⟨0, 0, 0, 32⟩ (some 0) 32
        [⟨PrefixType.LOCKREP, 0xF0⟩, ⟨PrefixType.LOCKREP, 0xF3⟩] [] = Except.ok s ∧
      multipleLockRep ∈ s.warns ∧ s.common.m_lockrep_pre = 0xF3 ∧
      s.common.m_lockrep_pre ≠ 0xF0 :=
  ⟨_, rfl, by decide, by decide, by decide⟩

/-- C29, amended: when the prefix list holds more than one LOCK/REP prefix,
none of value zero, and no segment-register prefix, `apply_prefixes_common`
(with `rex` not null, or without an OPERSIZE prefix in the list) returns with
the warning "multiple LOCK or REP prefixes, using leftmost" set and
`m_lockrep_pre` the value of the last-listed LOCK/REP prefix. -/
theorem C29_apply_prefixes_lockrep (c : X86Common) (rex : Option Nat) (d : Nat)
    (prefixes : List X86Prefix) (warns : List (WarnClass × String))
    (hcount : 2 ≤ (lockReps prefixes).length)
    (hseg : ∀ p ∈ prefixes, p.type ≠ PrefixType.SEGREG)
    (hnz : ∀ p ∈ prefixes, p.type = PrefixType.LOCKREP → p.value % 256 ≠ 0)
    (hok : rex ≠ none ∨ ∀ p ∈ prefixes, p.type ≠ PrefixType.OPERSIZE) :
    ∃ s last, c.apply_prefixes_common rex d prefixes warns = Except.ok s ∧
      multipleLockRep ∈ s.warns ∧
      (lockReps prefixes).getLast? = some last ∧
      s.common.m_lockrep_pre = last.value % 256 := by
  obtain ⟨s, h1, h2, _, h4⟩ := applyPrefixes_lockrep d prefixes ⟨c, rex, true, warns⟩ hseg hnz hok
  have hne : lockReps prefixes ≠ [] := by
    intro h; rw [h] at hcount; simp at hcount
  have hx := List.getLast?_eq_getLast (lockReps prefixes) hne
  refine ⟨s, _, h1, h4 (Or.inl hcount), hx, ?_⟩
  rw [h2, hx]
  rfl

/-- Witness of C29: the prefixes `0xF3, ADDRSIZE 32, 0xF0`. -/
theorem C29_apply_prefixes_lockrep_witness :
    ∃ s last, X86Common.apply_prefixes_common ⟨0, 0, 0, 64⟩ none 64
        [⟨PrefixType.LOCKREP, 0xF3⟩, ⟨PrefixType.ADDRSIZE, 32⟩, ⟨PrefixType.LOCKREP, 0xF0⟩] []
        = Except.ok s ∧
      multipleLockRep ∈ s.warns ∧
      (lockReps [⟨PrefixType.LOCKREP, 0xF3⟩, ⟨PrefixType.ADDRSIZE, 32⟩,
        ⟨PrefixType.LOCKREP, 0xF0⟩]).getLast? = some last ∧
      s.common.m_lockrep_pre = last.value % 256 :=
  C29_apply_prefixes_lockrep ⟨0, 0, 0, 64⟩ none 64
    [⟨PrefixType.LOCKREP, 0xF3⟩, ⟨PrefixType.ADDRSIZE, 32⟩, ⟨PrefixType.LOCKREP, 0xF0⟩] []
    (by decide) (by decide) (by decide) (Or.inr (by decide))

/-- C30: for every operator below `Op::NONNUM` whose children have the
integer values `v1, ..., vn` (`n >= 2`) in term order, the round of the
operator in `Evaluate` replaces the children's values on the stack by the one
integer `((v1 op v2) op v3) ... op vn`, the left fold with `IntNum::Calc`, at
the operator's depth (and ends with the error of `IntNum::Calc` if one of the
calculations raises one); `Evaluate` on the subtree alone returns true with
that integer; and with exact addition an `ADD` over the `n` integers
evaluates to their sum. -/
theorem C30_Evaluate_left_fold (env : Env) (ar : Arith) (subst : Option (List ExprTerm))
    (valueloc zeroreg : Bool) (st cs : List ExprTerm) (v1 : Int) (vs : List Int) (op : Op)
    (d : Int) (hop : op < Op.NONNUM)
    (hcs : cs.map (fun x => x.data) = (v1 :: vs).map TermData.INT) (hn : vs ≠ []) :
    (∀ v, foldCalc ar op v1 vs = some v →
      evalTerm env ar subst valueloc zeroreg (st ++ cs) ⟨TermData.OP op (vs.length + 1), d⟩
        = Except.ok (some (st ++ [⟨TermData.INT v, d⟩]))) ∧
    (foldCalc ar op v1 vs = none →
      evalTerm env ar subst valueloc zeroreg (st ++ cs) ⟨TermData.OP op (vs.length + 1), d⟩
        = Except.error Abort.ArithError) ∧
    (∀ v, foldCalc ar op v1 vs = some v →
      Evaluate env ar (cs ++ [⟨TermData.OP op (vs.length + 1), d⟩]) subst valueloc zeroreg
        = Except.ok (some ⟨TermData.INT v, d⟩)) ∧
    ((∀ a b, ar.Calc Op.ADD a b = some (a + b)) → op = Op.ADD →
      Evaluate env ar (cs ++ [⟨TermData.OP op (vs.length + 1), d⟩]) subst valueloc zeroreg
        = Except.ok (some ⟨TermData.INT (v1 + vs.sum), d⟩)) := by
  have hround := evalTerm_fold env ar subst valueloc zeroreg st cs v1 vs op d hop hcs hn
  have hfull : ∀ v, foldCalc ar op v1 vs = some v →
      Evaluate env ar (cs ++ [⟨TermData.OP op (vs.length + 1), d⟩]) subst valueloc zeroreg
        = Except.ok (some ⟨TermData.INT v, d⟩) := by
    intro v hv
    have hlen : cs.length = vs.length + 1 := by
      have := congrArg List.length hcs
      simpa using this
    have hs : ¬ ∃ t, cs ++ [⟨TermData.OP op (vs.length + 1), d⟩] = [t] ∧ Numeric t := by
      rintro ⟨t, ht, _⟩
      have := congrArg List.length ht
      rw [List.length_append] at this
      simp only [List.length_singleton] at this
      omega
    have hl := Evaluate_of_loop env ar subst valueloc zeroreg _ hs (by simp)
    apply hl.2.2.1
    rw [evalLoop_int_terms env ar subst valueloc zeroreg cs (v1 :: vs) _ [] hcs,
      evalLoop_single]
    have := (evalTerm_fold env ar subst valueloc zeroreg [] cs v1 vs op d hop hcs hn).1 v hv
    simpa using this
  refine ⟨hround.1, hround.2, hfull, fun hadd hop2 => ?_⟩
  subst hop2
  exact hfull _ (foldCalc_add ar hadd vs v1)

/-- Witness of C30: `7 - 2 - 1` is 4, and `7 + 2 + 1` is 10. -/
theorem C30_Evaluate_left_fold_witness :
    Evaluate sampleEnv exactArith
      [⟨TermData.INT 7, 1⟩, ⟨TermData.INT 2, 1⟩, ⟨TermData.INT 1, 1⟩, ⟨TermData.OP Op.SUB 3, 0⟩]
      none false false = Except.ok (some ⟨TermData.INT 4, 0⟩) ∧
    Evaluate sampleEnv exactArith
      [⟨TermData.INT 7, 1⟩, ⟨TermData.INT 2, 1⟩, ⟨TermData.INT 1, 1⟩, ⟨TermData.OP Op.ADD 3, 0⟩]
      none false false = Except.ok (some ⟨TermData.INT (7 + [2, 1].sum), 0⟩) :=
  ⟨(C30_Evaluate_left_fold sampleEnv exactArith none false false []
      [⟨TermData.INT 7, 1⟩, ⟨TermData.INT 2, 1⟩, ⟨TermData.INT 1, 1⟩] 7 [2, 1] Op.SUB 0
      (by decide) rfl (by decide)).2.2.1 4 (by decide),
    (C30_Evaluate_left_fold sampleEnv exactArith none false false []
      [⟨TermData.INT 7, 1⟩, ⟨TermData.INT 2, 1⟩, ⟨TermData.INT 1, 1⟩] 7 [2, 1] Op.ADD 0
      (by decide) rfl (by decide)).2.2.2 (fun a b => by simp [exactArith]) rfl⟩

/-- C31: for every well-formed expression and every `ADD` term of it with at
most 32 children, the scan of `TransformDistBase` at that term writes none of
`relpos`, `subpos`, `subneg1` and `subroot` at 32 or beyond (it ends normally
or by throwing for a position of 0xff or more, never in an overrun); when it
ends normally each direct child has contributed at most one entry, so that
there are at most 32 additive and at most 32 subtractive entries, and every
recorded relative position is below 0xff. -/
theorem C31_scan_within_arrays (e : ExprTerms) (p : Nat) (root : ExprTerm)
    (hwf : WellFormed e) (hp : e[p]? = some root) (hadd : root.isOpOf Op.ADD = true)
    (hnum : root.getNumChild ≤ 32) :
    (∀ a, scanTerms e p root.m_depth p p [] [] = Except.error a →
      a = Abort.TooComplexError "expression too large") ∧
    scanTerms e p root.m_depth p p [] [] ≠ Except.error (Abort.undefined "relpos[32] overrun") ∧
    scanTerms e p root.m_depth p p [] [] ≠ Except.error (Abort.undefined "subpos[32] overrun") ∧
    ∀ rels subs, scanTerms e p root.m_depth p p [] [] = Except.ok (rels, subs) →
      rels.length + subs.length ≤ root.getNumChild ∧
      rels.length ≤ 32 ∧ subs.length ≤ 32 ∧
      (∀ r ∈ rels, r < 0xff) ∧
      ∀ s ∈ subs, s.subpos < 0xff ∧ s.subneg1 < 0xff ∧ s.subroot < 0xff := by
  obtain ⟨herr, hok⟩ := scanTerms_count hwf hp hadd hnum
  refine ⟨herr, fun h => ?_, fun h => ?_, fun rels subs h => ?_⟩
  · cases herr _ h
  · cases herr _ h
  · have hlen := hok rels subs h
    have hinv := scanTerms_start_inv h
    refine ⟨hlen, by omega, by omega, fun r hr => (hinv.rel_ok r hr).1.lt, fun s hs => ?_⟩
    have hs1 := (hinv.sub_ok s hs).1
    exact ⟨hs1.sym_lt, hs1.neg1_lt, lt_trans hs1.root_lt_sym hs1.sym_lt⟩

/-- Witness of C31: at the root of `L2 - L1` (symbols 2 and 1), an `ADD` with
two children, the scan records one additive and one subtractive entry. -/
theorem C31_scan_within_arrays_witness :
    (exprSub 2 1 0)[4]? = some ⟨TermData.OP Op.ADD 2, 0⟩ ∧
    scanTerms (exprSub 2 1 0) 4 0 4 4 [] [] = Except.ok ([4], [⟨3, 2, 1⟩]) ∧
    ((∀ a, scanTerms (exprSub 2 1 0) 4 0 4 4 [] [] = Except.error a →
      a = Abort.TooComplexError "expression too large") ∧
    scanTerms (exprSub 2 1 0) 4 0 4 4 [] []
      ≠ Except.error (Abort.undefined "relpos[32] overrun") ∧
    scanTerms (exprSub 2 1 0) 4 0 4 4 [] []
      ≠ Except.error (Abort.undefined "subpos[32] overrun") ∧
    ∀ rels subs, scanTerms (exprSub 2 1 0) 4 0 4 4 [] [] = Except.ok (rels, subs) →
      rels.length + subs.length ≤ 2 ∧
      rels.length ≤ 32 ∧ subs.length ≤ 32 ∧
      (∀ r ∈ rels, r < 0xff) ∧
      ∀ s ∈ subs, s.subpos < 0xff ∧ s.subneg1 < 0xff ∧ s.subroot < 0xff) :=
  ⟨by decide, by decide,
    C31_scan_within_arrays (exprSub 2 1 0) 4 ⟨TermData.OP Op.ADD 2, 0⟩
      (wellFormed_exprSub 2 1 0) (by decide) (by decide) (by decide)⟩

/-- C32, on the code: on the format "%0" of a composer to which no argument
has been supplied `getStr` reads `m_arg_pos[-1]`, an index outside 0 to 9
(the test `spec_no == m_arg` is made without the `spec_no > 0` of the branch
before it); and on the format "%", as on every format whose last character is
`%`, it reads the format at the index that is its length, where the
`operator[]` of the string asserts.  With one argument supplied the format
"%0" is read within bounds, and so is "%%". -/
theorem C32_Composer_getStr_failing_input :
    (Composer.new "%0").m_arg = 0 ∧
    (Composer.new "%0").getStr = Except.error (Abort.undefined "m_arg_pos index out of bounds") ∧
    (Composer.new "%").getStr = Except.error (Abort.assertion "Invalid index!") ∧
    (Composer.new "ab%").getStr = Except.error (Abort.assertion "Invalid index!") ∧
    ((Composer.new "%0").arg "a").getStr = Except.ok "%0".toList ∧
    (Composer.new "%%").getStr = Except.ok "%".toList := by
  decide

/-- C33: `X86Common::to_bytes` leaves the bytes already in the buffer and
appends to them, in this order and nothing else: the prefix byte of the
segment register if `segreg` is non-null; 0x67 if and only if `m_addrsize` is
non-zero and differs from `m_mode_bits`; 0x66 if and only if `m_opersize` is
non-zero and either the mode is not 64 and `m_opersize` differs from the mode,
or the mode is 64 and `m_opersize` is 16; `m_lockrep_pre` if and only if it
is non-zero. -/
theorem C33_X86Common_to_bytes (c : X86Common) (bytes : Bytes) (segreg : Option Nat) :
    c.to_bytes bytes segreg =
      bytes
        ++ (match segreg with
            | some p => [p % 256]
            | none => [])
        ++ (if c.m_addrsize ≠ 0 ∧ c.m_addrsize ≠ c.m_mode_bits then [0x67] else [])
        ++ (if c.m_opersize ≠ 0 ∧
              ((c.m_mode_bits ≠ 64 ∧ c.m_opersize ≠ c.m_mode_bits) ∨
                (c.m_mode_bits = 64 ∧ c.m_opersize = 16)) then [0x66] else [])
        ++ (if c.m_lockrep_pre ≠ 0 then [c.m_lockrep_pre % 256] else []) := by
  unfold X86Common.to_bytes
  cases segreg <;> split_ifs <;> simp [Bytes.write_8]

/-- C34: for a command line whose occurrences of -W (or --no-warn), --warn,
--fatal-warnings and -J stand at positions counted from 1 that increase along
the command line, `ApplyWarningSettings` leaves the diagnostic settings that
applying the effect of every occurrence one at a time in increasing position
gives (-W: ignore all warnings; --warn: stop ignoring, warnings not errors,
signed-overflow a warning; --fatal-warnings: warnings as errors; -J:
signed-overflow ignored); its loop handles one occurrence in every round but
the one in which it breaks, so that it ends after exactly as many rounds as
there are occurrences and the round that breaks, every counter at the size of
its list. -/
theorem C34_ApplyWarningSettings_in_order (occs : List (Nat × WarnOption))
    (diags : DiagSettings) (hpos : ∀ x ∈ occs, 0 < x.1)
    (hinc : occs.Pairwise (fun a b => a.1 < b.1)) :
    ApplyWarningSettings (positionsOf WarnOption.inhibit_warnings occs)
        (positionsOf WarnOption.enable_warnings occs)
        (positionsOf WarnOption.fatal_warnings occs)
        (positionsOf WarnOption.no_signed_overflow occs) diags
      = Except.ok (specWarningSettings occs diags) ∧
    ∀ fuel, ApplyWarningSettings.loop (positionsOf WarnOption.inhibit_warnings occs)
        (positionsOf WarnOption.enable_warnings occs)
        (positionsOf WarnOption.fatal_warnings occs)
        (positionsOf WarnOption.no_signed_overflow occs) fuel ⟨diags, 0, 0, 0, 0⟩
      = if fuel ≤ occs.length then Except.error Abort.fuel
        else Except.ok ⟨specWarningSettings occs diags,
          (positionsOf WarnOption.inhibit_warnings occs).length,
          (positionsOf WarnOption.enable_warnings occs).length,
          (positionsOf WarnOption.fatal_warnings occs).length,
          (positionsOf WarnOption.no_signed_overflow occs).length⟩ := by
  have hloop := fun fuel => ApplyWarningSettings_loop_rest
    (positionsOf WarnOption.inhibit_warnings occs) (positionsOf WarnOption.enable_warnings occs)
    (positionsOf WarnOption.fatal_warnings occs) (positionsOf WarnOption.no_signed_overflow occs)
    occs ⟨diags, 0, 0, 0, 0⟩ fuel hpos hinc rfl rfl rfl rfl (Nat.zero_le _) (Nat.zero_le _)
    (Nat.zero_le _) (Nat.zero_le _)
  refine ⟨?_, hloop⟩
  rw [ApplyWarningSettings, hloop, positionsOf_length_sum, if_neg (by omega)]

/-- Witness of C34: the command line `--warn -W --fatal-warnings x -J --warn`
leaves warnings shown, not errors, and signed-overflow a warning, after six
rounds. -/
theorem C34_ApplyWarningSettings_in_order_witness :
    ApplyWarningSettings [2] [1, 6] [3] [5] ⟨true, true, Mapping.MAP_IGNORE⟩
      = Except.ok ⟨false, false, Mapping.MAP_WARNING⟩ ∧
    (ApplyWarningSettings
        (positionsOf WarnOption.inhibit_warnings
          [(1, WarnOption.enable_warnings), (2, WarnOption.inhibit_warnings),
            (3, WarnOption.fatal_warnings), (5, WarnOption.no_signed_overflow),
            (6, WarnOption.enable_warnings)])
        (positionsOf WarnOption.enable_warnings
          [(1, WarnOption.enable_warnings), (2, WarnOption.inhibit_warnings),
            (3, WarnOption.fatal_warnings), (5, WarnOption.no_signed_overflow),
            (6, WarnOption.enable_warnings)])
        (positionsOf WarnOption.fatal_warnings
          [(1, WarnOption.enable_warnings), (2, WarnOption.inhibit_warnings),
            (3, WarnOption.fatal_warnings), (5, WarnOption.no_signed_overflow),
            (6, WarnOption.enable_warnings)])
        (positionsOf WarnOption.no_signed_overflow
          [(1, WarnOption.enable_warnings), (2, WarnOption.inhibit_warnings),
            (3, WarnOption.fatal_warnings), (5, WarnOption.no_signed_overflow),
            (6, WarnOption.enable_warnings)]) ⟨true, true, Mapping.MAP_IGNORE⟩
      = Except.ok (specWarningSettings
          [(1, WarnOption.enable_warnings), (2, WarnOption.inhibit_warnings),
            (3, WarnOption.fatal_warnings), (5, WarnOption.no_signed_overflow),
            (6, WarnOption.enable_warnings)] ⟨true, true, Mapping.MAP_IGNORE⟩)) :=
  ⟨by decide,
    (C34_ApplyWarningSettings_in_order
      [(1, WarnOption.enable_warnings), (2, WarnOption.inhibit_warnings),
        (3, WarnOption.fatal_warnings), (5, WarnOption.no_signed_overflow),
        (6, WarnOption.enable_warnings)] ⟨true, true, Mapping.MAP_IGNORE⟩
      (by decide) (by decide)).1⟩

/-- Counterexample to C35 as stated: `(+ 1) | 2.0`, with the operator
`Op::OR` (not below `Op::NEG`, below `Op::NONNUM`) applied to two operands of
which the second is a float, is well-formed, and `Evaluate` does not return
false on it: the assertion on the one-child `ADD` fails before the root is
reached.  Nor does it on `subst0 | 2.0` with a substitution array whose
entry 0 is a symbol: the assertion on the substitution fails before the root
is reached. -/
theorem C35_counterexample :
    Op.NEG ≤ Op.OR ∧ Op.OR < Op.NONNUM ∧
    WellFormed (exprAfterUnaryAdd Op.OR (TermData.FLOAT ⟨2⟩)) ∧
    Evaluate sampleEnv exactArith (exprAfterUnaryAdd Op.OR (TermData.FLOAT ⟨2⟩)) none false false
      = Except.error (Abort.assertion "single-term subexpression is non-unary") ∧
    Evaluate sampleEnv exactArith (exprAfterUnaryAdd Op.OR (TermData.FLOAT ⟨2⟩)) none false false
      ≠ Except.ok none ∧
    WellFormed (exprSubstFirst Op.OR (TermData.FLOAT ⟨2⟩)) ∧
    Evaluate sampleEnv exactArith (exprSubstFirst Op.OR (TermData.FLOAT ⟨2⟩)) (some symSubst)
      false false = Except.error (Abort.assertion "substitution must be integer or float") ∧
    Evaluate sampleEnv exactArith (exprSubstFirst Op.OR (TermData.FLOAT ⟨2⟩)) (some symSubst)
      false false ≠ Except.ok none :=
  ⟨by decide, by decide, wellFormed_exprAfterUnaryAdd _ _ rfl rfl, by decide, by decide,
    wellFormed_exprSubstFirst _ _ rfl rfl, by decide, by decide⟩

/-- C35, amended: on a well-formed expression with an operator term from
`Op::NEG` to below `Op::NONNUM` that has two children, one of the two
operands a float whenever the loop comes to the operator, or that is a unary
operator other than `NEG` with one child, the operand a float whenever the
loop comes to the operator, `Evaluate` never returns true, and it returns
false unless the evaluation of the terms before that operator ends abnormally
(the arithmetic raises an error, the assertion on a one-child operator that
is not unary or on a substitution that is neither integer nor float fails, or
an operator has no child): it returns false whenever the loop comes to the
operator or returns false before, and whenever none of these abnormal ends is
possible.  The round of a unary `NEG` on a float succeeds and leaves the
float with its sign flipped, at the depth of the operator, and `Evaluate` on
the negation of a float term returns true with that. -/
theorem C35_Evaluate_float_operand (env : Env) (ar : Arith) (subst : Option (List ExprTerm))
    (valueloc zeroreg : Bool) (e pre post : ExprTerms) (t : ExprTerm) (op : Op) (n : Nat)
    (hwf : WellFormed e) (he : e = pre ++ t :: post) (ht : t.data = TermData.OP op n)
    (hlo : Op.NEG ≤ op) (hhi : op < Op.NONNUM)
    (hcase :
      (n = 2 ∧ ∀ st, evalLoop env ar subst valueloc zeroreg pre [] = Except.ok (some st) →
        ∃ x ∈ st.drop (st.length - 2), ∃ f, x.data = TermData.FLOAT f) ∨
      (n = 1 ∧ isUnary op = true ∧ op ≠ Op.NEG ∧
        ∀ st, evalLoop env ar subst valueloc zeroreg pre [] = Except.ok (some st) →
          ∃ x f, st.getLast? = some x ∧ x.data = TermData.FLOAT f)) :
    FalseAt env ar subst valueloc zeroreg e pre t ∧
    (∀ (s0 : List ExprTerm) (x : ExprTerm) (f : APFloat) (d : Int),
      x.data = TermData.FLOAT f →
      evalTerm env ar subst valueloc zeroreg (s0 ++ [x]) ⟨TermData.OP Op.NEG 1, d⟩
        = Except.ok (some (s0 ++ [⟨TermData.FLOAT (ar.changeSign f), d⟩]))) ∧
    ∀ (f : APFloat) (d : Int),
      Evaluate env ar [⟨TermData.FLOAT f, d + 1⟩, ⟨TermData.OP Op.NEG 1, d⟩] subst valueloc
        zeroreg = Except.ok (some ⟨TermData.FLOAT (ar.changeSign f), d⟩) := by
  have hneg : ∀ (s0 : List ExprTerm) (x : ExprTerm) (f : APFloat) (d : Int),
      x.data = TermData.FLOAT f →
      evalTerm env ar subst valueloc zeroreg (s0 ++ [x]) ⟨TermData.OP Op.NEG 1, d⟩
        = Except.ok (some (s0 ++ [⟨TermData.FLOAT (ar.changeSign f), d⟩])) := by
    intro s0 x f d hx
    rw [evalTerm_unary_float env ar subst valueloc zeroreg s0 x _ Op.NEG f rfl rfl hx,
      if_pos rfl]
  refine ⟨?_, hneg, fun f d => ?_⟩
  · subst he
    refine FalseAt.of_reached env ar subst valueloc zeroreg pre post t hwf
      (not_numeric_of_OP ht) (fun st hst => ?_)
    have hnum := evalLoop_numeric_stack env ar subst valueloc zeroreg pre [] st
      (fun y hy => by simp at hy) hst
    rcases hcase with ⟨hn, hfl⟩ | ⟨hn, hu, hne, hfl⟩
    · subst hn
      exact evalTerm_binary_float env ar subst valueloc zeroreg st t op ht hlo hhi hnum
        (hfl st hst)
    · subst hn
      obtain ⟨x, f, hlast, hx⟩ := hfl st hst
      obtain ⟨s0, hs0⟩ : ∃ s0, st = s0 ++ [x] := by
        rcases List.eq_nil_or_concat st with h | ⟨s0, y, h⟩
        · rw [h] at hlast; simp at hlast
        · rw [h] at hlast
          simp at hlast
          exact ⟨s0, by rw [h, hlast]; simp⟩
      left
      rw [hs0, evalTerm_unary_float env ar subst valueloc zeroreg s0 x t op f ht hu hx,
        if_neg hne]
  · have h := hneg [] ⟨TermData.FLOAT f, d + 1⟩ f d rfl
    simp only [List.nil_append] at h
    have h1 : evalTerm env ar subst valueloc zeroreg [] ⟨TermData.FLOAT f, d + 1⟩
        = Except.ok (some [⟨TermData.FLOAT f, d + 1⟩]) := by simp [evalTerm]
    have hloop : evalLoop env ar subst valueloc zeroreg
        [⟨TermData.FLOAT f, d + 1⟩, ⟨TermData.OP Op.NEG 1, d⟩] []
        = Except.ok (some [⟨TermData.FLOAT (ar.changeSign f), d⟩]) := by
      rw [evalLoop, h1]
      simp only []
      rw [evalLoop, h]
      rfl
    exact (Evaluate_of_loop env ar subst valueloc zeroreg _
      (by rintro ⟨u, hu, _⟩; cases hu) (by simp)).2.2.1 _ hloop

/-- Witness of C35: `1 | 2.0`, with the operator `Op::OR`: `Evaluate` returns
false. -/
theorem C35_Evaluate_float_operand_witness :
    WellFormed (exprBinary Op.OR (TermData.FLOAT ⟨2⟩)) ∧
    Evaluate sampleEnv exactArith (exprBinary Op.OR (TermData.FLOAT ⟨2⟩)) none false false
      = Except.ok none ∧
    (FalseAt sampleEnv exactArith none false false (exprBinary Op.OR (TermData.FLOAT ⟨2⟩))
      [⟨TermData.INT 1, 1⟩, ⟨TermData.FLOAT ⟨2⟩, 1⟩] ⟨TermData.OP Op.OR 2, 0⟩ ∧
    (∀ (s0 : List ExprTerm) (x : ExprTerm) (f : APFloat) (d : Int),
      x.data = TermData.FLOAT f →
      evalTerm sampleEnv exactArith none false false (s0 ++ [x]) ⟨TermData.OP Op.NEG 1, d⟩
        = Except.ok (some (s0 ++ [⟨TermData.FLOAT (exactArith.changeSign f), d⟩]))) ∧
    ∀ (f : APFloat) (d : Int),
      Evaluate sampleEnv exactArith [⟨TermData.FLOAT f, d + 1⟩, ⟨TermData.OP Op.NEG 1, d⟩] none
        false false = Except.ok (some ⟨TermData.FLOAT (exactArith.changeSign f), d⟩)) :=
  ⟨wellFormed_exprBinary _ _ rfl rfl, by decide,
    C35_Evaluate_float_operand sampleEnv exactArith none false false _
      [⟨TermData.INT 1, 1⟩, ⟨TermData.FLOAT ⟨2⟩, 1⟩] [] ⟨TermData.OP Op.OR 2, 0⟩ Op.OR 2
      (wellFormed_exprBinary _ _ rfl rfl) rfl rfl (by decide) (by decide)
      (Or.inl ⟨rfl, fun st h => by
        have h2 : evalLoop sampleEnv exactArith none false false
            [⟨TermData.INT 1, 1⟩, ⟨TermData.FLOAT ⟨2⟩, 1⟩] []
            = Except.ok (some [⟨TermData.INT 1, 1⟩, ⟨TermData.FLOAT ⟨2⟩, 1⟩]) := by decide
        rw [h2] at h
        cases h
        exact ⟨⟨TermData.FLOAT ⟨2⟩, 1⟩, by decide, ⟨2⟩, rfl⟩⟩)⟩

/-- C36: for every prefix list, if `*rex` is 0xff on entry to
`X86Common::apply_prefixes_common` (REX not allowed on this instruction), the
call ends normally, `*rex` is still 0xff on exit, and `m_mode_bits` is what
it was on entry: no REX prefix in the list changes it. -/
theorem C36_apply_prefixes_rex_not_allowed (c : X86Common) (def_opersize_64 : Nat)
    (prefixes : List X86Prefix) (warns : List (WarnClass × String)) :
    ∃ s, c.apply_prefixes_common (some 0xff) def_opersize_64 prefixes warns = Except.ok s ∧
      s.rex = some 0xff ∧ s.common.m_mode_bits = c.m_mode_bits :=
  applyPrefixes_rex_ff def_opersize_64 prefixes ⟨c, some 0xff, true, warns⟩ rfl

end Yasm
